import Mathlib

/-! # Block-state engine of the stochastic block model (graph_blockmodel.hh)

A shallow embedding of `BlockState` (src/graph/inference/graph_blockmodel.hh).

Conventions of the embedding.
* Vertices, blocks, edge identities and block-graph edge handles are natural
  numbers.  Property maps (`vmap_t`, `emap_t`) are total functions into `Int`;
  the 32-bit range of the stored integers and the bounds of the underlying
  vectors are outside the model.
* A block-graph edge handle that may be the null handle `bedge_t()` is an
  `Option Nat`; dereferencing the null handle is undefined behaviour and is
  reported as `Err.undefined`.
* A failed `assert` is reported as `Err.assertion`, a thrown `ValueException`
  as `Err.invalid_operation`, a thrown `GraphException` as `Err.unsupported`.
  Every failure carries the state at the moment it is raised.
* `double` results are elements of an arbitrary additive commutative group `R`
  (exact arithmetic); the closed-form entropy terms, which live in
  graph_blockmodel_util.hh, are parameters.
-/

namespace GraphTool

/-! # The embedding: data model, operations, and the predicates of the claims -/

/-! ## The graph collaborator -/

/-- Edge descriptor: `idx` is the stable identity of the edge, `src` and `tgt`
are what `source(e, g)` and `target(e, g)` return for this descriptor. -/
structure Edge where
  src : Nat
  tgt : Nat
  idx : Nat
deriving DecidableEq

/-- Multigraph with `nv` vertices `0 .. nv-1` and the listed edges. The flag
`directed` stands for `is_directed::apply<g_t>`. -/
structure Graph where
  directed : Bool
  nv : Nat
  edges : List Edge

/-- Modelled from the spec: the graph source and its iteration primitives are
an external collaborator (graph_util.hh / graph_adaptor.hh are not part of the
sources).  `out_edges_range(v, g)` lists the descriptors of the edges leaving
`v`, each with `source = v`.  On an undirected graph every incident edge is
listed, seen from `v`, and a self-loop is listed twice (which is why the
engine halves the accumulated self-loop weight). -/
def out_edges_range (g : Graph) (v : Nat) : List Edge :=
  if g.directed then g.edges.filter (fun e => e.src = v)
  else g.edges.filter (fun e => e.src = v) ++
    (g.edges.filter (fun e => e.tgt = v)).map (fun e => ⟨e.tgt, e.src, e.idx⟩)

/-- Modelled from the spec: `in_edges_range(v, g)` lists the edges entering `v`
on a directed graph and is empty on an undirected graph (where all incident
edges are out-edges). -/
def in_edges_range (g : Graph) (v : Nat) : List Edge :=
  if g.directed then g.edges.filter (fun e => e.tgt = v) else []

/-- Modelled from the spec: `out_degreeS()(v, g, eweight)`, the weighted
out-degree, i.e. the sum of the weights over `out_edges_range(v, g)`. -/
def out_degreeS (g : Graph) (eweight : Nat → Int) (v : Nat) : Int :=
  ((out_edges_range g v).map (fun e => eweight e.idx)).sum

/-- Modelled from the spec: `in_degreeS()(v, g, eweight)`, the weighted
in-degree, i.e. the sum of the weights over `in_edges_range(v, g)`. -/
def in_degreeS (g : Graph) (eweight : Nat → Int) (v : Nat) : Int :=
  ((in_edges_range g v).map (fun e => eweight e.idx)).sum

/-! ## The block graph and the block-pair index -/

/-- The block graph `_bg`: `nv` blocks and one edge per aggregate edge record. -/
structure BGraph where
  nv : Nat
  edges : List Edge

/-- Modelled from the spec: `add_edge(r, s, bg)` of the block graph creates an
aggregate edge record and returns its handle, which is distinct from the handle
of every live record.  The model hands out one more than the largest live
handle. -/
def BGraph.fresh (bg : BGraph) : Nat :=
  (bg.edges.map (fun e => e.idx)).foldr (fun i m => max (i + 1) m) 0

/-- The block graph after `add_edge(r, s, bg)`. -/
def BGraph.add_edge (bg : BGraph) (r s : Nat) : BGraph :=
  { bg with edges := bg.edges ++ [⟨r, s, bg.fresh⟩] }

/-- The block graph after `remove_edge(me, bg)`. -/
def BGraph.remove_edge (bg : BGraph) (me : Nat) : BGraph :=
  { bg with edges := bg.edges.filter (fun e => e.idx ≠ me) }

/-- Modelled from the spec: the Block-Pair Index (EMat / EHash of
graph_blockmodel_util.hh) "maps an ordered (or canonical unordered, if
undirected) block pair to the identifier of its aggregate edge record".  This is
the canonical form of the pair. -/
def bkey (directed : Bool) (r s : Nat) : Nat × Nat :=
  if directed then (r, s) else (min r s, max r s)

/-! ## Partition statistics and edge groups (collaborators of the engine) -/

/-- Modelled from the spec: one Partition Statistics segment
(`partition_stats_t` of graph_blockmodel_util.hh).  It is built from the
vertices of one constraint label, the total edge weight `E` and the number of
non-empty blocks `B`, and "caches the per-block vertex count within its label
class" (`total`). -/
structure PartitionStats where
  vlist : List Nat
  E : Int
  B : Nat
  total : Nat → Int

/-- Modelled from the spec: the edge-group sampler `EGroups` keeps, for every
block, the edges incident on the block. -/
structure EGroups where
  groups : Nat → List Edge

/-- Modelled from the spec: the entry set (`EntrySet` of
graph_blockmodel_util.hh), "the set of block pairs whose aggregate weight is
affected by moving a given vertex", each pair (in canonical form) with the
change of its aggregate weight. -/
structure EntrySet where
  entries : List ((Nat × Nat) × Int)

/-- Modelled from the spec: `m_entries.clear()`. -/
def EntrySet.clear : EntrySet := ⟨[]⟩

/-- Modelled from the spec: `m_entries.insert_delta(r, s, d)`: the change `d`
is added to the entry of the pair, which is created when absent. -/
def EntrySet.insert_delta (directed : Bool) (m : EntrySet) (r s : Nat) (d : Int) : EntrySet :=
  if m.entries.any (fun p => decide (p.1 = bkey directed r s)) then
    ⟨m.entries.map (fun p => if p.1 = bkey directed r s then (p.1, p.2 + d) else p)⟩
  else ⟨m.entries ++ [(bkey directed r s, d)]⟩

/-- Modelled from the spec: `m_entries.get_delta(r, s)`, the recorded change of
the pair, 0 when the pair is not in the entry set. -/
def EntrySet.get_delta (directed : Bool) (m : EntrySet) (r s : Nat) : Int :=
  match m.entries.find? (fun p => decide (p.1 = bkey directed r s)) with
  | some p => p.2
  | none => 0

/-- The closed-form terms of graph_blockmodel_util.hh that the engine calls and
that are not part of the sources, as parameters; `R` stands for `double`.
`eterm r s mrs` and `vterm mrp mrm wr deg_corr` are the sparse edge and vertex
terms, `eterm_dense r s ers wr_r wr_s multigraph` the dense edge term, and the
last three fields the description-length deltas of a partition-statistics
segment. -/
structure Terms (R : Type) where
  eterm : Nat → Nat → Int → R
  vterm : Int → Int → Int → Bool → R
  eterm_dense : Nat → Nat → Int → Int → Int → Bool → R
  lgamma_fast : Int → R
  get_delta_dl : PartitionStats → Nat → Nat → Nat → (Nat → Int) → R
  get_delta_deg_dl : PartitionStats → Nat → Nat → Nat → (Nat → Int) → (Nat → Int) → Graph → R
  get_delta_edges_dl : PartitionStats → Nat → Nat → Nat → (Nat → Int) → Graph → R

/-- Failure conditions of the engine. -/
inductive Err where
  | invalid_operation
  | unsupported
  | assertion
  | undefined
deriving DecidableEq

/-! ## The block state -/

/-- The members of `BlockState` (the parameters of `BLOCK_STATE_params` and the
private members).  `mrm_is_mrp` records whether the caller passed the same
property map as `mrp` and `mrm` (a `vmap_t` is a shared handle to its storage);
the spec states that `mrm` "equals `mrp[r]` when undirected".  The last two
members record the kind of the weight maps: `is_constant_property<vweight_t>`
and `is_constant_property<eweight_t>` hold for the uniform-unit maps of an
unweighted model. -/
structure BlockState where
  g : Graph
  eweight : Nat → Int
  vweight : Nat → Int
  mrs : Nat → Int
  mrp : Nat → Int
  mrm : Nat → Int
  mrm_is_mrp : Bool
  wr : Nat → Int
  b : Nat → Nat
  bclabel : Nat → Int
  pclabel : Nat → Nat
  merge_map : Nat → Int
  deg_corr : Bool
  ignore_degrees : Nat → Nat
  bg : BGraph
  emat : Nat × Nat → Option Nat
  bedge : Nat → Option Nat
  egroups : Option EGroups
  partition_stats : List PartitionStats
  degs : Option (Nat → List (Nat × Nat × Nat))
  m_entries : EntrySet
  vweight_is_constant : Bool := false
  eweight_is_constant : Bool := false

/-- Result of an operation that may fail: the failure and the state in which it
was raised, or the value. -/
abbrev Res (α : Type) := Except (Err × BlockState) α

namespace BlockState

/-- Read `_mrm[s]`. -/
def get_mrm (st : BlockState) (s : Nat) : Int :=
  if st.mrm_is_mrp then st.mrp s else st.mrm s

/-- The statement `_mrp[r] += d`. -/
def add_mrp (st : BlockState) (r : Nat) (d : Int) : BlockState :=
  { st with mrp := Function.update st.mrp r (st.mrp r + d) }

/-- The statement `_mrm[s] += d` (it writes the storage of `mrp` when the two
maps are the same map). -/
def add_mrm (st : BlockState) (s : Nat) (d : Int) : BlockState :=
  if st.mrm_is_mrp then { st with mrp := Function.update st.mrp s (st.mrp s + d) }
  else { st with mrm := Function.update st.mrm s (st.mrm s + d) }

/-- The statement `_mrs[me] += d`. -/
def add_mrs (st : BlockState) (me : Nat) (d : Int) : BlockState :=
  { st with mrs := Function.update st.mrs me (st.mrs me + d) }

/-- Modelled from the spec: `_emat.get_me(r, s)`, "exact lookup (returns
absent if zero)". -/
def get_me (st : BlockState) (r s : Nat) : Option Nat :=
  st.emat (bkey st.g.directed r s)

/-- Modelled from the spec: `_emat.put_me(r, s, me)`, the insertion of a handle
for the block pair. -/
def put_me (st : BlockState) (r s me : Nat) : BlockState :=
  { st with emat := Function.update st.emat (bkey st.g.directed r s) (some me) }

/-- Modelled from the spec: `_emat.remove_me(r, s, me, _bg)`, "deletes the
aggregate edge record entirely": the entry of the pair is cleared and the edge
`me` is removed from the block graph. -/
def remove_me (st : BlockState) (r s me : Nat) : BlockState :=
  { st with emat := Function.update st.emat (bkey st.g.directed r s) none,
            bg := st.bg.remove_edge me }

/-- Modelled from the spec: `get_mrs(r, s, _mrs, _emat)` of
graph_blockmodel_util.hh, the aggregate weight of a block pair, 0 when the pair
is absent from the index. -/
def get_mrs (st : BlockState) (r s : Nat) : Int :=
  match st.get_me r s with
  | some me => st.mrs me
  | none => 0

/-- The statements `me = add_edge(r, s, _bg).first; _emat.put_me(r, s, me);
_c_mrs[me] = 0;` executed when `get_me(r, s)` is the null handle. -/
def create_me (st : BlockState) (r s : Nat) : BlockState × Nat :=
  let me := st.bg.fresh
  let st1 := { st with bg := st.bg.add_edge r s }
  let st2 := st1.put_me r s me
  ({ st2 with mrs := Function.update st2.mrs me 0 }, me)

/-- The statements `auto me = _emat.get_me(r, s); if (me == bedge_t()) {...}`
of `add_vertex`: the handle of the pair, created with weight 0 if absent. -/
def get_or_create_me (st : BlockState) (r s : Nat) : BlockState × Nat :=
  match st.get_me r s with
  | some me => (st, me)
  | none => st.create_me r s

/-- `is_partition_stats_enabled()`. -/
def is_partition_stats_enabled (st : BlockState) : Bool :=
  !st.partition_stats.isEmpty

/-- Modelled from the spec: `_egroups.remove_vertex(v, r, _g)` drops the edges
incident to `v` from the group of block `r`. -/
def egroups_remove_vertex (eg : EGroups) (v r : Nat) : EGroups :=
  { groups := Function.update eg.groups r
      ((eg.groups r).filter (fun e => e.src ≠ v ∧ e.tgt ≠ v)) }

/-- Modelled from the spec: `_egroups.add_vertex(v, r, _eweight, _g)` inserts
the edges incident to `v` into the group of block `r`. -/
def egroups_add_vertex (eg : EGroups) (g : Graph) (v r : Nat) : EGroups :=
  { groups := Function.update eg.groups r
      (eg.groups r ++ g.edges.filter (fun e => e.src = v ∨ e.tgt = v)) }

/-- Modelled from the spec: `get_partition_stats(v).remove_vertex(v, r, ...)`
lowers the cached vertex count of block `r` in the segment of `v`. -/
def stats_remove_vertex (st : BlockState) (v r : Nat) : List PartitionStats :=
  st.partition_stats.modify
    (fun ps => { ps with total := Function.update ps.total r (ps.total r - st.vweight v) })
    (st.pclabel v)

/-- Modelled from the spec: `get_partition_stats(v).add_vertex(v, r, ...)`
raises the cached vertex count of block `r` in the segment of `v`. -/
def stats_add_vertex (st : BlockState) (v r : Nat) : List PartitionStats :=
  st.partition_stats.modify
    (fun ps => { ps with total := Function.update ps.total r (ps.total r + st.vweight v) })
    (st.pclabel v)

/-! ## remove_vertex -/

/-- First loop of `remove_vertex`: `for (auto e : out_edges_range(v, _g))`.
The second component is the local variable `self_weight`. -/
def remove_out_loop (v r : Nat) (efilt : Edge → Bool) :
    List Edge → BlockState → Int → Res (BlockState × Int)
  | [], st, self_weight => .ok (st, self_weight)
  | e :: es, st, self_weight =>
    if efilt e then remove_out_loop v r efilt es st self_weight
    else
      let u := e.tgt
      let s := st.b u
      let ew := st.eweight e.idx
      if u = v ∧ st.g.directed = false then
        remove_out_loop v r efilt es st (self_weight + ew)
      else
        match st.bedge e.idx with
        | none => .error (Err.undefined, st)
        | some me =>
          let st1 := st.add_mrs me (-ew)
          if st1.mrs me < 0 then .error (Err.assertion, st1)
          else
            let st2 := st1.add_mrp r (-ew)
            let st3 := st2.add_mrm s (-ew)
            let st4 := if st3.mrs me = 0 then st3.remove_me r s me else st3
            remove_out_loop v r efilt es st4 self_weight

/-- The block `if (self_weight > 0) {...}` of `remove_vertex`. -/
def remove_self (r : Nat) (st : BlockState) (self_weight : Int) : Res BlockState :=
  if self_weight > 0 then
    if self_weight % 2 ≠ 0 then .error (Err.assertion, st)
    else
      match st.get_me r r with
      | none => .error (Err.undefined, st)
      | some me =>
        let st1 := st.add_mrs me (-(self_weight / 2))
        let st2 := st1.add_mrp r (-(self_weight / 2))
        let st3 := st2.add_mrm r (-(self_weight / 2))
        if st3.mrs me < 0 then .error (Err.assertion, st3)
        else .ok (if st3.mrs me = 0 then st3.remove_me r r me else st3)
  else .ok st

/-- Second loop of `remove_vertex`: `for (auto e : in_edges_range(v, _g))`. -/
def remove_in_loop (v r : Nat) (efilt : Edge → Bool) :
    List Edge → BlockState → Res BlockState
  | [], st => .ok st
  | e :: es, st =>
    if efilt e then remove_in_loop v r efilt es st
    else
      let u := e.src
      if u = v then remove_in_loop v r efilt es st
      else
        let s := st.b u
        match st.bedge e.idx with
        | none => .error (Err.undefined, st)
        | some me =>
          let ew := st.eweight e.idx
          let st1 := st.add_mrs me (-ew)
          let st2 := st1.add_mrp s (-ew)
          let st3 := st2.add_mrm r (-ew)
          let st4 := if st3.mrs me = 0 then st3.remove_me s r me else st3
          remove_in_loop v r efilt es st4

/-- The tail of `remove_vertex`: `_wr[r] -= _vweight[v]`, then the edge groups
and the partition statistics. -/
def remove_tail (st : BlockState) (v r : Nat) : BlockState :=
  let st1 := { st with wr := Function.update st.wr r (st.wr r - st.vweight v) }
  let st2 := { st1 with egroups := st1.egroups.map (fun eg => egroups_remove_vertex eg v r) }
  if st2.is_partition_stats_enabled then
    { st2 with partition_stats := st2.stats_remove_vertex v r }
  else st2

/-- `remove_vertex(v, efilt)`: remove a vertex from its current block. -/
def remove_vertex_filt (st : BlockState) (v : Nat) (efilt : Edge → Bool) : Res BlockState :=
  let r := st.b v
  match remove_out_loop v r efilt (out_edges_range st.g v) st 0 with
  | .error x => .error x
  | .ok (st1, self_weight) =>
    match remove_self r st1 self_weight with
    | .error x => .error x
    | .ok st2 =>
      match remove_in_loop v r efilt (in_edges_range st2.g v) st2 with
      | .error x => .error x
      | .ok st3 => .ok (remove_tail st3 v r)

/-- `remove_vertex(v)`, with the filter that excludes no edge. -/
def remove_vertex (st : BlockState) (v : Nat) : Res BlockState :=
  st.remove_vertex_filt v (fun _ => false)

/-! ## add_vertex -/

/-- First loop of `add_vertex`: `for (auto e : out_edges_range(v, _g))`.  The
asserts `get_bedge(e) != bedge_t()` and `me == get_me(r, s)` follow the
assignments that establish them. -/
def add_out_loop (v r : Nat) (efilt : Edge → Bool) :
    List Edge → BlockState → Int → Res (BlockState × Int)
  | [], st, self_weight => .ok (st, self_weight)
  | e :: es, st, self_weight =>
    if efilt e then add_out_loop v r efilt es st self_weight
    else
      let u := e.tgt
      let s := if u ≠ v then st.b u else r
      let st1 := (st.get_or_create_me r s).1
      let me := (st.get_or_create_me r s).2
      let st2 := { st1 with bedge := Function.update st1.bedge e.idx (some me) }
      if st2.bedge e.idx = none then .error (Err.assertion, st2)
      else if st2.get_me r s ≠ some me then .error (Err.assertion, st2)
      else
        let ew := st2.eweight e.idx
        if u = v ∧ st2.g.directed = false then
          add_out_loop v r efilt es st2 (self_weight + ew)
        else
          let st3 := st2.add_mrs me ew
          let st4 := st3.add_mrp r ew
          let st5 := st4.add_mrm s ew
          add_out_loop v r efilt es st5 self_weight

/-- The block `if (self_weight > 0) {...}` of `add_vertex`. -/
def add_self (r : Nat) (st : BlockState) (self_weight : Int) : Res BlockState :=
  if self_weight > 0 then
    if self_weight % 2 ≠ 0 then .error (Err.assertion, st)
    else
      match st.get_me r r with
      | none => .error (Err.undefined, st)
      | some me =>
        let st1 := st.add_mrs me (self_weight / 2)
        let st2 := st1.add_mrp r (self_weight / 2)
        let st3 := st2.add_mrm r (self_weight / 2)
        if st3.mrs me < 0 then .error (Err.assertion, st3) else .ok st3
  else .ok st

/-- Second loop of `add_vertex`: `for (auto e : in_edges_range(v, _g))`. -/
def add_in_loop (v r : Nat) (efilt : Edge → Bool) :
    List Edge → BlockState → Res BlockState
  | [], st => .ok st
  | e :: es, st =>
    if efilt e then add_in_loop v r efilt es st
    else
      let u := e.src
      if u = v then add_in_loop v r efilt es st
      else
        let s := st.b u
        let st1 := (st.get_or_create_me s r).1
        let me := (st.get_or_create_me s r).2
        let st2 := { st1 with bedge := Function.update st1.bedge e.idx (some me) }
        if st2.bedge e.idx = none then .error (Err.assertion, st2)
        else if st2.get_me s r ≠ some me then .error (Err.assertion, st2)
        else
          let ew := st2.eweight e.idx
          let st3 := st2.add_mrs me ew
          let st4 := st3.add_mrp s ew
          let st5 := st4.add_mrm r ew
          add_in_loop v r efilt es st5

/-- The tail of `add_vertex`: `_wr[r] += _vweight[v]; _b[v] = r;`, then the
edge groups and the partition statistics. -/
def add_tail (st : BlockState) (v r : Nat) : BlockState :=
  let st1 := { st with wr := Function.update st.wr r (st.wr r + st.vweight v),
                       b := Function.update st.b v r }
  let st2 := { st1 with egroups := st1.egroups.map (fun eg => egroups_add_vertex eg st1.g v r) }
  if st2.is_partition_stats_enabled then
    { st2 with partition_stats := st2.stats_add_vertex v r }
  else st2

/-- `add_vertex(v, r, bedge, efilt)` with `bedge` the per-edge cache of the
index: add a vertex to block `r`. -/
def add_vertex_filt (st : BlockState) (v r : Nat) (efilt : Edge → Bool) : Res BlockState :=
  match add_out_loop v r efilt (out_edges_range st.g v) st 0 with
  | .error x => .error x
  | .ok (st1, self_weight) =>
    match add_self r st1 self_weight with
    | .error x => .error x
    | .ok st2 =>
      match add_in_loop v r efilt (in_edges_range st2.g v) st2 with
      | .error x => .error x
      | .ok st3 => .ok (add_tail st3 v r)

/-- `add_vertex(v, r)`, with the filter that excludes no edge. -/
def add_vertex (st : BlockState) (v r : Nat) : Res BlockState :=
  st.add_vertex_filt v r (fun _ => false)

/-! ## move_vertex -/

/-- `move_vertex(v, nr)`: move a vertex from its current block to block `nr`. -/
def move_vertex (st : BlockState) (v nr : Nat) : Res BlockState :=
  let r := st.b v
  if r = nr then .ok st
  else if st.bclabel r ≠ st.bclabel nr then .error (Err.invalid_operation, st)
  else
    match st.remove_vertex v with
    | .error x => .error x
    | .ok st1 => st1.add_vertex v nr

/-! ## The virtual-move evaluator -/

/-- Modelled from the spec: `move_entries(v, nr, ...)` of
graph_blockmodel_util.hh computes "the Δ over block pairs actually touched by
v's incident edges": every incident edge takes its weight from the pair it is
mapped to under the current partition and gives it to the pair it is mapped to
once `v` is in `nr`, with the same treatment of self-loops as `remove_vertex`
and `add_vertex`.  This is the loop over `out_edges_range(v, g)`; the second
component is the accumulated weight of the undirected self-loop descriptors. -/
def move_entries_out (st : BlockState) (v r nr : Nat) :
    List Edge → EntrySet → Int → EntrySet × Int
  | [], m, self_weight => (m, self_weight)
  | e :: es, m, self_weight =>
    let u := e.tgt
    let ew := st.eweight e.idx
    if u = v ∧ st.g.directed = false then
      move_entries_out st v r nr es m (self_weight + ew)
    else
      let m1 := m.insert_delta st.g.directed r (st.b u) (-ew)
      let m2 := m1.insert_delta st.g.directed nr (if u = v then nr else st.b u) ew
      move_entries_out st v r nr es m2 self_weight

/-- Modelled from the spec: the loop of `move_entries` over
`in_edges_range(v, g)`. -/
def move_entries_in (st : BlockState) (v r nr : Nat) : List Edge → EntrySet → EntrySet
  | [], m => m
  | e :: es, m =>
    let u := e.src
    if u = v then move_entries_in st v r nr es m
    else
      let ew := st.eweight e.idx
      let m1 := m.insert_delta st.g.directed (st.b u) r (-ew)
      let m2 := m1.insert_delta st.g.directed (st.b u) nr ew
      move_entries_in st v r nr es m2

/-- Modelled from the spec: `move_entries(v, nr, _b, _eweight, _mrs,
_emat.get_bedge_map(), _g, _bg, m_entries)`. -/
def move_entries (st : BlockState) (v nr : Nat) (m : EntrySet) : EntrySet :=
  let r := st.b v
  let p := move_entries_out st v r nr (out_edges_range st.g v) m 0
  let m1 :=
    if p.2 > 0 then
      (p.1.insert_delta st.g.directed r r (-(p.2 / 2))).insert_delta st.g.directed nr nr
        (p.2 / 2)
    else p.1
  move_entries_in st v r nr (in_edges_range st.g v) m1

/-- Modelled from the spec: `entries_dS(m_entries, _mrs, _emat, _bg)`, the
change of the sparse edge terms over the entry set: for every entry, the term
at the new aggregate weight minus the term at the current one. -/
def entries_dS {R : Type} [AddCommGroup R] (T : Terms R) (st : BlockState) (m : EntrySet) : R :=
  (m.entries.map (fun p =>
    T.eterm p.1.1 p.1.2 (st.get_mrs p.1.1 p.1.2 + p.2) -
      T.eterm p.1.1 p.1.2 (st.get_mrs p.1.1 p.1.2))).sum

/-- `virtual_move_sparse(v, nr, m_entries)` on the member `_m_entries`: the
entropy difference of a virtual move of `v` from its block to `nr`. -/
def virtual_move_sparse {R : Type} [AddCommGroup R] (T : Terms R) (st : BlockState)
    (v nr : Nat) : R × BlockState :=
  let r := st.b v
  if r = nr then (0, st)
  else
    let st1 := { st with m_entries := move_entries st v nr EntrySet.clear }
    let kout := out_degreeS st1.g st1.eweight v
    let kin := if st1.g.directed then in_degreeS st1.g st1.eweight v else kout
    let dS := entries_dS T st1 st1.m_entries
    let dwr := st1.vweight v
    let dwnr := dwr
    let dS := dS + T.vterm (st1.mrp r - kout) (st1.get_mrm r - kin) (st1.wr r - dwr) st1.deg_corr
    let dS := dS + T.vterm (st1.mrp nr + kout) (st1.get_mrm nr + kin) (st1.wr nr + dwnr)
      st1.deg_corr
    let dS := dS - T.vterm (st1.mrp r) (st1.get_mrm r) (st1.wr r) st1.deg_corr
    let dS := dS - T.vterm (st1.mrp nr) (st1.get_mrm nr) (st1.wr nr) st1.deg_corr
    (dS, st1)

/-- The vector `deltap` of `virtual_move_dense`, after the loop over the
out-edges of `v`: per block, the weight of the edges from `v` to another vertex
of the block. -/
def dense_deltap (st : BlockState) (v : Nat) : List Edge → (Nat → Int) → (Nat → Int)
  | [], deltap => deltap
  | e :: es, deltap =>
    let u := e.tgt
    let s := st.b u
    if u = v then dense_deltap st v es deltap
    else dense_deltap st v es (Function.update deltap s (deltap s + st.eweight e.idx))

/-- The variable `deltal` of `virtual_move_dense` after the loop over the
out-edges of `v`: the weight of the self-loop descriptors. -/
def dense_deltal (st : BlockState) (v : Nat) : List Edge → Int → Int
  | [], deltal => deltal
  | e :: es, deltal =>
    if e.tgt = v then dense_deltal st v es (deltal + st.eweight e.idx)
    else dense_deltal st v es deltal

/-- The vector `deltam` of `virtual_move_dense`: per block, the weight of the
edges entering `v` from another vertex of the block. -/
def dense_deltam (st : BlockState) (v : Nat) : List Edge → (Nat → Int) → (Nat → Int)
  | [], deltam => deltam
  | e :: es, deltam =>
    let u := e.src
    if u = v then dense_deltam st v es deltam
    else
      let s := st.b u
      dense_deltam st v es (Function.update deltam s (deltam s + st.eweight e.idx))

/-- One iteration of the loop `for (vertex_t s = 0; s < num_vertices(_bg); ++s)`
of `virtual_move_dense`, on the pair of accumulators `(Si, Sf)`. -/
def dense_iter {R : Type} [AddCommGroup R] (T : Terms R) (st : BlockState) (r nr : Nat)
    (multigraph : Bool) (deltap deltam : Nat → Int) (deltal dwr dwnr : Int) (acc : R × R)
    (s : Nat) : R × R :=
  let ers := st.get_mrs r s
  let enrs := st.get_mrs nr s
  let ed := T.eterm_dense
  if st.g.directed = false then
    let acc :=
      if s ≠ nr ∧ s ≠ r then
        (acc.1 + ed r s ers (st.wr r) (st.wr s) multigraph
            + ed nr s enrs (st.wr nr) (st.wr s) multigraph,
         acc.2 + ed r s (ers - deltap s) (st.wr r - dwr) (st.wr s) multigraph
            + ed nr s (enrs + deltap s) (st.wr nr + dwnr) (st.wr s) multigraph)
      else acc
    let acc :=
      if s = r then
        (acc.1 + ed r r ers (st.wr r) (st.wr r) multigraph,
         acc.2 + ed r r (ers - deltap r - deltal) (st.wr r - dwr) (st.wr r - dwr) multigraph)
      else acc
    if s = nr then
      (acc.1 + ed nr nr enrs (st.wr nr) (st.wr nr) multigraph
          + ed r nr ers (st.wr r) (st.wr nr) multigraph,
       acc.2 + ed nr nr (enrs + deltap nr + deltal) (st.wr nr + dwnr) (st.wr nr + dwnr)
            multigraph
          + ed r nr (ers - deltap nr + deltap r) (st.wr r - dwr) (st.wr nr + dwnr) multigraph)
    else acc
  else
    let esr := st.get_mrs s r
    let esnr := st.get_mrs s nr
    let acc :=
      if s ≠ nr ∧ s ≠ r then
        (acc.1 + ed r s ers (st.wr r) (st.wr s) multigraph
            + ed s r esr (st.wr s) (st.wr r) multigraph
            + ed nr s enrs (st.wr nr) (st.wr s) multigraph
            + ed s nr esnr (st.wr s) (st.wr nr) multigraph,
         acc.2 + ed r s (ers - deltap s) (st.wr r - dwr) (st.wr s) multigraph
            + ed s r (esr - deltam s) (st.wr s) (st.wr r - dwr) multigraph
            + ed nr s (enrs + deltap s) (st.wr nr + dwnr) (st.wr s) multigraph
            + ed s nr (esnr + deltam s) (st.wr s) (st.wr nr + dwnr) multigraph)
      else acc
    let acc :=
      if s = r then
        (acc.1 + ed r r ers (st.wr r) (st.wr r) multigraph
            + ed r nr esnr (st.wr r) (st.wr nr) multigraph,
         acc.2 + ed r r (ers - deltap r - deltam r - deltal) (st.wr r - dwr) (st.wr r - dwr)
              multigraph
            + ed r nr (esnr - deltap nr + deltam r) (st.wr r - dwr) (st.wr nr + dwnr)
              multigraph)
      else acc
    if s = nr then
      (acc.1 + ed nr nr esnr (st.wr nr) (st.wr nr) multigraph
          + ed nr r esr (st.wr nr) (st.wr r) multigraph,
       acc.2 + ed nr nr (esnr + deltap nr + deltam nr + deltal) (st.wr nr + dwnr)
            (st.wr nr + dwnr) multigraph
          + ed nr r (esr + deltap r - deltam nr) (st.wr nr + dwnr) (st.wr r - dwr) multigraph)
    else acc

/-- `virtual_move_dense(v, nr, multigraph, m_entries)` on the member
`_m_entries`. -/
def virtual_move_dense {R : Type} [AddCommGroup R] (T : Terms R) (st : BlockState)
    (v nr : Nat) (multigraph : Bool) : Res (R × BlockState) :=
  if st.deg_corr then .error (Err.unsupported, st)
  else
    let r := st.b v
    if r = nr then .ok (0, st)
    else
      let st1 := { st with m_entries := move_entries st v nr EntrySet.clear }
      let deltap := dense_deltap st1 v (out_edges_range st1.g v) (fun _ => 0)
      let deltal0 := dense_deltal st1 v (out_edges_range st1.g v) 0
      let deltal := if st1.g.directed = false then Int.tdiv deltal0 2 else deltal0
      let deltam := dense_deltam st1 v (in_edges_range st1.g v) (fun _ => 0)
      let dS : R := 0
      let dwr := st1.vweight v
      let dwnr := dwr
      let acc := (List.range st1.bg.nv).foldl
        (dense_iter T st1 r nr multigraph deltap deltam deltal dwr dwnr) (0, 0)
      .ok (acc.2 - acc.1 + dS, st1)

/-- `enable_partition_stats()`: builds one segment per constraint label when no
segment exists.  `max_element` over an empty vertex range yields the end
iterator, whose dereference is undefined.  Modelled from the spec: the
constructor of a segment caches the per-block vertex count within its label
class; `get_r` has no effect on the modelled fields. -/
def enable_partition_stats (st : BlockState) : Res BlockState :=
  if st.partition_stats.isEmpty then
    let E := (st.g.edges.map (fun e => st.eweight e.idx)).sum
    let B := ((List.range st.bg.nv).filter (fun r => decide (st.wr r > 0))).length
    if st.g.nv = 0 then .error (Err.undefined, st)
    else
      let C := ((List.range st.g.nv).map st.pclabel).foldl max 0 + 1
      let vcs : Nat → List Nat := fun c => (List.range st.g.nv).filter (fun v => st.pclabel v = c)
      .ok { st with partition_stats := (List.range C).map (fun c =>
        { vlist := vcs c, E := E, B := B,
          total := fun r => ((vcs c).map
            (fun v => if st.b v = r then st.vweight v else 0)).sum }) }
  else .ok st

/-- `disable_partition_stats()`. -/
def disable_partition_stats (st : BlockState) : BlockState :=
  { st with partition_stats := [] }

/-- `virtual_move(v, nr, dense, multigraph, partition_dl, deg_dl, edges_dl)`;
`none` stands for `std::numeric_limits<double>::infinity()`.  The access
`_partition_stats[_pclabel[v]]` past the end is undefined. -/
def virtual_move {R : Type} [AddCommGroup R] (T : Terms R) (st : BlockState) (v nr : Nat)
    (dense multigraph partition_dl deg_dl edges_dl : Bool) : Res (Option R × BlockState) :=
  let r := st.b v
  if st.bclabel r ≠ st.bclabel nr then .ok (none, st)
  else
    match (if dense then virtual_move_dense T st v nr multigraph
           else .ok (virtual_move_sparse T st v nr)) with
    | .error x => .error x
    | .ok (dS, st1) =>
      if partition_dl ∨ deg_dl ∨ edges_dl then
        match st1.enable_partition_stats with
        | .error x => .error x
        | .ok st2 =>
          match st2.partition_stats.get? (st2.pclabel v) with
          | none => .error (Err.undefined, st2)
          | some ps =>
            let dS := if partition_dl then dS + T.get_delta_dl ps v r nr st2.vweight else dS
            let dS :=
              if st2.deg_corr ∧ deg_dl then
                dS + T.get_delta_deg_dl ps v r nr st2.vweight st2.eweight st2.g
              else dS
            let dS :=
              if edges_dl then dS + T.get_delta_edges_dl ps v r nr st2.vweight st2.g else dS
            .ok (some dS, st2)
      else .ok (some dS, st1)

/-! ## Entropy -/

/-- Modelled from the spec: the unweighted degrees `in_degreeS()(v, _g)` and
`out_degreeS()(v, _g)` used by `get_deg_entropy`. -/
def plain_degrees (g : Graph) (v : Nat) : Nat × Nat :=
  ((in_edges_range g v).length, (out_edges_range g v).length)

/-- `get_deg_entropy(v, degs)`, for both kinds of degree cache. -/
def get_deg_entropy {R : Type} [AddCommGroup R] (T : Terms R) (st : BlockState) (v : Nat) : R :=
  if st.ignore_degrees v = 1 then 0
  else
    match st.degs with
    | none =>
      let kin := (plain_degrees st.g v).1
      let kout := if st.ignore_degrees v = 2 then 0 else (plain_degrees st.g v).2
      st.vweight v • (-T.lgamma_fast (kin + 1) - T.lgamma_fast (kout + 1))
    | some degs =>
      ((degs v).map (fun ks =>
        let kin := ks.1
        let kout := if st.ignore_degrees v = 2 then 0 else ks.2.1
        Neg.neg ((ks.2.2 : Int) • (T.lgamma_fast (kin + 1) + T.lgamma_fast (kout + 1))))).sum

/-- The parallel-edge term of one vertex in `sparse_entropy`: the map `us` from
neighbour to total weight, then the sum over its entries. -/
def parallel_term {R : Type} [AddCommGroup R] (T : Terms R) (st : BlockState) (v : Nat) : R :=
  let es := (out_edges_range st.g v).filter
    (fun e => !(decide (e.tgt < v) && !st.g.directed))
  let us := (es.map (fun e => e.tgt)).eraseDups
  (us.map (fun u =>
    let m := ((es.filter (fun e => e.tgt = u)).map (fun e => st.eweight e.idx)).sum
    if m > 1 then
      if u = v ∧ st.g.directed = false then T.lgamma_fast (m / 2 + 1)
      else T.lgamma_fast (m + 1)
    else 0)).sum

/-- `sparse_entropy(multigraph, deg_entropy)`. -/
def sparse_entropy {R : Type} [AddCommGroup R] (T : Terms R) (st : BlockState)
    (multigraph deg_entropy : Bool) : R :=
  let S := (st.bg.edges.map (fun e => T.eterm e.src e.tgt (st.mrs e.idx))).sum
  let S := S + ((List.range st.bg.nv).map
    (fun v => T.vterm (st.mrp v) (st.get_mrm v) (st.wr v) st.deg_corr)).sum
  let S :=
    if st.deg_corr ∧ deg_entropy then
      S + ((List.range st.g.nv).map (fun v => get_deg_entropy T st v)).sum
    else S
  if multigraph then S + ((List.range st.g.nv).map (fun v => parallel_term T st v)).sum
  else S

/-- `dense_entropy(multigraph)`. -/
def dense_entropy {R : Type} [AddCommGroup R] (T : Terms R) (st : BlockState)
    (multigraph : Bool) : Res R :=
  if st.deg_corr then .error (Err.unsupported, st)
  else
    .ok (st.bg.edges.map (fun e =>
      T.eterm_dense e.src e.tgt (st.mrs e.idx) (st.wr e.src) (st.wr e.tgt) multigraph)).sum

/-- `entropy(dense, multigraph, deg_entropy)`. -/
def entropy {R : Type} [AddCommGroup R] (T : Terms R) (st : BlockState)
    (dense multigraph deg_entropy : Bool) : Res R :=
  if dense then dense_entropy T st multigraph
  else .ok (sparse_entropy T st multigraph deg_entropy)

end BlockState

/-! ## Edge-weight counts -/

/-- Total of `c e.idx` over the edges `e` of the list that satisfy `P`. -/
def wsum (P : Edge → Bool) (c : Nat → Int) (es : List Edge) : Int :=
  (es.map (fun e => if P e then c e.idx else 0)).sum

/-- The graph edge `e` runs between the blocks of the pair `(r, s)` under the
partition `bm` (an ordered pair on a directed graph, an unordered one on an
undirected graph). -/
def in_pair (directed : Bool) (bm : Nat → Nat) (r s : Nat) (e : Edge) : Bool :=
  decide (bkey directed (bm e.src) (bm e.tgt) = bkey directed r s)

/-- Total weight (under the edge weights `c`) of the edges running between the
blocks `r` and `s`, each edge and each self-loop counted once. -/
def pair_weight (directed : Bool) (c : Nat → Int) (bm : Nat → Nat) (es : List Edge)
    (r s : Nat) : Int :=
  wsum (in_pair directed bm r s) c es

/-- Total weight of the edge ends leaving block `r`: on a directed graph the
edges whose source is in `r`; on an undirected graph every edge end in `r`. -/
def out_weight (directed : Bool) (c : Nat → Int) (bm : Nat → Nat) (es : List Edge)
    (r : Nat) : Int :=
  wsum (fun e => decide (bm e.src = r)) c es +
    (if directed then 0 else wsum (fun e => decide (bm e.tgt = r)) c es)

/-- Total weight of the edge ends entering block `r`: on a directed graph the
edges whose target is in `r`; on an undirected graph every edge end in `r`. -/
def in_weight (directed : Bool) (c : Nat → Int) (bm : Nat → Nat) (es : List Edge)
    (r : Nat) : Int :=
  wsum (fun e => decide (bm e.tgt = r)) c es +
    (if directed then 0 else wsum (fun e => decide (bm e.src = r)) c es)

namespace BlockState

/-! ## Well-formedness of the block graph and of the block-pair index -/

/-- The block graph and the block-pair index describe the same aggregate edge
records: live handles are pairwise distinct, every live record is indexed under
its block pair, and every indexed handle is a live record of that pair. -/
structure IndexWF (st : BlockState) : Prop where
  bg_nodup : (st.bg.edges.map (fun e => e.idx)).Nodup
  bg_index : ∀ be ∈ st.bg.edges, st.get_me be.src be.tgt = some be.idx
  index_bg : ∀ r s h, st.get_me r s = some h →
    ∃ be ∈ st.bg.edges, be.idx = h ∧
      bkey st.g.directed be.src be.tgt = bkey st.g.directed r s

/-- The statements `_mrs[me] -= ew; _mrp[r] -= ew; _mrm[s] -= ew;
if (_mrs[me] == 0) _emat.remove_me(r, s, me, _bg);` shared by the two loops of
`remove_vertex` (used to reason about them). -/
def dec_step (st : BlockState) (r s me : Nat) (ew : Int) : BlockState :=
  let st3 := ((st.add_mrs me (-ew)).add_mrp r (-ew)).add_mrm s (-ew)
  if st3.mrs me = 0 then st3.remove_me r s me else st3

/-- The fields that no step of `remove_vertex` or `add_vertex` before its tail
writes. -/
def same_frame (st st' : BlockState) : Prop :=
  st'.g = st.g ∧ st'.eweight = st.eweight ∧ st'.vweight = st.vweight ∧ st'.b = st.b ∧
  st'.wr = st.wr ∧ st'.bclabel = st.bclabel ∧ st'.pclabel = st.pclabel ∧
  st'.mrm_is_mrp = st.mrm_is_mrp ∧ st'.egroups = st.egroups ∧
  st'.partition_stats = st.partition_stats ∧ st'.bg.nv = st.bg.nv ∧
  st'.deg_corr = st.deg_corr ∧ st'.merge_map = st.merge_map ∧
  st'.ignore_degrees = st.ignore_degrees ∧ st'.degs = st.degs

/-! ## The counting invariant of the mutation loops -/

/-- The block pair `(r, s)` is the pair of the blocks of the end points of `e`,
in the order of the edge or, on an undirected graph, in either order. -/
def oriented (directed : Bool) (bm : Nat → Nat) (e : Edge) (r s : Nat) : Prop :=
  (r = bm e.src ∧ s = bm e.tgt) ∨ (directed = false ∧ r = bm e.tgt ∧ s = bm e.src)

/-- Loop invariant of `remove_vertex` and `add_vertex`.  The index is well
formed; the aggregate weight of every block pair is a fixed non-negative amount
`bs` plus the weight, under the partition `bm`, of the edges counted by `c`
(`c e.idx` is the weight with which `e` is currently accounted for); and every
edge that is accounted for, or that is listed by `K`, carries in the per-edge
cache the index entry of its block pair. -/
structure Counted (st : BlockState) (c : Nat → Int) (bm : Nat → Nat)
    (bs : Nat → Nat → Int) (K : Nat → Prop) : Prop where
  wf : IndexWF st
  c_nonneg : ∀ e ∈ st.g.edges, 0 ≤ c e.idx
  bs_nonneg : ∀ r s, 0 ≤ bs r s
  mrs_eq : ∀ r s, st.get_mrs r s = bs r s + pair_weight st.g.directed c bm st.g.edges r s
  cache : ∀ e ∈ st.g.edges, (0 < c e.idx ∨ K e.idx) →
    ∃ me, st.bedge e.idx = some me ∧ st.get_me (bm e.src) (bm e.tgt) = some me

/-- Companion invariant for the degree sums: `mrm` is the map `mrp` exactly on
undirected graphs, and `mrp`, `mrm` are fixed amounts plus the weights of the
edge ends counted by `c`. -/
structure DegCounted (st : BlockState) (c : Nat → Int) (bm : Nat → Nat)
    (bp bq : Nat → Int) : Prop where
  shared : st.mrm_is_mrp = !st.g.directed
  mrp_eq : ∀ x, st.mrp x = bp x + out_weight st.g.directed c bm st.g.edges x
  mrm_eq : ∀ x, st.get_mrm x = bq x + in_weight st.g.directed c bm st.g.edges x

/-- Index sparsity up to the pairs listed by `X`: a pair present in the index
has positive aggregate weight unless `X` lists it. -/
def SparseX (st : BlockState) (X : Nat × Nat → Prop) : Prop :=
  ∀ r s me, st.get_me r s = some me → 0 < st.get_mrs r s ∨ X (bkey st.g.directed r s)

/-- The descriptor `e`, as listed by an edge range, denotes the graph edge
`e0`: same identity, and the same end points, swapped at most on an undirected
graph. -/
def descr (directed : Bool) (e e0 : Edge) : Prop :=
  e0.idx = e.idx ∧
    ((e.src = e0.src ∧ e.tgt = e0.tgt) ∨ (directed = false ∧ e.src = e0.tgt ∧ e.tgt = e0.src))

/-- The counted weights after the edges with an identity in `L` stop being
counted. -/
def zero_on (L : List Nat) (c : Nat → Int) : Nat → Int :=
  fun i => if i ∈ L then 0 else c i

/-- The counted weights after the edges with an identity in `L` are counted
with their weight `w`. -/
def set_on (w : Nat → Int) (L : List Nat) (c : Nat → Int) : Nat → Int :=
  fun i => if i ∈ L then w i else c i

/-- What a step or a loop of the mutation engine keeps: the frame, and the
degree sums relative to the counted weights. -/
structure Trans (st st' : BlockState) (c d : Nat → Int) (bm : Nat → Nat) : Prop where
  frame : same_frame st st'
  deg : ∀ bp bq, DegCounted st c bm bp bq → DegCounted st' d bm bp bq

/-- The processed items of the first loop of `remove_vertex` and of
`add_vertex`: every listed descriptor except the self-loops of an undirected
graph, which only accumulate `self_weight`. -/
def out_proc (directed : Bool) (v : Nat) (e : Edge) : Bool :=
  !(decide (e.tgt = v) && !directed)

/-- The self-loops of `v`. -/
def is_self (v : Nat) (e : Edge) : Bool := decide (e.src = v) && decide (e.tgt = v)

/-- The processed items of the second loop of `remove_vertex` and of
`add_vertex`: the descriptors whose source is not `v`. -/
def in_proc (v : Nat) (e : Edge) : Bool := !decide (e.src = v)

/-- The edges handled by the first loop of `remove_vertex(v)` and of
`add_vertex(v, r)`: on a directed graph the edges leaving `v`, on an undirected
graph the edges with exactly one end at `v`. -/
def ph_out (directed : Bool) (v : Nat) (e : Edge) : Bool :=
  if directed then decide (e.src = v)
  else (decide (e.src = v) && !decide (e.tgt = v)) || (decide (e.tgt = v) && !decide (e.src = v))

/-- The edges handled by the block `if (self_weight > 0)`: the self-loops of
`v` on an undirected graph. -/
def ph_self (directed : Bool) (v : Nat) (e : Edge) : Bool :=
  !directed && is_self v e

/-- The edges handled by the second loop: on a directed graph the edges
entering `v` from another vertex. -/
def ph_in (directed : Bool) (v : Nat) (e : Edge) : Bool :=
  directed && decide (e.tgt = v) && !decide (e.src = v)

/-- The edges incident to `v`. -/
def incident (v : Nat) (e : Edge) : Bool := decide (e.src = v) || decide (e.tgt = v)

/-- The counted weights after the edges of the list that satisfy `Q` stop
being counted. -/
def zero_edges (es : List Edge) (Q : Edge → Bool) (c : Nat → Int) : Nat → Int :=
  zero_on ((es.filter Q).map (fun e => e.idx)) c

/-- The counted weights after the edges of the list that satisfy `Q` are
counted with their weight. -/
def set_edges (w : Nat → Int) (es : List Edge) (Q : Edge → Bool) (c : Nat → Int) :
    Nat → Int :=
  set_on w ((es.filter Q).map (fun e => e.idx)) c

/-- The fields read by the counting invariants: the graph, the index, the
block graph, `mrs`, the per-edge cache and the degree sums. -/
def same_core (st st' : BlockState) : Prop :=
  st'.g = st.g ∧ st'.emat = st.emat ∧ st'.bg = st.bg ∧ st'.mrs = st.mrs ∧
  st'.bedge = st.bedge ∧ st'.mrp = st.mrp ∧ st'.mrm = st.mrm ∧
  st'.mrm_is_mrp = st.mrm_is_mrp

/-- The fields of the state that neither `remove_vertex` nor `add_vertex`
writes. -/
def same_params (st st' : BlockState) : Prop :=
  st'.g = st.g ∧ st'.eweight = st.eweight ∧ st'.vweight = st.vweight ∧
  st'.bclabel = st.bclabel ∧ st'.pclabel = st.pclabel ∧
  st'.mrm_is_mrp = st.mrm_is_mrp ∧ st'.bg.nv = st.bg.nv ∧ st'.deg_corr = st.deg_corr ∧
  st'.merge_map = st.merge_map ∧ st'.ignore_degrees = st.ignore_degrees ∧
  st'.degs = st.degs

/-! ### Steps of `add_vertex` -/

/-- The statements of `add_vertex` that obtain or create the aggregate edge of
the pair `(r, s)` and store its handle in the per-edge cache of the edge with
identity `i` (used to reason about the loops). -/
def touch_step (st : BlockState) (r s i : Nat) : BlockState :=
  { (st.get_or_create_me r s).1 with
    bedge := Function.update (st.get_or_create_me r s).1.bedge i
      (some (st.get_or_create_me r s).2) }

/-- The statements `_mrs[me] += d; _mrp[r] += d; _mrm[s] += d;`. -/
def bump (st : BlockState) (r s me : Nat) (d : Int) : BlockState :=
  ((st.add_mrs me d).add_mrp r d).add_mrm s d

/-- The statements of one processed item of a loop of `add_vertex`: obtain or
create the aggregate edge of `(r, s)`, cache its handle on the edge with
identity `i`, and add the weight `ew` to `mrs`, `mrp[r]` and `mrm[s]`. -/
def inc_step (st : BlockState) (r s i : Nat) (ew : Int) : BlockState :=
  (st.touch_step r s i).bump r s (st.get_or_create_me r s).2 ew

/-! ## The bookkeeping invariants of the specification -/

/-- Per-edge cache invariant at one graph edge: the cached handle is the index
entry of the block pair of the end points of the edge, and not the null
handle. -/
def cache_ok (st : BlockState) (e : Edge) : Prop :=
  ∃ me, st.bedge e.idx = some me ∧ st.get_me (st.b e.src) (st.b e.tgt) = some me

/-- Aggregate edge counts are exact: `mrs(r, s)` (0 when the pair is absent from
the index) is the total weight of the graph edges running from block `r` to
block `s` (between `r` and `s` on an undirected graph). -/
def mrs_exact (st : BlockState) : Prop :=
  ∀ r s, st.get_mrs r s = pair_weight st.g.directed st.eweight st.b st.g.edges r s

/-- The sum over `s` of `mrs(r, s)`, taken over the blocks of the block graph. -/
def mrs_row_sum (st : BlockState) (r : Nat) : Int :=
  ((List.range st.bg.nv).map (fun s => st.get_mrs r s)).sum

/-- The sum over `s` of `mrs(s, r)`, taken over the blocks of the block graph. -/
def mrs_col_sum (st : BlockState) (r : Nat) : Int :=
  ((List.range st.bg.nv).map (fun s => st.get_mrs s r)).sum

/-- The degree of block `r` in an undirected block graph: the sum over
`s != r` of `mrs({r, s})` plus twice `mrs({r, r})`. -/
def mrs_und_sum (st : BlockState) (r : Nat) : Int :=
  ((List.range st.bg.nv).map
    (fun s => if s = r then 2 * st.get_mrs r r else st.get_mrs r s)).sum

/-- Degree-sum invariant: for every block `r`, `mrp[r]` is the sum of the row
of `r` and `mrm[r]` the sum of its column (directed); `mrp[r]` is the degree of
`r` in the block graph (undirected). -/
def deg_sum (st : BlockState) : Prop :=
  ∀ r, r < st.bg.nv →
    if st.g.directed then st.mrp r = st.mrs_row_sum r ∧ st.get_mrm r = st.mrs_col_sum r
    else st.mrp r = st.mrs_und_sum r ∧ st.get_mrm r = st.mrs_und_sum r

/-- Block-weight invariant: `wr[r]` is the total weight of the vertices of
block `r`. -/
def wr_exact (st : BlockState) : Prop :=
  ∀ r, st.wr r =
    ((List.range st.g.nv).map (fun u => if st.b u = r then st.vweight u else 0)).sum

/-- Index sparsity: a block pair is present in the index exactly when its
aggregate weight is positive. -/
def sparse (st : BlockState) : Prop :=
  ∀ r s, (st.get_me r s).isSome = true ↔ 0 < st.get_mrs r s

/-- Structural consistency of a state: edge identities are distinct and edge
weights positive, the index and the block graph agree, the per-edge cache is
consistent with the partition on every edge, and the aggregate edge counts are
exact. -/
structure Consistent (st : BlockState) : Prop where
  edges_nodup : (st.g.edges.map (fun e => e.idx)).Nodup
  weights_pos : ∀ e ∈ st.g.edges, 0 < st.eweight e.idx
  index_wf : IndexWF st
  cache : ∀ e ∈ st.g.edges, st.cache_ok e
  exact : st.mrs_exact

/-! ### Frame of the mutation loops in an arbitrary state -/

/-- What every run of a loop of the mutation engine guarantees, whatever the
state: a normal return leaves the frame unchanged, and a failure is never the
invalid-operation condition. -/
def frame_or_fault {α : Type} (st : BlockState) (proj : α → BlockState) (x : Res α) : Prop :=
  match x with
  | .ok p => same_frame st (proj p)
  | .error e => e.1 ≠ Err.invalid_operation

end BlockState

/-! ### Sums over the blocks and over the vertices -/

/-- The sum of `f` over `0 .. n-1`. -/
def rsum (n : Nat) (f : Nat → Int) : Int := ((List.range n).map f).sum

/-! ## Example states -/

/-- The outcome of a run that returned normally (the given state otherwise). -/
def state_of (x : Res BlockState) (dflt : BlockState) : BlockState :=
  match x with
  | .ok s => s
  | .error _ => dflt

/-- A directed graph with the single edge `0 → 1`, every vertex in its own
block, and a third, empty block `2`; all the bookkeeping is consistent. -/
def ex_pair : BlockState :=
  { g := { directed := true, nv := 2, edges := [⟨0, 1, 0⟩] },
    eweight := fun _ => 1, vweight := fun _ => 1,
    mrs := fun h => if h = 0 then 1 else 0,
    mrp := fun r => if r = 0 then 1 else 0,
    mrm := fun r => if r = 1 then 1 else 0, mrm_is_mrp := false,
    wr := fun r => if r < 2 then 1 else 0,
    b := fun v => v,
    bclabel := fun _ => 0, pclabel := fun _ => 0, merge_map := fun _ => 0,
    deg_corr := false, ignore_degrees := fun _ => 0,
    bg := { nv := 3, edges := [⟨0, 1, 0⟩] },
    emat := fun p => if p = (0, 1) then some 0 else none,
    bedge := fun i => if i = 0 then some 0 else none,
    egroups := none, partition_stats := [], degs := none, m_entries := ⟨[]⟩ }

/-- The state `ex_pair` with a second, parallel edge `0 → 1` that the
aggregates `mrs`, `mrp` and `mrm` do not account for: the degree sums hold, the
index and the per-edge cache are consistent, and `mrs(0, 1)` is 1 where the
edges between the blocks weigh 2. -/
def ex_multi : BlockState :=
  { ex_pair with
    g := { directed := true, nv := 2, edges := [⟨0, 1, 0⟩, ⟨0, 1, 1⟩] },
    bedge := fun i => if i < 2 then some 0 else none }

/-- An undirected graph: the 4-cycle `0 - 1 - 2 - 3 - 0` with unit weights and
a self-loop of weight 3 at vertex 1; vertices 0, 1 in block 0, vertices 2, 3 in
block 1, and an empty block 2.  The aggregate edge between the two blocks is
stored as `(1, 0)`.  All the bookkeeping is consistent. -/
def ex_ring : BlockState :=
  { g := { directed := false, nv := 4,
           edges := [⟨0, 1, 0⟩, ⟨1, 2, 1⟩, ⟨2, 3, 2⟩, ⟨3, 0, 3⟩, ⟨1, 1, 4⟩] },
    eweight := fun i => if i = 4 then 3 else 1, vweight := fun _ => 1,
    mrs := fun h => if h = 0 then 4 else if h = 1 then 2 else if h = 2 then 1 else 0,
    mrp := fun r => if r = 0 then 10 else if r = 1 then 4 else 0,
    mrm := fun _ => 0, mrm_is_mrp := true,
    wr := fun r => if r < 2 then 2 else 0,
    b := fun v => if v < 2 then 0 else 1,
    bclabel := fun _ => 0, pclabel := fun _ => 0, merge_map := fun _ => 0,
    deg_corr := false, ignore_degrees := fun _ => 0,
    bg := { nv := 3, edges := [⟨0, 0, 0⟩, ⟨1, 0, 1⟩, ⟨1, 1, 2⟩] },
    emat := fun p => if p = (0, 0) then some 0 else if p = (0, 1) then some 1
      else if p = (1, 1) then some 2 else none,
    bedge := fun i => if i = 0 then some 0 else if i = 1 then some 1 else if i = 2 then some 2
      else if i = 3 then some 1 else if i = 4 then some 0 else none,
    egroups := none, partition_stats := [], degs := none, m_entries := ⟨[]⟩ }

/-- Terms over the integers for the examples. -/
def ex_terms : Terms Int :=
  { eterm := fun _ _ m => m * m,
    vterm := fun p m w _ => p * m + w * w,
    eterm_dense := fun r s m a b _ => if r = s then m * (a * a + 1) else m * (a * b + 1),
    lgamma_fast := fun x => x,
    get_delta_dl := fun _ _ _ _ _ => 0,
    get_delta_deg_dl := fun _ _ _ _ _ _ _ => 0,
    get_delta_edges_dl := fun _ _ _ _ _ _ => 0 }

namespace BlockState

/-- The aggregates of `st'` are those of `st`: `b`, `wr`, `mrp`, `mrm`, the
value `mrs(p, q)` of every block pair (absent = 0), and the set of block pairs
present in the index. -/
def restored (st st' : BlockState) : Prop :=
  st'.b = st.b ∧ st'.wr = st.wr ∧ st'.mrp = st.mrp ∧
  (∀ x, st'.get_mrm x = st.get_mrm x) ∧
  (∀ p q, st'.get_mrs p q = st.get_mrs p q) ∧
  (∀ p q, (st'.get_me p q).isSome = (st.get_me p q).isSome)

/-! ## The dense virtual move -/

/-- The weight of the edges from `v` to another vertex that lies in block `s`
(on an undirected graph: of the edges between `v` and another vertex in `s`). -/
def out_to (st : BlockState) (v s : Nat) : Int :=
  wsum (fun e => decide (e.src = v) && !decide (e.tgt = v) && decide (st.b e.tgt = s))
      st.eweight st.g.edges +
    (if st.g.directed then 0
     else wsum (fun e => decide (e.tgt = v) && !decide (e.src = v) && decide (st.b e.src = s))
      st.eweight st.g.edges)

/-- The weight of the edges of a directed graph that enter `v` from another
vertex that lies in block `s`; 0 on an undirected graph. -/
def in_from (st : BlockState) (v s : Nat) : Int :=
  if st.g.directed then
    wsum (fun e => decide (e.tgt = v) && !decide (e.src = v) && decide (st.b e.src = s))
      st.eweight st.g.edges
  else 0

/-- The weight of the self-loops of `v`. -/
def loops_at (st : BlockState) (v : Nat) : Int :=
  wsum (fun e => decide (e.src = v) && decide (e.tgt = v)) st.eweight st.g.edges

/-- The weight of `e` if it joins `v` to another vertex that lies in block `t`. -/
def one_end (bm : Nat → Nat) (v t : Nat) (x : Int) (e : Edge) : Int :=
  (if (decide (e.src = v) && !decide (e.tgt = v) && decide (bm e.tgt = t)) then x else 0) +
  (if (decide (e.tgt = v) && !decide (e.src = v) && decide (bm e.src = t)) then x else 0)

/-- The change of the weight of the block pair `(p, q)` when `v` goes from its
block to `nr`, in terms of the weights of the edges at `v`. -/
def pair_shift (st : BlockState) (v nr p q : Nat) : Int :=
  if st.g.directed then
    ((if p = nr then 1 else 0) - (if p = st.b v then 1 else 0)) * st.out_to v q +
    ((if q = nr then 1 else 0) - (if q = st.b v then 1 else 0)) * st.in_from v p +
    ((if p = nr ∧ q = nr then 1 else 0) - (if p = st.b v ∧ q = st.b v then 1 else 0)) *
      st.loops_at v
  else
    ((if p = nr then 1 else 0) * st.out_to v q + (if q = nr then 1 else 0) * st.out_to v p
        - (if p = nr ∧ q = nr then 1 else 0) * st.out_to v nr)
    - ((if p = st.b v then 1 else 0) * st.out_to v q
        + (if q = st.b v then 1 else 0) * st.out_to v p
        - (if p = st.b v ∧ q = st.b v then 1 else 0) * st.out_to v (st.b v))
    + ((if p = nr ∧ q = nr then 1 else 0) - (if p = st.b v ∧ q = st.b v then 1 else 0)) *
      st.loops_at v

end BlockState

/-- The increment of one block `s` in the loop over the blocks (directed). -/
def touched_row {R : Type} [AddCommGroup R] (D : Nat → Nat → R) (r nr s : Nat) : R :=
  (if s ≠ nr ∧ s ≠ r then D r s + D s r + D nr s + D s nr else 0) +
  (if s = r then D r r + D r nr else 0) + (if s = nr then D nr nr + D nr r else 0)

/-- The increment of one block `s` in the loop over the blocks (undirected). -/
def touched_row_und {R : Type} [AddCommGroup R] (D : Nat → Nat → R) (r nr s : Nat) : R :=
  (if s ≠ nr ∧ s ≠ r then D r s + D nr s else 0) +
  (if s = r then D r r else 0) + (if s = nr then D nr nr + D r nr else 0)

namespace BlockState

/-- The dense edge term of the block pair `(p, q)` for the aggregate weights
`M` and the block weights `W`. -/
def dense_term {R : Type} (T : Terms R) (M : Nat → Nat → Int) (W : Nat → Int)
    (multigraph : Bool) (p q : Nat) : R :=
  T.eterm_dense p q (M p q) (W p) (W q) multigraph

/-- The aggregate weights after the move of `v` to `nr`, computed from the
state before. -/
def mrs_after (st : BlockState) (v nr : Nat) (p q : Nat) : Int :=
  st.get_mrs p q + st.pair_shift v nr p q

/-- The block weights after the move of `v` to `nr`, computed from the state
before. -/
def wr_after (st : BlockState) (v nr : Nat) : Nat → Int :=
  Function.update (Function.update st.wr (st.b v) (st.wr (st.b v) - st.vweight v)) nr
    (Function.update st.wr (st.b v) (st.wr (st.b v) - st.vweight v) nr + st.vweight v)

/-- The block pairs of a block graph with `B` blocks: all ordered pairs
(directed), the pairs `(p, q)` with `p ≤ q` (undirected). -/
def block_pairs (directed : Bool) (B : Nat) : Finset (Nat × Nat) :=
  if directed then Finset.range B ×ˢ Finset.range B
  else (Finset.range B ×ˢ Finset.range B).filter (fun k => k.1 ≤ k.2)

/-- The value computed by the body of `virtual_move_dense` after the entry set
has been filled. -/
def dense_value {R : Type} [AddCommGroup R] (T : Terms R) (st : BlockState)
    (v nr : Nat) (multigraph : Bool) : R :=
  let acc := (List.range st.bg.nv).foldl
    (dense_iter T st (st.b v) nr multigraph
      (dense_deltap st v (out_edges_range st.g v) (fun _ => 0))
      (dense_deltam st v (in_edges_range st.g v) (fun _ => 0))
      (if st.g.directed = false then Int.tdiv (dense_deltal st v (out_edges_range st.g v) 0) 2
       else dense_deltal st v (out_edges_range st.g v) 0)
      (st.vweight v) (st.vweight v)) (0, 0)
  acc.2 - acc.1 + 0

/-- The block pairs that involve block `r` or block `nr`. -/
def touched_pairs (directed : Bool) (B r nr : Nat) : Finset (Nat × Nat) :=
  (block_pairs directed B).filter (fun k => k.1 = r ∨ k.1 = nr ∨ k.2 = r ∨ k.2 = nr)

end BlockState

/-! ## The sparse virtual move: the entry set -/

/-- The recorded change of the key `k` in a list of entries, 0 when absent. -/
def delta_of (l : List ((Nat × Nat) × Int)) (k : Nat × Nat) : Int :=
  match l.find? (fun p => decide (p.1 = k)) with
  | some p => p.2
  | none => 0

/-- Well-formedness of an entry set: the keys are pairwise distinct and in
canonical form. -/
def entries_wf (directed : Bool) (l : List ((Nat × Nat) × Int)) : Prop :=
  (l.map Prod.fst).Nodup ∧ ∀ p ∈ l, bkey directed p.1.1 p.1.2 = p.1

namespace BlockState

/-- Indicator of the key `k`. -/
def ind (x k : Nat × Nat) : Int := if x = k then 1 else 0

/-- The change that one descriptor of the loop over `out_edges_range(v, g)` of
`move_entries` records for the key `k`. -/
def out_change (st : BlockState) (v r nr : Nat) (k : Nat × Nat) (e : Edge) : Int :=
  if e.tgt = v ∧ st.g.directed = false then 0
  else st.eweight e.idx *
    (ind (bkey st.g.directed nr (if e.tgt = v then nr else st.b e.tgt)) k -
      ind (bkey st.g.directed r (st.b e.tgt)) k)

/-- The change that one descriptor of the loop over `in_edges_range(v, g)` of
`move_entries` records for the key `k`. -/
def in_change (st : BlockState) (v r nr : Nat) (k : Nat × Nat) (e : Edge) : Int :=
  if e.src = v then 0
  else st.eweight e.idx *
    (ind (bkey st.g.directed (st.b e.src) nr) k - ind (bkey st.g.directed (st.b e.src) r) k)

/-- The sparse edge term of the block pair `k` at the aggregate weights `M`. -/
def sparse_term {R : Type} (T : Terms R) (M : Nat → Nat → Int) (k : Nat × Nat) : R :=
  T.eterm k.1 k.2 (M k.1 k.2)

/-- The weighted degree `kout` of `virtual_move_sparse`. -/
def kout_of (st : BlockState) (v : Nat) : Int :=
  wsum (fun e => decide (e.src = v)) st.eweight st.g.edges +
    (if st.g.directed then 0 else wsum (fun e => decide (e.tgt = v)) st.eweight st.g.edges)

/-- The weighted degree `kin` of `virtual_move_sparse`. -/
def kin_of (st : BlockState) (v : Nat) : Int :=
  wsum (fun e => decide (e.tgt = v)) st.eweight st.g.edges +
    (if st.g.directed then 0 else wsum (fun e => decide (e.src = v)) st.eweight st.g.edges)

/-- The sum of the sparse edge terms over the aggregate edge records. -/
def edge_terms {R : Type} [AddCommGroup R] (T : Terms R) (st : BlockState) : R :=
  (st.bg.edges.map (fun e => T.eterm e.src e.tgt (st.mrs e.idx))).sum

/-- The sum of the vertex terms over the blocks. -/
def vertex_terms {R : Type} [AddCommGroup R] (T : Terms R) (st : BlockState) : R :=
  ((List.range st.bg.nv).map
    (fun v => T.vterm (st.mrp v) (st.get_mrm v) (st.wr v) st.deg_corr)).sum

end BlockState

/-! ## The proposal kernel and the read-only evaluators -/

/-- The state `ex_pair` under a degree-corrected model. -/
def ex_pair_dc : BlockState := { ex_pair with deg_corr := true }

/-- Modelled from the spec: `all_edges_range(v, g)` lists every edge incident
to `v`: the out-edges followed, on a directed graph, by the in-edges (on an
undirected graph every incident edge is an out-edge). -/
def all_edges_range (g : Graph) (v : Nat) : List Edge :=
  out_edges_range g v ++ in_edges_range g v

namespace BlockState

/-- The neighbour `u` of `v` along the descriptor `e` in the loop of
`get_move_prob`: `u = target(e, _g)`, replaced by `source(e, _g)` on a directed
graph when the target is `v`. -/
def far_end (st : BlockState) (v : Nat) (e : Edge) : Nat :=
  if st.g.directed ∧ e.tgt = v then e.src else e.tgt

/-- The block `t` of the loop of `get_move_prob`: `t = _b[u]`, and `t = r` when
`u == v`. -/
def far_block (st : BlockState) (v r : Nat) (e : Edge) : Nat :=
  if st.far_end v e = v then r else st.b (st.far_end v e)

/-- The value of `mts` in one iteration of the loop of `get_move_prob`, after
the block `if (reverse)` (and before the doubling of the undirected case). -/
def prob_mts (st : BlockState) (s : Nat) (reverse : Bool) (m : EntrySet) (t : Nat) : Int :=
  if reverse then st.get_mrs t s + m.get_delta st.g.directed t s else st.get_mrs t s

/-- The value of `mst` in one iteration of the loop of `get_move_prob`, after
the block `if (reverse)`. -/
def prob_mst (st : BlockState) (s : Nat) (reverse : Bool) (m : EntrySet) (t : Nat) : Int :=
  let mst := if st.g.directed then st.get_mrs s t else st.get_mrs t s
  let dst := if st.g.directed then m.get_delta st.g.directed s t
    else m.get_delta st.g.directed t s
  if reverse then mst + dst else mst

/-- The value of `mtp` in one iteration of the loop of `get_move_prob`, after
the block `if (reverse)`. -/
def prob_mtp (st : BlockState) (r s : Nat) (reverse : Bool) (kout : Int) (t : Nat) : Int :=
  let mtp := st.mrp t
  let mtp := if reverse ∧ t = s then mtp - kout else mtp
  if reverse ∧ t = r then mtp + kout else mtp

/-- The value of `mtm` in one iteration of the loop of `get_move_prob`, after
the block `if (reverse)`: it starts as `_mrm[t]` on a directed graph and as a
copy of `mtp` on an undirected one. -/
def prob_mtm (st : BlockState) (r s : Nat) (reverse : Bool) (kin : Int) (t : Nat) : Int :=
  let mtm := if st.g.directed then st.get_mrm t else st.mrp t
  let mtm := if reverse ∧ t = s then mtm - kin else mtm
  if reverse ∧ t = r then mtm + kin else mtm

/-- One iteration of the loop `for (auto e : all_edges_range(v, _g))` of
`get_move_prob`, on the accumulators `(p, w)`; `R` stands for `double` and `/`
is the division of the field. -/
def move_prob_iter {R : Type} [Field R] (st : BlockState) (v r s : Nat) (c : R)
    (reverse : Bool) (m : EntrySet) (kout kin : Int) (acc : R × Int) (e : Edge) : R × Int :=
  let B := st.bg.nv
  let t := st.far_block v r e
  let ew := st.eweight e.idx
  let mts := st.prob_mts s reverse m t
  let mst := st.prob_mst s reverse m t
  let mtp := st.prob_mtp r s reverse kout t
  let mtm := st.prob_mtm r s reverse kin t
  if st.g.directed then
    (acc.1 + (ew : R) * ((((mts + mst : Int) : R) + c) / (((mtp + mtm : Int) : R) + c * (B : R))),
      acc.2 + ew)
  else
    let mts := if t = s then mts * 2 else mts
    (acc.1 + (ew : R) * ((mts : R) + c) / ((mtp : R) + c * (B : R)), acc.2 + ew)

/-- `get_move_prob(v, r, s, c, reverse, m_entries)`: the move proposal
probability, for a given entry set. -/
def get_move_prob_entries {R : Type} [Field R] (st : BlockState) (v r s : Nat) (c : R)
    (reverse : Bool) (m : EntrySet) : R :=
  let B := st.bg.nv
  let kout := out_degreeS st.g st.eweight v
  let kin := if st.g.directed then in_degreeS st.g st.eweight v else kout
  let acc := (all_edges_range st.g v).foldl
    (move_prob_iter st v r s c reverse m kout kin) (0, 0)
  if acc.2 > 0 then acc.1 / (acc.2 : R) else 1 / (B : R)

/-- `get_move_prob(v, r, s, c, reverse)`: the entry set `_m_entries` is cleared
and filled by `move_entries`, then read by the computation. -/
def get_move_prob {R : Type} [Field R] (st : BlockState) (v r s : Nat) (c : R)
    (reverse : Bool) : R × BlockState :=
  let st1 := { st with
    m_entries := move_entries st v (if reverse then r else s) EntrySet.clear }
  (st1.get_move_prob_entries v r s c reverse st1.m_entries, st1)

/-- The per-edge contribution to the proposal probability: the factor of the
edge weight in one iteration of the loop of `get_move_prob`. -/
def move_prob_term {R : Type} [Field R] (st : BlockState) (v r s : Nat) (c : R)
    (reverse : Bool) (m : EntrySet) (e : Edge) : R :=
  let kout := out_degreeS st.g st.eweight v
  let kin := if st.g.directed then in_degreeS st.g st.eweight v else kout
  let t := st.far_block v r e
  if st.g.directed then
    (((st.prob_mts s reverse m t + st.prob_mst s reverse m t : Int) : R) + c) /
      (((st.prob_mtp r s reverse kout t + st.prob_mtm r s reverse kin t : Int) : R) +
        c * (st.bg.nv : R))
  else
    (((if t = s then st.prob_mts s reverse m t * 2 else st.prob_mts s reverse m t : Int) : R)
        + c) /
      ((st.prob_mtp r s reverse kout t : R) + c * (st.bg.nv : R))

/-- The state in which a run of an evaluator ended: the state it returned, or
the state in which the failure was raised. -/
def end_state {α : Type} (x : Res (α × BlockState)) : BlockState :=
  match x with
  | .ok p => p.2
  | .error e => e.2

/-- The state `st'` differs from `st` at most in the scratch entry set and in
the partition statistics. -/
def only_scratch (st st' : BlockState) : Prop :=
  { st' with m_entries := st.m_entries, partition_stats := st.partition_stats } = st

/-- The evaluator that ended in `st'` was read-only on the model `st`: the
partition `b`, the aggregates `mrs`, `mrp`, `mrm`, `wr`, the block-pair index,
the block graph and the per-edge cache are unchanged, and so is every other
member except the scratch entry set and the partition statistics. -/
def read_only (st st' : BlockState) : Prop :=
  st'.b = st.b ∧ st'.mrs = st.mrs ∧ st'.mrp = st.mrp ∧ st'.mrm = st.mrm ∧
  st'.wr = st.wr ∧ st'.emat = st.emat ∧ st'.bg = st.bg ∧ st'.bedge = st.bedge ∧
  only_scratch st st'

end BlockState

/-! ## merge_vertices -/

/-- Modelled from the spec: `add_edge(s, t, g)` of the graph creates an edge
whose identity is distinct from the identity of every edge of the graph.  The
model hands out one more than the largest identity in use. -/
def Graph.fresh (g : Graph) : Nat :=
  (g.edges.map (fun e => e.idx)).foldr (fun i m => max (i + 1) m) 0

/-- The graph after `add_edge(s, t, g)`. -/
def Graph.add_edge (g : Graph) (s t : Nat) : Graph :=
  { g with edges := g.edges ++ [⟨s, t, g.fresh⟩] }

/-- Modelled from the spec: `clear_vertex(u, g)` removes every edge incident to
`u`; `u` remains a vertex of the graph. -/
def Graph.clear_vertex (g : Graph) (u : Nat) : Graph :=
  { g with edges := g.edges.filter (fun e => e.src ≠ u ∧ e.tgt ≠ u) }

namespace BlockState

/-- The hash maps `ns_u` and `ns_v` of `merge_vertices(u, v)`, whose edge label
is the unit map: the listed descriptors grouped by the far end point `key`, each
group in the order of the list.  A key is present when its group is not
empty. -/
def group_edges (key : Edge → Nat) (es : List Edge) : Nat → List Edge :=
  fun t => es.filter (fun e => key e = t)

/-- The keys of the hash map built from the listed descriptors, in the order in
which the loop `for (auto& kv : ns_u)` visits them. -/
def group_keys (key : Edge → Nat) (es : List Edge) : List Nat :=
  (es.map key).dedup

/-- The statements shared by the two loops of `merge_vertices`, for the group
`es` of weight `w` whose key in `ns_v` is `k`: `auto iter = ns_v.find(...)`; if
the key is present, `_eweight[iter->second.front()] += w`; otherwise an edge
`a → b` is added to the graph and to `ns_v`, with weight `w` and the cache
entry of the first edge of the group. -/
def fold_or_add (st : BlockState) (ns_v : Nat → List Edge) (k a b : Nat) (w : Int)
    (es : List Edge) : BlockState × (Nat → List Edge) :=
  match ns_v k with
  | e :: _ =>
    ({ st with eweight := Function.update st.eweight e.idx (st.eweight e.idx + w) }, ns_v)
  | [] =>
    let e : Edge := ⟨a, b, st.g.fresh⟩
    ({ st with g := st.g.add_edge a b,
               eweight := Function.update st.eweight e.idx w,
               bedge := Function.update st.bedge e.idx
                 (es.head?.bind (fun e0 => st.bedge e0.idx)) },
      Function.update ns_v k (ns_v k ++ [e]))

/-- One iteration of the first loop `for (auto& kv : ns_u)` of
`merge_vertices`, over the groups of the out-edges of `u`; `t` is the key of
the group. -/
def merge_out_step (u v : Nat) (ns_u : Nat → List Edge)
    (acc : BlockState × (Nat → List Edge)) (t : Nat) : Res (BlockState × (Nat → List Edge)) :=
  let st := acc.1
  let es := ns_u t
  let w := (es.map (fun e => st.eweight e.idx)).sum
  if t = u then
    if st.g.directed = false then
      if w % 2 ≠ 0 then .error (Err.assertion, st)
      else .ok (fold_or_add st acc.2 v v v (w / 2) es)
    else .ok (fold_or_add st acc.2 v v v w es)
  else .ok (fold_or_add st acc.2 t v t w es)

/-- The first loop `for (auto& kv : ns_u)` of `merge_vertices`. -/
def merge_out_loop (u v : Nat) (ns_u : Nat → List Edge) :
    List Nat → BlockState × (Nat → List Edge) → Res (BlockState × (Nat → List Edge))
  | [], acc => .ok acc
  | t :: ts, acc =>
    match merge_out_step u v ns_u acc t with
    | .error x => .error x
    | .ok acc1 => merge_out_loop u v ns_u ts acc1

/-- One iteration of the second loop `for (auto& kv : ns_u)` of
`merge_vertices` (directed graphs), over the groups of the in-edges of `u`; `s`
is the key of the group. -/
def merge_in_step (u v : Nat) (ns_u : Nat → List Edge)
    (acc : BlockState × (Nat → List Edge)) (s : Nat) : BlockState × (Nat → List Edge) :=
  if s = u then acc
  else
    let st := acc.1
    let es := ns_u s
    let w := (es.map (fun e => st.eweight e.idx)).sum
    fold_or_add st acc.2 s s v w es

/-- The statement `hist[make_tuple(get<0>(kn), get<1>(kn))] += get<2>(kn)` of
`merge_degs` on the hash map `hist`, kept as the list of its entries in the
order of insertion. -/
def hist_add (h : List (Nat × Nat × Nat)) (kn : Nat × Nat × Nat) : List (Nat × Nat × Nat) :=
  if h.any (fun x => decide (x.1 = kn.1 ∧ x.2.1 = kn.2.1)) then
    h.map (fun x => if x.1 = kn.1 ∧ x.2.1 = kn.2.1 then (x.1, x.2.1, x.2.2 + kn.2.2) else x)
  else h ++ [kn]

/-- `merge_degs(u, v, degs)`: nothing for the plain-degree view `simple_degs_t`
(`none`); for the explicit cache, the triples of `degs[u]` and then those of
`degs[v]` are added per degree pair into the hash map `hist`, both caches are
cleared, and the entries of `hist` become the cache of `v` (here in the order
of insertion). -/
def merge_degs (u v : Nat) (degs : Option (Nat → List (Nat × Nat × Nat))) :
    Option (Nat → List (Nat × Nat × Nat)) :=
  degs.map (fun d =>
    let hist := (d u ++ d v).foldl hist_add []
    Function.update (Function.update d u []) v hist)

/-- The statements of `merge_vertices` after the loops: the vertex weights, the
zeroing of the weights of the edges of `u`, `clear_vertex(u, _g)`, the merge
map and the degree caches. -/
def merge_tail (st : BlockState) (u v : Nat) : BlockState :=
  let vw := Function.update st.vweight v (st.vweight v + st.vweight u)
  let vw := Function.update vw u 0
  let ew := (all_edges_range st.g u).foldl (fun w e => Function.update w e.idx 0) st.eweight
  { st with vweight := vw, eweight := ew, g := st.g.clear_vertex u,
            merge_map := Function.update st.merge_map u v,
            degs := merge_degs u v st.degs }

/-- `merge_vertices(u, v, ec, std::false_type, std::false_type)` with the unit
edge label: the body of the merge for a model with weighted vertices and
edges. -/
def merge_vertices_weighted (st : BlockState) (u v : Nat) : Res BlockState :=
  let ns_u := group_edges (fun e => e.tgt) (out_edges_range st.g u)
  let ns_v := group_edges (fun e => e.tgt) (out_edges_range st.g v)
  match merge_out_loop u v ns_u (group_keys (fun e => e.tgt) (out_edges_range st.g u))
      (st, ns_v) with
  | .error x => .error x
  | .ok (st1, _) =>
    let st2 :=
      if st1.g.directed then
        let ns_v := group_edges (fun e => e.src) (in_edges_range st1.g v)
        let ns_u := group_edges (fun e => e.src) (in_edges_range st1.g u)
        ((group_keys (fun e => e.src) (in_edges_range st1.g u)).foldl
          (merge_in_step u v ns_u) (st1, ns_v)).1
      else st1
    .ok (merge_tail st2 u v)

/-- `merge_vertices(u, v)`: merge vertex `u` into `v`.  The overload chosen by
the kinds of the weight maps throws unless both maps are weighted. -/
def merge_vertices (st : BlockState) (u v : Nat) : Res BlockState :=
  if u = v then .ok st
  else if st.vweight_is_constant ∨ st.eweight_is_constant then
    .error (Err.invalid_operation, st)
  else merge_vertices_weighted st u v

end BlockState
/-! ### Weights of the graph under a multiplicity of the end points -/

/-- Sum over the listed edges of the weight `c e.idx` times the multiplicity
`f e.src e.tgt` of the pair of end points. -/
def fsum (f : Nat → Nat → Int) (c : Nat → Int) (es : List Edge) : Int :=
  (es.map (fun e => f e.src e.tgt * c e.idx)).sum

/-- The vertex that stands for `x` once `u` has been merged into `v`. -/
def merged (u v x : Nat) : Nat := if x = u then v else x

namespace BlockState

/-- Loop invariant of `merge_vertices(u, v)`, relative to the graph `g0` and
the edge weights `c0` at the call: edge identities are distinct, the graph has
only grown by edges that are not incident to `u`, the weights of the edges
incident to `u` are untouched, and every descriptor stored in `ns_v` under the
key `k` denotes an edge of the graph between the end points `mk k`. -/
structure MergeInv (g0 : Graph) (c0 : Nat → Int) (u : Nat) (mk : Nat → Nat × Nat)
    (st : BlockState) (ns_v : Nat → List Edge) : Prop where
  nodup : (st.g.edges.map (fun e => e.idx)).Nodup
  directed : st.g.directed = g0.directed
  nv : st.g.nv = g0.nv
  grown : ∃ extra, st.g.edges = g0.edges ++ extra ∧ ∀ e ∈ extra, incident u e = false
  kept : ∀ e ∈ g0.edges, incident u e = true → st.eweight e.idx = c0 e.idx
  keys : ∀ k, ∀ e ∈ ns_v k, (e.src, e.tgt) = mk k ∧
    ∃ e0 ∈ st.g.edges, descr st.g.directed e e0

/-- The loops of `merge_vertices` write the graph, the edge weights and the
per-edge cache only. -/
def merge_frame (st st' : BlockState) : Prop :=
  { st' with g := st.g, eweight := st.eweight, bedge := st.bedge } = st

/-- The edge `e` runs from `u` to `t` (directed graph), joins `u` and `t`
(undirected graph). -/
def joins (directed : Bool) (u t : Nat) (e : Edge) : Bool :=
  (decide (e.src = u) && decide (e.tgt = t)) ||
    (!directed && decide (e.tgt = u) && decide (e.src = t))

/-- The change of `fsum f` made by the iteration of the first loop of
`merge_vertices(u, v)` for the key `t`. -/
def out_gain (g0 : Graph) (c0 : Nat → Int) (u v : Nat) (ns_u : Nat → List Edge)
    (f : Nat → Nat → Int) (t : Nat) : Int :=
  f v (merged u v t) *
    (if t = u ∧ g0.directed = false then ((ns_u t).map (fun e => c0 e.idx)).sum / 2
     else ((ns_u t).map (fun e => c0 e.idx)).sum)

/-- The change of `fsum f` made by the iteration of the second loop of
`merge_vertices(u, v)` for the key `s`. -/
def in_gain (c0 : Nat → Int) (u v : Nat) (ns_u : Nat → List Edge)
    (f : Nat → Nat → Int) (s : Nat) : Int :=
  if s = u then 0 else f s v * ((ns_u s).map (fun e => c0 e.idx)).sum

end BlockState

/-- The edge `e` is handled by the first loop of `merge_vertices(u, v)`: it
leaves `u` (directed graph), it is incident to `u` (undirected graph). -/
def at_u (directed : Bool) (u : Nat) (e : Edge) : Bool :=
  decide (e.src = u) || (!directed && decide (e.tgt = u))

/-- The end point of `e` other than `u` (`u` itself for a self-loop). -/
def other_end (u : Nat) (e : Edge) : Nat := if e.src = u then e.tgt else e.src

namespace BlockState

/-- What the loops of `merge_vertices` do to the state, whatever the state is:
they write the graph, the edge weights and the per-edge cache only, and the
graph only grows. -/
def grows (st st' : BlockState) : Prop :=
  merge_frame st st' ∧ st'.g.directed = st.g.directed ∧ st'.g.nv = st.g.nv ∧
    ∃ extra, st'.g.edges = st.g.edges ++ extra

end BlockState

/-! ## Batch removal and insertion -/

/-- The test `eset.find(e) != eset.end()` on the hash set of edge descriptors;
descriptors are compared by the identity of the edge. -/
def eset_mem (eset : List Edge) (e : Edge) : Bool :=
  eset.any (fun x => decide (x.idx = e.idx))

/-- The statement `eset.insert(e)`. -/
def eset_insert (eset : List Edge) (e : Edge) : List Edge :=
  if eset_mem eset e then eset else eset ++ [e]

/-- The far end `u` of the descriptor `e` seen from `v` in the first loop of
`remove_vertices` and of `add_vertices`. -/
def seen_from (v : Nat) (e : Edge) : Nat := if e.src = v then e.tgt else e.src

/-- The first loop of `remove_vertices` and of `add_vertices`: the set `eset`
of the edges with both end points in the vertex set, each with the descriptor
under which it was first met.  The vertex set is visited in the order of the
list, and the set of edges later on in the order of insertion. -/
def internal_edges (g : Graph) (vset : List Nat) : List Edge :=
  vset.foldl (fun eset v =>
    (all_edges_range g v).foldl (fun eset e =>
      if seen_from v e ∈ vset then eset_insert eset e else eset) eset) []

namespace BlockState

/-- The loop `for (auto v : vset) remove_vertex(v, efilt)` of
`remove_vertices`. -/
def remove_filt_loop (efilt : Edge → Bool) : List Nat → BlockState → Res BlockState
  | [], st => .ok st
  | v :: vs, st =>
    match st.remove_vertex_filt v efilt with
    | .error x => .error x
    | .ok st1 => remove_filt_loop efilt vs st1

/-- The loop `for (auto& e : eset)` of `remove_vertices`: every edge between
two vertices of the set is taken off the aggregates once. -/
def remove_internal_loop : List Edge → BlockState → Res BlockState
  | [], st => .ok st
  | e :: es, st =>
    let r := st.b e.src
    let s := st.b e.tgt
    match st.bedge e.idx with
    | none => .error (Err.undefined, st)
    | some me =>
      let ew := st.eweight e.idx
      let st1 := st.add_mrs me (-ew)
      if st1.mrs me < 0 then .error (Err.assertion, st1)
      else
        let st2 := st1.add_mrp r (-ew)
        let st3 := st2.add_mrm s (-ew)
        let st4 := if st3.mrs me = 0 then st3.remove_me r s me else st3
        remove_internal_loop es st4

/-- `remove_vertices(vs)`: the vertex set is the set of the listed vertices
(here in the order of their last occurrence). -/
def remove_vertices (st : BlockState) (vs : List Nat) : Res BlockState :=
  let vset := vs.dedup
  let eset := internal_edges st.g vset
  match remove_filt_loop (eset_mem eset) vset st with
  | .error x => .error x
  | .ok st1 => remove_internal_loop eset st1

/-- The calls `remove_vertex(v)` for the listed vertices, one after another. -/
def remove_each : List Nat → BlockState → Res BlockState
  | [], st => .ok st
  | v :: vs, st =>
    match st.remove_vertex v with
    | .error x => .error x
    | .ok st1 => remove_each vs st1

/-- The statement `vset[v] = r` on the hash map from vertices to blocks. -/
def vset_put (vset : List (Nat × Nat)) (v r : Nat) : List (Nat × Nat) :=
  if vset.any (fun p => decide (p.1 = v)) then
    vset.map (fun p => if p.1 = v then (v, r) else p)
  else vset ++ [(v, r)]

/-- The read `vset[v]` of the hash map (the value-initialised block for a key
that is not in the map). -/
def vset_get (vset : List (Nat × Nat)) (v : Nat) : Nat :=
  match vset.find? (fun p => decide (p.1 = v)) with
  | some p => p.2
  | none => 0

/-- The loop `for (auto vr : vset) add_vertex(vr.first, vr.second, bedge,
efilt)` of `add_vertices`. -/
def add_filt_loop (efilt : Edge → Bool) : List (Nat × Nat) → BlockState → Res BlockState
  | [], st => .ok st
  | vr :: vs, st =>
    match st.add_vertex_filt vr.1 vr.2 efilt with
    | .error x => .error x
    | .ok st1 => add_filt_loop efilt vs st1

/-- The loop `for (auto e : eset)` of `add_vertices`: every edge between two
vertices of the set is put on the aggregates once. -/
def add_internal_loop (vset : List (Nat × Nat)) : List Edge → BlockState → Res BlockState
  | [], st => .ok st
  | e :: es, st =>
    let r := vset_get vset e.src
    let s := vset_get vset e.tgt
    let st1 := (st.get_or_create_me r s).1
    let me := (st.get_or_create_me r s).2
    let st2 := { st1 with bedge := Function.update st1.bedge e.idx (some me) }
    if st2.bedge e.idx = none then .error (Err.assertion, st2)
    else if st2.get_me r s ≠ some me then .error (Err.assertion, st2)
    else
      let ew := st2.eweight e.idx
      let st3 := st2.add_mrs me ew
      let st4 := st3.add_mrp r ew
      let st5 := st4.add_mrm s ew
      add_internal_loop vset es st5

/-- The template member `add_vertices(vs, rs)` on two arrays of the same size
(only the prefix of `vs` that has a counterpart in `rs` is read here; the source
reads `rs[i]` for every index of `vs`).  The vertex map is visited in the order
in which its keys were first inserted. -/
def add_vertices_impl (st : BlockState) (vs rs : List Nat) : Res BlockState :=
  let vset := (vs.zip rs).foldl (fun m p => vset_put m p.1 p.2) []
  let eset := internal_edges st.g (vset.map Prod.fst)
  match add_filt_loop (eset_mem eset) vset st with
  | .error x => .error x
  | .ok st1 => add_internal_loop vset eset st1

/-- The entry point `add_vertices(ovs, ors)` on the two arrays: the size check,
which throws `ValueException("vertex and group lists do not have the same
size")`, then the template member. -/
def add_vertices (st : BlockState) (vs rs : List Nat) : Res BlockState :=
  if vs.length ≠ rs.length then .error (Err.invalid_operation, st)
  else st.add_vertices_impl vs rs

/-- The calls `add_vertex(v, r)` for the listed pairs, one after another. -/
def add_each : List (Nat × Nat) → BlockState → Res BlockState
  | [], st => .ok st
  | vr :: vs, st =>
    match st.add_vertex vr.1 vr.2 with
    | .error x => .error x
    | .ok st1 => add_each vs st1

end BlockState

namespace BlockState

/-- The block weights once the listed vertices have been taken out of their
blocks. -/
def wr_without (st : BlockState) (ws : List Nat) : Nat → Int :=
  fun r => st.wr r - (ws.map (fun v => if st.b v = r then st.vweight v else 0)).sum

end BlockState

namespace BlockState

/-- The block weights once the listed vertices have been put into the blocks
listed with them. -/
def wr_with (st : BlockState) (ws : List (Nat × Nat)) : Nat → Int :=
  fun r => st.wr r + (ws.map (fun p => if p.2 = r then st.vweight p.1 else 0)).sum

end BlockState

/-! ## The batch move -/

namespace BlockState

/-- The template member `move_vertices(v, nr)` on the pairs `(v[i], nr[i])`,
`i < min(v.size(), nr.size())`: the calls `move_vertex(v[i], nr[i])`, one after
another. -/
def move_each : List (Nat × Nat) → BlockState → Res BlockState
  | [], st => .ok st
  | vr :: vs, st =>
    match st.move_vertex vr.1 vr.2 with
    | .error x => .error x
    | .ok st1 => move_each vs st1

/-- The template member `move_vertices(v, nr)` on two arrays. -/
def move_vertices_impl (st : BlockState) (vs rs : List Nat) : Res BlockState :=
  move_each (vs.zip rs) st

/-- The entry point `move_vertices(ovs, ors)` on the two arrays: the size
check, which throws `ValueException("vertex and group lists do not have the
same size")`, then the template member. -/
def move_vertices (st : BlockState) (vs rs : List Nat) : Res BlockState :=
  if vs.length ≠ rs.length then .error (Err.invalid_operation, st)
  else st.move_vertices_impl vs rs

end BlockState
/-! ## The concrete scenario of the specification -/

/-- The scenario of the specification: the undirected 4-cycle
`0 - 1 - 2 - 3 - 0` with unit weights, vertices 0, 1 in block `A = 0` and
vertices 2, 3 in block `B = 1`; all the bookkeeping is consistent. -/
def ex_cycle : BlockState :=
  { g := { directed := false, nv := 4,
           edges := [⟨0, 1, 0⟩, ⟨1, 2, 1⟩, ⟨2, 3, 2⟩, ⟨3, 0, 3⟩] },
    eweight := fun _ => 1, vweight := fun _ => 1,
    mrs := fun h => if h = 0 then 1 else if h = 1 then 2 else if h = 2 then 1 else 0,
    mrp := fun r => if r < 2 then 4 else 0,
    mrm := fun _ => 0, mrm_is_mrp := true,
    wr := fun r => if r < 2 then 2 else 0,
    b := fun v => if v < 2 then 0 else 1,
    bclabel := fun _ => 0, pclabel := fun _ => 0, merge_map := fun _ => 0,
    deg_corr := false, ignore_degrees := fun _ => 0,
    bg := { nv := 2, edges := [⟨0, 0, 0⟩, ⟨0, 1, 1⟩, ⟨1, 1, 2⟩] },
    emat := fun p => if p = (0, 0) then some 0 else if p = (0, 1) then some 1
      else if p = (1, 1) then some 2 else none,
    bedge := fun i => if i = 0 then some 0 else if i = 1 then some 1 else if i = 2 then some 2
      else if i = 3 then some 1 else none,
    egroups := none, partition_stats := [], degs := none, m_entries := ⟨[]⟩ }
/-! ## States whose aggregate counts are not exact -/

/-- The state `ex_pair` with the weight 2 on its edge `0 → 1`, of which the
aggregates account for 1: the index is sparse, the edge weight is positive and
the per-edge cache agrees with the index, but `mrs(0, 1)` is not exact. -/
def ex_heavy : BlockState := { ex_pair with eweight := fun _ => 2 }

/-- A directed graph with the edges `0 → 1` and `0 → 2` of weight 1, vertex 0 in
block 0 and vertices 1, 2 in block 1, and a third, empty block 2.  The per-edge
cache agrees with the index on both edges, but the aggregates account for one
edge only: `mrs(0, 1)` is 1 where the edges between the blocks weigh 2. -/
def ex_fan : BlockState :=
  { ex_pair with
    g := { directed := true, nv := 3, edges := [⟨0, 1, 0⟩, ⟨0, 2, 1⟩] },
    b := fun v => if v = 0 then 0 else 1,
    bedge := fun i => if i < 2 then some 0 else none }

namespace BlockState

/-- The weight that `remove_vertices(vs)` takes off the aggregates, by edge
identity: the weight of every graph edge with an end point in `vs`, and 0 for
the other edges. -/
def removed_weight (st : BlockState) (vs : List Nat) : Nat → Int :=
  set_edges st.eweight st.g.edges (fun e => vs.any (fun v => incident v e)) (fun _ => 0)

end BlockState
/-! ## The degree histograms -/

/-- The multiplicity of the degree pair `(kin, kout)` in a degree histogram:
the sum of the third components of the triples with that pair. -/
def deg_mult (L : List (Nat × Nat × Nat)) (kin kout : Nat) : Nat :=
  (L.map (fun x => if x.1 = kin ∧ x.2.1 = kout then x.2.2 else 0)).sum

/-- The total multiplicity of a degree histogram. -/
def deg_total (L : List (Nat × Nat × Nat)) : Nat := (L.map (fun x => x.2.2)).sum

/-- A degree-sequence cache for the examples: two triples at vertex 0, one of
them with the degree pair of the triple at vertex 1. -/
def ex_degs : Nat → List (Nat × Nat × Nat) :=
  fun x => if x = 0 then [(1, 2, 3), (0, 1, 1)] else if x = 1 then [(1, 2, 4)] else []
/-! ## The samplers and the set-up of a sweep -/

namespace BlockState

/-- Modelled from the spec: `_egroups.init(_b, _eweight, _g, _bg)` fills, for
every block, the group of the edges incident on the block. -/
def egroups_init (st : BlockState) : EGroups :=
  { groups := fun r => st.g.edges.filter (fun e => st.b e.src = r ∨ st.b e.tgt = r) }

/-- The statements `if (_egroups.empty()) _egroups.init(_b, _eweight, _g, _bg);`
and the edge-group sampler that is in place after them. -/
def egroups_ready (st : BlockState) : BlockState × EGroups :=
  match st.egroups with
  | some eg => (st, eg)
  | none => ({ st with egroups := some st.egroups_init }, st.egroups_init)

/-- `init_mcmc(c, dl)`; `c = none` stands for an infinite `c`. -/
def init_mcmc {R : Type} [Zero R] [DecidableEq R] (st : BlockState) (c : Option R) (dl : R) :
    Res BlockState :=
  let st1 :=
    match c with
    | some _ => st.egroups_ready.1
    | none => { st with egroups := none }
  if dl ≠ 0 then st1.enable_partition_stats else .ok st1.disable_partition_stats

end BlockState

namespace BlockState

/-- The denominator of the contribution of a neighbour in block `t` to the
proposal probability, for `reverse = false`: `mtp + mtm + c * B` on a directed
graph, `mtp + c * B` on an undirected one. -/
def move_prob_denom {R : Type} [Field R] (st : BlockState) (c : R) (t : Nat) : R :=
  if st.g.directed then ((st.mrp t + st.get_mrm t : Int) : R) + c * (st.bg.nv : R)
  else (st.mrp t : R) + c * (st.bg.nv : R)

end BlockState

/-- The edge `e` stands, once `u` has been merged into `v`, where the edge
`e0` stood: its end points are those of `e0` with `u` replaced by `v`, in the
order of `e0` or, on an undirected graph, in either order. -/
def replaces (directed : Bool) (u v : Nat) (e0 e : Edge) : Prop :=
  (e.src = merged u v e0.src ∧ e.tgt = merged u v e0.tgt) ∨
    (directed = false ∧ e.src = merged u v e0.tgt ∧ e.tgt = merged u v e0.src)

namespace BlockState

/-- The block-level state of `st'` is that of `st`: the partition `b`, the
aggregate counts `mrs`, `mrp`, `mrm`, the block weights `wr`, the block-pair
index and the block graph. -/
def same_blocks (st st' : BlockState) : Prop :=
  st'.b = st.b ∧ st'.mrs = st.mrs ∧ st'.mrp = st.mrp ∧ st'.mrm = st.mrm ∧
    st'.wr = st.wr ∧ st'.emat = st.emat ∧ st'.bg = st.bg

/-- Loop invariant of `merge_vertices(u, v)` for the per-edge cache, relative
to the state `st0` at the call: the cache entries of the edges of `st0` are
untouched, and every edge added since carries the cache entry of an edge of
`st0` incident to `u` whose place it takes. -/
def CacheInv (st0 : BlockState) (u v : Nat) (st : BlockState) : Prop :=
  st.g.directed = st0.g.directed ∧
  (∀ e ∈ st0.g.edges, st.bedge e.idx = st0.bedge e.idx) ∧
  ∃ extra, st.g.edges = st0.g.edges ++ extra ∧
    ∀ e ∈ extra, ∃ e0 ∈ st0.g.edges, incident u e0 = true ∧
      replaces st0.g.directed u v e0 e ∧ st.bedge e.idx = st0.bedge e0.idx

end BlockState

namespace BlockState

/-- The descriptors that the loops of `remove_vertex(v, efilt)` do not skip:
those listed by the edge ranges of `v` that the filter does not exclude. -/
def kept_edges (st : BlockState) (v : Nat) (efilt : Edge → Bool) : List Edge :=
  (all_edges_range st.g v).filter (fun e => !efilt e)

/-- The block `x` is reached through a non-excluded edge incident to `v`: it
is the block of an end point of such an edge. -/
def reached_block (st : BlockState) (v : Nat) (efilt : Edge → Bool) (x : Nat) : Prop :=
  ∃ e ∈ st.kept_edges v efilt, x = st.b e.src ∨ x = st.b e.tgt

/-- The block pair `(p, q)` is reached through a non-excluded edge incident to
`v`: it is the pair of the blocks of the end points of such an edge. -/
def reached_pair (st : BlockState) (v : Nat) (efilt : Edge → Bool) (p q : Nat) : Prop :=
  ∃ e ∈ st.kept_edges v efilt,
    bkey st.g.directed (st.b e.src) (st.b e.tgt) = bkey st.g.directed p q

/-- The handle `me` is reached through a non-excluded edge incident to `v`: it
is the cached handle of such an edge, or the index entry of its block pair. -/
def reached_handle (st : BlockState) (v : Nat) (efilt : Edge → Bool) (me : Nat) : Prop :=
  ∃ e ∈ st.kept_edges v efilt,
    st.bedge e.idx = some me ∨ st.get_me (st.b e.src) (st.b e.tgt) = some me

/-- What the loops of `remove_vertex` may write among the aggregate counts and
the index: `mrp` and `mrm` at the blocks listed by `P` only, the index at the
keys listed by `K` only and there only by clearing an entry, `mrs` at the
handles listed by `H` only. -/
def touches (P : Nat → Prop) (K : Nat × Nat → Prop) (H : Nat → Prop)
    (st st' : BlockState) : Prop :=
  (∀ x, ¬ P x → st'.mrp x = st.mrp x ∧ st'.mrm x = st.mrm x) ∧
  (∀ k, ¬ K k → st'.emat k = st.emat k) ∧
  (∀ k, st'.emat k = st.emat k ∨ st'.emat k = none) ∧
  (∀ h, ¬ H h → st'.mrs h = st.mrs h)

end BlockState

/-- The state that `remove_vertex(0)` leaves from `ex_pair`: the graph still
has its edge `0 → 1` of weight 1, and the aggregate counts, which no longer
account for it, are all zero. -/
def ex_removed : BlockState := state_of (ex_pair.remove_vertex 0) ex_pair

open BlockState

/-! # Theorems -/

@[simp] theorem wsum_nil (P : Edge → Bool) (c : Nat → Int) : wsum P c [] = 0 := rfl

@[simp] theorem wsum_cons (P : Edge → Bool) (c : Nat → Int) (e : Edge) (es : List Edge) :
    wsum P c (e :: es) = (if P e then c e.idx else 0) + wsum P c es := by
  simp [wsum]

theorem wsum_append (P : Edge → Bool) (c : Nat → Int) (es fs : List Edge) :
    wsum P c (es ++ fs) = wsum P c es + wsum P c fs := by
  simp [wsum]

theorem wsum_congr {P : Edge → Bool} {c d : Nat → Int} {es : List Edge}
    (h : ∀ e ∈ es, P e = true → c e.idx = d e.idx) : wsum P c es = wsum P d es := by
  induction es with
  | nil => rfl
  | cons e es ih =>
    have h1 := h e (List.mem_cons_self _ _)
    have h2 : wsum P c es = wsum P d es := ih (fun x hx => h x (List.mem_cons_of_mem _ hx))
    rw [wsum_cons, wsum_cons, h2]
    by_cases hp : P e = true
    · simp [hp, h1 hp]
    · simp [hp]

theorem wsum_pred_congr {P Q : Edge → Bool} {c : Nat → Int} {es : List Edge}
    (h : ∀ e ∈ es, c e.idx ≠ 0 → P e = Q e) : wsum P c es = wsum Q c es := by
  induction es with
  | nil => rfl
  | cons e es ih =>
    have h2 : wsum P c es = wsum Q c es := ih (fun x hx => h x (List.mem_cons_of_mem _ hx))
    rw [wsum_cons, wsum_cons, h2]
    by_cases hc : c e.idx = 0
    · simp [hc]
    · rw [h e (List.mem_cons_self _ _) hc]

theorem wsum_nonneg {P : Edge → Bool} {c : Nat → Int} {es : List Edge}
    (h : ∀ e ∈ es, 0 ≤ c e.idx) : 0 ≤ wsum P c es := by
  induction es with
  | nil => simp
  | cons e es ih =>
    have h1 := h e (List.mem_cons_self _ _)
    have h2 : 0 ≤ wsum P c es := ih (fun x hx => h x (List.mem_cons_of_mem _ hx))
    rw [wsum_cons]
    by_cases hp : P e = true
    · simp [hp]; omega
    · simp [hp]; exact h2

theorem le_wsum {P : Edge → Bool} {c : Nat → Int} {es : List Edge}
    (h : ∀ e ∈ es, 0 ≤ c e.idx) {e0 : Edge} (h0 : e0 ∈ es) (hp : P e0 = true) :
    c e0.idx ≤ wsum P c es := by
  induction es with
  | nil => cases h0
  | cons e es ih =>
    have h1 := h e (List.mem_cons_self _ _)
    have hrest : ∀ x ∈ es, 0 ≤ c x.idx := fun x hx => h x (List.mem_cons_of_mem _ hx)
    have h2 : 0 ≤ wsum P c es := wsum_nonneg hrest
    rw [wsum_cons]
    rcases List.mem_cons.1 h0 with rfl | hmem
    · simp [hp]; exact h2
    · have := ih hrest hmem
      by_cases hq : P e = true
      · simp [hq]; omega
      · simp [hq]; exact this

theorem wsum_update_not_mem (P : Edge → Bool) (c : Nat → Int) (es : List Edge) (i : Nat)
    (x : Int) (h : i ∉ es.map (fun e => e.idx)) :
    wsum P (Function.update c i x) es = wsum P c es := by
  apply wsum_congr
  intro e he _
  have : e.idx ≠ i := by
    intro hi
    exact h (List.mem_map.2 ⟨e, he, hi⟩)
  simp [Function.update, this]

theorem wsum_update (P : Edge → Bool) (c : Nat → Int) {es : List Edge}
    (hnd : (es.map (fun e => e.idx)).Nodup) {e0 : Edge} (h0 : e0 ∈ es) (x : Int) :
    wsum P (Function.update c e0.idx x) es =
      wsum P c es + (if P e0 then x - c e0.idx else 0) := by
  induction es with
  | nil => cases h0
  | cons e es ih =>
    rw [List.map_cons, List.nodup_cons] at hnd
    rw [wsum_cons, wsum_cons]
    rcases List.mem_cons.1 h0 with rfl | hmem
    · rw [wsum_update_not_mem P c es _ x hnd.1]
      by_cases hp : P e0 = true
      · simp [hp]; ring
      · simp [hp]
    · have hne : e.idx ≠ e0.idx := by
        intro hi
        exact hnd.1 (List.mem_map.2 ⟨e0, hmem, hi.symm⟩)
      rw [ih hnd.2 hmem]
      simp only [Function.update, hne, dite_false]
      ring

/-- Two edges of a list with distinct identities that carry the same identity
are the same edge. -/
theorem eq_of_idx_eq {es : List Edge} (hnd : (es.map (fun e => e.idx)).Nodup)
    {e1 e2 : Edge} (h1 : e1 ∈ es) (h2 : e2 ∈ es) (h : e1.idx = e2.idx) : e1 = e2 := by
  induction es with
  | nil => cases h1
  | cons e es ih =>
    rw [List.map_cons, List.nodup_cons] at hnd
    rcases List.mem_cons.1 h1 with rfl | m1
    · rcases List.mem_cons.1 h2 with rfl | m2
      · rfl
      · exact absurd (List.mem_map.2 ⟨e2, m2, h.symm⟩) hnd.1
    · rcases List.mem_cons.1 h2 with rfl | m2
      · exact absurd (List.mem_map.2 ⟨e1, m1, h⟩) hnd.1
      · exact ih hnd.2 m1 m2

namespace BlockState

theorem IndexWF.inj {st : BlockState} (wf : IndexWF st) {r s r' s' h : Nat}
    (h1 : st.get_me r s = some h) (h2 : st.get_me r' s' = some h) :
    bkey st.g.directed r s = bkey st.g.directed r' s' := by
  obtain ⟨be, hbe, hi, hk⟩ := wf.index_bg r s h h1
  obtain ⟨be', hbe', hi', hk'⟩ := wf.index_bg r' s' h h2
  have : be = be' := eq_of_idx_eq wf.bg_nodup hbe hbe' (hi.trans hi'.symm)
  subst this
  exact hk.symm.trans hk'

theorem fresh_gt (bg : BGraph) : ∀ e ∈ bg.edges, e.idx < bg.fresh := by
  unfold BGraph.fresh
  induction bg.edges with
  | nil => intro e he; cases he
  | cons a as ih =>
    intro e he
    simp only [List.map_cons, List.foldr_cons]
    rcases List.mem_cons.1 he with rfl | hm
    · omega
    · have := ih e hm
      omega

theorem IndexWF.fresh_not_indexed {st : BlockState} (wf : IndexWF st) {r s h : Nat}
    (h1 : st.get_me r s = some h) : h ≠ st.bg.fresh := by
  obtain ⟨be, hbe, hi, _⟩ := wf.index_bg r s h h1
  have := fresh_gt st.bg be hbe
  omega

theorem get_mrs_of_some {st : BlockState} {r s me : Nat} (h : st.get_me r s = some me) :
    st.get_mrs r s = st.mrs me := by
  simp [get_mrs, h]

theorem get_mrs_of_none {st : BlockState} {r s : Nat} (h : st.get_me r s = none) :
    st.get_mrs r s = 0 := by
  simp [get_mrs, h]

theorem get_me_isSome_of_pos {st : BlockState} {r s : Nat} (h : 0 < st.get_mrs r s) :
    ∃ me, st.get_me r s = some me := by
  cases hme : st.get_me r s with
  | none => rw [get_mrs_of_none hme] at h; omega
  | some me => exact ⟨me, rfl⟩

theorem get_me_congr_key {st : BlockState} {r s r' s' : Nat}
    (h : bkey st.g.directed r s = bkey st.g.directed r' s') :
    st.get_me r s = st.get_me r' s' := by
  simp [get_me, h]

theorem get_mrs_congr_key {st : BlockState} {r s r' s' : Nat}
    (h : bkey st.g.directed r s = bkey st.g.directed r' s') :
    st.get_mrs r s = st.get_mrs r' s' := by
  simp [get_mrs, get_me_congr_key h]

theorem same_frame.frame_refl (st : BlockState) : same_frame st st := by
  simp [same_frame]

theorem same_frame.frame_trans {a b c : BlockState} (h1 : same_frame a b) (h2 : same_frame b c) :
    same_frame a c := by
  simp only [same_frame] at *
  obtain ⟨a1, a2, a3, a4, a5, a6, a7, a8, a9, a10, a11, a12, a13, a14, a15⟩ := h1
  obtain ⟨b1, b2, b3, b4, b5, b6, b7, b8, b9, b10, b11, b12, b13, b14, b15⟩ := h2
  simp [*]

theorem dec_step_frame (st : BlockState) (r s me : Nat) (ew : Int) :
    same_frame st (st.dec_step r s me ew) := by
  simp only [dec_step, add_mrs, add_mrp, add_mrm, remove_me, same_frame, BGraph.remove_edge]
  split_ifs <;> simp

theorem dec_step_bedge (st : BlockState) (r s me : Nat) (ew : Int) :
    (st.dec_step r s me ew).bedge = st.bedge := by
  simp only [dec_step, add_mrs, add_mrp, add_mrm, remove_me]
  split_ifs <;> rfl

theorem dec_step_mrs (st : BlockState) (r s me : Nat) (ew : Int) :
    (st.dec_step r s me ew).mrs = Function.update st.mrs me (st.mrs me - ew) := by
  simp only [dec_step, add_mrs, add_mrp, add_mrm, remove_me]
  split_ifs <;> simp [sub_eq_add_neg]

theorem dec_step_get_me (st : BlockState) (r s me : Nat) (ew : Int) (r' s' : Nat) :
    (st.dec_step r s me ew).get_me r' s' =
      if bkey st.g.directed r' s' = bkey st.g.directed r s ∧ st.mrs me - ew = 0 then none
      else st.get_me r' s' := by
  simp only [dec_step, add_mrs, add_mrp, add_mrm, remove_me, get_me]
  by_cases hz : st.mrs me - ew = 0
  · have hz' : st.mrs me + -ew = 0 := by omega
    by_cases hk : bkey st.g.directed r' s' = bkey st.g.directed r s
    · cases hsh : st.mrm_is_mrp <;> simp [hz, hz', hk]
    · cases hsh : st.mrm_is_mrp <;> simp [hz, hz', hk, Function.update]
  · have hz' : ¬ (st.mrs me + -ew = 0) := by omega
    cases hsh : st.mrm_is_mrp <;> simp [hz, hz']

theorem dec_step_get_mrs {st : BlockState} (wf : IndexWF st) {r s me : Nat} (ew : Int)
    (hme : st.get_me r s = some me) (r' s' : Nat) :
    (st.dec_step r s me ew).get_mrs r' s' =
      if bkey st.g.directed r' s' = bkey st.g.directed r s then st.get_mrs r s - ew
      else st.get_mrs r' s' := by
  unfold get_mrs
  rw [dec_step_get_me, dec_step_mrs, hme]
  by_cases hk : bkey st.g.directed r' s' = bkey st.g.directed r s
  · have hme' : st.get_me r' s' = some me := by rw [get_me_congr_key hk, hme]
    by_cases hz : st.mrs me - ew = 0
    · simp [hk, hz]
    · simp [hk, hz, hme']
  · simp only [hk, false_and, if_false]
    cases hq : st.get_me r' s' with
    | none => rfl
    | some h =>
      have : h ≠ me := by
        intro hh
        subst hh
        exact hk (wf.inj hq hme)
      simp [Function.update, this]

theorem dec_step_wf {st : BlockState} (wf : IndexWF st) {r s me : Nat} (ew : Int)
    (hme : st.get_me r s = some me) : IndexWF (st.dec_step r s me ew) := by
  have hg : (st.dec_step r s me ew).g = st.g := (dec_step_frame st r s me ew).1
  by_cases hz : st.mrs me - ew = 0
  · have hbg : (st.dec_step r s me ew).bg.edges = st.bg.edges.filter (fun e => e.idx ≠ me) := by
      have hz' : st.mrs me + -ew = 0 := by omega
      simp only [dec_step, add_mrs, add_mrp, add_mrm, remove_me, BGraph.remove_edge]
      split_ifs <;> simp_all
    refine ⟨?_, ?_, ?_⟩
    · rw [hbg]
      exact (wf.bg_nodup.sublist ((List.filter_sublist _).map _))
    · intro be hbe
      rw [hbg, List.mem_filter] at hbe
      have hne : be.idx ≠ me := by simpa using hbe.2
      rw [dec_step_get_me]
      have h1 := wf.bg_index be hbe.1
      have : ¬ (bkey st.g.directed be.src be.tgt = bkey st.g.directed r s) := by
        intro hk
        rw [get_me_congr_key hk, hme] at h1
        exact hne (Option.some.inj h1).symm
      simp [this, h1]
    · intro r' s' h hq
      rw [dec_step_get_me] at hq
      by_cases hk : bkey st.g.directed r' s' = bkey st.g.directed r s
      · simp [hk, hz] at hq
      · simp only [hk, false_and, if_false] at hq
        obtain ⟨be, hbe, hi, hkk⟩ := wf.index_bg r' s' h hq
        refine ⟨be, ?_, hi, ?_⟩
        · rw [hbg, List.mem_filter]
          refine ⟨hbe, ?_⟩
          have : h ≠ me := by
            intro hh
            subst hh
            exact hk (wf.inj hq hme)
          simpa [hi] using this
        · rw [hg]; exact hkk
  · have hbg : (st.dec_step r s me ew).bg.edges = st.bg.edges := by
      have hz' : ¬ (st.mrs me + -ew = 0) := by omega
      simp only [dec_step, add_mrs, add_mrp, add_mrm, remove_me, BGraph.remove_edge]
      split_ifs <;> simp_all
    have hget : ∀ r' s', (st.dec_step r s me ew).get_me r' s' = st.get_me r' s' := by
      intro r' s'
      rw [dec_step_get_me]
      simp [hz]
    refine ⟨?_, ?_, ?_⟩
    · rw [hbg]; exact wf.bg_nodup
    · intro be hbe
      rw [hbg] at hbe
      rw [hget]; exact wf.bg_index be hbe
    · intro r' s' h hq
      rw [hget] at hq
      rw [hbg, hg]
      exact wf.index_bg r' s' h hq

theorem dec_step_mrp (st : BlockState) (r s me : Nat) (ew : Int) (x : Nat) :
    (st.dec_step r s me ew).mrp x =
      st.mrp x - (if x = r then ew else 0) -
        (if st.mrm_is_mrp = true ∧ x = s then ew else 0) := by
  simp only [dec_step, add_mrs, add_mrp, add_mrm, remove_me]
  cases hsh : st.mrm_is_mrp
  · by_cases h1 : x = r <;> split_ifs <;> simp_all [Function.update] <;> ring
  · by_cases h1 : x = r <;> by_cases h2 : x = s <;> split_ifs <;>
      simp_all [Function.update] <;> ring

theorem dec_step_get_mrm (st : BlockState) (r s me : Nat) (ew : Int) (x : Nat) :
    (st.dec_step r s me ew).get_mrm x =
      st.get_mrm x - (if x = s then ew else 0) -
        (if st.mrm_is_mrp = true ∧ x = r then ew else 0) := by
  simp only [dec_step, add_mrs, add_mrp, add_mrm, remove_me, get_mrm]
  cases hsh : st.mrm_is_mrp
  · by_cases h2 : x = s <;> split_ifs <;> simp_all [Function.update] <;> ring
  · by_cases h1 : x = r <;> by_cases h2 : x = s <;> split_ifs <;>
      simp_all [Function.update] <;> ring

/-! ### Obtain-or-create of an aggregate edge -/

theorem create_me_frame (st : BlockState) (r s : Nat) :
    same_frame st (st.create_me r s).1 := by
  simp [create_me, put_me, same_frame, BGraph.add_edge]

theorem get_or_create_frame (st : BlockState) (r s : Nat) :
    same_frame st (st.get_or_create_me r s).1 := by
  unfold get_or_create_me
  cases st.get_me r s with
  | none => exact create_me_frame st r s
  | some me => exact same_frame.frame_refl st

theorem get_or_create_bedge (st : BlockState) (r s : Nat) :
    (st.get_or_create_me r s).1.bedge = st.bedge := by
  unfold get_or_create_me
  cases st.get_me r s <;> simp [create_me, put_me]

theorem get_or_create_mrp (st : BlockState) (r s : Nat) :
    (st.get_or_create_me r s).1.mrp = st.mrp ∧ (st.get_or_create_me r s).1.mrm = st.mrm := by
  unfold get_or_create_me
  cases st.get_me r s <;> simp [create_me, put_me]

theorem get_or_create_get_me (st : BlockState) (r s r' s' : Nat) :
    (st.get_or_create_me r s).1.get_me r' s' =
      if bkey st.g.directed r' s' = bkey st.g.directed r s then
        some (st.get_or_create_me r s).2
      else st.get_me r' s' := by
  unfold get_or_create_me
  cases hq : st.get_me r s with
  | none =>
    by_cases hk : bkey st.g.directed r' s' = bkey st.g.directed r s
    · simp [create_me, put_me, get_me, hk]
    · simp [create_me, put_me, get_me, hk, Function.update]
  | some me =>
    by_cases hk : bkey st.g.directed r' s' = bkey st.g.directed r s
    · simp [hk, get_me_congr_key hk, hq]
    · simp [hk]

theorem get_or_create_get_mrs {st : BlockState} (wf : IndexWF st) (r s r' s' : Nat) :
    (st.get_or_create_me r s).1.get_mrs r' s' = st.get_mrs r' s' := by
  unfold get_mrs
  rw [get_or_create_get_me]
  unfold get_or_create_me
  cases hq : st.get_me r s with
  | none =>
    by_cases hk : bkey st.g.directed r' s' = bkey st.g.directed r s
    · have : st.get_me r' s' = none := by rw [get_me_congr_key hk, hq]
      simp [hk, this, create_me, put_me]
    · simp only [hk, if_false]
      cases hq' : st.get_me r' s' with
      | none => rfl
      | some h =>
        have := wf.fresh_not_indexed hq'
        simp [create_me, put_me, Function.update, this]
  | some me =>
    by_cases hk : bkey st.g.directed r' s' = bkey st.g.directed r s
    · have : st.get_me r' s' = some me := by rw [get_me_congr_key hk, hq]
      simp [hk, this]
    · simp [hk]

theorem get_or_create_mrs_old {st : BlockState} (wf : IndexWF st) (r s : Nat) {r' s' h : Nat}
    (hq : st.get_me r' s' = some h) :
    (st.get_or_create_me r s).1.mrs h = st.mrs h := by
  unfold get_or_create_me
  cases hq0 : st.get_me r s with
  | none =>
    have := wf.fresh_not_indexed hq
    simp [create_me, put_me, Function.update, this]
  | some me => rfl

theorem get_or_create_wf {st : BlockState} (wf : IndexWF st) (r s : Nat) :
    IndexWF (st.get_or_create_me r s).1 := by
  have hg : (st.get_or_create_me r s).1.g = st.g := (get_or_create_frame st r s).1
  cases hq : st.get_me r s with
  | some me =>
    have : st.get_or_create_me r s = (st, me) := by simp [get_or_create_me, hq]
    rw [this]; exact wf
  | none =>
    have hp : st.get_or_create_me r s = st.create_me r s := by simp [get_or_create_me, hq]
    have hbg : (st.get_or_create_me r s).1.bg.edges = st.bg.edges ++ [⟨r, s, st.bg.fresh⟩] := by
      rw [hp]; simp [create_me, put_me, BGraph.add_edge]
    have h2 : (st.get_or_create_me r s).2 = st.bg.fresh := by
      rw [hp]; simp [create_me]
    refine ⟨?_, ?_, ?_⟩
    · rw [hbg, List.map_append, List.nodup_append]
      refine ⟨wf.bg_nodup, by simp, ?_⟩
      intro a ha hb
      simp only [List.map_cons, List.map_nil, List.mem_singleton] at hb
      obtain ⟨e, he, rfl⟩ := List.mem_map.1 ha
      have := fresh_gt st.bg e he
      omega
    · intro be hbe
      rw [hbg, List.mem_append] at hbe
      rw [get_or_create_get_me, h2]
      rcases hbe with hbe | hbe
      · have h1 := wf.bg_index be hbe
        have : ¬ (bkey st.g.directed be.src be.tgt = bkey st.g.directed r s) := by
          intro hk
          rw [get_me_congr_key hk, hq] at h1
          cases h1
        simp [this, h1]
      · simp only [List.mem_singleton] at hbe
        subst hbe
        simp
    · intro r' s' h hq'
      rw [get_or_create_get_me, h2] at hq'
      rw [hbg, hg]
      by_cases hk : bkey st.g.directed r' s' = bkey st.g.directed r s
      · simp only [hk, if_true, Option.some.injEq] at hq'
        refine ⟨⟨r, s, st.bg.fresh⟩, by simp, hq', hk.symm⟩
      · simp only [hk, if_false] at hq'
        obtain ⟨be, hbe, hi, hkk⟩ := wf.index_bg r' s' h hq'
        exact ⟨be, List.mem_append_left _ hbe, hi, hkk⟩

theorem bkey_comm (r s : Nat) : bkey false r s = bkey false s r := by
  simp [bkey, min_comm, max_comm]

theorem oriented.key {directed : Bool} {bm : Nat → Nat} {e : Edge} {r s : Nat}
    (h : oriented directed bm e r s) :
    bkey directed r s = bkey directed (bm e.src) (bm e.tgt) := by
  rcases h with ⟨rfl, rfl⟩ | ⟨hd, rfl, rfl⟩
  · rfl
  · subst hd; exact bkey_comm _ _

theorem pair_weight_update (directed : Bool) (c : Nat → Int) (bm : Nat → Nat)
    {es : List Edge} (hnd : (es.map (fun e => e.idx)).Nodup) {e0 : Edge} (h0 : e0 ∈ es)
    (x : Int) (r s : Nat) :
    pair_weight directed (Function.update c e0.idx x) bm es r s =
      pair_weight directed c bm es r s +
        (if bkey directed (bm e0.src) (bm e0.tgt) = bkey directed r s then x - c e0.idx
         else 0) := by
  unfold pair_weight
  rw [wsum_update _ c hnd h0 x]
  simp [in_pair]

theorem out_weight_update (directed : Bool) (c : Nat → Int) (bm : Nat → Nat)
    {es : List Edge} (hnd : (es.map (fun e => e.idx)).Nodup) {e0 : Edge} (h0 : e0 ∈ es)
    (x : Int) (r : Nat) :
    out_weight directed (Function.update c e0.idx x) bm es r =
      out_weight directed c bm es r + (if bm e0.src = r then x - c e0.idx else 0) +
        (if directed = false ∧ bm e0.tgt = r then x - c e0.idx else 0) := by
  unfold out_weight
  rw [wsum_update _ c hnd h0 x, wsum_update _ c hnd h0 x]
  cases directed <;> simp <;> ring

theorem in_weight_update (directed : Bool) (c : Nat → Int) (bm : Nat → Nat)
    {es : List Edge} (hnd : (es.map (fun e => e.idx)).Nodup) {e0 : Edge} (h0 : e0 ∈ es)
    (x : Int) (r : Nat) :
    in_weight directed (Function.update c e0.idx x) bm es r =
      in_weight directed c bm es r + (if bm e0.tgt = r then x - c e0.idx else 0) +
        (if directed = false ∧ bm e0.src = r then x - c e0.idx else 0) := by
  unfold in_weight
  rw [wsum_update _ c hnd h0 x, wsum_update _ c hnd h0 x]
  cases directed <;> simp <;> ring

theorem pair_weight_nonneg (directed : Bool) {c : Nat → Int} (bm : Nat → Nat)
    {es : List Edge} (h : ∀ e ∈ es, 0 ≤ c e.idx) (r s : Nat) :
    0 ≤ pair_weight directed c bm es r s := wsum_nonneg h

theorem Counted.update_nonneg {st : BlockState} {c : Nat → Int} (i : Nat) {x : Int}
    (hx : 0 ≤ x) (h : ∀ e ∈ st.g.edges, 0 ≤ c e.idx) :
    ∀ e ∈ st.g.edges, 0 ≤ Function.update c i x e.idx := by
  intro e he
  by_cases hi : e.idx = i
  · simp [Function.update, hi, hx]
  · simp [Function.update, hi, h e he]

/-- One removal step keeps the counting invariant: the edge `e0`, counted with
its weight, is no longer counted afterwards. -/
theorem Counted.after_dec_step {st : BlockState} {c : Nat → Int} {bm : Nat → Nat}
    {bs : Nat → Nat → Int} (hnd : (st.g.edges.map (fun e => e.idx)).Nodup)
    (hc : Counted st c bm bs (fun _ => False)) {e0 : Edge} (h0 : e0 ∈ st.g.edges)
    (hw : 0 < c e0.idx) {r s me : Nat} (hor : oriented st.g.directed bm e0 r s)
    (hme : st.bedge e0.idx = some me) :
    Counted (st.dec_step r s me (c e0.idx)) (Function.update c e0.idx 0) bm bs
        (fun _ => False) ∧
      0 ≤ st.mrs me - c e0.idx ∧ st.get_me r s = some me := by
  have hg : (st.dec_step r s me (c e0.idx)).g = st.g := (dec_step_frame st r s me _).1
  obtain ⟨me', hb', hq'⟩ := hc.cache e0 h0 (Or.inl hw)
  have hmm : me' = me := by rw [hme] at hb'; exact (Option.some.inj hb').symm
  subst hmm
  have hkey := hor.key
  have hq : st.get_me r s = some me' := by rw [get_me_congr_key hkey]; exact hq'
  have hmrs : ∀ r' s', (st.dec_step r s me' (c e0.idx)).get_mrs r' s' =
      bs r' s' + pair_weight st.g.directed (Function.update c e0.idx 0) bm st.g.edges r' s' := by
    intro r' s'
    rw [dec_step_get_mrs hc.wf _ hq, pair_weight_update _ _ _ hnd h0, hkey]
    by_cases hk : bkey st.g.directed r' s' = bkey st.g.directed (bm e0.src) (bm e0.tgt)
    · have hk2 : bkey st.g.directed r s = bkey st.g.directed r' s' := by rw [hkey, hk]
      rw [if_pos hk, if_pos hk.symm, get_mrs_congr_key hk2, hc.mrs_eq]
      ring
    · have hk' : ¬ (bkey st.g.directed (bm e0.src) (bm e0.tgt) = bkey st.g.directed r' s') :=
        fun h => hk h.symm
      rw [if_neg hk, if_neg hk', hc.mrs_eq]
      ring
  have hnn := update_nonneg e0.idx (le_refl (0 : Int)) hc.c_nonneg
  have hval : st.mrs me' - c e0.idx = (st.dec_step r s me' (c e0.idx)).get_mrs r s := by
    rw [dec_step_get_mrs hc.wf _ hq, if_pos rfl, get_mrs_of_some hq]
  refine ⟨⟨dec_step_wf hc.wf _ hq, ?_, hc.bs_nonneg, ?_, ?_⟩, ?_, hq⟩
  · rw [hg]; exact hnn
  · rw [hg]; exact hmrs
  · rw [hg]
    intro e he hpos
    rcases hpos with hpos | hF
    swap
    · exact absurd hF id
    have hne : e.idx ≠ e0.idx := by
      intro hi
      rw [hi] at hpos
      simp at hpos
    have hpos' : 0 < c e.idx := by simpa [Function.update, hne] using hpos
    obtain ⟨h, hb, hgm⟩ := hc.cache e he (Or.inl hpos')
    refine ⟨h, by rw [dec_step_bedge]; exact hb, ?_⟩
    rw [dec_step_get_me]
    have : ¬ (bkey st.g.directed (bm e.src) (bm e.tgt) = bkey st.g.directed r s ∧
        st.mrs me' - c e0.idx = 0) := by
      rintro ⟨hk, hz⟩
      have h1 := hmrs (bm e.src) (bm e.tgt)
      rw [dec_step_get_mrs hc.wf _ hq, if_pos hk, get_mrs_of_some hq, hz] at h1
      have h2 : Function.update c e0.idx 0 e.idx ≤
          pair_weight st.g.directed (Function.update c e0.idx 0) bm st.g.edges
            (bm e.src) (bm e.tgt) :=
        le_wsum hnn he (by simp [in_pair])
      have h3 := hc.bs_nonneg (bm e.src) (bm e.tgt)
      omega
    rw [if_neg this]
    exact hgm
  · rw [hval, hmrs]
    have := hc.bs_nonneg r s
    have := pair_weight_nonneg st.g.directed bm hnn r s
    omega

end BlockState

/-! ### Counts under a change of the counted weights on a batch of edges -/

theorem wsum_zero (P : Edge → Bool) (c : Nat → Int) (es : List Edge)
    (h : ∀ e ∈ es, P e = true → c e.idx = 0) : wsum P c es = 0 := by
  induction es with
  | nil => rfl
  | cons e es ih =>
    rw [wsum_cons, ih (fun x hx => h x (List.mem_cons_of_mem _ hx))]
    by_cases hp : P e = true
    · simp [hp, h e (List.mem_cons_self _ _) hp]
    · simp [hp]

/-- If `d` agrees with `c` outside the batch `P`, the two counts differ by the
counts of the batch. -/
theorem wsum_batch (Q P : Edge → Bool) (c d : Nat → Int) (es : List Edge)
    (h1 : ∀ e ∈ es, P e = false → d e.idx = c e.idx) :
    wsum Q d es - wsum (fun e => Q e && P e) d es =
      wsum Q c es - wsum (fun e => Q e && P e) c es := by
  induction es with
  | nil => rfl
  | cons e es ih =>
    have ih' := ih (fun x hx => h1 x (List.mem_cons_of_mem _ hx))
    have he := h1 e (List.mem_cons_self _ _)
    simp only [wsum_cons]
    cases hq : Q e <;> cases hp : P e <;> simp_all <;> omega

/-- The part of a count that lies in a batch all of whose edges agree on `Q`. -/
theorem wsum_and_const (Q P : Edge → Bool) (c : Nat → Int) (es : List Edge) (q : Bool)
    (h : ∀ e ∈ es, P e = true → Q e = q) :
    wsum (fun e => Q e && P e) c es = if q then wsum P c es else 0 := by
  induction es with
  | nil => cases q <;> rfl
  | cons e es ih =>
    have ih' := ih (fun x hx => h x (List.mem_cons_of_mem _ hx))
    have he := h e (List.mem_cons_self _ _)
    simp only [wsum_cons, ih']
    cases hp : P e
    · cases q <;> simp
    · have := he hp
      cases q <;> simp_all

/-- The two end-point counts of a batch of edges that all run between `r` and
`s`, in either order. -/
theorem wsum_ends (A B P : Edge → Bool) (c : Nat → Int) (es : List Edge) (a b : Bool)
    (h : ∀ e ∈ es, P e = true → (A e = a ∧ B e = b) ∨ (A e = b ∧ B e = a)) :
    wsum (fun e => A e && P e) c es + wsum (fun e => B e && P e) c es =
      (if a then wsum P c es else 0) + (if b then wsum P c es else 0) := by
  induction es with
  | nil => cases a <;> cases b <;> rfl
  | cons e es ih =>
    have ih' := ih (fun x hx => h x (List.mem_cons_of_mem _ hx))
    have he := h e (List.mem_cons_self _ _)
    simp only [wsum_cons]
    cases hp : P e
    · simp only [Bool.and_false, Bool.false_eq_true, if_false, zero_add]
      exact ih'
    · rcases he hp with ⟨h1, h2⟩ | ⟨h1, h2⟩ <;>
        cases a <;> cases b <;> simp_all <;> omega

/-- The count of the single edge carrying a given identity. -/
theorem wsum_single (c : Nat → Int) {es : List Edge}
    (hnd : (es.map (fun e => e.idx)).Nodup) {e0 : Edge} (h0 : e0 ∈ es) :
    wsum (fun e => decide (e.idx = e0.idx)) c es = c e0.idx := by
  induction es with
  | nil => cases h0
  | cons e es ih =>
    rw [List.map_cons, List.nodup_cons] at hnd
    rw [wsum_cons]
    rcases List.mem_cons.1 h0 with rfl | hmem
    · have : wsum (fun e => decide (e.idx = e0.idx)) c es = 0 := by
        apply wsum_zero
        intro x hx hp
        exact absurd (List.mem_map.2 ⟨x, hx, by simpa using hp⟩) hnd.1
      simp [this]
    · have hne : e.idx ≠ e0.idx := by
        intro hi
        exact hnd.1 (List.mem_map.2 ⟨e0, hmem, hi.symm⟩)
      simp [hne, ih hnd.2 hmem]

theorem pair_weight_batch (directed : Bool) (c d : Nat → Int) (bm : Nat → Nat)
    (es : List Edge) (P : Edge → Bool) (r s : Nat)
    (h1 : ∀ e ∈ es, P e = false → d e.idx = c e.idx)
    (hkey : ∀ e ∈ es, P e = true →
      bkey directed (bm e.src) (bm e.tgt) = bkey directed r s) (r' s' : Nat) :
    pair_weight directed d bm es r' s' =
      pair_weight directed c bm es r' s' +
        (if bkey directed r s = bkey directed r' s' then wsum P d es - wsum P c es
         else 0) := by
  unfold pair_weight
  have hb := wsum_batch (in_pair directed bm r' s') P c d es h1
  have hq : ∀ e ∈ es, P e = true →
      in_pair directed bm r' s' e = decide (bkey directed r s = bkey directed r' s') := by
    intro e he hp
    simp [in_pair, hkey e he hp]
  rw [wsum_and_const _ P d es _ hq, wsum_and_const _ P c es _ hq] at hb
  by_cases hk : bkey directed r s = bkey directed r' s'
  · simp only [hk, decide_True, if_true] at hb ⊢
    omega
  · simp only [hk, decide_False, if_false] at hb ⊢
    simp only [Bool.false_eq_true, if_false] at hb
    omega

theorem ends_weight_batch (directed : Bool) (c d : Nat → Int) (bm : Nat → Nat)
    (es : List Edge) (P : Edge → Bool) (r s : Nat)
    (h1 : ∀ e ∈ es, P e = false → d e.idx = c e.idx)
    (hor : ∀ e ∈ es, P e = true → BlockState.oriented directed bm e r s) (x : Nat) :
    out_weight directed d bm es x =
        out_weight directed c bm es x +
          (if x = r then wsum P d es - wsum P c es else 0) +
          (if directed = false ∧ x = s then wsum P d es - wsum P c es else 0) ∧
      in_weight directed d bm es x =
        in_weight directed c bm es x +
          (if x = s then wsum P d es - wsum P c es else 0) +
          (if directed = false ∧ x = r then wsum P d es - wsum P c es else 0) := by
  unfold out_weight in_weight
  have hA := wsum_batch (fun e => decide (bm e.src = x)) P c d es h1
  have hB := wsum_batch (fun e => decide (bm e.tgt = x)) P c d es h1
  cases directed with
  | true =>
    have hs : ∀ e ∈ es, P e = true → decide (bm e.src = x) = decide (x = r) := by
      intro e he hp
      rcases hor e he hp with ⟨h, _⟩ | ⟨h, _⟩
      · rw [h]; simp [eq_comm]
      · cases h
    have ht : ∀ e ∈ es, P e = true → decide (bm e.tgt = x) = decide (x = s) := by
      intro e he hp
      rcases hor e he hp with ⟨_, h⟩ | ⟨h, _⟩
      · rw [h]; simp [eq_comm]
      · cases h
    rw [wsum_and_const _ P d es _ hs, wsum_and_const _ P c es _ hs] at hA
    rw [wsum_and_const _ P d es _ ht, wsum_and_const _ P c es _ ht] at hB
    by_cases hr : x = r <;> by_cases hss : x = s <;> simp_all <;> omega
  | false =>
    have hab : ∀ e ∈ es, P e = true →
        (decide (bm e.src = x) = decide (x = r) ∧ decide (bm e.tgt = x) = decide (x = s)) ∨
        (decide (bm e.src = x) = decide (x = s) ∧ decide (bm e.tgt = x) = decide (x = r)) := by
      intro e he hp
      rcases hor e he hp with ⟨h, h'⟩ | ⟨_, h, h'⟩
      · left; rw [h, h']; simp [eq_comm]
      · right; rw [h, h']; simp [eq_comm]
    have hd := wsum_ends _ _ P d es _ _ hab
    have hc := wsum_ends _ _ P c es _ _ hab
    beta_reduce at hA hB hd hc
    simp only [decide_eq_true_eq] at hd hc
    simp only [Bool.false_eq_true, if_false, true_and]
    constructor <;> split_ifs at hd hc ⊢ <;> omega

namespace BlockState

theorem IndexWF.wf_congr {st st' : BlockState} (wf : IndexWF st) (hg : st'.g = st.g)
    (hbg : st'.bg = st.bg) (hem : st'.emat = st.emat) : IndexWF st' := by
  have hget : ∀ r s, st'.get_me r s = st.get_me r s := by
    intro r s; simp [get_me, hg, hem]
  refine ⟨by rw [hbg]; exact wf.bg_nodup, ?_, ?_⟩
  · intro be hbe
    rw [hbg] at hbe
    rw [hget]; exact wf.bg_index be hbe
  · intro r s h hq
    rw [hget] at hq
    rw [hbg, hg]; exact wf.index_bg r s h hq

theorem Counted.weaken {st : BlockState} {c : Nat → Int} {bm : Nat → Nat}
    {bs : Nat → Nat → Int} {K K' : Nat → Prop} (hc : Counted st c bm bs K')
    (h : ∀ i, K i → K' i) : Counted st c bm bs K :=
  ⟨hc.wf, hc.c_nonneg, hc.bs_nonneg, hc.mrs_eq, fun e he hk =>
    hc.cache e he (hk.elim Or.inl (fun hk' => Or.inr (h _ hk')))⟩

/-- A batch of counted edges of one block pair is removed from the count by a
single decrement of the aggregate weight of the pair. -/
theorem Counted.dec_batch {st : BlockState} {c d : Nat → Int} {bm : Nat → Nat}
    {bs : Nat → Nat → Int} (hc : Counted st c bm bs (fun _ => False))
    (P : Edge → Bool) {r s me : Nat}
    (hkey : ∀ e ∈ st.g.edges, P e = true →
      bkey st.g.directed (bm e.src) (bm e.tgt) = bkey st.g.directed r s)
    (hq : st.get_me r s = some me)
    (h0 : ∀ e ∈ st.g.edges, P e = true → d e.idx = 0)
    (h1 : ∀ e ∈ st.g.edges, P e = false → d e.idx = c e.idx) :
    Counted (st.dec_step r s me (wsum P c st.g.edges)) d bm bs (fun _ => False) ∧
      0 ≤ st.mrs me - wsum P c st.g.edges := by
  have hg : (st.dec_step r s me (wsum P c st.g.edges)).g = st.g :=
    (dec_step_frame st r s me _).1
  have hdz : wsum P d st.g.edges = 0 := wsum_zero P d _ h0
  have hnn : ∀ e ∈ st.g.edges, 0 ≤ d e.idx := by
    intro e he
    cases hp : P e
    · rw [h1 e he hp]; exact hc.c_nonneg e he
    · rw [h0 e he hp]
  have hmrs : ∀ r' s', (st.dec_step r s me (wsum P c st.g.edges)).get_mrs r' s' =
      bs r' s' + pair_weight st.g.directed d bm st.g.edges r' s' := by
    intro r' s'
    rw [dec_step_get_mrs hc.wf _ hq, pair_weight_batch _ c d bm _ P r s h1 hkey, hdz]
    by_cases hk : bkey st.g.directed r' s' = bkey st.g.directed r s
    · rw [if_pos hk, if_pos hk.symm, get_mrs_congr_key hk.symm, hc.mrs_eq]
      ring
    · have hk' : ¬ (bkey st.g.directed r s = bkey st.g.directed r' s') :=
        fun h => hk h.symm
      rw [if_neg hk, if_neg hk', hc.mrs_eq]
      ring
  have hval : st.mrs me - wsum P c st.g.edges =
      (st.dec_step r s me (wsum P c st.g.edges)).get_mrs r s := by
    rw [dec_step_get_mrs hc.wf _ hq, if_pos rfl, get_mrs_of_some hq]
  refine ⟨⟨dec_step_wf hc.wf _ hq, ?_, hc.bs_nonneg, ?_, ?_⟩, ?_⟩
  · rw [hg]; exact hnn
  · rw [hg]; exact hmrs
  · rw [hg]
    intro e he hpos
    rcases hpos with hpos | hF
    swap
    · exact absurd hF id
    have hpf : P e = false := by
      cases hp : P e
      · rfl
      · rw [h0 e he hp] at hpos; omega
    have hpos' : 0 < c e.idx := by rw [← h1 e he hpf]; exact hpos
    obtain ⟨h, hb, hgm⟩ := hc.cache e he (Or.inl hpos')
    refine ⟨h, by rw [dec_step_bedge]; exact hb, ?_⟩
    rw [dec_step_get_me]
    have : ¬ (bkey st.g.directed (bm e.src) (bm e.tgt) = bkey st.g.directed r s ∧
        st.mrs me - wsum P c st.g.edges = 0) := by
      rintro ⟨hk, hz⟩
      have h1' := hmrs (bm e.src) (bm e.tgt)
      rw [dec_step_get_mrs hc.wf _ hq, if_pos hk, get_mrs_of_some hq, hz] at h1'
      have h2 : d e.idx ≤
          pair_weight st.g.directed d bm st.g.edges (bm e.src) (bm e.tgt) :=
        le_wsum hnn he (by simp [in_pair])
      have h3 := hc.bs_nonneg (bm e.src) (bm e.tgt)
      omega
    rw [if_neg this]
    exact hgm
  · rw [hval, hmrs]
    have := hc.bs_nonneg r s
    have := pair_weight_nonneg st.g.directed bm hnn r s
    omega

/-- The degree sums follow a change of the counted weights on a batch of edges
running between `r` and `s` when `mrp[r]` and `mrm[s]` change by the same
amount as the count of the batch. -/
theorem DegCounted.batch {st st' : BlockState} {c d : Nat → Int} {bm : Nat → Nat}
    {bp bq : Nat → Int} (hd : DegCounted st c bm bp bq) (hg : st'.g = st.g)
    (hsh : st'.mrm_is_mrp = st.mrm_is_mrp) (P : Edge → Bool) (r s : Nat)
    (hor : ∀ e ∈ st.g.edges, P e = true → oriented st.g.directed bm e r s)
    (h1 : ∀ e ∈ st.g.edges, P e = false → d e.idx = c e.idx) (D : Int)
    (hD : D = wsum P d st.g.edges - wsum P c st.g.edges)
    (hmrp : ∀ x, st'.mrp x = st.mrp x + (if x = r then D else 0) +
      (if st.mrm_is_mrp = true ∧ x = s then D else 0))
    (hmrm : ∀ x, st'.get_mrm x = st.get_mrm x + (if x = s then D else 0) +
      (if st.mrm_is_mrp = true ∧ x = r then D else 0)) :
    DegCounted st' d bm bp bq := by
  have hsh' := hd.shared
  refine ⟨by rw [hsh, hg]; exact hd.shared, ?_, ?_⟩
  · intro x
    rw [hg, hmrp, hd.mrp_eq, (ends_weight_batch _ c d bm _ P r s h1 hor x).1, ← hD, hsh']
    cases st.g.directed <;> simp <;> ring
  · intro x
    rw [hg, hmrm, hd.mrm_eq, (ends_weight_batch _ c d bm _ P r s h1 hor x).2, ← hD, hsh']
    cases st.g.directed <;> simp <;> ring

theorem SparseX.sparse_dec_step {st : BlockState} {X : Nat × Nat → Prop} (wf : IndexWF st)
    (hsp : SparseX st X) {r s me : Nat} (ew : Int) (hq : st.get_me r s = some me)
    (hnn : 0 ≤ st.mrs me - ew) : SparseX (st.dec_step r s me ew) X := by
  intro r' s' h hq'
  rw [(dec_step_frame st r s me ew).1]
  rw [dec_step_get_me] at hq'
  rw [dec_step_get_mrs wf _ hq]
  by_cases hk : bkey st.g.directed r' s' = bkey st.g.directed r s
  · rw [if_pos hk]
    by_cases hz : st.mrs me - ew = 0
    · simp [hk, hz] at hq'
    · left
      rw [get_mrs_of_some hq]
      omega
  · rw [if_neg hk]
    simp only [hk, false_and, if_false] at hq'
    exact hsp r' s' h hq'

theorem descr.to_oriented {directed : Bool} {e e0 : Edge} (h : descr directed e e0)
    (bm : Nat → Nat) : oriented directed bm e0 (bm e.src) (bm e.tgt) := by
  rcases h.2 with ⟨h1, h2⟩ | ⟨hd, h1, h2⟩
  · left; rw [h1, h2]; exact ⟨rfl, rfl⟩
  · right; rw [h1, h2]; exact ⟨hd, rfl, rfl⟩

theorem descr.to_oriented_rev {directed : Bool} {e e0 : Edge} (h : descr directed e e0)
    (hd : directed = false) (bm : Nat → Nat) :
    oriented directed bm e0 (bm e.tgt) (bm e.src) := by
  rcases h.2 with ⟨h1, h2⟩ | ⟨_, h1, h2⟩
  · right; rw [h1, h2]; exact ⟨hd, rfl, rfl⟩
  · left; rw [h1, h2]; exact ⟨rfl, rfl⟩

theorem zero_on_nil (c : Nat → Int) : zero_on [] c = c := by
  funext i; simp [zero_on]

theorem zero_on_cons (i : Nat) (L : List Nat) (c : Nat → Int) :
    zero_on L (Function.update c i 0) = zero_on (i :: L) c := by
  funext j
  by_cases h1 : j = i <;> by_cases h2 : j ∈ L <;> simp [zero_on, Function.update, h1, h2]

theorem set_on_nil (w c : Nat → Int) : set_on w [] c = c := by
  funext i; simp [set_on]

theorem set_on_cons (w : Nat → Int) (i : Nat) (L : List Nat) (c : Nat → Int) :
    set_on w L (Function.update c i (w i)) = set_on w (i :: L) c := by
  funext j
  by_cases h1 : j = i <;> by_cases h2 : j ∈ L <;> simp [set_on, Function.update, h1, h2]

theorem Trans.step_refl (st : BlockState) (c : Nat → Int) (bm : Nat → Nat) : Trans st st c c bm :=
  ⟨same_frame.frame_refl st, fun _ _ h => h⟩

theorem Trans.step_trans {a b c : BlockState} {ca cb cc : Nat → Int} {bm : Nat → Nat}
    (h1 : Trans a b ca cb bm) (h2 : Trans b c cb cc bm) : Trans a c ca cc bm :=
  ⟨h1.frame.frame_trans h2.frame, fun bp bq h => h2.deg bp bq (h1.deg bp bq h)⟩

/-- One removal step on a single counted edge keeps the degree sums. -/
theorem Trans.of_dec_step {st : BlockState} {c : Nat → Int} {bm : Nat → Nat}
    (hnd : (st.g.edges.map (fun e => e.idx)).Nodup) {e0 : Edge} (h0 : e0 ∈ st.g.edges)
    {r s : Nat} (me : Nat) (hor : oriented st.g.directed bm e0 r s) :
    Trans st (st.dec_step r s me (c e0.idx)) c (Function.update c e0.idx 0) bm := by
  refine ⟨dec_step_frame _ _ _ _ _, ?_⟩
  intro bp bq hd
  have hfr := dec_step_frame st r s me (c e0.idx)
  refine hd.batch hfr.1 hfr.2.2.2.2.2.2.2.1 (fun e => decide (e.idx = e0.idx)) r s ?_ ?_
    (- c e0.idx) ?_ ?_ ?_
  · intro e he hp
    have : e = e0 := eq_of_idx_eq hnd he h0 (by simpa using hp)
    rw [this]; exact hor
  · intro e he hp
    have : e.idx ≠ e0.idx := by simpa using hp
    simp [Function.update, this]
  · rw [wsum_single _ hnd h0, wsum_single _ hnd h0]
    simp
  · intro x
    rw [dec_step_mrp]
    split_ifs <;> omega
  · intro x
    rw [dec_step_get_mrm]
    split_ifs <;> omega

/-- The first loop of `remove_vertex` on a list of descriptors of edges
leaving `v`: it succeeds, stops counting the processed edges, and accumulates
the weight of the undirected self-loop descriptors. -/
theorem remove_out_loop_spec (v r : Nat) (bm : Nat → Nat) (bs : Nat → Nat → Int)
    (hbv : bm v = r) :
    ∀ (es : List Edge) (st : BlockState) (c : Nat → Int) (sw : Int),
      (st.g.edges.map (fun e => e.idx)).Nodup →
      Counted st c bm bs (fun _ => False) →
      st.b = bm →
      (∀ e ∈ es, e.src = v ∧ ∃ e0 ∈ st.g.edges, descr st.g.directed e e0) →
      ((es.filter (out_proc st.g.directed v)).map (fun e => e.idx)).Nodup →
      (∀ e ∈ es, out_proc st.g.directed v e = true →
        0 < c e.idx ∧ c e.idx = st.eweight e.idx) →
      ∃ st', remove_out_loop v r (fun _ => false) es st sw =
          .ok (st', sw + ((es.filter (fun e => !out_proc st.g.directed v e)).map
            (fun e => st.eweight e.idx)).sum) ∧
        Counted st'
          (zero_on ((es.filter (out_proc st.g.directed v)).map (fun e => e.idx)) c) bm bs
          (fun _ => False) ∧
        Trans st st' c
          (zero_on ((es.filter (out_proc st.g.directed v)).map (fun e => e.idx)) c) bm ∧
        (∀ X, SparseX st X → SparseX st' X) := by
  intro es
  induction es with
  | nil =>
    intro st c sw _ hc _ _ _ _
    refine ⟨st, by simp [remove_out_loop], ?_, ?_, fun _ h => h⟩
    · simpa [zero_on_nil] using hc
    · simpa [zero_on_nil] using Trans.step_refl st c bm
  | cons e es ih =>
    intro st c sw hnd hc hb hit hndp hce
    obtain ⟨hsrc, e0, h0, hde⟩ := hit e (List.mem_cons_self _ _)
    have hit' : ∀ x ∈ es, x.src = v ∧ ∃ e0 ∈ st.g.edges, descr st.g.directed x e0 :=
      fun x hx => hit x (List.mem_cons_of_mem _ hx)
    by_cases hp : out_proc st.g.directed v e = true
    · -- a processed item
      have hnself : ¬ (e.tgt = v ∧ st.g.directed = false) := by
        intro h
        simp [out_proc, h.1, h.2] at hp
      obtain ⟨hpos, hew⟩ := hce e (List.mem_cons_self _ _) hp
      rw [List.filter_cons_of_pos hp, List.map_cons, List.nodup_cons] at hndp
      have hor : oriented st.g.directed bm e0 r (st.b e.tgt) := by
        have := hde.to_oriented bm
        rw [hsrc, hbv] at this
        rw [hb]; exact this
      have hi : e0.idx = e.idx := hde.1
      rw [← hi] at hpos hew
      obtain ⟨me, hbe, _⟩ := hc.cache e0 h0 (Or.inl hpos)
      obtain ⟨hc1, hnn, hq⟩ := hc.after_dec_step hnd h0 hpos hor hbe
      have ht1 := Trans.of_dec_step (c := c) hnd h0 me hor
      have hfr := dec_step_frame st r (st.b e.tgt) me (c e0.idx)
      have hg1 : (st.dec_step r (st.b e.tgt) me (c e0.idx)).g = st.g := hfr.1
      have hew1 : (st.dec_step r (st.b e.tgt) me (c e0.idx)).eweight = st.eweight := hfr.2.1
      have hb1 : (st.dec_step r (st.b e.tgt) me (c e0.idx)).b = bm := by
        rw [hfr.2.2.2.1]; exact hb
      obtain ⟨st', hrun, hc', ht', hs'⟩ := ih (st.dec_step r (st.b e.tgt) me (c e0.idx))
        (Function.update c e0.idx 0) sw (by rw [hg1]; exact hnd) hc1 hb1
        (by rw [hg1]; exact hit') (by rw [hg1]; exact hndp.2)
        (by
          rw [hg1, hew1]
          intro x hx hpx
          have hne : x.idx ≠ e0.idx := by
            intro hxi
            apply hndp.1
            rw [← hi, ← hxi]
            exact List.mem_map.2 ⟨x, List.mem_filter.2 ⟨hx, hpx⟩, rfl⟩
          have := hce x (List.mem_cons_of_mem _ hx) hpx
          simpa [Function.update, hne] using this)
      rw [hg1, hew1] at hrun
      have hz : zero_on ((es.filter (out_proc st.g.directed v)).map (fun e => e.idx))
          (Function.update c e0.idx 0) =
          zero_on (e.idx :: (es.filter (out_proc st.g.directed v)).map (fun e => e.idx)) c := by
        rw [← hi]; exact zero_on_cons _ _ _
      rw [hg1, hz] at hc' ht'
      refine ⟨st', ?_, ?_, ?_, ?_⟩
      · have hfil : (e :: es).filter (fun e => !out_proc st.g.directed v e) =
            es.filter (fun e => !out_proc st.g.directed v e) := by
          simp [List.filter_cons, hp]
        rw [hfil, ← hrun]
        have hlt : ¬ (st.mrs me + -st.eweight e.idx < 0) := by
          rw [← hi, ← hew]; omega
        simp only [remove_out_loop, Bool.false_eq_true, if_false, hnself, hi ▸ hbe]
        simp only [add_mrs, Function.update_same, hlt, if_false]
        rw [← hi, ← hew]
        rfl
      · rw [List.filter_cons_of_pos hp, List.map_cons]; exact hc'
      · rw [List.filter_cons_of_pos hp, List.map_cons]
        exact ht1.step_trans ht'
      · intro X hX
        exact hs' X (SparseX.sparse_dec_step hc.wf hX _ hq hnn)
    · -- a self-loop descriptor of an undirected graph
      have hself : e.tgt = v ∧ st.g.directed = false := by
        simp only [out_proc, Bool.not_eq_true', Bool.not_eq_false', Bool.and_eq_true,
          decide_eq_true_eq, Bool.not_eq_true] at hp
        simpa using hp
      have hpf : out_proc st.g.directed v e = false := by simpa using hp
      rw [List.filter_cons_of_neg hp] at hndp
      obtain ⟨st', hrun, hc', ht', hs'⟩ := ih st c (sw + st.eweight e.idx) hnd hc hb hit' hndp
        (fun x hx hpx => hce x (List.mem_cons_of_mem _ hx) hpx)
      refine ⟨st', ?_, ?_, ?_, hs'⟩
      · have hfil : (e :: es).filter (fun e => !out_proc st.g.directed v e) =
            e :: es.filter (fun e => !out_proc st.g.directed v e) := by
          simp [List.filter_cons, hpf]
        rw [hfil, List.map_cons, List.sum_cons, ← add_assoc, ← hrun]
        simp [remove_out_loop, hself]
      · rw [List.filter_cons_of_neg hp]; exact hc'
      · rw [List.filter_cons_of_neg hp]; exact ht'

/-! ### Transport of the invariants -/

theorem get_me_of_fields {st st' : BlockState} (hg : st'.g = st.g) (hem : st'.emat = st.emat)
    (r s : Nat) : st'.get_me r s = st.get_me r s := by
  simp [get_me, hg, hem]

theorem get_mrs_of_fields {st st' : BlockState} (hg : st'.g = st.g) (hem : st'.emat = st.emat)
    (hmrs : st'.mrs = st.mrs) (r s : Nat) : st'.get_mrs r s = st.get_mrs r s := by
  simp [get_mrs, get_me_of_fields hg hem, hmrs]

/-- The counting invariant only reads the graph, the index, the block graph,
`mrs` and the per-edge cache. -/
theorem Counted.counted_of_fields {st st' : BlockState} {c : Nat → Int} {bm : Nat → Nat}
    {bs : Nat → Nat → Int} {K : Nat → Prop} (hc : Counted st c bm bs K)
    (hg : st'.g = st.g) (hem : st'.emat = st.emat) (hbg : st'.bg = st.bg)
    (hmrs : st'.mrs = st.mrs) (hbe : st'.bedge = st.bedge) : Counted st' c bm bs K := by
  refine ⟨hc.wf.wf_congr hg hbg hem, by rw [hg]; exact hc.c_nonneg, hc.bs_nonneg, ?_, ?_⟩
  · intro r s
    rw [get_mrs_of_fields hg hem hmrs, hg]; exact hc.mrs_eq r s
  · intro e he hk
    rw [hg] at he
    obtain ⟨me, h1, h2⟩ := hc.cache e he hk
    exact ⟨me, by rw [hbe]; exact h1, by rw [get_me_of_fields hg hem]; exact h2⟩

/-- The counting invariant only reads the counted weights at the identities of
the graph edges. -/
theorem Counted.counted_congr {st : BlockState} {c d : Nat → Int} {bm : Nat → Nat}
    {bs : Nat → Nat → Int} {K : Nat → Prop} (hc : Counted st c bm bs K)
    (h : ∀ e ∈ st.g.edges, d e.idx = c e.idx) : Counted st d bm bs K := by
  refine ⟨hc.wf, fun e he => by rw [h e he]; exact hc.c_nonneg e he, hc.bs_nonneg, ?_, ?_⟩
  · intro r s
    rw [hc.mrs_eq]
    congr 1
    exact (wsum_congr (fun e he _ => h e he)).symm
  · intro e he hk
    rw [h e he] at hk
    exact hc.cache e he hk

theorem DegCounted.deg_of_fields {st st' : BlockState} {c : Nat → Int} {bm : Nat → Nat}
    {bp bq : Nat → Int} (hd : DegCounted st c bm bp bq) (hg : st'.g = st.g)
    (hmrp : st'.mrp = st.mrp) (hmrm : st'.mrm = st.mrm)
    (hsh : st'.mrm_is_mrp = st.mrm_is_mrp) : DegCounted st' c bm bp bq := by
  refine ⟨by rw [hsh, hg]; exact hd.shared, ?_, ?_⟩
  · intro x; rw [hmrp, hg]; exact hd.mrp_eq x
  · intro x
    have : st'.get_mrm x = st.get_mrm x := by simp [get_mrm, hmrp, hmrm, hsh]
    rw [this, hg]; exact hd.mrm_eq x

theorem DegCounted.deg_congr {st : BlockState} {c d : Nat → Int} {bm : Nat → Nat}
    {bp bq : Nat → Int} (hd : DegCounted st c bm bp bq)
    (h : ∀ e ∈ st.g.edges, d e.idx = c e.idx) : DegCounted st d bm bp bq := by
  have hw : ∀ Q : Edge → Bool, wsum Q d st.g.edges = wsum Q c st.g.edges :=
    fun Q => wsum_congr (fun e he _ => h e he)
  refine ⟨hd.shared, ?_, ?_⟩
  · intro x; rw [hd.mrp_eq]; simp only [out_weight, hw]
  · intro x; rw [hd.mrm_eq]; simp only [in_weight, hw]

theorem Trans.step_congr {st st' : BlockState} {c d d' : Nat → Int} {bm : Nat → Nat}
    (ht : Trans st st' c d bm) (h : ∀ e ∈ st.g.edges, d' e.idx = d e.idx) :
    Trans st st' c d' bm :=
  ⟨ht.frame, fun bp bq hd => (ht.deg bp bq hd).deg_congr (by rw [ht.frame.1]; exact h)⟩

/-- Some edge of a batch with positive count is counted positively. -/
theorem exists_pos_of_wsum_pos {P : Edge → Bool} {c : Nat → Int} {es : List Edge}
    (h : 0 < wsum P c es) : ∃ e ∈ es, P e = true ∧ 0 < c e.idx := by
  induction es with
  | nil => simp at h
  | cons e es ih =>
    rw [wsum_cons] at h
    by_cases hp : P e = true ∧ 0 < c e.idx
    · exact ⟨e, List.mem_cons_self _ _, hp.1, hp.2⟩
    · have : 0 < wsum P c es := by
        by_cases hp1 : P e = true
        · have : ¬ 0 < c e.idx := fun h' => hp ⟨hp1, h'⟩
          simp only [hp1, if_true] at h
          omega
        · simpa [hp1] using h
      obtain ⟨x, hx, h1, h2⟩ := ih this
      exact ⟨x, List.mem_cons_of_mem _ hx, h1, h2⟩

/-- The block `if (self_weight > 0)` of `remove_vertex`, entered with twice the
counted weight of the batch `P` of self-loops of `v`: it succeeds and the
batch is no longer counted. -/
theorem remove_self_spec {st : BlockState} {c d : Nat → Int} {bm : Nat → Nat}
    {bs : Nat → Nat → Int} (hc : Counted st c bm bs (fun _ => False)) (v : Nat)
    (P : Edge → Bool) (hP : ∀ e ∈ st.g.edges, P e = true → e.src = v ∧ e.tgt = v)
    (h0 : ∀ e ∈ st.g.edges, P e = true → d e.idx = 0)
    (h1 : ∀ e ∈ st.g.edges, P e = false → d e.idx = c e.idx) (sw : Int)
    (hsw : sw = 2 * wsum P c st.g.edges) :
    ∃ st', remove_self (bm v) st sw = .ok st' ∧ Counted st' d bm bs (fun _ => False) ∧
      Trans st st' c d bm ∧ (∀ X, SparseX st X → SparseX st' X) := by
  have hT : 0 ≤ wsum P c st.g.edges := wsum_nonneg hc.c_nonneg
  by_cases hpos : 0 < wsum P c st.g.edges
  · obtain ⟨e, he, hpe, hce⟩ := exists_pos_of_wsum_pos hpos
    obtain ⟨me, _, hq⟩ := hc.cache e he (Or.inl hce)
    rw [(hP e he hpe).1, (hP e he hpe).2] at hq
    have hkey : ∀ e ∈ st.g.edges, P e = true →
        bkey st.g.directed (bm e.src) (bm e.tgt) = bkey st.g.directed (bm v) (bm v) := by
      intro x hx hpx
      rw [(hP x hx hpx).1, (hP x hx hpx).2]
    obtain ⟨hc', hnn⟩ := hc.dec_batch P hkey hq h0 h1
    have hfr := dec_step_frame st (bm v) (bm v) me (wsum P c st.g.edges)
    have hdiv : sw / 2 = wsum P c st.g.edges := by omega
    refine ⟨st.dec_step (bm v) (bm v) me (wsum P c st.g.edges), ?_, hc', ⟨hfr, ?_⟩, ?_⟩
    · have h2 : sw > 0 := by omega
      have h3 : ¬ (sw % 2 ≠ 0) := by omega
      have h4 : ¬ (st.mrs me + -wsum P c st.g.edges < 0) := by omega
      have h5 : (((st.add_mrs me (-wsum P c st.g.edges)).add_mrp (bm v)
          (-wsum P c st.g.edges)).add_mrm (bm v) (-wsum P c st.g.edges)).mrs me =
          st.mrs me + -wsum P c st.g.edges := by
        simp only [add_mrs, add_mrp, add_mrm]
        split_ifs <;> simp
      simp only [remove_self, h2, h3, if_true, if_false, hq, hdiv, h5, h4]
      simp only [dec_step, h5]
    · intro bp bq hd
      refine hd.batch hfr.1 hfr.2.2.2.2.2.2.2.1 P (bm v) (bm v) ?_ h1
        (- wsum P c st.g.edges) ?_ ?_ ?_
      · intro x hx hpx
        left
        rw [(hP x hx hpx).1, (hP x hx hpx).2]
        exact ⟨rfl, rfl⟩
      · rw [wsum_zero P d _ h0]; ring
      · intro x
        rw [dec_step_mrp]
        split_ifs <;> omega
      · intro x
        rw [dec_step_get_mrm]
        split_ifs <;> omega
    · intro X hX
      exact SparseX.sparse_dec_step hc.wf hX _ hq hnn
  · have hz : wsum P c st.g.edges = 0 := by omega
    have hdc : ∀ e ∈ st.g.edges, d e.idx = c e.idx := by
      intro e he
      cases hp : P e
      · exact h1 e he hp
      · rw [h0 e he hp]
        have h2 := le_wsum hc.c_nonneg he hp
        have h3 := hc.c_nonneg e he
        omega
    refine ⟨st, ?_, hc.counted_congr hdc, (Trans.step_refl st c bm).step_congr hdc, fun _ h => h⟩
    have : ¬ (sw > 0) := by omega
    simp [remove_self, this]

/-- The second loop of `remove_vertex` on a list of descriptors of edges
entering `v`: it succeeds and stops counting the processed edges. -/
theorem remove_in_loop_spec (v r : Nat) (bm : Nat → Nat) (bs : Nat → Nat → Int)
    (hbv : bm v = r) :
    ∀ (es : List Edge) (st : BlockState) (c : Nat → Int),
      (st.g.edges.map (fun e => e.idx)).Nodup →
      Counted st c bm bs (fun _ => False) →
      st.b = bm →
      (∀ e ∈ es, e.tgt = v ∧ ∃ e0 ∈ st.g.edges, descr st.g.directed e e0) →
      ((es.filter (in_proc v)).map (fun e => e.idx)).Nodup →
      (∀ e ∈ es, in_proc v e = true → 0 < c e.idx ∧ c e.idx = st.eweight e.idx) →
      ∃ st', remove_in_loop v r (fun _ => false) es st = .ok st' ∧
        Counted st' (zero_on ((es.filter (in_proc v)).map (fun e => e.idx)) c) bm bs
          (fun _ => False) ∧
        Trans st st' c (zero_on ((es.filter (in_proc v)).map (fun e => e.idx)) c) bm ∧
        (∀ X, SparseX st X → SparseX st' X) := by
  intro es
  induction es with
  | nil =>
    intro st c _ hc _ _ _ _
    refine ⟨st, by simp [remove_in_loop], ?_, ?_, fun _ h => h⟩
    · simpa [zero_on_nil] using hc
    · simpa [zero_on_nil] using Trans.step_refl st c bm
  | cons e es ih =>
    intro st c hnd hc hb hit hndp hce
    obtain ⟨htgt, e0, h0, hde⟩ := hit e (List.mem_cons_self _ _)
    have hit' : ∀ x ∈ es, x.tgt = v ∧ ∃ e0 ∈ st.g.edges, descr st.g.directed x e0 :=
      fun x hx => hit x (List.mem_cons_of_mem _ hx)
    by_cases hp : in_proc v e = true
    · have hnself : ¬ (e.src = v) := by simpa [in_proc] using hp
      obtain ⟨hpos, hew⟩ := hce e (List.mem_cons_self _ _) hp
      rw [List.filter_cons_of_pos hp, List.map_cons, List.nodup_cons] at hndp
      have hor : oriented st.g.directed bm e0 (st.b e.src) r := by
        have := hde.to_oriented bm
        rw [htgt, hbv] at this
        rw [hb]; exact this
      have hi : e0.idx = e.idx := hde.1
      rw [← hi] at hpos hew
      obtain ⟨me, hbe, _⟩ := hc.cache e0 h0 (Or.inl hpos)
      obtain ⟨hc1, hnn, hq⟩ := hc.after_dec_step hnd h0 hpos hor hbe
      have ht1 := Trans.of_dec_step (c := c) hnd h0 me hor
      have hfr := dec_step_frame st (st.b e.src) r me (c e0.idx)
      have hg1 : (st.dec_step (st.b e.src) r me (c e0.idx)).g = st.g := hfr.1
      have hew1 : (st.dec_step (st.b e.src) r me (c e0.idx)).eweight = st.eweight := hfr.2.1
      have hb1 : (st.dec_step (st.b e.src) r me (c e0.idx)).b = bm := by
        rw [hfr.2.2.2.1]; exact hb
      obtain ⟨st', hrun, hc', ht', hs'⟩ := ih (st.dec_step (st.b e.src) r me (c e0.idx))
        (Function.update c e0.idx 0) (by rw [hg1]; exact hnd) hc1 hb1
        (by rw [hg1]; exact hit') hndp.2
        (by
          rw [hew1]
          intro x hx hpx
          have hne : x.idx ≠ e0.idx := by
            intro hxi
            apply hndp.1
            rw [← hi, ← hxi]
            exact List.mem_map.2 ⟨x, List.mem_filter.2 ⟨hx, hpx⟩, rfl⟩
          have := hce x (List.mem_cons_of_mem _ hx) hpx
          simpa [Function.update, hne] using this)
      have hz : zero_on ((es.filter (in_proc v)).map (fun e => e.idx))
          (Function.update c e0.idx 0) =
          zero_on (e.idx :: (es.filter (in_proc v)).map (fun e => e.idx)) c := by
        rw [← hi]; exact zero_on_cons _ _ _
      rw [hz] at hc' ht'
      refine ⟨st', ?_, ?_, ?_, ?_⟩
      · rw [← hrun]
        simp only [remove_in_loop, Bool.false_eq_true, if_false, hnself, hi ▸ hbe]
        rw [← hi, ← hew]
        rfl
      · rw [List.filter_cons_of_pos hp, List.map_cons]; exact hc'
      · rw [List.filter_cons_of_pos hp, List.map_cons]
        exact ht1.step_trans ht'
      · intro X hX
        exact hs' X (SparseX.sparse_dec_step hc.wf hX _ hq hnn)
    · have hself : e.src = v := by simpa [in_proc] using hp
      rw [List.filter_cons_of_neg hp] at hndp
      obtain ⟨st', hrun, hc', ht', hs'⟩ := ih st c hnd hc hb hit' hndp
        (fun x hx hpx => hce x (List.mem_cons_of_mem _ hx) hpx)
      refine ⟨st', ?_, ?_, ?_, hs'⟩
      · rw [← hrun]
        simp [remove_in_loop, hself]
      · rw [List.filter_cons_of_neg hp]; exact hc'
      · rw [List.filter_cons_of_neg hp]; exact ht'

end BlockState

/-! ### The edge ranges of a vertex -/

theorem sum_filter_eq_wsum (Q : Edge → Bool) (w : Nat → Int) (es : List Edge) :
    ((es.filter Q).map (fun e => w e.idx)).sum = wsum Q w es := by
  induction es with
  | nil => rfl
  | cons e es ih =>
    rw [wsum_cons, ← ih]
    cases hq : Q e <;> simp [List.filter_cons, hq]

theorem mem_filter_idx {es : List Edge} (hnd : (es.map (fun e => e.idx)).Nodup)
    (Q : Edge → Bool) {e : Edge} (he : e ∈ es) :
    e.idx ∈ (es.filter Q).map (fun e => e.idx) ↔ Q e = true := by
  constructor
  · intro h
    obtain ⟨x, hx, hxi⟩ := List.mem_map.1 h
    rw [List.mem_filter] at hx
    have : x = e := eq_of_idx_eq hnd hx.1 he hxi
    rw [← this]; exact hx.2
  · intro h
    exact List.mem_map.2 ⟨e, List.mem_filter.2 ⟨he, h⟩, rfl⟩

theorem nodup_filter_idx {es : List Edge} (hnd : (es.map (fun e => e.idx)).Nodup)
    (Q : Edge → Bool) : ((es.filter Q).map (fun e => e.idx)).Nodup :=
  hnd.sublist ((List.filter_sublist _).map _)

theorem nodup_filter_append {es : List Edge} (hnd : (es.map (fun e => e.idx)).Nodup)
    (Q1 Q2 : Edge → Bool) (hdis : ∀ e ∈ es, Q1 e = true → Q2 e = true → False) :
    ((es.filter Q1).map (fun e => e.idx) ++ (es.filter Q2).map (fun e => e.idx)).Nodup := by
  rw [List.nodup_append]
  refine ⟨nodup_filter_idx hnd Q1, nodup_filter_idx hnd Q2, ?_⟩
  intro a h1 h2
  obtain ⟨x, hx, rfl⟩ := List.mem_map.1 h1
  rw [List.mem_filter] at hx
  have := (mem_filter_idx hnd Q2 hx.1).1 h2
  exact hdis x hx.1 hx.2 this

namespace BlockState

theorem zero_edges_apply {es : List Edge} (hnd : (es.map (fun e => e.idx)).Nodup)
    (Q : Edge → Bool) (c : Nat → Int) {e : Edge} (he : e ∈ es) :
    zero_edges es Q c e.idx = if Q e then 0 else c e.idx := by
  unfold zero_edges zero_on
  by_cases hq : Q e = true
  · simp only [(mem_filter_idx hnd Q he).2 hq, if_true, hq]
  · have : ¬ (e.idx ∈ (es.filter Q).map (fun e => e.idx)) :=
      fun h => hq ((mem_filter_idx hnd Q he).1 h)
    simp [this, hq]

theorem set_edges_apply (w : Nat → Int) {es : List Edge}
    (hnd : (es.map (fun e => e.idx)).Nodup)
    (Q : Edge → Bool) (c : Nat → Int) {e : Edge} (he : e ∈ es) :
    set_edges w es Q c e.idx = if Q e then w e.idx else c e.idx := by
  unfold set_edges set_on
  by_cases hq : Q e = true
  · simp only [(mem_filter_idx hnd Q he).2 hq, if_true, hq]
  · have : ¬ (e.idx ∈ (es.filter Q).map (fun e => e.idx)) :=
      fun h => hq ((mem_filter_idx hnd Q he).1 h)
    simp [this, hq]

theorem out_items (g : Graph) (v : Nat) :
    ∀ e ∈ out_edges_range g v, e.src = v ∧ ∃ e0 ∈ g.edges, descr g.directed e e0 := by
  intro e he
  unfold out_edges_range at he
  cases hd : g.directed
  · simp only [hd, Bool.false_eq_true, if_false, List.mem_append, List.mem_filter,
      List.mem_map, decide_eq_true_eq] at he
    rcases he with ⟨h1, h2⟩ | ⟨x, ⟨h1, h2⟩, rfl⟩
    · exact ⟨h2, e, h1, rfl, Or.inl ⟨rfl, rfl⟩⟩
    · exact ⟨h2, x, h1, rfl, Or.inr ⟨rfl, rfl, rfl⟩⟩
  · simp only [hd, if_true, List.mem_filter, decide_eq_true_eq] at he
    exact ⟨he.2, e, he.1, rfl, Or.inl ⟨rfl, rfl⟩⟩

theorem in_items (g : Graph) (v : Nat) :
    ∀ e ∈ in_edges_range g v, e.tgt = v ∧ ∃ e0 ∈ g.edges, descr g.directed e e0 := by
  intro e he
  unfold in_edges_range at he
  cases hd : g.directed
  · simp [hd] at he
  · simp only [hd, if_true, List.mem_filter, decide_eq_true_eq] at he
    exact ⟨he.2, e, he.1, rfl, Or.inl ⟨rfl, rfl⟩⟩

/-- The identities of the descriptors processed by the first loop. -/
theorem out_proc_idx (g : Graph) (v : Nat) :
    ((out_edges_range g v).filter (out_proc g.directed v)).map (fun e => e.idx) =
      if g.directed then (g.edges.filter (fun e => decide (e.src = v))).map (fun e => e.idx)
      else
        (g.edges.filter (fun e => decide (e.src = v) && !decide (e.tgt = v))).map
            (fun e => e.idx) ++
          (g.edges.filter (fun e => decide (e.tgt = v) && !decide (e.src = v))).map
            (fun e => e.idx) := by
  unfold out_edges_range
  cases hd : g.directed
  · simp only [Bool.false_eq_true, if_false, List.filter_append, List.map_append,
      List.filter_map, List.map_map, List.filter_filter]
    congr 1
    · congr 1
      apply List.filter_congr
      intro x _
      simp [out_proc, Bool.and_comm]
    · have : ((fun e : Edge => e.idx) ∘ fun e : Edge => (⟨e.tgt, e.src, e.idx⟩ : Edge)) =
          fun e => e.idx := rfl
      rw [this]
      congr 1
      apply List.filter_congr
      intro x _
      simp [out_proc, Function.comp, Bool.and_comm]
  · simp only [if_true, List.filter_filter]
    congr 1
    apply List.filter_congr
    intro x _
    simp [out_proc]

theorem out_proc_nodup {g : Graph} (hnd : (g.edges.map (fun e => e.idx)).Nodup) (v : Nat) :
    (((out_edges_range g v).filter (out_proc g.directed v)).map (fun e => e.idx)).Nodup := by
  rw [out_proc_idx]
  cases hd : g.directed
  · simp only [Bool.false_eq_true, if_false]
    apply nodup_filter_append hnd
    intro e _ h1 h2
    simp only [Bool.and_eq_true, decide_eq_true_eq, Bool.not_eq_true', decide_eq_false_iff_not]
      at h1 h2
    exact h2.2 h1.1
  · simp only [if_true]
    exact nodup_filter_idx hnd _

theorem out_proc_mem {g : Graph} (hnd : (g.edges.map (fun e => e.idx)).Nodup) (v : Nat)
    {e : Edge} (he : e ∈ g.edges) :
    e.idx ∈ ((out_edges_range g v).filter (out_proc g.directed v)).map (fun e => e.idx) ↔
      ph_out g.directed v e = true := by
  rw [out_proc_idx]
  cases hd : g.directed
  · simp only [Bool.false_eq_true, if_false, List.mem_append, mem_filter_idx hnd _ he, ph_out,
      Bool.or_eq_true]
  · simp only [if_true, mem_filter_idx hnd _ he, ph_out]

/-- The weight accumulated in `self_weight` by the first loop: twice the
weight of the undirected self-loops of `v`. -/
theorem out_self_sum (g : Graph) (v : Nat) (w : Nat → Int) :
    (((out_edges_range g v).filter (fun e => !out_proc g.directed v e)).map
      (fun e => w e.idx)).sum = 2 * wsum (ph_self g.directed v) w g.edges := by
  unfold out_edges_range
  cases hd : g.directed
  · simp only [Bool.false_eq_true, if_false, List.filter_append, List.map_append,
      List.filter_map, List.map_map, List.filter_filter, List.sum_append]
    have h1 : (g.edges.filter (fun a => (!out_proc false v a) && decide (a.src = v))) =
        g.edges.filter (ph_self false v) := by
      apply List.filter_congr
      intro x _
      simp [out_proc, ph_self, is_self, Bool.and_comm]
    have h2 : (g.edges.filter (fun a => ((fun e => !out_proc false v e) ∘
        fun e : Edge => (⟨e.tgt, e.src, e.idx⟩ : Edge)) a && decide (a.tgt = v))) =
        g.edges.filter (ph_self false v) := by
      apply List.filter_congr
      intro x _
      simp [out_proc, ph_self, is_self, Function.comp]
    have h3 : ((fun e : Edge => w e.idx) ∘ fun e : Edge => (⟨e.tgt, e.src, e.idx⟩ : Edge)) =
        fun e => w e.idx := rfl
    rw [h1, h2, h3, sum_filter_eq_wsum]
    ring
  · have : (g.edges.filter (fun e => decide (e.src = v))).filter
        (fun e => !out_proc true v e) = [] := by
      rw [List.filter_filter, List.filter_eq_nil_iff]
      intro x _
      simp [out_proc]
    have hz : wsum (ph_self true v) w g.edges = 0 := by
      apply wsum_zero
      intro e _ hp
      simp [ph_self] at hp
    simp only [if_true, this, List.map_nil, List.sum_nil, hz, mul_zero]

theorem in_proc_idx (g : Graph) (v : Nat) :
    ((in_edges_range g v).filter (in_proc v)).map (fun e => e.idx) =
      (g.edges.filter (ph_in g.directed v)).map (fun e => e.idx) := by
  unfold in_edges_range
  cases hd : g.directed
  · have : g.edges.filter (ph_in false v) = [] := by
      rw [List.filter_eq_nil_iff]
      intro x _
      simp [ph_in]
    simp [this]
  · simp only [if_true, List.filter_filter]
    congr 1
    apply List.filter_congr
    intro x _
    simp [ph_in, in_proc, Bool.and_comm]

theorem incident_split (directed : Bool) (v : Nat) (e : Edge) :
    incident v e = (ph_out directed v e || ph_self directed v e || ph_in directed v e) := by
  cases directed <;> simp only [incident, ph_out, ph_self, ph_in, is_self] <;>
    by_cases h1 : e.src = v <;> by_cases h2 : e.tgt = v <;> simp [h1, h2]

theorem Counted.counted_of_core {st st' : BlockState} {c : Nat → Int} {bm : Nat → Nat}
    {bs : Nat → Nat → Int} {K : Nat → Prop} (hc : Counted st c bm bs K)
    (h : same_core st st') : Counted st' c bm bs K :=
  hc.counted_of_fields h.1 h.2.1 h.2.2.1 h.2.2.2.1 h.2.2.2.2.1

theorem DegCounted.deg_of_core {st st' : BlockState} {c : Nat → Int} {bm : Nat → Nat}
    {bp bq : Nat → Int} (hd : DegCounted st c bm bp bq) (h : same_core st st') :
    DegCounted st' c bm bp bq :=
  hd.deg_of_fields h.1 h.2.2.2.2.2.1 h.2.2.2.2.2.2.1 h.2.2.2.2.2.2.2

theorem SparseX.sparse_of_core {st st' : BlockState} {X : Nat × Nat → Prop} (hs : SparseX st X)
    (h : same_core st st') : SparseX st' X := by
  intro r s me hq
  rw [get_me_of_fields h.1 h.2.1] at hq
  rw [get_mrs_of_fields h.1 h.2.1 h.2.2.2.1, h.1]
  exact hs r s me hq

theorem remove_tail_core (st : BlockState) (v r : Nat) : same_core st (remove_tail st v r) := by
  unfold remove_tail same_core
  simp only
  split_ifs <;> simp

theorem same_params.params_refl (st : BlockState) : same_params st st := by
  simp [same_params]

theorem same_params.params_trans {a b c : BlockState} (h1 : same_params a b)
    (h2 : same_params b c) : same_params a c := by
  simp only [same_params] at *
  obtain ⟨a1, a2, a3, a4, a5, a6, a7, a8, a9, a10, a11⟩ := h1
  obtain ⟨b1, b2, b3, b4, b5, b6, b7, b8, b9, b10, b11⟩ := h2
  simp [*]

theorem same_frame.params {st st' : BlockState} (h : same_frame st st') :
    same_params st st' := by
  simp only [same_frame, same_params] at *
  obtain ⟨a1, a2, a3, a4, a5, a6, a7, a8, a9, a10, a11, a12, a13, a14, a15⟩ := h
  simp [*]

theorem remove_tail_params (st : BlockState) (v r : Nat) :
    same_params st (remove_tail st v r) := by
  unfold remove_tail same_params
  simp only
  split_ifs <;> simp

theorem remove_tail_b_wr (st : BlockState) (v r : Nat) :
    (remove_tail st v r).b = st.b ∧
      (remove_tail st v r).wr = Function.update st.wr r (st.wr r - st.vweight v) := by
  unfold remove_tail
  simp only
  split_ifs <;> simp

/-- `remove_vertex(v)` in a state where the counting invariant holds and the
edges incident to `v` are counted with their positive weight: it returns
normally, the incident edges are no longer counted, and only `wr[b[v]]` changes
among the block weights. -/
theorem remove_vertex_spec {st : BlockState} {c : Nat → Int} {bs : Nat → Nat → Int}
    (v : Nat) (hnd : (st.g.edges.map (fun e => e.idx)).Nodup)
    (hc : Counted st c st.b bs (fun _ => False))
    (hcv : ∀ e ∈ st.g.edges, incident v e = true →
      0 < c e.idx ∧ c e.idx = st.eweight e.idx) :
    ∃ st', st.remove_vertex v = .ok st' ∧
      Counted st' (zero_edges st.g.edges (incident v) c) st.b bs (fun _ => False) ∧
      (∀ bp bq, DegCounted st c st.b bp bq →
        DegCounted st' (zero_edges st.g.edges (incident v) c) st.b bp bq) ∧
      (∀ X, SparseX st X → SparseX st' X) ∧
      same_params st st' ∧ st'.b = st.b ∧
      st'.wr = Function.update st.wr (st.b v) (st.wr (st.b v) - st.vweight v) := by
  have hinc : ∀ e, incident v e = (ph_out st.g.directed v e || ph_self st.g.directed v e ||
      ph_in st.g.directed v e) := incident_split st.g.directed v
  -- first loop
  obtain ⟨st1, hrun1, hc1, ht1, hs1⟩ := remove_out_loop_spec v (st.b v) st.b bs rfl
    (out_edges_range st.g v) st c 0 hnd hc rfl (out_items st.g v) (out_proc_nodup hnd v)
    (by
      intro e he hp
      obtain ⟨_, e0, h0, hde⟩ := out_items st.g v e he
      have hm : e0.idx ∈ ((out_edges_range st.g v).filter (out_proc st.g.directed v)).map
          (fun e => e.idx) := by
        rw [hde.1]
        exact List.mem_map.2 ⟨e, List.mem_filter.2 ⟨he, hp⟩, rfl⟩
      have hph := (out_proc_mem hnd v h0).1 hm
      have := hcv e0 h0 (by rw [hinc, hph]; rfl)
      rw [← hde.1]; exact this)
  have hg1 : st1.g = st.g := ht1.frame.1
  have hew1 : st1.eweight = st.eweight := ht1.frame.2.1
  have hb1 : st1.b = st.b := ht1.frame.2.2.2.1
  have hd1 : ∀ e ∈ st.g.edges, zero_edges st.g.edges (ph_out st.g.directed v) c e.idx =
      zero_on (((out_edges_range st.g v).filter (out_proc st.g.directed v)).map
        (fun e => e.idx)) c e.idx := by
    intro e he
    rw [zero_edges_apply hnd _ _ he]
    unfold zero_on
    by_cases hp : ph_out st.g.directed v e = true
    · simp only [hp, if_true, (out_proc_mem hnd v he).2 hp]
    · have : ¬ (e.idx ∈ ((out_edges_range st.g v).filter (out_proc st.g.directed v)).map
          (fun e => e.idx)) := fun h => hp ((out_proc_mem hnd v he).1 h)
      simp [hp, this]
  have hc1' := hc1.counted_congr (by rw [hg1]; exact hd1)
  have ht1' := ht1.step_congr hd1
  rw [out_self_sum, zero_add] at hrun1
  -- the self-loop block
  have hsw : 2 * wsum (ph_self st.g.directed v) st.eweight st.g.edges =
      2 * wsum (ph_self st1.g.directed v)
        (zero_edges st.g.edges (ph_out st.g.directed v) c) st1.g.edges := by
    rw [hg1]
    congr 1
    apply wsum_congr
    intro e he hp
    rw [zero_edges_apply hnd _ _ he]
    have h1 : ph_out st.g.directed v e = false := by
      cases hd : st.g.directed
      · rw [hd] at hp
        simp only [ph_self, is_self, Bool.not_false, Bool.true_and, Bool.and_eq_true,
          decide_eq_true_eq] at hp
        simp [ph_out, hp.1, hp.2]
      · rw [hd] at hp; simp [ph_self] at hp
    rw [h1]
    simp only [Bool.false_eq_true, if_false]
    exact ((hcv e he (by rw [hinc, hp]; simp)).2).symm
  obtain ⟨st2, hrun2, hc2, ht2, hs2⟩ := remove_self_spec
    (d := zero_edges st.g.edges
      (fun e => ph_out st.g.directed v e || ph_self st.g.directed v e) c)
    hc1' v (ph_self st1.g.directed v)
    (by
      intro e _ hp
      simp only [ph_self, is_self, Bool.and_eq_true, decide_eq_true_eq] at hp
      exact hp.2)
    (by
      intro e he hp
      rw [hg1] at he hp
      rw [zero_edges_apply hnd _ _ he, hp]
      simp)
    (by
      intro e he hp
      rw [hg1] at he hp
      rw [zero_edges_apply hnd _ _ he, zero_edges_apply hnd _ _ he, hp]
      simp)
    _ hsw
  have hg2 : st2.g = st.g := by rw [ht2.frame.1, hg1]
  have hew2 : st2.eweight = st.eweight := by rw [ht2.frame.2.1, hew1]
  have hb2 : st2.b = st.b := by rw [ht2.frame.2.2.2.1, hb1]
  -- second loop
  obtain ⟨st3, hrun3, hc3, ht3, hs3⟩ := remove_in_loop_spec v (st.b v) st.b bs rfl
    (in_edges_range st2.g v) st2 _ (by rw [hg2]; exact hnd) hc2 hb2 (in_items st2.g v)
    (by rw [in_proc_idx, hg2]; exact nodup_filter_idx hnd _)
    (by
      intro e he hp
      obtain ⟨_, e0, h0, hde⟩ := in_items st2.g v e he
      rw [hg2] at h0
      have hm : e0.idx ∈ ((in_edges_range st2.g v).filter (in_proc v)).map
          (fun e => e.idx) := by
        rw [hde.1]
        exact List.mem_map.2 ⟨e, List.mem_filter.2 ⟨he, hp⟩, rfl⟩
      rw [in_proc_idx, hg2, mem_filter_idx hnd _ h0] at hm
      have hcv0 := hcv e0 h0 (by rw [hinc, hm]; simp)
      have hdir : st.g.directed = true := by
        cases hd : st.g.directed
        · rw [hd] at hm; simp [ph_in] at hm
        · rfl
      have hsrc : ¬ (e0.src = v) := by
        simp only [ph_in, hdir, Bool.true_and, Bool.and_eq_true, decide_eq_true_eq,
          Bool.not_eq_true', decide_eq_false_iff_not] at hm
        exact hm.2
      rw [← hde.1, hew2, zero_edges_apply hnd _ _ h0]
      have h1 : (ph_out st.g.directed v e0 || ph_self st.g.directed v e0) = false := by
        simp [ph_out, ph_self, hdir, hsrc]
      rw [h1]
      simpa using hcv0)
  have hg3 : st3.g = st.g := by rw [ht3.frame.1, hg2]
  rw [hg2] at hrun3 hc3 ht3
  have hd3 : ∀ e ∈ st.g.edges, zero_edges st.g.edges (incident v) c e.idx =
      zero_on (((in_edges_range st.g v).filter (in_proc v)).map (fun e => e.idx))
        (zero_edges st.g.edges
          (fun e => ph_out st.g.directed v e || ph_self st.g.directed v e) c) e.idx := by
    intro e he
    rw [zero_edges_apply hnd _ _ he, in_proc_idx]
    unfold zero_on
    rw [zero_edges_apply hnd _ _ he, hinc]
    by_cases hp : ph_in st.g.directed v e = true
    · simp only [(mem_filter_idx hnd _ he).2 hp, if_true, hp, Bool.or_true]
    · have hm : ¬ (e.idx ∈ (st.g.edges.filter (ph_in st.g.directed v)).map
          (fun e => e.idx)) := fun h => hp ((mem_filter_idx hnd _ he).1 h)
      have hp' : ph_in st.g.directed v e = false := by simpa using hp
      simp only [hm, if_false, hp', Bool.or_false]
  have hc3' := hc3.counted_congr (by rw [hg3]; exact hd3)
  have ht3' := ht3.step_congr (by rw [hg2]; exact hd3)
  have htall := (ht1'.step_trans ht2).step_trans ht3'
  have hcore := remove_tail_core st3 v (st.b v)
  have hbw := remove_tail_b_wr st3 v (st.b v)
  refine ⟨remove_tail st3 v (st.b v), ?_, hc3'.counted_of_core hcore, ?_, ?_, ?_, ?_, ?_⟩
  · unfold remove_vertex remove_vertex_filt
    simp only [hrun1, hrun2, hg2, hrun3]
  · intro bp bq hd
    exact (htall.deg bp bq hd).deg_of_core hcore
  · intro X hX
    exact (hs3 X (hs2 X (hs1 X hX))).sparse_of_core hcore
  · exact htall.frame.params.params_trans (remove_tail_params st3 v (st.b v))
  · rw [hbw.1, htall.frame.2.2.2.1]
  · rw [hbw.2, htall.frame.2.2.2.2.1, htall.frame.2.2.1]

theorem touch_step_frame (st : BlockState) (r s i : Nat) :
    same_frame st (st.touch_step r s i) := by
  have := get_or_create_frame st r s
  simp only [same_frame, touch_step] at *
  exact this

theorem touch_step_get_me (st : BlockState) (r s i r' s' : Nat) :
    (st.touch_step r s i).get_me r' s' =
      if bkey st.g.directed r' s' = bkey st.g.directed r s then
        some (st.get_or_create_me r s).2
      else st.get_me r' s' := by
  rw [← get_or_create_get_me]
  rfl

theorem touch_step_get_mrs {st : BlockState} (wf : IndexWF st) (r s i r' s' : Nat) :
    (st.touch_step r s i).get_mrs r' s' = st.get_mrs r' s' := by
  rw [← get_or_create_get_mrs wf r s r' s']
  rfl

theorem touch_step_mrp (st : BlockState) (r s i : Nat) :
    (st.touch_step r s i).mrp = st.mrp ∧ (st.touch_step r s i).mrm = st.mrm :=
  get_or_create_mrp st r s

theorem touch_step_wf {st : BlockState} (wf : IndexWF st) (r s i : Nat) :
    IndexWF (st.touch_step r s i) :=
  (get_or_create_wf wf r s).wf_congr rfl rfl rfl

theorem get_or_create_snd_of_some {st : BlockState} {r s h : Nat}
    (hq : st.get_me r s = some h) : (st.get_or_create_me r s).2 = h := by
  simp [get_or_create_me, hq]

/-- Obtaining the aggregate edge of the block pair of `e0` and caching its
handle on `e0` keeps the counting invariant and makes the cache of `e0` valid. -/
theorem Counted.after_touch {st : BlockState} {c : Nat → Int} {bm : Nat → Nat}
    {bs : Nat → Nat → Int} {K : Nat → Prop}
    (hnd : (st.g.edges.map (fun e => e.idx)).Nodup) (hc : Counted st c bm bs K)
    {e0 : Edge} (h0 : e0 ∈ st.g.edges) {r s : Nat}
    (hor : oriented st.g.directed bm e0 r s) :
    Counted (st.touch_step r s e0.idx) c bm bs (fun i => K i ∨ i = e0.idx) := by
  have hg : (st.touch_step r s e0.idx).g = st.g := (touch_step_frame st r s e0.idx).1
  have hkey := hor.key
  refine ⟨touch_step_wf hc.wf r s _, by rw [hg]; exact hc.c_nonneg, hc.bs_nonneg, ?_, ?_⟩
  · intro r' s'
    rw [touch_step_get_mrs hc.wf, hg]; exact hc.mrs_eq r' s'
  · rw [hg]
    intro e he hk
    rw [touch_step_get_me]
    by_cases hi : e.idx = e0.idx
    · have : e = e0 := eq_of_idx_eq hnd he h0 hi
      subst this
      refine ⟨(st.get_or_create_me r s).2, by simp [touch_step], ?_⟩
      rw [if_pos hkey.symm]
    · have hk' : 0 < c e.idx ∨ K e.idx := by
        rcases hk with h | h | h
        · exact Or.inl h
        · exact Or.inr h
        · exact absurd h hi
      obtain ⟨h, hb, hq⟩ := hc.cache e he hk'
      refine ⟨h, ?_, ?_⟩
      · have : (st.touch_step r s e0.idx).bedge e.idx = st.bedge e.idx := by
          simp [touch_step, Function.update, hi, get_or_create_bedge]
        rw [this]; exact hb
      · by_cases hk2 : bkey st.g.directed (bm e.src) (bm e.tgt) = bkey st.g.directed r s
        · rw [if_pos hk2]
          have : st.get_me r s = some h := by rw [← get_me_congr_key hk2]; exact hq
          rw [get_or_create_snd_of_some this]
        · rw [if_neg hk2]; exact hq

theorem bump_frame (st : BlockState) (r s me : Nat) (d : Int) :
    same_frame st (st.bump r s me d) := by
  simp only [bump, add_mrs, add_mrp, add_mrm, same_frame]
  split_ifs <;> simp

theorem bump_fields (st : BlockState) (r s me : Nat) (d : Int) :
    (st.bump r s me d).emat = st.emat ∧ (st.bump r s me d).bg = st.bg ∧
      (st.bump r s me d).bedge = st.bedge ∧
      (st.bump r s me d).mrs = Function.update st.mrs me (st.mrs me + d) := by
  simp only [bump, add_mrs, add_mrp, add_mrm]
  split_ifs <;> simp

theorem bump_mrp (st : BlockState) (r s me : Nat) (d : Int) (x : Nat) :
    (st.bump r s me d).mrp x =
      st.mrp x + (if x = r then d else 0) +
        (if st.mrm_is_mrp = true ∧ x = s then d else 0) := by
  simp only [bump, add_mrs, add_mrp, add_mrm]
  cases hsh : st.mrm_is_mrp
  · by_cases h1 : x = r <;> simp_all [Function.update]
  · by_cases h1 : x = r <;> by_cases h2 : x = s <;> simp_all [Function.update] <;> ring

theorem bump_get_mrm (st : BlockState) (r s me : Nat) (d : Int) (x : Nat) :
    (st.bump r s me d).get_mrm x =
      st.get_mrm x + (if x = s then d else 0) +
        (if st.mrm_is_mrp = true ∧ x = r then d else 0) := by
  simp only [bump, add_mrs, add_mrp, add_mrm, get_mrm]
  cases hsh : st.mrm_is_mrp
  · by_cases h2 : x = s <;> simp_all [Function.update]
  · by_cases h1 : x = r <;> by_cases h2 : x = s <;> simp_all [Function.update] <;> ring

theorem bump_get_me (st : BlockState) (r s me : Nat) (d : Int) (r' s' : Nat) :
    (st.bump r s me d).get_me r' s' = st.get_me r' s' :=
  get_me_of_fields (bump_frame st r s me d).1 (bump_fields st r s me d).1 r' s'

theorem bump_get_mrs {st : BlockState} (wf : IndexWF st) {r s me : Nat} (d : Int)
    (hq : st.get_me r s = some me) (r' s' : Nat) :
    (st.bump r s me d).get_mrs r' s' =
      st.get_mrs r' s' +
        (if bkey st.g.directed r s = bkey st.g.directed r' s' then d else 0) := by
  unfold get_mrs
  rw [bump_get_me, (bump_fields st r s me d).2.2.2]
  by_cases hk : bkey st.g.directed r s = bkey st.g.directed r' s'
  · have : st.get_me r' s' = some me := by rw [← get_me_congr_key hk]; exact hq
    simp [hk, this]
  · simp only [hk, if_false, add_zero]
    cases hq' : st.get_me r' s' with
    | none => rfl
    | some h =>
      have : h ≠ me := by
        intro hh
        subst hh
        exact hk (wf.inj hq hq')
      simp [Function.update, this]

/-- A batch of edges of one block pair whose caches are valid starts being
counted by a single increment of the aggregate weight of the pair. -/
theorem Counted.after_bump {st : BlockState} {c d : Nat → Int} {bm : Nat → Nat}
    {bs : Nat → Nat → Int} {K : Nat → Prop} (hc : Counted st c bm bs K)
    (P : Edge → Bool) {r s me : Nat} (t : Nat)
    (hkey : ∀ e ∈ st.g.edges, P e = true →
      bkey st.g.directed (bm e.src) (bm e.tgt) = bkey st.g.directed r s)
    (hq : st.get_me r s = some me)
    (hK : ∀ e ∈ st.g.edges, P e = true → K e.idx)
    (hdn : ∀ e ∈ st.g.edges, P e = true → 0 ≤ d e.idx)
    (h1 : ∀ e ∈ st.g.edges, P e = false → d e.idx = c e.idx) :
    Counted (st.bump r t me (wsum P d st.g.edges - wsum P c st.g.edges)) d bm bs K := by
  have hfr := bump_frame st r t me (wsum P d st.g.edges - wsum P c st.g.edges)
  have hfl := bump_fields st r t me (wsum P d st.g.edges - wsum P c st.g.edges)
  have hg := hfr.1
  have hgm : ∀ r' s', (st.bump r t me (wsum P d st.g.edges - wsum P c st.g.edges)).get_me r' s'
      = st.get_me r' s' := fun r' s' => get_me_of_fields hg hfl.1 r' s'
  refine ⟨hc.wf.wf_congr hg hfl.2.1 hfl.1, ?_, hc.bs_nonneg, ?_, ?_⟩
  · rw [hg]
    intro e he
    cases hp : P e
    · rw [h1 e he hp]; exact hc.c_nonneg e he
    · exact hdn e he hp
  · intro r' s'
    rw [hg, pair_weight_batch _ c d bm _ P r s h1 hkey, ← add_assoc, ← hc.mrs_eq]
    unfold get_mrs
    rw [hgm, hfl.2.2.2]
    by_cases hk : bkey st.g.directed r s = bkey st.g.directed r' s'
    · have : st.get_me r' s' = some me := by rw [← get_me_congr_key hk]; exact hq
      simp [hk, this]
    · simp only [hk, if_false, add_zero]
      cases hq' : st.get_me r' s' with
      | none => rfl
      | some h =>
        have : h ≠ me := by
          intro hh
          subst hh
          exact hk (hc.wf.inj hq hq')
        simp [Function.update, this]
  · rw [hg]
    intro e he hk
    rw [hgm, hfl.2.2.1]
    cases hp : P e
    · rw [h1 e he hp] at hk
      exact hc.cache e he hk
    · exact hc.cache e he (Or.inr (hK e he hp))

theorem Trans.of_bump {st : BlockState} {c d : Nat → Int} {bm : Nat → Nat}
    (P : Edge → Bool) (r s me : Nat)
    (hor : ∀ e ∈ st.g.edges, P e = true → oriented st.g.directed bm e r s)
    (h1 : ∀ e ∈ st.g.edges, P e = false → d e.idx = c e.idx) :
    Trans st (st.bump r s me (wsum P d st.g.edges - wsum P c st.g.edges)) c d bm := by
  have hfr := bump_frame st r s me (wsum P d st.g.edges - wsum P c st.g.edges)
  refine ⟨hfr, ?_⟩
  intro bp bq hd
  exact hd.batch hfr.1 hfr.2.2.2.2.2.2.2.1 P r s hor h1 _ rfl (bump_mrp st r s me _)
    (bump_get_mrm st r s me _)

theorem SparseX.mono {st : BlockState} {X Y : Nat × Nat → Prop} (h : SparseX st X)
    (hxy : ∀ k, X k → Y k) : SparseX st Y := by
  intro r s me hq
  rcases h r s me hq with h1 | h1
  · exact Or.inl h1
  · exact Or.inr (hxy _ h1)

theorem SparseX.sparse_touch {st : BlockState} {X : Nat × Nat → Prop} (wf : IndexWF st)
    (h : SparseX st X) (r s i : Nat) :
    SparseX (st.touch_step r s i) (fun k => X k ∨ k = bkey st.g.directed r s) := by
  intro r' s' me hq
  rw [(touch_step_frame st r s i).1, touch_step_get_mrs wf]
  rw [touch_step_get_me] at hq
  by_cases hk : bkey st.g.directed r' s' = bkey st.g.directed r s
  · exact Or.inr (Or.inr hk)
  · rw [if_neg hk] at hq
    rcases h r' s' me hq with h1 | h1
    · exact Or.inl h1
    · exact Or.inr (Or.inl h1)

/-- After a positive increment of the pair `(r, s)` the pair no longer needs to
be excused from sparsity. -/
theorem SparseX.sparse_bump {st : BlockState} {X : Nat × Nat → Prop} (wf : IndexWF st)
    (h : SparseX st (fun k => X k ∨ k = bkey st.g.directed r s)) {me : Nat} (t : Nat)
    (d : Int) (hq : st.get_me r s = some me) (h0 : 0 ≤ st.get_mrs r s) (hd : 0 < d) :
    SparseX (st.bump r t me d) X := by
  intro r' s'' h' hq'
  rw [(bump_frame st r t me d).1]
  rw [bump_get_me] at hq'
  have hval : (st.bump r t me d).get_mrs r' s'' =
      st.get_mrs r' s'' + (if bkey st.g.directed r s = bkey st.g.directed r' s'' then d else 0) := by
    unfold get_mrs
    rw [bump_get_me, (bump_fields st r t me d).2.2.2]
    by_cases hk : bkey st.g.directed r s = bkey st.g.directed r' s''
    · have : st.get_me r' s'' = some me := by rw [← get_me_congr_key hk]; exact hq
      simp [hk, this]
    · simp only [hk, if_false, add_zero]
      cases hq2 : st.get_me r' s'' with
      | none => rfl
      | some h2 =>
        have : h2 ≠ me := by
          intro hh
          subst hh
          exact hk (wf.inj hq hq2)
        simp [Function.update, this]
  rw [hval]
  by_cases hk : bkey st.g.directed r s = bkey st.g.directed r' s''
  · left
    rw [if_pos hk, ← get_mrs_congr_key hk]
    omega
  · rw [if_neg hk, add_zero]
    rcases h r' s'' h' hq' with h1 | h1 | h1
    · exact Or.inl h1
    · exact Or.inr h1
    · exact absurd h1.symm hk

theorem Trans.of_touch (st : BlockState) (r s i : Nat) (c : Nat → Int) (bm : Nat → Nat) :
    Trans st (st.touch_step r s i) c c bm := by
  have hfr := touch_step_frame st r s i
  refine ⟨hfr, ?_⟩
  intro bp bq hd
  exact hd.deg_of_fields hfr.1 (touch_step_mrp st r s i).1 (touch_step_mrp st r s i).2
    hfr.2.2.2.2.2.2.2.1

theorem Counted.get_mrs_nonneg {st : BlockState} {c : Nat → Int} {bm : Nat → Nat}
    {bs : Nat → Nat → Int} {K : Nat → Prop} (hc : Counted st c bm bs K) (r s : Nat) :
    0 ≤ st.get_mrs r s := by
  rw [hc.mrs_eq]
  have := hc.bs_nonneg r s
  have := pair_weight_nonneg st.g.directed bm hc.c_nonneg r s
  omega

/-- One insertion step on an edge that is not counted yet: afterwards the edge
is counted with the weight `w` and its cache is valid. -/
theorem inc_step_spec {st : BlockState} {c : Nat → Int} {bm : Nat → Nat}
    {bs : Nat → Nat → Int} {K : Nat → Prop}
    (hnd : (st.g.edges.map (fun e => e.idx)).Nodup) (hc : Counted st c bm bs K)
    {e0 : Edge} (h0 : e0 ∈ st.g.edges) {r s : Nat}
    (hor : oriented st.g.directed bm e0 r s) (hz : c e0.idx = 0) {w : Int} (hw : 0 < w) :
    Counted (st.inc_step r s e0.idx w) (Function.update c e0.idx w) bm bs K ∧
      Trans st (st.inc_step r s e0.idx w) c (Function.update c e0.idx w) bm ∧
      (∀ X, SparseX st X → SparseX (st.inc_step r s e0.idx w) X) := by
  have hfr := touch_step_frame st r s e0.idx
  have hg : (st.touch_step r s e0.idx).g = st.g := hfr.1
  have hc1 := hc.after_touch hnd h0 hor
  have hq : (st.touch_step r s e0.idx).get_me r s = some (st.get_or_create_me r s).2 := by
    rw [touch_step_get_me, if_pos rfl]
  have hkey : ∀ e ∈ (st.touch_step r s e0.idx).g.edges, decide (e.idx = e0.idx) = true →
      bkey (st.touch_step r s e0.idx).g.directed (bm e.src) (bm e.tgt) =
        bkey (st.touch_step r s e0.idx).g.directed r s := by
    rw [hg]
    intro e he hp
    have : e = e0 := eq_of_idx_eq hnd he h0 (by simpa using hp)
    rw [this]; exact hor.key.symm
  have hor' : ∀ e ∈ (st.touch_step r s e0.idx).g.edges, decide (e.idx = e0.idx) = true →
      oriented (st.touch_step r s e0.idx).g.directed bm e r s := by
    rw [hg]
    intro e he hp
    have : e = e0 := eq_of_idx_eq hnd he h0 (by simpa using hp)
    rw [this]; exact hor
  have h1 : ∀ e ∈ (st.touch_step r s e0.idx).g.edges, decide (e.idx = e0.idx) = false →
      Function.update c e0.idx w e.idx = c e.idx := by
    intro e _ hp
    have : e.idx ≠ e0.idx := by simpa using hp
    simp [Function.update, this]
  have hamt : wsum (fun e => decide (e.idx = e0.idx)) (Function.update c e0.idx w)
      (st.touch_step r s e0.idx).g.edges -
      wsum (fun e => decide (e.idx = e0.idx)) c (st.touch_step r s e0.idx).g.edges = w := by
    rw [hg, wsum_single _ hnd h0, wsum_single _ hnd h0, hz]
    simp
  have hcb := hc1.after_bump (fun e => decide (e.idx = e0.idx)) (d := Function.update c e0.idx w) s
    hkey hq
    (by intro e _ hp; right; simpa using hp)
    (by
      intro e _ hp
      have : e.idx = e0.idx := by simpa using hp
      simp [Function.update, this, le_of_lt hw])
    h1
  have htb := @Trans.of_bump (st.touch_step r s e0.idx) c
    (Function.update c e0.idx w) bm (fun e => decide (e.idx = e0.idx)) r s
    (st.get_or_create_me r s).2 hor' h1
  rw [hamt] at hcb htb
  refine ⟨hcb.weaken (fun i hi => Or.inl hi), (Trans.of_touch st r s e0.idx c bm).step_trans htb, ?_⟩
  intro X hX
  have hs1 := SparseX.sparse_touch hc.wf hX r s e0.idx
  rw [← hg] at hs1
  exact SparseX.sparse_bump hc1.wf hs1 s w hq (hc1.get_mrs_nonneg r s) hw

theorem add_out_loop_cons (v r : Nat) (e : Edge) (es : List Edge) (st : BlockState)
    (sw : Int) (s : Nat) (hs : (if e.tgt ≠ v then st.b e.tgt else r) = s) :
    add_out_loop v r (fun _ => false) (e :: es) st sw =
      if (st.touch_step r s e.idx).bedge e.idx = none then
        .error (Err.assertion, st.touch_step r s e.idx)
      else if (st.touch_step r s e.idx).get_me r s ≠ some (st.get_or_create_me r s).2 then
        .error (Err.assertion, st.touch_step r s e.idx)
      else if e.tgt = v ∧ (st.touch_step r s e.idx).g.directed = false then
        add_out_loop v r (fun _ => false) es (st.touch_step r s e.idx)
          (sw + (st.touch_step r s e.idx).eweight e.idx)
      else
        add_out_loop v r (fun _ => false) es
          ((st.touch_step r s e.idx).bump r s (st.get_or_create_me r s).2
            ((st.touch_step r s e.idx).eweight e.idx)) sw := by
  subst hs
  rfl

theorem touch_step_asserts (st : BlockState) (r s i : Nat) :
    ¬ ((st.touch_step r s i).bedge i = none) ∧
      ¬ ((st.touch_step r s i).get_me r s ≠ some (st.get_or_create_me r s).2) := by
  constructor
  · simp [touch_step]
  · rw [touch_step_get_me, if_pos rfl]; simp

/-- The first loop of `add_vertex` on a list of descriptors of edges leaving
`v`, none of them counted yet: it succeeds, counts the processed edges with
their weight, caches the handle of the pair `(r, r)` on the undirected
self-loops and accumulates their weight. -/
theorem add_out_loop_spec (v r : Nat) (bm : Nat → Nat) (bs : Nat → Nat → Int)
    (hbv : bm v = r) :
    ∀ (es : List Edge) (st : BlockState) (c : Nat → Int) (sw : Int) (K : Nat → Prop),
      (st.g.edges.map (fun e => e.idx)).Nodup →
      Counted st c bm bs K →
      (∀ u, u ≠ v → st.b u = bm u) →
      (∀ e ∈ es, e.src = v ∧ ∃ e0 ∈ st.g.edges, descr st.g.directed e e0) →
      ((es.filter (out_proc st.g.directed v)).map (fun e => e.idx)).Nodup →
      (∀ e ∈ es, out_proc st.g.directed v e = true → c e.idx = 0) →
      (∀ e ∈ es, 0 < st.eweight e.idx) →
      ∃ st', add_out_loop v r (fun _ => false) es st sw =
          .ok (st', sw + ((es.filter (fun e => !out_proc st.g.directed v e)).map
            (fun e => st.eweight e.idx)).sum) ∧
        Counted st'
          (set_on st.eweight ((es.filter (out_proc st.g.directed v)).map (fun e => e.idx)) c)
          bm bs
          (fun i => K i ∨
            i ∈ (es.filter (fun e => !out_proc st.g.directed v e)).map (fun e => e.idx)) ∧
        Trans st st' c
          (set_on st.eweight ((es.filter (out_proc st.g.directed v)).map (fun e => e.idx)) c)
          bm ∧
        (∀ X, SparseX st X → SparseX st' (fun k => X k ∨ (k = bkey st.g.directed r r ∧
          0 < ((es.filter (fun e => !out_proc st.g.directed v e)).map
            (fun e => st.eweight e.idx)).sum))) := by
  intro es
  induction es with
  | nil =>
    intro st c sw K _ hc _ _ _ _ _
    refine ⟨st, by simp [add_out_loop], ?_, ?_, ?_⟩
    · simpa [set_on_nil] using hc
    · simpa [set_on_nil] using Trans.step_refl st c bm
    · intro X hX
      exact hX.mono (fun k hk => Or.inl hk)
  | cons e es ih =>
    intro st c sw K hnd hc hb hit hndp hce hpw
    obtain ⟨hsrc, e0, h0, hde⟩ := hit e (List.mem_cons_self _ _)
    have hit' : ∀ x ∈ es, x.src = v ∧ ∃ e0 ∈ st.g.edges, descr st.g.directed x e0 :=
      fun x hx => hit x (List.mem_cons_of_mem _ hx)
    have hi : e0.idx = e.idx := hde.1
    have hs : (if e.tgt ≠ v then st.b e.tgt else r) = bm e.tgt := by
      by_cases h : e.tgt = v
      · simp [h, hbv]
      · simp [h, hb e.tgt h]
    have hor : oriented st.g.directed bm e0 r (bm e.tgt) := by
      have := hde.to_oriented bm
      rw [hsrc, hbv] at this
      exact this
    have hwe : 0 < st.eweight e.idx := hpw e (List.mem_cons_self _ _)
    by_cases hp : out_proc st.g.directed v e = true
    · have hnself : ¬ (e.tgt = v ∧ st.g.directed = false) := by
        intro h
        simp [out_proc, h.1, h.2] at hp
      have hz : c e0.idx = 0 := by rw [hi]; exact hce e (List.mem_cons_self _ _) hp
      rw [List.filter_cons_of_pos hp, List.map_cons, List.nodup_cons] at hndp
      obtain ⟨hc1, ht1, hs1⟩ := inc_step_spec hnd hc h0 hor hz hwe
      have hfr := ht1.frame
      have hg1 : (st.inc_step r (bm e.tgt) e0.idx (st.eweight e.idx)).g = st.g := hfr.1
      have hew1 : (st.inc_step r (bm e.tgt) e0.idx (st.eweight e.idx)).eweight = st.eweight :=
        hfr.2.1
      have hb1 : (st.inc_step r (bm e.tgt) e0.idx (st.eweight e.idx)).b = st.b :=
        hfr.2.2.2.1
      obtain ⟨st', hrun, hc', ht', hs'⟩ := ih
        (st.inc_step r (bm e.tgt) e0.idx (st.eweight e.idx))
        (Function.update c e0.idx (st.eweight e.idx)) sw K (by rw [hg1]; exact hnd) hc1
        (by rw [hb1]; exact hb) (by rw [hg1]; exact hit') (by rw [hg1]; exact hndp.2)
        (by
          rw [hg1]
          intro x hx hpx
          have hne : x.idx ≠ e0.idx := by
            intro hxi
            apply hndp.1
            rw [← hi, ← hxi]
            exact List.mem_map.2 ⟨x, List.mem_filter.2 ⟨hx, hpx⟩, rfl⟩
          have := hce x (List.mem_cons_of_mem _ hx) hpx
          simpa [Function.update, hne] using this)
        (by rw [hew1]; exact fun x hx => hpw x (List.mem_cons_of_mem _ hx))
      rw [hg1, hew1] at hrun hc' ht' hs'
      have hzc : set_on st.eweight ((es.filter (out_proc st.g.directed v)).map (fun e => e.idx))
          (Function.update c e0.idx (st.eweight e.idx)) =
          set_on st.eweight
            (e.idx :: (es.filter (out_proc st.g.directed v)).map (fun e => e.idx)) c := by
        rw [hi]; exact set_on_cons _ _ _ _
      rw [hzc] at hc' ht'
      have hfil : (e :: es).filter (fun e => !out_proc st.g.directed v e) =
          es.filter (fun e => !out_proc st.g.directed v e) := by
        simp [List.filter_cons, hp]
      refine ⟨st', ?_, ?_, ?_, ?_⟩
      · rw [hfil, ← hrun, add_out_loop_cons v r e es st sw _ hs,
          if_neg (touch_step_asserts st r (bm e.tgt) e.idx).1,
          if_neg (touch_step_asserts st r (bm e.tgt) e.idx).2,
          (touch_step_frame st r (bm e.tgt) e.idx).1,
          (touch_step_frame st r (bm e.tgt) e.idx).2.1, if_neg hnself, hi]
        rfl
      · rw [List.filter_cons_of_pos hp, List.map_cons, hfil]; exact hc'
      · rw [List.filter_cons_of_pos hp, List.map_cons]
        exact ht1.step_trans ht'
      · intro X hX
        rw [hfil]
        exact hs' X (hs1 X hX)
    · -- a self-loop descriptor of an undirected graph
      have hself : e.tgt = v ∧ st.g.directed = false := by
        simp only [out_proc, Bool.not_eq_true', Bool.not_eq_false', Bool.and_eq_true,
          decide_eq_true_eq, Bool.not_eq_true] at hp
        simpa using hp
      have hpf : out_proc st.g.directed v e = false := by simpa using hp
      rw [List.filter_cons_of_neg hp] at hndp
      have hbt : bm e.tgt = r := by rw [hself.1]; exact hbv
      rw [hbt] at hor hs
      have hc1 := hc.after_touch hnd h0 hor
      have hfr := touch_step_frame st r r e0.idx
      have hg1 : (st.touch_step r r e0.idx).g = st.g := hfr.1
      have hew1 : (st.touch_step r r e0.idx).eweight = st.eweight := hfr.2.1
      have hb1 : (st.touch_step r r e0.idx).b = st.b := hfr.2.2.2.1
      obtain ⟨st', hrun, hc', ht', hs'⟩ := ih (st.touch_step r r e0.idx) c
        (sw + st.eweight e.idx) (fun i => K i ∨ i = e0.idx) (by rw [hg1]; exact hnd) hc1
        (by rw [hb1]; exact hb) (by rw [hg1]; exact hit') (by rw [hg1]; exact hndp)
        (by rw [hg1]; exact fun x hx hpx => hce x (List.mem_cons_of_mem _ hx) hpx)
        (by rw [hew1]; exact fun x hx => hpw x (List.mem_cons_of_mem _ hx))
      rw [hg1, hew1] at hrun hc' ht' hs'
      have hfil : (e :: es).filter (fun e => !out_proc st.g.directed v e) =
          e :: es.filter (fun e => !out_proc st.g.directed v e) := by
        simp [List.filter_cons, hpf]
      have hsum_nn : 0 ≤ ((es.filter (fun e => !out_proc st.g.directed v e)).map
          (fun e => st.eweight e.idx)).sum := by
        apply List.sum_nonneg
        intro x hx
        obtain ⟨y, hy, rfl⟩ := List.mem_map.1 hx
        exact le_of_lt (hpw y (List.mem_cons_of_mem _ (List.mem_filter.1 hy).1))
      refine ⟨st', ?_, ?_, ?_, ?_⟩
      · rw [hfil, List.map_cons, List.sum_cons, ← add_assoc, ← hrun,
          add_out_loop_cons v r e es st sw _ hs,
          if_neg (touch_step_asserts st r r e.idx).1,
          if_neg (touch_step_asserts st r r e.idx).2,
          (touch_step_frame st r r e.idx).1,
          (touch_step_frame st r r e.idx).2.1, if_pos hself, hi]
      · rw [List.filter_cons_of_neg hp, hfil, List.map_cons]
        refine hc'.weaken ?_
        intro i hi'
        rcases hi' with h | h
        · exact Or.inl (Or.inl h)
        · rcases List.mem_cons.1 h with h | h
          · exact Or.inl (Or.inr (by rw [hi]; exact h))
          · exact Or.inr h
      · rw [List.filter_cons_of_neg hp]
        exact (Trans.of_touch st r r e0.idx c bm).step_trans ht'
      · intro X hX
        rw [hfil, List.map_cons, List.sum_cons]
        refine (hs' _ (SparseX.sparse_touch hc.wf hX r r e0.idx)).mono ?_
        intro k hk
        rcases hk with (h | h) | h
        · exact Or.inl h
        · exact Or.inr ⟨h, by omega⟩
        · exact Or.inr ⟨h.1, by omega⟩

/-- The block `if (self_weight > 0)` of `add_vertex`, entered with twice the
weight of the batch `P` of self-loops of `v`, whose caches hold the handle of
the pair of the block of `v`: it succeeds and the batch is counted. -/
theorem add_self_spec {st : BlockState} {c d : Nat → Int} {bm : Nat → Nat}
    {bs : Nat → Nat → Int} {K : Nat → Prop} (hc : Counted st c bm bs K) (v : Nat)
    (P : Edge → Bool) (hP : ∀ e ∈ st.g.edges, P e = true → e.src = v ∧ e.tgt = v)
    (hK : ∀ e ∈ st.g.edges, P e = true → K e.idx)
    (hcz : ∀ e ∈ st.g.edges, P e = true → c e.idx = 0)
    (hdn : ∀ e ∈ st.g.edges, P e = true → 0 ≤ d e.idx)
    (h1 : ∀ e ∈ st.g.edges, P e = false → d e.idx = c e.idx) (sw : Int)
    (hsw : sw = 2 * wsum P d st.g.edges) :
    ∃ st', add_self (bm v) st sw = .ok st' ∧ Counted st' d bm bs K ∧
      Trans st st' c d bm ∧
      (∀ X, SparseX st (fun k => X k ∨ (k = bkey st.g.directed (bm v) (bm v) ∧ 0 < sw)) →
        SparseX st' X) := by
  have hcz' : wsum P c st.g.edges = 0 := wsum_zero P c _ hcz
  have hamt : wsum P d st.g.edges - wsum P c st.g.edges = wsum P d st.g.edges := by
    rw [hcz']; ring
  by_cases hpos : 0 < wsum P d st.g.edges
  · obtain ⟨e, he, hpe, _⟩ := exists_pos_of_wsum_pos hpos
    obtain ⟨me, _, hq⟩ := hc.cache e he (Or.inr (hK e he hpe))
    rw [(hP e he hpe).1, (hP e he hpe).2] at hq
    have hkey : ∀ e ∈ st.g.edges, P e = true →
        bkey st.g.directed (bm e.src) (bm e.tgt) = bkey st.g.directed (bm v) (bm v) := by
      intro x hx hpx
      rw [(hP x hx hpx).1, (hP x hx hpx).2]
    have hor : ∀ e ∈ st.g.edges, P e = true → oriented st.g.directed bm e (bm v) (bm v) := by
      intro x hx hpx
      left
      rw [(hP x hx hpx).1, (hP x hx hpx).2]
      exact ⟨rfl, rfl⟩
    have hcb := hc.after_bump P (bm v) hkey hq hK hdn h1
    have htb := @Trans.of_bump st c d bm P (bm v) (bm v) me hor h1
    rw [hamt] at hcb htb
    have hdiv : sw / 2 = wsum P d st.g.edges := by omega
    have hnn := hc.get_mrs_nonneg (bm v) (bm v)
    rw [get_mrs_of_some hq] at hnn
    refine ⟨st.bump (bm v) (bm v) me (wsum P d st.g.edges), ?_, hcb, htb, ?_⟩
    · have h2 : sw > 0 := by omega
      have h3 : ¬ (sw % 2 ≠ 0) := by omega
      have h5 : (st.bump (bm v) (bm v) me (wsum P d st.g.edges)).mrs me =
          st.mrs me + wsum P d st.g.edges := by
        rw [(bump_fields st _ _ me _).2.2.2]; simp
      have h4 : ¬ ((st.bump (bm v) (bm v) me (wsum P d st.g.edges)).mrs me < 0) := by
        rw [h5]; omega
      unfold bump at h4
      simp only [add_self, h2, h3, if_true, if_false, hq, hdiv, h4]
      rfl
    · intro X hX
      refine SparseX.sparse_bump hc.wf (hX.mono ?_) (bm v) _ hq (hc.get_mrs_nonneg _ _) hpos
      intro k hk
      rcases hk with h | h
      · exact Or.inl h
      · exact Or.inr h.1
  · have hT : 0 ≤ wsum P d st.g.edges := by
      apply wsum_nonneg
      intro e he
      cases hp : P e
      · rw [h1 e he hp]; exact hc.c_nonneg e he
      · exact hdn e he hp
    have hz : wsum P d st.g.edges = 0 := by omega
    have hdnn : ∀ e ∈ st.g.edges, 0 ≤ d e.idx := by
      intro e he
      cases hp : P e
      · rw [h1 e he hp]; exact hc.c_nonneg e he
      · exact hdn e he hp
    have hdc : ∀ e ∈ st.g.edges, d e.idx = c e.idx := by
      intro e he
      cases hp : P e
      · exact h1 e he hp
      · rw [hcz e he hp]
        have h2 := le_wsum hdnn he hp
        have h3 := hdn e he hp
        omega
    refine ⟨st, ?_, hc.counted_congr hdc, (Trans.step_refl st c bm).step_congr hdc, ?_⟩
    · have : ¬ (sw > 0) := by omega
      simp [add_self, this]
    · intro X hX
      refine hX.mono ?_
      intro k hk
      rcases hk with h | h
      · exact h
      · omega

theorem add_in_loop_cons (v r : Nat) (e : Edge) (es : List Edge) (st : BlockState)
    (hne : e.src ≠ v) :
    add_in_loop v r (fun _ => false) (e :: es) st =
      if (st.touch_step (st.b e.src) r e.idx).bedge e.idx = none then
        .error (Err.assertion, st.touch_step (st.b e.src) r e.idx)
      else if (st.touch_step (st.b e.src) r e.idx).get_me (st.b e.src) r ≠
          some (st.get_or_create_me (st.b e.src) r).2 then
        .error (Err.assertion, st.touch_step (st.b e.src) r e.idx)
      else
        add_in_loop v r (fun _ => false) es
          ((st.touch_step (st.b e.src) r e.idx).bump (st.b e.src) r
            (st.get_or_create_me (st.b e.src) r).2
            ((st.touch_step (st.b e.src) r e.idx).eweight e.idx)) := by
  simp only [add_in_loop, Bool.false_eq_true, if_false, hne]
  rfl

/-- The second loop of `add_vertex` on a list of descriptors of edges entering
`v`, none of them counted yet: it succeeds and counts the processed edges with
their weight. -/
theorem add_in_loop_spec (v r : Nat) (bm : Nat → Nat) (bs : Nat → Nat → Int)
    (hbv : bm v = r) :
    ∀ (es : List Edge) (st : BlockState) (c : Nat → Int) (K : Nat → Prop),
      (st.g.edges.map (fun e => e.idx)).Nodup →
      Counted st c bm bs K →
      (∀ u, u ≠ v → st.b u = bm u) →
      (∀ e ∈ es, e.tgt = v ∧ ∃ e0 ∈ st.g.edges, descr st.g.directed e e0) →
      ((es.filter (in_proc v)).map (fun e => e.idx)).Nodup →
      (∀ e ∈ es, in_proc v e = true → c e.idx = 0) →
      (∀ e ∈ es, 0 < st.eweight e.idx) →
      ∃ st', add_in_loop v r (fun _ => false) es st = .ok st' ∧
        Counted st' (set_on st.eweight ((es.filter (in_proc v)).map (fun e => e.idx)) c)
          bm bs K ∧
        Trans st st' c
          (set_on st.eweight ((es.filter (in_proc v)).map (fun e => e.idx)) c) bm ∧
        (∀ X, SparseX st X → SparseX st' X) := by
  intro es
  induction es with
  | nil =>
    intro st c K _ hc _ _ _ _ _
    refine ⟨st, by simp [add_in_loop], ?_, ?_, fun _ h => h⟩
    · simpa [set_on_nil] using hc
    · simpa [set_on_nil] using Trans.step_refl st c bm
  | cons e es ih =>
    intro st c K hnd hc hb hit hndp hce hpw
    obtain ⟨htgt, e0, h0, hde⟩ := hit e (List.mem_cons_self _ _)
    have hit' : ∀ x ∈ es, x.tgt = v ∧ ∃ e0 ∈ st.g.edges, descr st.g.directed x e0 :=
      fun x hx => hit x (List.mem_cons_of_mem _ hx)
    have hi : e0.idx = e.idx := hde.1
    have hwe : 0 < st.eweight e.idx := hpw e (List.mem_cons_self _ _)
    by_cases hp : in_proc v e = true
    · have hnself : e.src ≠ v := by simpa [in_proc] using hp
      have hs : st.b e.src = bm e.src := hb e.src hnself
      have hor : oriented st.g.directed bm e0 (bm e.src) r := by
        have := hde.to_oriented bm
        rw [htgt, hbv] at this
        exact this
      have hz : c e0.idx = 0 := by rw [hi]; exact hce e (List.mem_cons_self _ _) hp
      rw [List.filter_cons_of_pos hp, List.map_cons, List.nodup_cons] at hndp
      obtain ⟨hc1, ht1, hs1⟩ := inc_step_spec hnd hc h0 hor hz hwe
      have hfr := ht1.frame
      have hg1 : (st.inc_step (bm e.src) r e0.idx (st.eweight e.idx)).g = st.g := hfr.1
      have hew1 : (st.inc_step (bm e.src) r e0.idx (st.eweight e.idx)).eweight = st.eweight :=
        hfr.2.1
      have hb1 : (st.inc_step (bm e.src) r e0.idx (st.eweight e.idx)).b = st.b :=
        hfr.2.2.2.1
      obtain ⟨st', hrun, hc', ht', hs'⟩ := ih
        (st.inc_step (bm e.src) r e0.idx (st.eweight e.idx))
        (Function.update c e0.idx (st.eweight e.idx)) K (by rw [hg1]; exact hnd) hc1
        (by rw [hb1]; exact hb) (by rw [hg1]; exact hit') hndp.2
        (by
          intro x hx hpx
          have hne : x.idx ≠ e0.idx := by
            intro hxi
            apply hndp.1
            rw [← hi, ← hxi]
            exact List.mem_map.2 ⟨x, List.mem_filter.2 ⟨hx, hpx⟩, rfl⟩
          have := hce x (List.mem_cons_of_mem _ hx) hpx
          simpa [Function.update, hne] using this)
        (by rw [hew1]; exact fun x hx => hpw x (List.mem_cons_of_mem _ hx))
      rw [hew1] at hc' ht'
      have hzc : set_on st.eweight ((es.filter (in_proc v)).map (fun e => e.idx))
          (Function.update c e0.idx (st.eweight e.idx)) =
          set_on st.eweight (e.idx :: (es.filter (in_proc v)).map (fun e => e.idx)) c := by
        rw [hi]; exact set_on_cons _ _ _ _
      rw [hzc] at hc' ht'
      refine ⟨st', ?_, ?_, ?_, ?_⟩
      · rw [← hrun, add_in_loop_cons v r e es st hnself, hs,
          if_neg (touch_step_asserts st (bm e.src) r e.idx).1,
          if_neg (touch_step_asserts st (bm e.src) r e.idx).2,
          (touch_step_frame st (bm e.src) r e.idx).2.1, hi]
        rfl
      · rw [List.filter_cons_of_pos hp, List.map_cons]; exact hc'
      · rw [List.filter_cons_of_pos hp, List.map_cons]
        exact ht1.step_trans ht'
      · intro X hX
        exact hs' X (hs1 X hX)
    · have hself : e.src = v := by simpa [in_proc] using hp
      rw [List.filter_cons_of_neg hp] at hndp
      obtain ⟨st', hrun, hc', ht', hs'⟩ := ih st c K hnd hc hb hit' hndp
        (fun x hx hpx => hce x (List.mem_cons_of_mem _ hx) hpx)
        (fun x hx => hpw x (List.mem_cons_of_mem _ hx))
      refine ⟨st', ?_, ?_, ?_, hs'⟩
      · rw [← hrun]
        simp [add_in_loop, hself]
      · rw [List.filter_cons_of_neg hp]; exact hc'
      · rw [List.filter_cons_of_neg hp]; exact ht'

theorem out_self_mem (g : Graph) (v : Nat) {e : Edge} (he : e ∈ g.edges)
    (hp : ph_self g.directed v e = true) :
    e.idx ∈ ((out_edges_range g v).filter (fun e => !out_proc g.directed v e)).map
      (fun e => e.idx) := by
  cases hd : g.directed
  · rw [hd] at hp
    simp only [ph_self, is_self, Bool.not_false, Bool.true_and, Bool.and_eq_true,
      decide_eq_true_eq] at hp
    refine List.mem_map.2 ⟨e, List.mem_filter.2 ⟨?_, ?_⟩, rfl⟩
    · unfold out_edges_range
      simp only [hd, Bool.false_eq_true, if_false, List.mem_append, List.mem_filter,
        decide_eq_true_eq]
      exact Or.inl ⟨he, hp.1⟩
    · simp [out_proc, hp.2]
  · rw [hd] at hp; simp [ph_self] at hp

theorem out_items_incident (g : Graph) (v : Nat) {e e0 : Edge} (hsrc : e.src = v)
    (hde : descr g.directed e e0) : incident v e0 = true := by
  rcases hde.2 with ⟨h1, _⟩ | ⟨_, h1, _⟩
  · simp [incident, ← h1, hsrc]
  · simp [incident, ← h1, hsrc]

theorem in_items_incident (g : Graph) (v : Nat) {e e0 : Edge} (htgt : e.tgt = v)
    (hde : descr g.directed e e0) : incident v e0 = true := by
  rcases hde.2 with ⟨_, h1⟩ | ⟨_, _, h1⟩
  · simp [incident, ← h1, htgt]
  · simp [incident, ← h1, htgt]

theorem add_tail_core (st : BlockState) (v r : Nat) : same_core st (add_tail st v r) := by
  unfold add_tail same_core
  simp only
  split_ifs <;> simp

theorem add_tail_params (st : BlockState) (v r : Nat) :
    same_params st (add_tail st v r) := by
  unfold add_tail same_params
  simp only
  split_ifs <;> simp

theorem add_tail_b_wr (st : BlockState) (v r : Nat) :
    (add_tail st v r).b = Function.update st.b v r ∧
      (add_tail st v r).wr = Function.update st.wr r (st.wr r + st.vweight v) := by
  unfold add_tail
  simp only
  split_ifs <;> simp

/-- `add_vertex(v, r)` in a state where the counting invariant holds relative
to the partition that puts `v` into `r`, and the edges incident to `v` are not
counted and have positive weight: it returns normally, the incident edges are
counted with their weight, `b[v]` becomes `r` and only `wr[r]` changes among
the block weights. -/
theorem add_vertex_spec {st : BlockState} {c : Nat → Int} {bs : Nat → Nat → Int}
    (v r : Nat) (hnd : (st.g.edges.map (fun e => e.idx)).Nodup)
    (hc : Counted st c (Function.update st.b v r) bs (fun _ => False))
    (hcv : ∀ e ∈ st.g.edges, incident v e = true → c e.idx = 0 ∧ 0 < st.eweight e.idx) :
    ∃ st', st.add_vertex v r = .ok st' ∧
      Counted st' (set_edges st.eweight st.g.edges (incident v) c)
        (Function.update st.b v r) bs (fun _ => False) ∧
      (∀ bp bq, DegCounted st c (Function.update st.b v r) bp bq →
        DegCounted st' (set_edges st.eweight st.g.edges (incident v) c)
          (Function.update st.b v r) bp bq) ∧
      (∀ X, SparseX st X → SparseX st' X) ∧
      same_params st st' ∧ st'.b = Function.update st.b v r ∧
      st'.wr = Function.update st.wr r (st.wr r + st.vweight v) := by
  have hinc : ∀ e, incident v e = (ph_out st.g.directed v e || ph_self st.g.directed v e ||
      ph_in st.g.directed v e) := incident_split st.g.directed v
  have hbv : Function.update st.b v r v = r := by simp
  have hbu : ∀ u, u ≠ v → st.b u = Function.update st.b v r u := by
    intro u hu; simp [Function.update, hu]
  -- first loop
  obtain ⟨st1, hrun1, hc1, ht1, hs1⟩ := add_out_loop_spec v r (Function.update st.b v r) bs hbv
    (out_edges_range st.g v) st c 0 (fun _ => False) hnd hc hbu (out_items st.g v)
    (out_proc_nodup hnd v)
    (by
      intro e he hp
      obtain ⟨hsrc, e0, h0, hde⟩ := out_items st.g v e he
      rw [← hde.1]
      exact (hcv e0 h0 (out_items_incident st.g v hsrc hde)).1)
    (by
      intro e he
      obtain ⟨hsrc, e0, h0, hde⟩ := out_items st.g v e he
      rw [← hde.1]
      exact (hcv e0 h0 (out_items_incident st.g v hsrc hde)).2)
  have hg1 : st1.g = st.g := ht1.frame.1
  have hew1 : st1.eweight = st.eweight := ht1.frame.2.1
  have hb1 : st1.b = st.b := ht1.frame.2.2.2.1
  have hd1 : ∀ e ∈ st.g.edges,
      set_edges st.eweight st.g.edges (ph_out st.g.directed v) c e.idx =
      set_on st.eweight (((out_edges_range st.g v).filter (out_proc st.g.directed v)).map
        (fun e => e.idx)) c e.idx := by
    intro e he
    rw [set_edges_apply _ hnd _ _ he]
    unfold set_on
    by_cases hp : ph_out st.g.directed v e = true
    · simp only [hp, if_true, (out_proc_mem hnd v he).2 hp]
    · have : ¬ (e.idx ∈ ((out_edges_range st.g v).filter (out_proc st.g.directed v)).map
          (fun e => e.idx)) := fun h => hp ((out_proc_mem hnd v he).1 h)
      simp [hp, this]
  have hc1' := hc1.counted_congr (by rw [hg1]; exact hd1)
  have ht1' := ht1.step_congr hd1
  rw [out_self_sum] at hrun1 hs1
  rw [zero_add] at hrun1
  -- the self-loop block
  have hself_out : ∀ e ∈ st.g.edges, ph_self st.g.directed v e = true →
      ph_out st.g.directed v e = false := by
    intro e _ hp
    cases hd : st.g.directed
    · rw [hd] at hp
      simp only [ph_self, is_self, Bool.not_false, Bool.true_and, Bool.and_eq_true,
        decide_eq_true_eq] at hp
      simp [ph_out, hp.1, hp.2]
    · rw [hd] at hp; simp [ph_self] at hp
  have hsw : 2 * wsum (ph_self st.g.directed v) st.eweight st.g.edges =
      2 * wsum (ph_self st1.g.directed v)
        (set_edges st.eweight st.g.edges
          (fun e => ph_out st.g.directed v e || ph_self st.g.directed v e) c) st1.g.edges := by
    rw [hg1]
    congr 1
    apply wsum_congr
    intro e he hp
    rw [set_edges_apply _ hnd _ _ he, hp]
    simp
  obtain ⟨st2, hrun2, hc2, ht2, hs2⟩ := add_self_spec
    (d := set_edges st.eweight st.g.edges
      (fun e => ph_out st.g.directed v e || ph_self st.g.directed v e) c)
    hc1' v (ph_self st1.g.directed v)
    (by
      intro e _ hp
      simp only [ph_self, is_self, Bool.and_eq_true, decide_eq_true_eq] at hp
      exact hp.2)
    (by
      intro e he hp
      rw [hg1] at he hp
      exact Or.inr (out_self_mem st.g v he hp))
    (by
      intro e he hp
      rw [hg1] at he hp
      rw [set_edges_apply _ hnd _ _ he, hself_out e he hp]
      simp only [Bool.false_eq_true, if_false]
      exact (hcv e he (by rw [hinc, hp]; simp)).1)
    (by
      intro e he hp
      rw [hg1] at he hp
      rw [set_edges_apply _ hnd _ _ he, hp]
      simp only [Bool.or_true, if_true]
      exact le_of_lt (hcv e he (by rw [hinc, hp]; simp)).2)
    (by
      intro e he hp
      rw [hg1] at he hp
      rw [set_edges_apply _ hnd _ _ he, set_edges_apply _ hnd _ _ he, hp]
      simp)
    _ hsw
  have hg2 : st2.g = st.g := by rw [ht2.frame.1, hg1]
  have hew2 : st2.eweight = st.eweight := by rw [ht2.frame.2.1, hew1]
  have hb2 : st2.b = st.b := by rw [ht2.frame.2.2.2.1, hb1]
  -- second loop
  obtain ⟨st3, hrun3, hc3, ht3, hs3⟩ := add_in_loop_spec v r (Function.update st.b v r) bs hbv
    (in_edges_range st2.g v) st2 _ _ (by rw [hg2]; exact hnd) hc2
    (by rw [hb2]; exact hbu) (in_items st2.g v)
    (by rw [in_proc_idx, hg2]; exact nodup_filter_idx hnd _)
    (by
      intro e he hp
      obtain ⟨_, e0, h0, hde⟩ := in_items st2.g v e he
      rw [hg2] at h0
      have hm : e0.idx ∈ ((in_edges_range st2.g v).filter (in_proc v)).map
          (fun e => e.idx) := by
        rw [hde.1]
        exact List.mem_map.2 ⟨e, List.mem_filter.2 ⟨he, hp⟩, rfl⟩
      rw [in_proc_idx, hg2, mem_filter_idx hnd _ h0] at hm
      have hcv0 := hcv e0 h0 (by rw [hinc, hm]; simp)
      have hdir : st.g.directed = true := by
        cases hd : st.g.directed
        · rw [hd] at hm; simp [ph_in] at hm
        · rfl
      have hsrc : ¬ (e0.src = v) := by
        simp only [ph_in, hdir, Bool.true_and, Bool.and_eq_true, decide_eq_true_eq,
          Bool.not_eq_true', decide_eq_false_iff_not] at hm
        exact hm.2
      rw [← hde.1, set_edges_apply _ hnd _ _ h0]
      have h1 : (ph_out st.g.directed v e0 || ph_self st.g.directed v e0) = false := by
        simp [ph_out, ph_self, hdir, hsrc]
      rw [h1]
      simpa using hcv0.1)
    (by
      intro e he
      obtain ⟨htgt, e0, h0, hde⟩ := in_items st2.g v e he
      rw [hg2] at h0 hde
      rw [hew2, ← hde.1]
      exact (hcv e0 h0 (in_items_incident st.g v htgt hde)).2)
  have hg3 : st3.g = st.g := by rw [ht3.frame.1, hg2]
  rw [hg2] at hrun3 hc3 ht3
  rw [hew2] at hc3 ht3
  rw [hg1, hbv] at hs2
  rw [hbv] at hrun2
  have hd3 : ∀ e ∈ st.g.edges, set_edges st.eweight st.g.edges (incident v) c e.idx =
      set_on st.eweight (((in_edges_range st.g v).filter (in_proc v)).map (fun e => e.idx))
        (set_edges st.eweight st.g.edges
          (fun e => ph_out st.g.directed v e || ph_self st.g.directed v e) c) e.idx := by
    intro e he
    rw [set_edges_apply _ hnd _ _ he, in_proc_idx]
    unfold set_on
    rw [set_edges_apply _ hnd _ _ he, hinc]
    by_cases hp : ph_in st.g.directed v e = true
    · simp only [(mem_filter_idx hnd _ he).2 hp, if_true, hp, Bool.or_true]
    · have hm : ¬ (e.idx ∈ (st.g.edges.filter (ph_in st.g.directed v)).map
          (fun e => e.idx)) := fun h => hp ((mem_filter_idx hnd _ he).1 h)
      have hp' : ph_in st.g.directed v e = false := by simpa using hp
      simp only [hm, if_false, hp', Bool.or_false]
  have hc3' := (hc3.counted_congr (by rw [hg3]; exact hd3)).weaken
    (K := fun _ => False) (fun _ h => absurd h id)
  have ht3' := ht3.step_congr (by rw [hg2]; exact hd3)
  have htall := (ht1'.step_trans ht2).step_trans ht3'
  have hcore := add_tail_core st3 v r
  have hbw := add_tail_b_wr st3 v r
  refine ⟨add_tail st3 v r, ?_, hc3'.counted_of_core hcore, ?_, ?_, ?_, ?_, ?_⟩
  · unfold add_vertex add_vertex_filt
    simp only [hrun1, hrun2, hg2, hrun3]
  · intro bp bq hd
    exact (htall.deg bp bq hd).deg_of_core hcore
  · intro X hX
    exact (hs3 X (hs2 X (hs1 X hX))).sparse_of_core hcore
  · exact htall.frame.params.params_trans (add_tail_params st3 v r)
  · rw [hbw.1, htall.frame.2.2.2.1]
  · rw [hbw.2, htall.frame.2.2.2.2.1, htall.frame.2.2.1]

/-! ### move_vertex -/

theorem update_eq_of_not_incident (bm : Nat → Nat) (v x : Nat) {e : Edge}
    (h : incident v e = false) :
    Function.update bm v x e.src = bm e.src ∧ Function.update bm v x e.tgt = bm e.tgt := by
  simp only [incident, Bool.or_eq_false_iff, decide_eq_false_iff_not] at h
  simp [Function.update, h.1, h.2]

/-- When no edge incident to `v` is counted, the counting invariant does not
depend on the block of `v`. -/
theorem Counted.counted_rebase {st : BlockState} {c : Nat → Int} {bm : Nat → Nat}
    {bs : Nat → Nat → Int} (hc : Counted st c bm bs (fun _ => False)) (v x : Nat)
    (hz : ∀ e ∈ st.g.edges, incident v e = true → c e.idx = 0) :
    Counted st c (Function.update bm v x) bs (fun _ => False) := by
  have hni : ∀ e ∈ st.g.edges, c e.idx ≠ 0 → incident v e = false := by
    intro e he hne
    cases hi : incident v e
    · rfl
    · exact absurd (hz e he hi) hne
  refine ⟨hc.wf, hc.c_nonneg, hc.bs_nonneg, ?_, ?_⟩
  · intro r s
    rw [hc.mrs_eq]
    congr 1
    unfold pair_weight
    apply wsum_pred_congr
    intro e he hne
    have := update_eq_of_not_incident bm v x (hni e he hne)
    simp [in_pair, this.1, this.2]
  · intro e he hk
    rcases hk with hk | hk
    swap
    · exact absurd hk id
    have := update_eq_of_not_incident bm v x (hni e he (by omega))
    rw [this.1, this.2]
    exact hc.cache e he (Or.inl hk)

theorem DegCounted.deg_rebase {st : BlockState} {c : Nat → Int} {bm : Nat → Nat}
    {bp bq : Nat → Int} (hd : DegCounted st c bm bp bq) (v x : Nat)
    (hz : ∀ e ∈ st.g.edges, incident v e = true → c e.idx = 0) :
    DegCounted st c (Function.update bm v x) bp bq := by
  have hni : ∀ e ∈ st.g.edges, c e.idx ≠ 0 → incident v e = false := by
    intro e he hne
    cases hi : incident v e
    · rfl
    · exact absurd (hz e he hi) hne
  have hs : ∀ y, wsum (fun e => decide (Function.update bm v x e.src = y)) c st.g.edges =
      wsum (fun e => decide (bm e.src = y)) c st.g.edges := by
    intro y
    apply wsum_pred_congr
    intro e he hne
    simp [(update_eq_of_not_incident bm v x (hni e he hne)).1]
  have ht : ∀ y, wsum (fun e => decide (Function.update bm v x e.tgt = y)) c st.g.edges =
      wsum (fun e => decide (bm e.tgt = y)) c st.g.edges := by
    intro y
    apply wsum_pred_congr
    intro e he hne
    simp [(update_eq_of_not_incident bm v x (hni e he hne)).2]
  refine ⟨hd.shared, ?_, ?_⟩
  · intro y; rw [hd.mrp_eq]; simp only [out_weight, hs, ht]
  · intro y; rw [hd.mrm_eq]; simp only [in_weight, hs, ht]

/-- `remove_vertex(v)` followed by `add_vertex(v, nr)`, in a state where the
counting invariant holds and the edges incident to `v` are counted with their
positive weight: both return normally and the same edges are counted, now under
the partition that puts `v` into `nr`. -/
theorem remove_add_spec {st : BlockState} {c : Nat → Int} {bs : Nat → Nat → Int}
    (v nr : Nat) (hnd : (st.g.edges.map (fun e => e.idx)).Nodup)
    (hc : Counted st c st.b bs (fun _ => False))
    (hcv : ∀ e ∈ st.g.edges, incident v e = true →
      0 < c e.idx ∧ c e.idx = st.eweight e.idx) :
    ∃ st1 st', st.remove_vertex v = .ok st1 ∧ st1.add_vertex v nr = .ok st' ∧
      Counted st' c (Function.update st.b v nr) bs (fun _ => False) ∧
      (∀ bp bq, DegCounted st c st.b bp bq →
        DegCounted st' c (Function.update st.b v nr) bp bq) ∧
      (∀ X, SparseX st X → SparseX st' X) ∧
      same_params st st' ∧ st'.b = Function.update st.b v nr ∧
      st'.wr = Function.update
        (Function.update st.wr (st.b v) (st.wr (st.b v) - st.vweight v)) nr
        (Function.update st.wr (st.b v) (st.wr (st.b v) - st.vweight v) nr +
          st.vweight v) := by
  obtain ⟨st1, hrun1, hc1, hd1, hs1, hp1, hb1, hw1⟩ := remove_vertex_spec v hnd hc hcv
  have hg1 : st1.g = st.g := hp1.1
  have hew1 : st1.eweight = st.eweight := hp1.2.1
  have hvw1 : st1.vweight = st.vweight := hp1.2.2.1
  have hz1 : ∀ e ∈ st.g.edges, incident v e = true →
      zero_edges st.g.edges (incident v) c e.idx = 0 := by
    intro e he hi
    rw [zero_edges_apply hnd _ _ he, hi]
    rfl
  have hc1' : Counted st1 (zero_edges st.g.edges (incident v) c)
      (Function.update st1.b v nr) bs (fun _ => False) := by
    rw [hb1]
    exact hc1.counted_rebase v nr (by rw [hg1]; exact hz1)
  obtain ⟨st2, hrun2, hc2, hd2, hs2, hp2, hb2, hw2⟩ := add_vertex_spec v nr
    (by rw [hg1]; exact hnd) hc1'
    (by
      rw [hg1, hew1]
      intro e he hi
      exact ⟨hz1 e he hi, by rw [← (hcv e he hi).2]; exact (hcv e he hi).1⟩)
  have hg2 : st2.g = st.g := by rw [hp2.1, hg1]
  rw [hg1, hew1, hb1] at hc2 hd2
  have hback : ∀ e ∈ st.g.edges,
      c e.idx = set_edges st.eweight st.g.edges (incident v)
        (zero_edges st.g.edges (incident v) c) e.idx := by
    intro e he
    rw [set_edges_apply _ hnd _ _ he, zero_edges_apply hnd _ _ he]
    cases hi : incident v e
    · simp
    · simp [(hcv e he hi).2]
  refine ⟨st1, st2, hrun1, hrun2, hc2.counted_congr (by rw [hg2]; exact hback), ?_, ?_,
    hp1.params_trans hp2, ?_, ?_⟩
  · intro bp bq hd
    have h1 := (hd1 bp bq hd).deg_rebase v nr (by rw [hg1]; exact hz1)
    exact (hd2 bp bq h1).deg_congr (by rw [hg2]; exact hback)
  · intro X hX
    exact hs2 X (hs1 X hX)
  · rw [hb2, hb1]
  · rw [hw2, hw1, hvw1]

/-- `move_vertex(v, nr)` to another block with the same constraint label, in a
state where the counting invariant holds and the edges incident to `v` are
counted with their positive weight: it returns normally and the same edges are
counted, now under the partition that puts `v` into `nr`. -/
theorem move_vertex_spec {st : BlockState} {c : Nat → Int} {bs : Nat → Nat → Int}
    (v nr : Nat) (hnd : (st.g.edges.map (fun e => e.idx)).Nodup)
    (hne : st.b v ≠ nr) (hlab : st.bclabel (st.b v) = st.bclabel nr)
    (hc : Counted st c st.b bs (fun _ => False))
    (hcv : ∀ e ∈ st.g.edges, incident v e = true →
      0 < c e.idx ∧ c e.idx = st.eweight e.idx) :
    ∃ st', st.move_vertex v nr = .ok st' ∧
      Counted st' c (Function.update st.b v nr) bs (fun _ => False) ∧
      (∀ bp bq, DegCounted st c st.b bp bq →
        DegCounted st' c (Function.update st.b v nr) bp bq) ∧
      (∀ X, SparseX st X → SparseX st' X) ∧
      same_params st st' ∧ st'.b = Function.update st.b v nr ∧
      st'.wr = Function.update
        (Function.update st.wr (st.b v) (st.wr (st.b v) - st.vweight v)) nr
        (Function.update st.wr (st.b v) (st.wr (st.b v) - st.vweight v) nr +
          st.vweight v) := by
  obtain ⟨st1, st2, hrun1, hrun2, hrest⟩ := remove_add_spec v nr hnd hc hcv
  refine ⟨st2, ?_, hrest⟩
  unfold move_vertex
  simp only [hne, if_false, hlab, ne_eq, not_true_eq_false, hrun1, hrun2]

theorem Consistent.counted {st : BlockState} (h : Consistent st) :
    Counted st st.eweight st.b (fun _ _ => 0) (fun _ => False) :=
  ⟨h.index_wf, fun e he => le_of_lt (h.weights_pos e he), fun _ _ => le_refl _,
    fun r s => by rw [h.exact r s]; ring, fun e he _ => h.cache e he⟩

theorem Consistent.of_counted {st : BlockState}
    (hnd : (st.g.edges.map (fun e => e.idx)).Nodup)
    (hpos : ∀ e ∈ st.g.edges, 0 < st.eweight e.idx)
    (hc : Counted st st.eweight st.b (fun _ _ => 0) (fun _ => False)) : Consistent st :=
  ⟨hnd, hpos, hc.wf, fun e he => hc.cache e he (Or.inl (hpos e he)),
    fun r s => by rw [hc.mrs_eq r s]; ring⟩

theorem sparse_iff (st : BlockState) : st.sparse ↔ SparseX st (fun _ => False) := by
  constructor
  · intro h r s me hq
    left
    exact (h r s).1 (by simp [hq])
  · intro h r s
    constructor
    · intro hs
      obtain ⟨me, hq⟩ := Option.isSome_iff_exists.1 hs
      rcases h r s me hq with h1 | h1
      · exact h1
      · exact absurd h1 id
    · intro hp
      obtain ⟨me, hq⟩ := get_me_isSome_of_pos hp
      simp [hq]

/-- `move_vertex` keeps structural consistency and index sparsity and has the
stated effect on `b` and `wr`. -/
theorem move_vertex_consistent {st : BlockState} (h : Consistent st) (v nr : Nat)
    (hne : st.b v ≠ nr) (hlab : st.bclabel (st.b v) = st.bclabel nr) :
    ∃ st', st.move_vertex v nr = .ok st' ∧ Consistent st' ∧
      (st.sparse → st'.sparse) ∧ same_params st st' ∧
      st'.b = Function.update st.b v nr ∧
      (∀ bp bq, DegCounted st st.eweight st.b bp bq →
        DegCounted st' st'.eweight st'.b bp bq) ∧
      st'.wr = Function.update
        (Function.update st.wr (st.b v) (st.wr (st.b v) - st.vweight v)) nr
        (Function.update st.wr (st.b v) (st.wr (st.b v) - st.vweight v) nr +
          st.vweight v) := by
  obtain ⟨st', hrun, hc, hd, hs, hp, hb, hw⟩ := move_vertex_spec v nr h.edges_nodup hne hlab
    h.counted (fun e he _ => ⟨h.weights_pos e he, rfl⟩)
  have hg : st'.g = st.g := hp.1
  have hew : st'.eweight = st.eweight := hp.2.1
  refine ⟨st', hrun, ?_, ?_, hp, hb, ?_, hw⟩
  · apply Consistent.of_counted
    · rw [hg]; exact h.edges_nodup
    · rw [hg, hew]; exact h.weights_pos
    · rw [hew, hb]; exact hc
  · intro hsp
    exact (sparse_iff st').2 (hs _ ((sparse_iff st).1 hsp))
  · intro bp bq hdc
    rw [hew, hb]; exact hd bp bq hdc

theorem frame_or_fault.of_frame {α : Type} {st st1 : BlockState} {proj : α → BlockState}
    {x : Res α} (h1 : same_frame st st1) (h : frame_or_fault st1 proj x) :
    frame_or_fault st proj x := by
  unfold frame_or_fault at *
  cases x with
  | ok p => exact h1.frame_trans h
  | error e => exact h

theorem remove_out_loop_unfold (v r : Nat) (efilt : Edge → Bool) (e : Edge)
    (es : List Edge) (st : BlockState) (sw : Int) :
    remove_out_loop v r efilt (e :: es) st sw =
      if efilt e then remove_out_loop v r efilt es st sw
      else if e.tgt = v ∧ st.g.directed = false then
        remove_out_loop v r efilt es st (sw + st.eweight e.idx)
      else
        match st.bedge e.idx with
        | none => .error (Err.undefined, st)
        | some me =>
          if (st.add_mrs me (-st.eweight e.idx)).mrs me < 0 then
            .error (Err.assertion, st.add_mrs me (-st.eweight e.idx))
          else
            remove_out_loop v r efilt es (st.dec_step r (st.b e.tgt) me (st.eweight e.idx)) sw :=
  rfl

theorem remove_in_loop_unfold (v r : Nat) (efilt : Edge → Bool) (e : Edge)
    (es : List Edge) (st : BlockState) :
    remove_in_loop v r efilt (e :: es) st =
      if efilt e then remove_in_loop v r efilt es st
      else if e.src = v then remove_in_loop v r efilt es st
      else
        match st.bedge e.idx with
        | none => .error (Err.undefined, st)
        | some me =>
          remove_in_loop v r efilt es (st.dec_step (st.b e.src) r me (st.eweight e.idx)) :=
  rfl

theorem remove_self_unfold (r : Nat) (st : BlockState) (sw : Int) :
    remove_self r st sw =
      if sw > 0 then
        if sw % 2 ≠ 0 then .error (Err.assertion, st)
        else
          match st.get_me r r with
          | none => .error (Err.undefined, st)
          | some me =>
            if (st.bump r r me (-(sw / 2))).mrs me < 0 then
              .error (Err.assertion, st.bump r r me (-(sw / 2)))
            else .ok (st.dec_step r r me (sw / 2))
      else .ok st := rfl

theorem add_out_loop_unfold (v r : Nat) (efilt : Edge → Bool) (e : Edge)
    (es : List Edge) (st : BlockState) (sw : Int) :
    add_out_loop v r efilt (e :: es) st sw =
      if efilt e then add_out_loop v r efilt es st sw
      else
        if (st.touch_step r (if e.tgt ≠ v then st.b e.tgt else r) e.idx).bedge e.idx = none then
          .error (Err.assertion, st.touch_step r (if e.tgt ≠ v then st.b e.tgt else r) e.idx)
        else if (st.touch_step r (if e.tgt ≠ v then st.b e.tgt else r) e.idx).get_me r
            (if e.tgt ≠ v then st.b e.tgt else r) ≠
            some (st.get_or_create_me r (if e.tgt ≠ v then st.b e.tgt else r)).2 then
          .error (Err.assertion, st.touch_step r (if e.tgt ≠ v then st.b e.tgt else r) e.idx)
        else if e.tgt = v ∧
            (st.touch_step r (if e.tgt ≠ v then st.b e.tgt else r) e.idx).g.directed = false then
          add_out_loop v r efilt es
            (st.touch_step r (if e.tgt ≠ v then st.b e.tgt else r) e.idx)
            (sw + (st.touch_step r (if e.tgt ≠ v then st.b e.tgt else r) e.idx).eweight e.idx)
        else
          add_out_loop v r efilt es
            ((st.touch_step r (if e.tgt ≠ v then st.b e.tgt else r) e.idx).bump r
              (if e.tgt ≠ v then st.b e.tgt else r)
              (st.get_or_create_me r (if e.tgt ≠ v then st.b e.tgt else r)).2
              ((st.touch_step r (if e.tgt ≠ v then st.b e.tgt else r) e.idx).eweight e.idx))
            sw := rfl

theorem add_self_unfold (r : Nat) (st : BlockState) (sw : Int) :
    add_self r st sw =
      if sw > 0 then
        if sw % 2 ≠ 0 then .error (Err.assertion, st)
        else
          match st.get_me r r with
          | none => .error (Err.undefined, st)
          | some me =>
            if (st.bump r r me (sw / 2)).mrs me < 0 then
              .error (Err.assertion, st.bump r r me (sw / 2))
            else .ok (st.bump r r me (sw / 2))
      else .ok st := rfl

theorem add_in_loop_unfold (v r : Nat) (efilt : Edge → Bool) (e : Edge)
    (es : List Edge) (st : BlockState) :
    add_in_loop v r efilt (e :: es) st =
      if efilt e then add_in_loop v r efilt es st
      else if e.src = v then add_in_loop v r efilt es st
      else
        if (st.touch_step (st.b e.src) r e.idx).bedge e.idx = none then
          .error (Err.assertion, st.touch_step (st.b e.src) r e.idx)
        else if (st.touch_step (st.b e.src) r e.idx).get_me (st.b e.src) r ≠
            some (st.get_or_create_me (st.b e.src) r).2 then
          .error (Err.assertion, st.touch_step (st.b e.src) r e.idx)
        else
          add_in_loop v r efilt es
            ((st.touch_step (st.b e.src) r e.idx).bump (st.b e.src) r
              (st.get_or_create_me (st.b e.src) r).2
              ((st.touch_step (st.b e.src) r e.idx).eweight e.idx)) := rfl

theorem remove_out_loop_frame (v r : Nat) (efilt : Edge → Bool) :
    ∀ (es : List Edge) (st : BlockState) (sw : Int),
      frame_or_fault st (fun p => p.1) (remove_out_loop v r efilt es st sw) := by
  intro es
  induction es with
  | nil => intro st sw; exact same_frame.frame_refl st
  | cons e es ih =>
    intro st sw
    rw [remove_out_loop_unfold]
    by_cases hf : efilt e = true
    · rw [if_pos hf]; exact ih st sw
    · rw [if_neg hf]
      by_cases hs : e.tgt = v ∧ st.g.directed = false
      · rw [if_pos hs]; exact ih st _
      · rw [if_neg hs]
        cases hb : st.bedge e.idx with
        | none => simp [frame_or_fault]
        | some me =>
          simp only
          by_cases h1 : (st.add_mrs me (-st.eweight e.idx)).mrs me < 0
          · rw [if_pos h1]; simp [frame_or_fault]
          · rw [if_neg h1]
            exact (ih _ sw).of_frame (dec_step_frame st r (st.b e.tgt) me (st.eweight e.idx))

theorem remove_self_frame (r : Nat) (st : BlockState) (sw : Int) :
    frame_or_fault st (fun p => p) (remove_self r st sw) := by
  rw [remove_self_unfold]
  by_cases h1 : sw > 0
  · rw [if_pos h1]
    by_cases h2 : sw % 2 ≠ 0
    · rw [if_pos h2]; simp [frame_or_fault]
    · rw [if_neg h2]
      cases hq : st.get_me r r with
      | none => simp [frame_or_fault]
      | some me =>
        simp only
        by_cases h3 : (st.bump r r me (-(sw / 2))).mrs me < 0
        · rw [if_pos h3]; simp [frame_or_fault]
        · rw [if_neg h3]; exact dec_step_frame st r r me (sw / 2)
  · rw [if_neg h1]; exact same_frame.frame_refl st

theorem remove_in_loop_frame (v r : Nat) (efilt : Edge → Bool) :
    ∀ (es : List Edge) (st : BlockState),
      frame_or_fault st (fun p => p) (remove_in_loop v r efilt es st) := by
  intro es
  induction es with
  | nil => intro st; exact same_frame.frame_refl st
  | cons e es ih =>
    intro st
    rw [remove_in_loop_unfold]
    by_cases hf : efilt e = true
    · rw [if_pos hf]; exact ih st
    · rw [if_neg hf]
      by_cases hs : e.src = v
      · rw [if_pos hs]; exact ih st
      · rw [if_neg hs]
        cases hb : st.bedge e.idx with
        | none => simp [frame_or_fault]
        | some me =>
          exact (ih _).of_frame (dec_step_frame st (st.b e.src) r me (st.eweight e.idx))

theorem add_out_loop_frame (v r : Nat) (efilt : Edge → Bool) :
    ∀ (es : List Edge) (st : BlockState) (sw : Int),
      frame_or_fault st (fun p => p.1) (add_out_loop v r efilt es st sw) := by
  intro es
  induction es with
  | nil => intro st sw; exact same_frame.frame_refl st
  | cons e es ih =>
    intro st sw
    rw [add_out_loop_unfold]
    by_cases hf : efilt e = true
    · rw [if_pos hf]; exact ih st sw
    · rw [if_neg hf]
      generalize (if e.tgt ≠ v then st.b e.tgt else r) = s
      split_ifs with h1 h2 h3
      · simp [frame_or_fault]
      · simp [frame_or_fault]
      · exact (ih _ _).of_frame (touch_step_frame st r _ e.idx)
      · exact (ih _ _).of_frame
          ((touch_step_frame st r _ e.idx).frame_trans (bump_frame _ r _ _ _))

theorem add_self_frame (r : Nat) (st : BlockState) (sw : Int) :
    frame_or_fault st (fun p => p) (add_self r st sw) := by
  rw [add_self_unfold]
  by_cases h1 : sw > 0
  · rw [if_pos h1]
    by_cases h2 : sw % 2 ≠ 0
    · rw [if_pos h2]; simp [frame_or_fault]
    · rw [if_neg h2]
      cases hq : st.get_me r r with
      | none => simp [frame_or_fault]
      | some me =>
        simp only
        by_cases h3 : (st.bump r r me (sw / 2)).mrs me < 0
        · rw [if_pos h3]; simp [frame_or_fault]
        · rw [if_neg h3]; exact bump_frame st r r me (sw / 2)
  · rw [if_neg h1]; exact same_frame.frame_refl st

theorem add_in_loop_frame (v r : Nat) (efilt : Edge → Bool) :
    ∀ (es : List Edge) (st : BlockState),
      frame_or_fault st (fun p => p) (add_in_loop v r efilt es st) := by
  intro es
  induction es with
  | nil => intro st; exact same_frame.frame_refl st
  | cons e es ih =>
    intro st
    rw [add_in_loop_unfold]
    by_cases hf : efilt e = true
    · rw [if_pos hf]; exact ih st
    · rw [if_neg hf]
      by_cases hs : e.src = v
      · rw [if_pos hs]; exact ih st
      · rw [if_neg hs]
        split_ifs with h1 h2
        · simp [frame_or_fault]
        · simp [frame_or_fault]
        · exact (ih _).of_frame
            ((touch_step_frame st (st.b e.src) r e.idx).frame_trans (bump_frame _ _ r _ _))

/-- Effect of `remove_vertex(v, efilt)` on the partition and the block weights,
in an arbitrary state. -/
theorem remove_vertex_effect (st : BlockState) (v : Nat) (efilt : Edge → Bool) :
    match st.remove_vertex_filt v efilt with
    | .ok st' => same_params st st' ∧ st'.b = st.b ∧
        st'.wr = Function.update st.wr (st.b v) (st.wr (st.b v) - st.vweight v)
    | .error e => e.1 ≠ Err.invalid_operation := by
  unfold remove_vertex_filt
  dsimp only
  have h1 := remove_out_loop_frame v (st.b v) efilt (out_edges_range st.g v) st 0
  cases hr1 : remove_out_loop v (st.b v) efilt (out_edges_range st.g v) st 0 with
  | error x => rw [hr1] at h1; exact h1
  | ok p1 =>
    rw [hr1] at h1
    obtain ⟨st1, sw⟩ := p1
    simp only
    have h2 := remove_self_frame (st.b v) st1 sw
    cases hr2 : remove_self (st.b v) st1 sw with
    | error x => rw [hr2] at h2; exact h2
    | ok st2 =>
      rw [hr2] at h2
      simp only
      have h3 := remove_in_loop_frame v (st.b v) efilt (in_edges_range st2.g v) st2
      cases hr3 : remove_in_loop v (st.b v) efilt (in_edges_range st2.g v) st2 with
      | error x => rw [hr3] at h3; exact h3
      | ok st3 =>
        rw [hr3] at h3
        simp only
        have hall : same_frame st st3 := (same_frame.frame_trans h1 h2).frame_trans h3
        have hbw := remove_tail_b_wr st3 v (st.b v)
        refine ⟨hall.params.params_trans (remove_tail_params st3 v (st.b v)), ?_, ?_⟩
        · rw [hbw.1, hall.2.2.2.1]
        · rw [hbw.2, hall.2.2.2.2.1, hall.2.2.1]

/-- Effect of `add_vertex(v, r, bedge, efilt)` on the partition and the block
weights, in an arbitrary state. -/
theorem add_vertex_effect (st : BlockState) (v r : Nat) (efilt : Edge → Bool) :
    match st.add_vertex_filt v r efilt with
    | .ok st' => same_params st st' ∧ st'.b = Function.update st.b v r ∧
        st'.wr = Function.update st.wr r (st.wr r + st.vweight v)
    | .error e => e.1 ≠ Err.invalid_operation := by
  unfold add_vertex_filt
  have h1 := add_out_loop_frame v r efilt (out_edges_range st.g v) st 0
  cases hr1 : add_out_loop v r efilt (out_edges_range st.g v) st 0 with
  | error x => rw [hr1] at h1; exact h1
  | ok p1 =>
    rw [hr1] at h1
    obtain ⟨st1, sw⟩ := p1
    simp only
    have h2 := add_self_frame r st1 sw
    cases hr2 : add_self r st1 sw with
    | error x => rw [hr2] at h2; exact h2
    | ok st2 =>
      rw [hr2] at h2
      simp only
      have h3 := add_in_loop_frame v r efilt (in_edges_range st2.g v) st2
      cases hr3 : add_in_loop v r efilt (in_edges_range st2.g v) st2 with
      | error x => rw [hr3] at h3; exact h3
      | ok st3 =>
        rw [hr3] at h3
        simp only
        have hall : same_frame st st3 := (same_frame.frame_trans h1 h2).frame_trans h3
        have hbw := add_tail_b_wr st3 v r
        refine ⟨hall.params.params_trans (add_tail_params st3 v r), ?_, ?_⟩
        · rw [hbw.1, hall.2.2.2.1]
        · rw [hbw.2, hall.2.2.2.2.1, hall.2.2.1]

/-- Effect of `move_vertex(v, nr)` in an arbitrary state: a normal return to
another block moves the weight of `v` from `wr[b[v]]` to `wr[nr]` and sets
`b[v]`; the only invalid-operation failure is the label check, raised before
any write. -/
theorem move_vertex_effect (st : BlockState) (v nr : Nat) :
    match st.move_vertex v nr with
    | .ok st' =>
        (st.b v = nr ∧ st' = st) ∨
        (st.b v ≠ nr ∧ st.bclabel (st.b v) = st.bclabel nr ∧ same_params st st' ∧
          st'.b = Function.update st.b v nr ∧
          st'.wr = Function.update
            (Function.update st.wr (st.b v) (st.wr (st.b v) - st.vweight v)) nr
            (Function.update st.wr (st.b v) (st.wr (st.b v) - st.vweight v) nr +
              st.vweight v))
    | .error e =>
        e.1 = Err.invalid_operation →
          (st.b v ≠ nr ∧ st.bclabel (st.b v) ≠ st.bclabel nr ∧ e.2 = st) := by
  unfold move_vertex
  by_cases h1 : st.b v = nr
  · simp [h1]
  · simp only [h1, if_false]
    by_cases h2 : st.bclabel (st.b v) = st.bclabel nr
    · simp only [h2, ne_eq, not_true_eq_false, if_false]
      have hr := remove_vertex_effect st v (fun _ => false)
      unfold remove_vertex
      cases hr1 : st.remove_vertex_filt v (fun _ => false) with
      | error x => rw [hr1] at hr; exact fun h => absurd h hr
      | ok st1 =>
        rw [hr1] at hr
        simp only
        have ha := add_vertex_effect st1 v nr (fun _ => false)
        unfold add_vertex
        cases hr2 : st1.add_vertex_filt v nr (fun _ => false) with
        | error x => rw [hr2] at ha; exact fun h => absurd h ha
        | ok st2 =>
          rw [hr2] at ha
          right
          refine ⟨h1, trivial, hr.1.params_trans ha.1, ?_, ?_⟩
          · rw [ha.2.1, hr.2.1]
          · rw [ha.2.2, hr.2.2, hr.1.2.2.1]
    · simp [h2, h1]

end BlockState

theorem rsum_zero (f : Nat → Int) : rsum 0 f = 0 := rfl

theorem rsum_succ (n : Nat) (f : Nat → Int) : rsum (n + 1) f = rsum n f + f n := by
  simp [rsum, List.range_succ]

theorem rsum_congr {n : Nat} {f g : Nat → Int} (h : ∀ i, i < n → f i = g i) :
    rsum n f = rsum n g := by
  induction n with
  | zero => rfl
  | succ n ih =>
    rw [rsum_succ, rsum_succ, ih (fun i hi => h i (Nat.lt_succ_of_lt hi)), h n (Nat.lt_succ_self n)]

theorem rsum_add (n : Nat) (f g : Nat → Int) :
    rsum n (fun i => f i + g i) = rsum n f + rsum n g := by
  induction n with
  | zero => rfl
  | succ n ih => rw [rsum_succ, rsum_succ, rsum_succ, ih]; ring

theorem rsum_sub (n : Nat) (f g : Nat → Int) :
    rsum n (fun i => f i - g i) = rsum n f - rsum n g := by
  induction n with
  | zero => rfl
  | succ n ih => rw [rsum_succ, rsum_succ, rsum_succ, ih]; ring

theorem rsum_const_zero (n : Nat) : rsum n (fun _ => 0) = 0 := by
  induction n with
  | zero => rfl
  | succ n ih => rw [rsum_succ, ih]; rfl

theorem rsum_single (n t : Nat) (x : Int) :
    rsum n (fun i => if i = t then x else 0) = if t < n then x else 0 := by
  induction n with
  | zero => simp [rsum_zero]
  | succ n ih =>
    rw [rsum_succ, ih]
    by_cases h1 : t < n
    · have : n ≠ t := by omega
      have h2 : t < n + 1 := by omega
      simp [h1, this, h2]
    · by_cases h2 : n = t
      · have h3 : t < n + 1 := by omega
        simp [h1, h2, h3]
      · have h3 : ¬ t < n + 1 := by omega
        simp [h1, h2, h3]

/-- Exchange of a sum over blocks with a count over edges. -/
theorem rsum_wsum (n : Nat) (P : Nat → Edge → Bool) (c : Nat → Int) (es : List Edge) :
    rsum n (fun s => wsum (P s) c es) =
      (es.map (fun e => rsum n (fun s => if P s e then c e.idx else 0))).sum := by
  induction es with
  | nil => simp [rsum_const_zero]
  | cons e es ih =>
    simp only [wsum_cons, List.map_cons, List.sum_cons]
    rw [rsum_add, ih]

theorem sum_map_congr {es : List Edge} {f g : Edge → Int} (h : ∀ e ∈ es, f e = g e) :
    (es.map f).sum = (es.map g).sum := by
  induction es with
  | nil => rfl
  | cons e es ih =>
    simp only [List.map_cons, List.sum_cons]
    rw [h e (List.mem_cons_self _ _), ih (fun x hx => h x (List.mem_cons_of_mem _ hx))]

/-- Row sums of the pair weights of a directed graph are the out-weights. -/
theorem row_sum_pair_weight (n : Nat) (c : Nat → Int) (bm : Nat → Nat) (es : List Edge)
    (r : Nat) (hB : ∀ e ∈ es, c e.idx ≠ 0 → bm e.tgt < n) :
    rsum n (fun s => pair_weight true c bm es r s) = out_weight true c bm es r := by
  unfold pair_weight out_weight
  rw [rsum_wsum]
  simp only [if_true, add_zero]
  unfold wsum
  apply sum_map_congr
  intro e he
  by_cases hc : c e.idx = 0
  · simp [hc, rsum_const_zero]
  · have hlt := hB e he hc
    have : (fun s => if in_pair true bm r s e = true then c e.idx else 0) =
        fun s => if s = bm e.tgt then (if bm e.src = r then c e.idx else 0) else 0 := by
      funext s
      simp only [in_pair, bkey, if_true, Prod.mk.injEq, decide_eq_true_eq]
      by_cases h1 : bm e.src = r <;> by_cases h2 : s = bm e.tgt <;>
        simp [h1, h2, eq_comm]
    rw [this, rsum_single, if_pos hlt]
    simp

/-- Column sums of the pair weights of a directed graph are the in-weights. -/
theorem col_sum_pair_weight (n : Nat) (c : Nat → Int) (bm : Nat → Nat) (es : List Edge)
    (r : Nat) (hB : ∀ e ∈ es, c e.idx ≠ 0 → bm e.src < n) :
    rsum n (fun s => pair_weight true c bm es s r) = in_weight true c bm es r := by
  unfold pair_weight in_weight
  rw [rsum_wsum]
  simp only [if_true, add_zero]
  unfold wsum
  apply sum_map_congr
  intro e he
  by_cases hc : c e.idx = 0
  · simp [hc, rsum_const_zero]
  · have hlt := hB e he hc
    have : (fun s => if in_pair true bm s r e = true then c e.idx else 0) =
        fun s => if s = bm e.src then (if bm e.tgt = r then c e.idx else 0) else 0 := by
      funext s
      simp only [in_pair, bkey, if_true, Prod.mk.injEq, decide_eq_true_eq]
      by_cases h1 : bm e.tgt = r <;> by_cases h2 : s = bm e.src <;>
        simp [h1, h2, eq_comm]
    rw [this, rsum_single, if_pos hlt]
    simp

theorem bkey_false_eq (a b r s : Nat) :
    bkey false a b = bkey false r s ↔ (a = r ∧ b = s) ∨ (a = s ∧ b = r) := by
  simp only [bkey, Bool.false_eq_true, if_false, Prod.mk.injEq, Nat.min_def, Nat.max_def]
  split_ifs <;> omega

/-- The degree of a block in the undirected block graph is the weight of the
edge ends in the block. -/
theorem und_sum_pair_weight (n : Nat) (c : Nat → Int) (bm : Nat → Nat) (es : List Edge)
    (r : Nat) (hr : r < n)
    (hB : ∀ e ∈ es, c e.idx ≠ 0 → bm e.src < n ∧ bm e.tgt < n) :
    rsum n (fun s => if s = r then 2 * pair_weight false c bm es r r
        else pair_weight false c bm es r s) = out_weight false c bm es r := by
  have hsplit : (fun s => if s = r then 2 * pair_weight false c bm es r r
      else pair_weight false c bm es r s) =
      fun s => wsum (fun e => in_pair false bm r s e) c es +
        wsum (fun e => decide (s = r) && in_pair false bm r r e) c es := by
    funext s
    by_cases h : s = r
    · subst h
      simp only [if_true, pair_weight, decide_True, Bool.true_and]
      ring
    · have hz : wsum (fun e => decide (s = r) && in_pair false bm r r e) c es = 0 := by
        apply wsum_zero
        intro e _ hp
        simp [h] at hp
      rw [hz, if_neg h, add_zero]
      rfl
  rw [hsplit, rsum_add, rsum_wsum, rsum_wsum]
  unfold out_weight wsum
  simp only [Bool.false_eq_true, if_false]
  rw [← List.sum_map_add, ← List.sum_map_add]
  apply sum_map_congr
  intro e he
  by_cases hc : c e.idx = 0
  · simp [hc, rsum_const_zero]
  · obtain ⟨h1, h2⟩ := hB e he hc
    have f1 : (fun s => if in_pair false bm r s e = true then c e.idx else 0) =
        fun s => (if s = bm e.tgt then (if bm e.src = r then c e.idx else 0) else 0) +
          (if s = bm e.src then
            (if bm e.tgt = r ∧ bm e.src ≠ r then c e.idx else 0) else 0) := by
      funext s
      simp only [in_pair, decide_eq_true_eq, bkey_false_eq]
      by_cases a1 : bm e.src = r <;> by_cases a2 : bm e.tgt = r <;>
        by_cases a3 : s = bm e.tgt <;> by_cases a4 : s = bm e.src <;>
        simp_all <;> omega
    have f2 : (fun s => if (decide (s = r) && in_pair false bm r r e) = true then c e.idx
        else 0) =
        fun s => if s = r then (if bm e.src = r ∧ bm e.tgt = r then c e.idx else 0) else 0 := by
      funext s
      simp only [in_pair, Bool.and_eq_true, decide_eq_true_eq, bkey_false_eq]
      by_cases a1 : bm e.src = r <;> by_cases a2 : bm e.tgt = r <;>
        by_cases a3 : s = r <;> simp_all
    rw [f1, f2, rsum_add, rsum_single, rsum_single, rsum_single, if_pos h1, if_pos h2, if_pos hr]
    by_cases a1 : bm e.src = r <;> by_cases a2 : bm e.tgt = r <;> simp [a1, a2]

namespace BlockState

theorem ex_pair_consistent : Consistent ex_pair := by
  refine ⟨by decide, by decide, ⟨by decide, by decide, ?_⟩, ?_, ?_⟩
  · intro r s h hq
    refine ⟨⟨0, 1, 0⟩, by simp [ex_pair], ?_⟩
    simp only [get_me, ex_pair, bkey, if_true] at hq ⊢
    split_ifs at hq with h1
    · simp at hq; exact ⟨hq, h1.symm⟩
  · intro e he
    simp only [ex_pair, List.mem_singleton] at he
    subst he
    exact ⟨0, by decide, by decide⟩
  · intro r s
    simp only [get_mrs, get_me, pair_weight, wsum, in_pair, bkey, ex_pair, if_true,
      List.map_cons, List.map_nil, List.sum_cons, List.sum_nil]
    by_cases h1 : (r, s) = (0, 1)
    · simp [h1]
    · have h2 : ¬ ((0, 1) = (r, s)) := fun h => h1 h.symm
      simp [h1, h2]

theorem ex_pair_sparse : ex_pair.sparse := by
  intro r s
  simp only [get_mrs, get_me, bkey, ex_pair, if_true]
  by_cases h1 : (r, s) = (0, 1) <;> simp [h1]

theorem ex_ring_mrs (k : Nat × Nat) :
    (match ex_ring.emat k with
      | some me => ex_ring.mrs me
      | none => 0) =
    (if k = (0, 0) then 4 else if k = (0, 1) then 2 else if k = (1, 1) then 1 else 0) := by
  simp only [ex_ring]
  split_ifs <;> rfl

theorem ex_ring_weights (k : Nat × Nat) :
    wsum (fun e => decide (bkey false (ex_ring.b e.src) (ex_ring.b e.tgt) = k))
      ex_ring.eweight ex_ring.g.edges =
    (if k = (0, 0) then 4 else if k = (0, 1) then 2 else if k = (1, 1) then 1 else 0) := by
  have e1 : bkey false 0 0 = (0, 0) := by decide
  have e2 : bkey false 0 1 = (0, 1) := by decide
  have e3 : bkey false 1 1 = (1, 1) := by decide
  have e4 : bkey false 1 0 = (0, 1) := by decide
  obtain ⟨a, b⟩ := k
  simp only [wsum, ex_ring, List.map_cons, List.map_nil, List.sum_cons, List.sum_nil,
    decide_eq_true_eq, Nat.lt_irrefl, Nat.zero_lt_succ, Nat.one_lt_ofNat, if_true, if_false,
    e1, e2, e3, e4, Nat.reduceLT, Nat.reduceEqDiff, OfNat.ofNat_ne_zero, OfNat.ofNat_ne_one,
    Prod.mk.injEq]
  split_ifs <;> omega

theorem ex_ring_consistent : Consistent ex_ring := by
  refine ⟨by decide, by decide, ⟨by decide, by decide, ?_⟩, ?_, ?_⟩
  · intro r s h hq
    have hq' : (if bkey false r s = (0, 0) then some 0 else if bkey false r s = (0, 1) then some 1
        else if bkey false r s = (1, 1) then some 2 else none) = some h := hq
    split_ifs at hq' with h1 h2 h3
    · exact ⟨⟨0, 0, 0⟩, by simp [ex_ring], Option.some.inj hq', h1.symm⟩
    · exact ⟨⟨1, 0, 1⟩, by simp [ex_ring], Option.some.inj hq', h2.symm⟩
    · exact ⟨⟨1, 1, 2⟩, by simp [ex_ring], Option.some.inj hq', h3.symm⟩
  · intro e he
    simp only [ex_ring, List.mem_cons, List.mem_singleton, List.not_mem_nil, or_false] at he
    rcases he with rfl | rfl | rfl | rfl | rfl
    · exact ⟨0, by decide, by decide⟩
    · exact ⟨1, by decide, by decide⟩
    · exact ⟨2, by decide, by decide⟩
    · exact ⟨1, by decide, by decide⟩
    · exact ⟨0, by decide, by decide⟩
  · intro r s
    exact (ex_ring_mrs (bkey false r s)).trans (ex_ring_weights (bkey false r s)).symm

theorem ex_ring_sparse : ex_ring.sparse := by
  intro r s
  have h1 : ex_ring.get_mrs r s =
      (match ex_ring.emat (bkey false r s) with
        | some me => ex_ring.mrs me
        | none => 0) := rfl
  have h2 : ex_ring.get_me r s = ex_ring.emat (bkey false r s) := rfl
  rw [h1, h2, ex_ring_mrs]
  simp only [ex_ring]
  split_ifs <;> simp

theorem ex_ring_deg_sum : ex_ring.deg_sum := by
  unfold deg_sum
  decide

theorem ex_ring_in_range :
    ∀ e ∈ ex_ring.g.edges, ex_ring.b e.src < ex_ring.bg.nv ∧ ex_ring.b e.tgt < ex_ring.bg.nv := by
  decide

/-! ## The claims about move_vertex and virtual_move -/

theorem move_vertex_invalid (st : BlockState) (v nr : Nat) :
    (∃ s, st.move_vertex v nr = .error (Err.invalid_operation, s)) ↔
      (nr ≠ st.b v ∧ st.bclabel (st.b v) ≠ st.bclabel nr) := by
  constructor
  · rintro ⟨s, hs⟩
    have h := move_vertex_effect st v nr
    rw [hs] at h
    have h2 := h rfl
    exact ⟨fun e => h2.1 e.symm, h2.2.1⟩
  · rintro ⟨h1, h2⟩
    refine ⟨st, ?_⟩
    unfold move_vertex
    have h3 : ¬ (st.b v = nr) := fun e => h1 e.symm
    simp [h3, h2]

theorem update_wr_sum (n v : Nat) (hv : v < n) (bm : Nat → Nat) (w : Nat → Int) (nr x : Nat) :
    rsum n (fun u => if Function.update bm v nr u = x then w u else 0) =
      rsum n (fun u => if bm u = x then w u else 0)
        - (if bm v = x then w v else 0) + (if nr = x then w v else 0) := by
  have h1 : ∀ u, (if Function.update bm v nr u = x then w u else 0) =
      (if bm u = x then w u else 0) +
        (if u = v then (if nr = x then w v else 0) - (if bm v = x then w v else 0) else 0) := by
    intro u
    by_cases hu : u = v
    · subst hu; simp
    · simp [Function.update, hu]
  rw [rsum_congr (fun u _ => h1 u), rsum_add, rsum_single, if_pos hv]
  ring

theorem wr_exact_update {st st' : BlockState} {v nr : Nat} (hv : v < st.g.nv)
    (hg : st'.g = st.g) (hvw : st'.vweight = st.vweight)
    (hb : st'.b = Function.update st.b v nr)
    (hw : st'.wr = Function.update
        (Function.update st.wr (st.b v) (st.wr (st.b v) - st.vweight v)) nr
        (Function.update st.wr (st.b v) (st.wr (st.b v) - st.vweight v) nr +
          st.vweight v))
    (h : st.wr_exact) : st'.wr_exact := by
  intro x
  have h0 := update_wr_sum st.g.nv v hv st.b st.vweight nr x
  unfold rsum at h0
  rw [hg, hvw, hb, hw, h0]
  have hx := h x
  have hr := h (st.b v)
  have hn := h nr
  by_cases h1 : x = nr
  · subst h1
    by_cases h2 : st.b v = x
    · simp [Function.update, h2]; rw [← hx]
    · have h3 : ¬ (x = st.b v) := fun e => h2 e.symm
      simp [Function.update, h2, h3]; rw [← hx]
  · have h1' : ¬ (nr = x) := fun e => h1 e.symm
    by_cases h2 : st.b v = x
    · subst h2
      simp [Function.update, h1, h1']; rw [← hx]
    · have h3 : ¬ (x = st.b v) := fun e => h2 e.symm
      simp [Function.update, h1, h1', h2, h3]; rw [← hx]

/-- C8: `move_vertex(v, b[v])` returns without error and returns the state it
was given, so `b`, `wr`, `mrp`, `mrm`, `mrs`, the block-pair index and the
per-edge cache are exactly as they were, whatever the constraint labels are. -/
theorem move_vertex_same_block (st : BlockState) (v : Nat) :
    st.move_vertex v (st.b v) = .ok st := by
  simp [move_vertex]

/-- C9: `move_vertex(v, nr)` fails with an invalid-operation error if and only
if `nr != b[v]` and `bclabel[b[v]] != bclabel[nr]`, and the state in which the
error is raised is the state the call was given. -/
theorem move_vertex_invalid_iff (st : BlockState) (v nr : Nat) :
    ((∃ s, st.move_vertex v nr = .error (Err.invalid_operation, s)) ↔
      (nr ≠ st.b v ∧ st.bclabel (st.b v) ≠ st.bclabel nr)) ∧
    (∀ s, st.move_vertex v nr = .error (Err.invalid_operation, s) → s = st) := by
  refine ⟨move_vertex_invalid st v nr, ?_⟩
  intro s hs
  have h := move_vertex_effect st v nr
  rw [hs] at h
  exact (h rfl).2.2

/-- C10: when `bclabel[b[v]] != bclabel[nr]`, `virtual_move` returns +infinity
(`none`) for every combination of the five flags and every model, without an
error and in the unchanged state (so without enabling partition statistics);
the label mismatch is exactly the condition under which `move_vertex(v, nr)`
fails with an invalid-operation error, and in a consistent state exactly the
condition under which it fails at all. -/
theorem virtual_move_label_mismatch {R : Type} [AddCommGroup R] (T : Terms R)
    (st : BlockState) (v nr : Nat) (dense multigraph partition_dl deg_dl edges_dl : Bool) :
    (st.bclabel (st.b v) ≠ st.bclabel nr →
      st.virtual_move T v nr dense multigraph partition_dl deg_dl edges_dl = .ok (none, st)) ∧
    (st.bclabel (st.b v) ≠ st.bclabel nr ↔
      ∃ s, st.move_vertex v nr = .error (Err.invalid_operation, s)) ∧
    (Consistent st →
      (st.bclabel (st.b v) ≠ st.bclabel nr ↔ ∃ e, st.move_vertex v nr = .error e)) := by
  have hiff : st.bclabel (st.b v) ≠ st.bclabel nr ↔
      ∃ s, st.move_vertex v nr = .error (Err.invalid_operation, s) := by
    rw [move_vertex_invalid]
    constructor
    · intro h
      exact ⟨fun e => h (by rw [e]), h⟩
    · intro h; exact h.2
  refine ⟨?_, hiff, ?_⟩
  · intro h
    unfold virtual_move
    simp [h]
  · intro hc
    constructor
    · intro h
      obtain ⟨s, hs⟩ := hiff.1 h
      exact ⟨_, hs⟩
    · rintro ⟨e, he⟩ hlab
      by_cases hne : st.b v = nr
      · rw [← hne] at he
        simp [move_vertex] at he
      · obtain ⟨st', hrun, _⟩ := move_vertex_consistent hc v nr hne hlab
        rw [hrun] at he
        cases he

theorem ex_pair_wr_exact : ex_pair.wr_exact := by
  intro r
  simp only [ex_pair, List.range_succ, List.range_zero, List.nil_append, List.map_cons,
    List.map_nil, List.sum_cons, List.sum_nil, List.cons_append]
  by_cases h0 : r = 0
  · subst h0; simp
  · by_cases h1 : r = 1
    · subst h1; simp
    · have h2 : ¬ (r < 2) := by omega
      have h3 : ¬ (0 = r) := fun e => h0 e.symm
      have h4 : ¬ (1 = r) := fun e => h1 e.symm
      simp [h2, h3, h4]

/-- C2: for a vertex `v` of the graph, in a consistent state with compatible
labels `move_vertex(v, nr)` returns; and whenever it returns, the block-weight
invariant `wr[r] = sum of vweight[u] over b[u] = r` carries over from the state
before to the state after, and for `nr != b[v]` the value `wr[b_old[v]]` has
decreased by `vweight[v]`, `wr[nr]` has increased by `vweight[v]`, `b[v]` is
`nr`, and `wr` and `b` are unchanged everywhere else. -/
theorem move_vertex_block_weights (st : BlockState) (v nr : Nat) (hv : v < st.g.nv) :
    (Consistent st → st.bclabel (st.b v) = st.bclabel nr →
      ∃ st', st.move_vertex v nr = .ok st') ∧
    ∀ st', st.move_vertex v nr = .ok st' →
      (st'.vweight = st.vweight ∧ st'.g = st.g) ∧
      (st.wr_exact → st'.wr_exact) ∧
      (st.b v ≠ nr →
        st'.b v = nr ∧ (∀ u, u ≠ v → st'.b u = st.b u) ∧
        st'.wr (st.b v) = st.wr (st.b v) - st.vweight v ∧
        st'.wr nr = st.wr nr + st.vweight v ∧
        (∀ x, x ≠ st.b v → x ≠ nr → st'.wr x = st.wr x)) := by
  constructor
  · intro hc hlab
    by_cases hne : st.b v = nr
    · refine ⟨st, ?_⟩
      rw [← hne]; simp [move_vertex]
    · obtain ⟨st', hrun, _⟩ := move_vertex_consistent hc v nr hne hlab
      exact ⟨st', hrun⟩
  · intro st' hok
    have h := move_vertex_effect st v nr
    rw [hok] at h
    rcases h with ⟨heq, rfl⟩ | ⟨hne, _, hp, hb, hw⟩
    · exact ⟨⟨rfl, rfl⟩, id, fun h => absurd heq h⟩
    · refine ⟨⟨hp.2.2.1, hp.1⟩, wr_exact_update hv hp.1 hp.2.2.1 hb hw, ?_⟩
      intro _
      have hne' : ¬ (nr = st.b v) := fun e => hne e.symm
      refine ⟨by rw [hb]; simp, ?_, ?_, ?_, ?_⟩
      · intro u hu; rw [hb]; simp [Function.update, hu]
      · rw [hw]; simp [Function.update, hne]
      · rw [hw]; simp [Function.update, hne']
      · intro x hx1 hx2; rw [hw]; simp [Function.update, hx1, hx2]

theorem move_vertex_block_weights_witness :
    (state_of (ex_pair.move_vertex 1 2) ex_pair).wr_exact ∧
      (state_of (ex_pair.move_vertex 1 2) ex_pair).wr 1 = 0 ∧
      (state_of (ex_pair.move_vertex 1 2) ex_pair).wr 2 = 1 :=
  have h := (move_vertex_block_weights ex_pair 1 2 (by decide)).2
    (state_of (ex_pair.move_vertex 1 2) ex_pair) rfl
  ⟨h.2.1 ex_pair_wr_exact, (h.2.2 (by decide)).2.2.1, (h.2.2 (by decide)).2.2.2.1⟩

/-- C3: in a consistent state (distinct edge identities, positive edge weights,
index and block graph in agreement, per-edge cache consistent with `b`, and
`mrs` exact), `move_vertex(v, nr)` with compatible labels returns, and in the
state it returns `mrs(r, s)` is again the total weight of the graph edges
between blocks `r` and `s` under the new partition, and the per-edge cache is
again consistent with it. -/
theorem move_vertex_mrs_exact {st : BlockState} (h : Consistent st) (v nr : Nat)
    (hlab : st.bclabel (st.b v) = st.bclabel nr) :
    ∃ st', st.move_vertex v nr = .ok st' ∧ st'.mrs_exact ∧
      (∀ e ∈ st'.g.edges, st'.cache_ok e) ∧ IndexWF st' ∧
      st'.b = Function.update st.b v nr ∧ st'.g = st.g ∧ st'.eweight = st.eweight := by
  by_cases hne : st.b v = nr
  · refine ⟨st, ?_, h.exact, h.cache, h.index_wf, ?_, rfl, rfl⟩
    · rw [← hne]; simp [move_vertex]
    · rw [← hne]; simp
  · obtain ⟨st', hrun, hc, _, hp, hb, _⟩ := move_vertex_consistent h v nr hne hlab
    exact ⟨st', hrun, hc.exact, hc.cache, hc.index_wf, hb, hp.1, hp.2.1⟩

theorem move_vertex_mrs_exact_witness :
    ∃ st', ex_pair.move_vertex 1 2 = .ok st' ∧ st'.mrs_exact ∧
      (∀ e ∈ st'.g.edges, st'.cache_ok e) ∧ IndexWF st' ∧
      st'.b = Function.update ex_pair.b 1 2 ∧ st'.g = ex_pair.g ∧
      st'.eweight = ex_pair.eweight :=
  move_vertex_mrs_exact ex_pair_consistent 1 2 rfl

theorem restored_of_counted {st st' : BlockState} (h : Consistent st)
    (hsh : st.mrm_is_mrp = !st.g.directed) (hsp : st.sparse) (hg : st'.g = st.g)
    (hc : Counted st' st.eweight st.b (fun _ _ => 0) (fun _ => False))
    (hd : ∀ bp bq, DegCounted st st.eweight st.b bp bq →
      DegCounted st' st.eweight st.b bp bq)
    (hs : SparseX st' (fun _ => False)) (hb : st'.b = st.b) (hw : st'.wr = st.wr) :
    restored st st' := by
  have hmrs : ∀ p q, st'.get_mrs p q = st.get_mrs p q := by
    intro p q
    rw [hc.mrs_eq p q, h.exact p q, hg]; ring
  have hd0 : DegCounted st st.eweight st.b
      (fun x => st.mrp x - out_weight st.g.directed st.eweight st.b st.g.edges x)
      (fun x => st.get_mrm x - in_weight st.g.directed st.eweight st.b st.g.edges x) :=
    ⟨hsh, fun x => by ring, fun x => by ring⟩
  have hd1 := hd _ _ hd0
  refine ⟨hb, hw, ?_, ?_, hmrs, ?_⟩
  · funext x
    rw [hd1.mrp_eq x, hg]; ring
  · intro x
    rw [hd1.mrm_eq x, hg]; ring
  · intro p q
    have h1 := ((sparse_iff st').2 hs) p q
    have h2 := hsp p q
    rw [hmrs p q] at h1
    rw [Bool.eq_iff_iff, h1, h2]

theorem update_update_self (bm : Nat → Nat) (v nr : Nat) :
    Function.update (Function.update bm v nr) v (bm v) = bm := by
  funext u
  by_cases hu : u = v
  · subst hu; simp
  · simp [Function.update, hu]

theorem wr_there_and_back (w : Nat → Int) (r nr : Nat) (x : Int) (hne : r ≠ nr) :
    Function.update
      (Function.update
        (Function.update (Function.update w r (w r - x)) nr
          (Function.update w r (w r - x) nr + x)) nr
        (Function.update (Function.update w r (w r - x)) nr
          (Function.update w r (w r - x) nr + x) nr - x)) r
      (Function.update
        (Function.update (Function.update w r (w r - x)) nr
          (Function.update w r (w r - x) nr + x)) nr
        (Function.update (Function.update w r (w r - x)) nr
          (Function.update w r (w r - x) nr + x) nr - x) r + x) = w := by
  have hne' : nr ≠ r := fun e => hne e.symm
  funext y
  by_cases h1 : y = r
  · subst h1; simp [Function.update, hne, hne']
  · by_cases h2 : y = nr
    · subst h2; simp [Function.update, hne, hne', h1]
    · simp [Function.update, h1, h2]

theorem remove_add_restores {st : BlockState} (h : Consistent st)
    (hsh : st.mrm_is_mrp = !st.g.directed) (hsp : st.sparse) (v : Nat) :
    ∃ st1 st2, st.remove_vertex v = .ok st1 ∧ st1.add_vertex v (st.b v) = .ok st2 ∧
      restored st st2 := by
  obtain ⟨st1, st2, hrun1, hrun2, hc, hd, hs, hp, hb, hw⟩ :=
    remove_add_spec v (st.b v) h.edges_nodup h.counted
      (fun e he _ => ⟨h.weights_pos e he, rfl⟩)
  rw [Function.update_eq_self] at hc hd hb
  refine ⟨st1, st2, hrun1, hrun2,
    restored_of_counted h hsh hsp hp.1 (hc.counted_of_fields rfl rfl rfl rfl rfl) hd
      (hs _ ((sparse_iff st).1 hsp)) hb ?_⟩
  rw [hw]
  funext y
  by_cases hy : y = st.b v
  · subst hy; simp
  · simp [Function.update, hy]

theorem move_move_restores {st : BlockState} (h : Consistent st)
    (hsh : st.mrm_is_mrp = !st.g.directed) (hsp : st.sparse) (v nr : Nat)
    (hlab : st.bclabel (st.b v) = st.bclabel nr) :
    ∃ st1 st2, st.move_vertex v nr = .ok st1 ∧ st1.move_vertex v (st.b v) = .ok st2 ∧
      restored st st2 := by
  by_cases hne : st.b v = nr
  · have h1 : st.move_vertex v nr = .ok st := by rw [← hne]; simp [move_vertex]
    refine ⟨st, st, h1, by simp [move_vertex], rfl, rfl, rfl, fun _ => rfl, fun _ _ => rfl,
      fun _ _ => rfl⟩
  · obtain ⟨st1, hrun1, hc1, hd1, hs1, hp1, hb1, hw1⟩ :=
      move_vertex_spec v nr h.edges_nodup hne hlab h.counted
        (fun e he _ => ⟨h.weights_pos e he, rfl⟩)
    have hg1 : st1.g = st.g := hp1.1
    have hew1 : st1.eweight = st.eweight := hp1.2.1
    have hvw1 : st1.vweight = st.vweight := hp1.2.2.1
    have hbl1 : st1.bclabel = st.bclabel := hp1.2.2.2.1
    have hbv1 : st1.b v = nr := by rw [hb1]; simp
    obtain ⟨st2, hrun2, hc2, hd2, hs2, hp2, hb2, hw2⟩ :=
      @move_vertex_spec st1 st.eweight (fun _ _ => 0) v (st.b v)
        (by rw [hg1]; exact h.edges_nodup)
        (by rw [hbv1]; exact fun e => hne e.symm)
        (by rw [hbl1, hbv1]; exact hlab.symm)
        (by rw [hb1]; exact hc1)
        (by
          rw [hg1, hew1]
          exact fun e he _ => ⟨h.weights_pos e he, rfl⟩)
    have hg2 : st2.g = st.g := by rw [hp2.1, hg1]
    rw [hb1, update_update_self] at hc2 hd2 hb2
    refine ⟨st1, st2, hrun1, hrun2,
      restored_of_counted h hsh hsp hg2 (hc2.counted_of_fields rfl rfl rfl rfl rfl)
        (fun bp bq hd => hd2 bp bq (hd1 bp bq hd))
        (hs2 _ (hs1 _ ((sparse_iff st).1 hsp))) hb2 ?_⟩
    rw [hw2, hbv1, hvw1, hw1]
    exact wr_there_and_back st.wr (st.b v) nr (st.vweight v) hne

/-- C4: in a consistent state whose index holds exactly the block pairs of
positive weight, for every vertex `v` and every label-compatible block `nr`,
`move_vertex(v, nr)` followed by `move_vertex(v, r)` with `r` the original
block of `v`, and likewise `remove_vertex(v)` followed by `add_vertex(v, r)`,
return normally and restore `b`, `wr`, `mrp`, `mrm`, the value `mrs(p, q)` of
every block pair and the set of block pairs present in the index. -/
theorem move_vertex_round_trip {st : BlockState} (h : Consistent st)
    (hsh : st.mrm_is_mrp = !st.g.directed) (hsp : st.sparse) (v nr : Nat)
    (hlab : st.bclabel (st.b v) = st.bclabel nr) :
    (∃ st1 st2, st.move_vertex v nr = .ok st1 ∧ st1.move_vertex v (st.b v) = .ok st2 ∧
      restored st st2) ∧
    (∃ st1 st2, st.remove_vertex v = .ok st1 ∧ st1.add_vertex v (st.b v) = .ok st2 ∧
      restored st st2) :=
  ⟨move_move_restores h hsh hsp v nr hlab, remove_add_restores h hsh hsp v⟩

theorem move_vertex_round_trip_witness :
    (∃ st1 st2, ex_ring.move_vertex 1 2 = .ok st1 ∧
      st1.move_vertex 1 (ex_ring.b 1) = .ok st2 ∧ restored ex_ring st2) ∧
    (∃ st1 st2, ex_ring.remove_vertex 1 = .ok st1 ∧
      st1.add_vertex 1 (ex_ring.b 1) = .ok st2 ∧ restored ex_ring st2) :=
  move_vertex_round_trip ex_ring_consistent rfl ex_ring_sparse 1 2 rfl

/-- In a consistent state whose blocks are vertices of the block graph, the
row and column sums of `mrs` are the weights of the edge ends in the block. -/
theorem deg_sums_eq_weights {st : BlockState} (h : Consistent st)
    (hB : ∀ e ∈ st.g.edges, st.b e.src < st.bg.nv ∧ st.b e.tgt < st.bg.nv)
    (r : Nat) (hr : r < st.bg.nv) :
    if st.g.directed then
      st.mrs_row_sum r = out_weight st.g.directed st.eweight st.b st.g.edges r ∧
      st.mrs_col_sum r = in_weight st.g.directed st.eweight st.b st.g.edges r
    else
      st.mrs_und_sum r = out_weight st.g.directed st.eweight st.b st.g.edges r ∧
      st.mrs_und_sum r = in_weight st.g.directed st.eweight st.b st.g.edges r := by
  have hex := h.exact
  unfold mrs_exact at hex
  cases hd : st.g.directed
  · rw [hd] at hex
    simp only [Bool.false_eq_true, if_false]
    have h1 : st.mrs_und_sum r = out_weight false st.eweight st.b st.g.edges r := by
      rw [← und_sum_pair_weight st.bg.nv st.eweight st.b st.g.edges r hr (fun e he _ => hB e he)]
      unfold mrs_und_sum rsum
      simp only [hex]
    refine ⟨h1, ?_⟩
    rw [h1]
    simp only [out_weight, in_weight, Bool.false_eq_true, if_false]
    ring
  · rw [hd] at hex
    simp only [if_true]
    constructor
    · rw [← row_sum_pair_weight st.bg.nv st.eweight st.b st.g.edges r
        (fun e he _ => (hB e he).2)]
      unfold mrs_row_sum rsum
      simp only [hex]
    · rw [← col_sum_pair_weight st.bg.nv st.eweight st.b st.g.edges r
        (fun e he _ => (hB e he).1)]
      unfold mrs_col_sum rsum
      simp only [hex]

/-- C1 fails as stated: in `ex_multi` the degree sums hold, the labels are
compatible and the edge weights positive, and after `move_vertex(1, 2)` has
returned, `mrp[0] = 1` is not the sum `2` of the row of block 0. -/
theorem deg_sum_not_preserved :
    ex_multi.deg_sum ∧ ex_multi.bclabel (ex_multi.b 1) = ex_multi.bclabel 2 ∧
      (∀ e ∈ ex_multi.g.edges, 0 < ex_multi.eweight e.idx) ∧
      ∃ st', ex_multi.move_vertex 1 2 = .ok st' ∧ ¬ st'.deg_sum := by
  refine ⟨?_, rfl, by decide, state_of (ex_multi.move_vertex 1 2) ex_multi, rfl, ?_⟩
  · unfold deg_sum
    decide
  · intro h
    have h0 := h 0 (by decide)
    revert h0
    decide

/-- C1 (amended): in a consistent state (distinct edge identities, positive
edge weights, index and block graph in agreement, per-edge cache consistent
with `b`, `mrs` exact) in which `mrm` is the map `mrp` exactly when the graph
is undirected and the blocks of the edge end points and `nr` are vertices of
the block graph, if the degree sums hold before `move_vertex(v, nr)` with
compatible labels, then the call returns and they hold after it. -/
theorem move_vertex_deg_sum {st : BlockState} (h : Consistent st)
    (hsh : st.mrm_is_mrp = !st.g.directed)
    (hB : ∀ e ∈ st.g.edges, st.b e.src < st.bg.nv ∧ st.b e.tgt < st.bg.nv)
    (v nr : Nat) (hnr : nr < st.bg.nv) (hlab : st.bclabel (st.b v) = st.bclabel nr)
    (hds : st.deg_sum) :
    ∃ st', st.move_vertex v nr = .ok st' ∧ st'.deg_sum := by
  by_cases hne : st.b v = nr
  · exact ⟨st, by rw [← hne]; simp [move_vertex], hds⟩
  obtain ⟨st', hrun, hc', _, hp, hb, hd, _⟩ := move_vertex_consistent h v nr hne hlab
  have hg : st'.g = st.g := hp.1
  have hnv : st'.bg.nv = st.bg.nv := hp.2.2.2.2.2.2.1
  have hB' : ∀ e ∈ st'.g.edges, st'.b e.src < st'.bg.nv ∧ st'.b e.tgt < st'.bg.nv := by
    rw [hg, hb, hnv]
    intro e he
    constructor
    · by_cases h1 : e.src = v
      · simp [Function.update, h1, hnr]
      · simp only [Function.update, h1, dite_false]; exact (hB e he).1
    · by_cases h1 : e.tgt = v
      · simp [Function.update, h1, hnr]
      · simp only [Function.update, h1, dite_false]; exact (hB e he).2
  have hd0 : DegCounted st st.eweight st.b
      (fun x => st.mrp x - out_weight st.g.directed st.eweight st.b st.g.edges x)
      (fun x => st.get_mrm x - in_weight st.g.directed st.eweight st.b st.g.edges x) :=
    ⟨hsh, fun x => by ring, fun x => by ring⟩
  have hd1 := hd _ _ hd0
  refine ⟨st', hrun, ?_⟩
  intro r hr
  have hr0 : r < st.bg.nv := by rw [← hnv]; exact hr
  have hs := deg_sums_eq_weights h hB r hr0
  have hs' := deg_sums_eq_weights hc' hB' r hr
  have h0 := hds r hr0
  have hp1 := hd1.mrp_eq r
  have hm1 := hd1.mrm_eq r
  cases hdir : st.g.directed
  · have hdir' : st'.g.directed = false := by rw [hg]; exact hdir
    rw [hdir] at hs h0
    rw [hdir'] at hs' ⊢
    simp only [Bool.false_eq_true, if_false] at hs hs' h0 ⊢
    rw [hdir'] at hp1 hm1
    rw [hdir] at hp1 hm1
    constructor
    · rw [hs'.1, hp1, h0.1, hs.1]; ring
    · rw [hs'.2, hm1, h0.2, hs.2]; ring
  · have hdir' : st'.g.directed = true := by rw [hg]; exact hdir
    rw [hdir] at hs h0
    rw [hdir'] at hs' ⊢
    simp only [if_true] at hs hs' h0 ⊢
    rw [hdir'] at hp1 hm1
    rw [hdir] at hp1 hm1
    constructor
    · rw [hs'.1, hp1, h0.1, hs.1]; ring
    · rw [hs'.2, hm1, h0.2, hs.2]; ring

theorem move_vertex_deg_sum_witness :
    ∃ st', ex_ring.move_vertex 1 2 = .ok st' ∧ st'.deg_sum :=
  move_vertex_deg_sum ex_ring_consistent rfl ex_ring_in_range 1 2 (by decide) rfl ex_ring_deg_sum

theorem dense_deltap_eq (st : BlockState) (v : Nat) (L : List Edge) (acc : Nat → Int)
    (s : Nat) :
    dense_deltap st v L acc s =
      acc s + ((L.filter (fun e => !decide (e.tgt = v) && decide (st.b e.tgt = s))).map
        (fun e => st.eweight e.idx)).sum := by
  induction L generalizing acc with
  | nil => simp [dense_deltap]
  | cons e es ih =>
    unfold dense_deltap
    by_cases h1 : e.tgt = v
    · simp only [h1, if_true]
      rw [ih]
      simp [List.filter_cons, h1]
    · simp only [h1, if_false]
      rw [ih]
      by_cases h2 : st.b e.tgt = s
      · simp [List.filter_cons, h1, h2, Function.update]; ring
      · have h3 : ¬ (s = st.b e.tgt) := fun x => h2 x.symm
        simp [List.filter_cons, h1, h2, h3, Function.update]

theorem dense_deltam_eq (st : BlockState) (v : Nat) (L : List Edge) (acc : Nat → Int)
    (s : Nat) :
    dense_deltam st v L acc s =
      acc s + ((L.filter (fun e => !decide (e.src = v) && decide (st.b e.src = s))).map
        (fun e => st.eweight e.idx)).sum := by
  induction L generalizing acc with
  | nil => simp [dense_deltam]
  | cons e es ih =>
    unfold dense_deltam
    by_cases h1 : e.src = v
    · simp only [h1, if_true]
      rw [ih]
      simp [List.filter_cons, h1]
    · simp only [h1, if_false]
      rw [ih]
      by_cases h2 : st.b e.src = s
      · simp [List.filter_cons, h1, h2, Function.update]; ring
      · have h3 : ¬ (s = st.b e.src) := fun x => h2 x.symm
        simp [List.filter_cons, h1, h2, h3, Function.update]

theorem dense_deltal_eq (st : BlockState) (v : Nat) (L : List Edge) (acc : Int) :
    dense_deltal st v L acc =
      acc + ((L.filter (fun e => decide (e.tgt = v))).map (fun e => st.eweight e.idx)).sum := by
  induction L generalizing acc with
  | nil => simp [dense_deltal]
  | cons e es ih =>
    unfold dense_deltal
    by_cases h1 : e.tgt = v
    · simp only [h1, if_true]
      rw [ih]
      simp [List.filter_cons, h1]; ring
    · simp only [h1, if_false]
      rw [ih]
      simp [List.filter_cons, h1]

theorem sum_filter_filter (Q P : Edge → Bool) (w : Nat → Int) (es : List Edge) :
    (((es.filter P).filter Q).map (fun e => w e.idx)).sum = wsum (fun e => P e && Q e) w es := by
  rw [List.filter_filter, ← sum_filter_eq_wsum]
  congr 2
  apply List.filter_congr
  intro x _
  exact Bool.and_comm _ _

theorem sum_filter_swap (Q P : Edge → Bool) (w : Nat → Int) (es : List Edge) :
    ((((es.filter P).map (fun e => (⟨e.tgt, e.src, e.idx⟩ : Edge))).filter Q).map
      (fun e => w e.idx)).sum =
      wsum (fun e => P e && Q ⟨e.tgt, e.src, e.idx⟩) w es := by
  induction es with
  | nil => rfl
  | cons e es ih =>
    rw [wsum_cons, ← ih]
    cases hp : P e <;> cases hq : Q ⟨e.tgt, e.src, e.idx⟩ <;>
      simp [List.filter_cons, hp, hq]

/-- The vector `deltap` of `virtual_move_dense`. -/
theorem deltap_eq_out_to (st : BlockState) (v s : Nat) :
    dense_deltap st v (out_edges_range st.g v) (fun _ => 0) s = st.out_to v s := by
  rw [dense_deltap_eq, zero_add]
  unfold out_edges_range out_to
  cases hd : st.g.directed
  · simp only [Bool.false_eq_true, if_false, List.filter_append, List.map_append,
      List.sum_append]
    rw [sum_filter_filter, sum_filter_swap]
    congr 1
    · apply wsum_pred_congr; intro e _ _; simp [Bool.and_assoc]
    · apply wsum_pred_congr; intro e _ _; simp [Bool.and_assoc]
  · simp only [if_true, add_zero]
    rw [sum_filter_filter]
    apply wsum_pred_congr; intro e _ _; simp [Bool.and_assoc]

/-- The vector `deltam` of `virtual_move_dense`. -/
theorem deltam_eq_in_from (st : BlockState) (v s : Nat) :
    dense_deltam st v (in_edges_range st.g v) (fun _ => 0) s = st.in_from v s := by
  rw [dense_deltam_eq, zero_add]
  unfold in_edges_range in_from
  cases hd : st.g.directed
  · simp
  · simp only [if_true]
    rw [sum_filter_filter]
    apply wsum_pred_congr; intro e _ _; simp [Bool.and_assoc]

/-- The variable `deltal` of `virtual_move_dense`, after the halving on an
undirected graph. -/
theorem deltal_eq_loops_at (st : BlockState) (v : Nat) :
    (if st.g.directed = false then Int.tdiv (dense_deltal st v (out_edges_range st.g v) 0) 2
     else dense_deltal st v (out_edges_range st.g v) 0) = st.loops_at v := by
  rw [dense_deltal_eq, zero_add]
  unfold out_edges_range loops_at
  cases hd : st.g.directed
  · simp only [Bool.false_eq_true, if_false, if_true, List.filter_append, List.map_append,
      List.sum_append]
    rw [sum_filter_filter, sum_filter_swap]
    have h1 : wsum (fun e => decide (e.tgt = v) && decide ((⟨e.tgt, e.src, e.idx⟩ : Edge).tgt = v))
        st.eweight st.g.edges =
        wsum (fun e => decide (e.src = v) && decide (e.tgt = v)) st.eweight st.g.edges := by
      apply wsum_pred_congr; intro e _ _; simp [Bool.and_comm]
    rw [h1, ← two_mul, Int.mul_tdiv_cancel_left _ (by decide)]
  · simp only [if_true, Bool.true_eq_false, if_false]
    rw [sum_filter_filter]

/-! ### How the pair weights change when `v` changes block -/

theorem in_pair_true (bm : Nat → Nat) (p q : Nat) (e : Edge) :
    in_pair true bm p q e = (decide (bm e.src = p) && decide (bm e.tgt = q)) := by
  simp [in_pair, bkey]

theorem in_pair_false (bm : Nat → Nat) (p q : Nat) (e : Edge) :
    in_pair false bm p q e =
      decide ((bm e.src = p ∧ bm e.tgt = q) ∨ (bm e.src = q ∧ bm e.tgt = p)) := by
  simp only [in_pair, bkey_false_eq]

theorem edge_shift_dir (bm : Nat → Nat) (x : Int) (v nr p q : Nat) (e : Edge) :
    (if in_pair true (Function.update bm v nr) p q e then x else 0) =
      (if in_pair true bm p q e then x else 0) +
      ((if p = nr then 1 else 0) - (if p = bm v then 1 else 0)) *
        (if (decide (e.src = v) && !decide (e.tgt = v) && decide (bm e.tgt = q)) then x else 0) +
      ((if q = nr then 1 else 0) - (if q = bm v then 1 else 0)) *
        (if (decide (e.tgt = v) && !decide (e.src = v) && decide (bm e.src = p)) then x else 0) +
      ((if p = nr ∧ q = nr then 1 else 0) - (if p = bm v ∧ q = bm v then 1 else 0)) *
        (if (decide (e.src = v) && decide (e.tgt = v)) then x else 0) := by
  rw [in_pair_true, in_pair_true]
  have e1 : ∀ a b : Nat, (a = b) = (b = a) := fun a b => propext eq_comm
  by_cases hs : e.src = v <;> by_cases ht : e.tgt = v
  · simp only [Function.update, hs, ht, dite_true, decide_True, Bool.and_true, Bool.not_true,
      Bool.and_false, Bool.false_and, Bool.false_eq_true, if_false, mul_zero, add_zero,
      Bool.and_self, if_true, Bool.and_eq_true, decide_eq_true_eq, eq_rec_constant,
      dif_pos, e1 nr p, e1 nr q, e1 (bm v) p, e1 (bm v) q]
    split_ifs <;> simp_all
  · simp only [Function.update, hs, ht, dite_true, decide_True, Bool.and_true, Bool.not_true,
      Bool.and_false, Bool.false_and, Bool.false_eq_true, if_false, mul_zero, add_zero,
      Bool.and_self, if_true, Bool.and_eq_true, decide_eq_true_eq, eq_rec_constant,
      dif_pos, dite_false, decide_False, Bool.not_false, Bool.true_and,
      e1 nr p, e1 nr q, e1 (bm v) p, e1 (bm v) q]
    split_ifs <;> simp_all
  · simp only [Function.update, hs, ht, dite_true, decide_True, Bool.and_true, Bool.not_true,
      Bool.and_false, Bool.false_and, Bool.false_eq_true, if_false, mul_zero, add_zero,
      Bool.and_self, if_true, Bool.and_eq_true, decide_eq_true_eq, eq_rec_constant,
      dif_pos, dite_false, decide_False, Bool.not_false, Bool.true_and,
      e1 nr p, e1 nr q, e1 (bm v) p, e1 (bm v) q]
    split_ifs <;> simp_all
  · simp [Function.update, hs, ht]

/-- On a directed graph, moving `v` from block `bm v` to `nr` takes the edges
leaving `v` from the row of `bm v` to the row of `nr`, the edges entering `v`
from the column of `bm v` to that of `nr`, and the self-loops of `v` from the
diagonal entry of `bm v` to that of `nr`. -/
theorem wsum_shift_dir (bm : Nat → Nat) (w : Nat → Int) (v nr p q : Nat) (es : List Edge) :
    wsum (in_pair true (Function.update bm v nr) p q) w es =
      wsum (in_pair true bm p q) w es +
      ((if p = nr then 1 else 0) - (if p = bm v then 1 else 0)) *
        wsum (fun e => decide (e.src = v) && !decide (e.tgt = v) && decide (bm e.tgt = q)) w es +
      ((if q = nr then 1 else 0) - (if q = bm v then 1 else 0)) *
        wsum (fun e => decide (e.tgt = v) && !decide (e.src = v) && decide (bm e.src = p)) w es +
      ((if p = nr ∧ q = nr then 1 else 0) - (if p = bm v ∧ q = bm v then 1 else 0)) *
        wsum (fun e => decide (e.src = v) && decide (e.tgt = v)) w es := by
  induction es with
  | nil => simp
  | cons e es ih =>
    simp only [wsum_cons]
    rw [ih, edge_shift_dir bm (w e.idx) v nr p q e]
    ring

theorem pair_ind (x : Int) (y t p q : Nat) :
    (if (y = p ∧ t = q) ∨ (y = q ∧ t = p) then x else 0) =
      (if p = y then 1 else 0) * (if t = q then x else 0) +
      (if q = y then 1 else 0) * (if t = p then x else 0) -
      (if p = y ∧ q = y then 1 else 0) * (if t = y then x else 0) := by
  split_ifs <;> omega

theorem pair_ind_swap (x : Int) (y t p q : Nat) :
    (if (t = p ∧ y = q) ∨ (t = q ∧ y = p) then x else 0) =
      (if p = y then 1 else 0) * (if t = q then x else 0) +
      (if q = y then 1 else 0) * (if t = p then x else 0) -
      (if p = y ∧ q = y then 1 else 0) * (if t = y then x else 0) := by
  split_ifs <;> omega

theorem shift_und_core (x : Int) (a b r nr p q : Nat) (S T : Prop) [Decidable S] [Decidable T]
    (hra : S → a = r) (hrb : T → b = r) :
    (if ((if S then nr else a) = p ∧ (if T then nr else b) = q) ∨
        ((if S then nr else a) = q ∧ (if T then nr else b) = p) then x else 0) =
      (if (a = p ∧ b = q) ∨ (a = q ∧ b = p) then x else 0)
      - ((if p = r then 1 else 0) *
          ((if S ∧ ¬ T ∧ b = q then x else 0) + (if T ∧ ¬ S ∧ a = q then x else 0))
        + (if q = r then 1 else 0) *
          ((if S ∧ ¬ T ∧ b = p then x else 0) + (if T ∧ ¬ S ∧ a = p then x else 0))
        - (if p = r ∧ q = r then 1 else 0) *
          ((if S ∧ ¬ T ∧ b = r then x else 0) + (if T ∧ ¬ S ∧ a = r then x else 0)))
      + ((if p = nr then 1 else 0) *
          ((if S ∧ ¬ T ∧ b = q then x else 0) + (if T ∧ ¬ S ∧ a = q then x else 0))
        + (if q = nr then 1 else 0) *
          ((if S ∧ ¬ T ∧ b = p then x else 0) + (if T ∧ ¬ S ∧ a = p then x else 0))
        - (if p = nr ∧ q = nr then 1 else 0) *
          ((if S ∧ ¬ T ∧ b = nr then x else 0) + (if T ∧ ¬ S ∧ a = nr then x else 0)))
      + ((if p = nr ∧ q = nr then 1 else 0) - (if p = r ∧ q = r then 1 else 0)) *
        (if S ∧ T then x else 0) := by
  by_cases hS : S <;> by_cases hT : T
  · have h1 := hra hS
    have h2 := hrb hT
    subst h1 h2
    simp only [hS, hT, if_true, not_true_eq_false, false_and, and_false, if_false, and_self,
      add_zero, mul_zero, sub_zero, zero_add]
    split_ifs <;> omega
  · have h1 := hra hS
    subst h1
    simp only [hS, hT, if_true, not_true_eq_false, false_and, and_false, if_false, and_self,
      add_zero, mul_zero, sub_zero, zero_add, not_false_eq_true, true_and]
    rw [pair_ind x nr b p q, pair_ind x a b p q]
    ring
  · have h2 := hrb hT
    subst h2
    simp only [hS, hT, if_true, not_true_eq_false, false_and, and_false, if_false, and_self,
      add_zero, mul_zero, sub_zero, zero_add, not_false_eq_true, true_and]
    rw [pair_ind_swap x nr a p q, pair_ind_swap x b a p q]
    ring
  · simp [hS, hT]

theorem edge_shift_und (bm : Nat → Nat) (x : Int) (v nr p q : Nat) (e : Edge) :
    (if in_pair false (Function.update bm v nr) p q e then x else 0) =
      (if in_pair false bm p q e then x else 0)
      - ((if p = bm v then 1 else 0) * one_end bm v q x e
        + (if q = bm v then 1 else 0) * one_end bm v p x e
        - (if p = bm v ∧ q = bm v then 1 else 0) * one_end bm v (bm v) x e)
      + ((if p = nr then 1 else 0) * one_end bm v q x e
        + (if q = nr then 1 else 0) * one_end bm v p x e
        - (if p = nr ∧ q = nr then 1 else 0) * one_end bm v nr x e)
      + ((if p = nr ∧ q = nr then 1 else 0) - (if p = bm v ∧ q = bm v then 1 else 0)) *
        (if (decide (e.src = v) && decide (e.tgt = v)) then x else 0) := by
  have h := shift_und_core x (bm e.src) (bm e.tgt) (bm v) nr p q (e.src = v) (e.tgt = v)
    (fun h => by rw [h]) (fun h => by rw [h])
  have hu1 : Function.update bm v nr e.src = if e.src = v then nr else bm e.src := by
    by_cases h1 : e.src = v <;> simp [Function.update, h1]
  have hu2 : Function.update bm v nr e.tgt = if e.tgt = v then nr else bm e.tgt := by
    by_cases h1 : e.tgt = v <;> simp [Function.update, h1]
  rw [in_pair_false, in_pair_false, hu1, hu2]
  simp only [one_end, Bool.and_eq_true, decide_eq_true_eq, Bool.not_eq_true',
    decide_eq_false_iff_not, and_assoc]
  exact h

theorem wsum_shift_und (bm : Nat → Nat) (w : Nat → Int) (v nr p q : Nat) (es : List Edge) :
    wsum (in_pair false (Function.update bm v nr) p q) w es =
      wsum (in_pair false bm p q) w es
      - ((if p = bm v then 1 else 0) * (es.map (fun e => one_end bm v q (w e.idx) e)).sum
        + (if q = bm v then 1 else 0) * (es.map (fun e => one_end bm v p (w e.idx) e)).sum
        - (if p = bm v ∧ q = bm v then 1 else 0) *
            (es.map (fun e => one_end bm v (bm v) (w e.idx) e)).sum)
      + ((if p = nr then 1 else 0) * (es.map (fun e => one_end bm v q (w e.idx) e)).sum
        + (if q = nr then 1 else 0) * (es.map (fun e => one_end bm v p (w e.idx) e)).sum
        - (if p = nr ∧ q = nr then 1 else 0) *
            (es.map (fun e => one_end bm v nr (w e.idx) e)).sum)
      + ((if p = nr ∧ q = nr then 1 else 0) - (if p = bm v ∧ q = bm v then 1 else 0)) *
        wsum (fun e => decide (e.src = v) && decide (e.tgt = v)) w es := by
  induction es with
  | nil => simp
  | cons e es ih =>
    simp only [wsum_cons, List.map_cons, List.sum_cons]
    rw [ih, edge_shift_und bm (w e.idx) v nr p q e]
    ring

theorem one_end_sum (bm : Nat → Nat) (w : Nat → Int) (v t : Nat) (es : List Edge) :
    (es.map (fun e => one_end bm v t (w e.idx) e)).sum =
      wsum (fun e => decide (e.src = v) && !decide (e.tgt = v) && decide (bm e.tgt = t)) w es +
      wsum (fun e => decide (e.tgt = v) && !decide (e.src = v) && decide (bm e.src = t)) w es := by
  induction es with
  | nil => simp
  | cons e es ih =>
    simp only [wsum_cons, List.map_cons, List.sum_cons]
    rw [ih]
    unfold one_end
    ring

theorem pair_weight_move (st : BlockState) (v nr p q : Nat) :
    pair_weight st.g.directed st.eweight (Function.update st.b v nr) st.g.edges p q =
      pair_weight st.g.directed st.eweight st.b st.g.edges p q + st.pair_shift v nr p q := by
  unfold pair_weight pair_shift out_to in_from loops_at
  cases hd : st.g.directed
  · rw [wsum_shift_und]
    simp only [one_end_sum, Bool.false_eq_true, if_false]
    ring
  · rw [wsum_shift_dir]
    simp only [if_true, add_zero]
    ring

end BlockState

/-! ### Sums over the block pairs that involve one of two blocks -/

theorem sum_split_two {R : Type} [AddCommGroup R] (B u w : Nat) (hu : u < B) (hw : w < B)
    (huw : u ≠ w) (f : Nat → R) :
    Finset.sum (Finset.range B) f =
      Finset.sum (Finset.range B) (fun q => if q ≠ w ∧ q ≠ u then f q else 0) + f u + f w := by
  have h1 : ∀ q ∈ Finset.range B, f q =
      (if q ≠ w ∧ q ≠ u then f q else 0) + (if q = u then f u else 0) +
        (if q = w then f w else 0) := by
    intro q _
    by_cases h1 : q = u
    · subst h1; simp [huw]
    · by_cases h2 : q = w
      · subst h2; simp [h1]
      · simp [h1, h2]
  rw [Finset.sum_congr rfl h1, Finset.sum_add_distrib, Finset.sum_add_distrib,
    Finset.sum_ite_eq', Finset.sum_ite_eq']
  simp [hu, hw]

theorem sum_only_two {R : Type} [AddCommGroup R] (B u w : Nat) (hu : u < B) (hw : w < B)
    (huw : u ≠ w) (f : Nat → R) :
    Finset.sum (Finset.range B) (fun q => if q = u ∨ q = w then f q else 0) = f u + f w := by
  rw [sum_split_two B u w hu hw huw]
  have h1 : ∀ q ∈ Finset.range B,
      (if q ≠ w ∧ q ≠ u then (if q = u ∨ q = w then f q else 0) else 0) = 0 := by
    intro q _
    by_cases h1 : q = u
    · simp [h1]
    · by_cases h2 : q = w
      · simp [h2]
      · simp [h1, h2]
  rw [Finset.sum_congr rfl h1]
  simp

theorem sum_touched_dir {R : Type} [AddCommGroup R] (B r nr : Nat) (hr : r < B) (hnr : nr < B)
    (hne : r ≠ nr) (D : Nat → Nat → R) :
    Finset.sum ((Finset.range B ×ˢ Finset.range B).filter
        (fun k => k.1 = r ∨ k.1 = nr ∨ k.2 = r ∨ k.2 = nr)) (fun k => D k.1 k.2) =
      Finset.sum (Finset.range B) (touched_row D r nr) := by
  rw [Finset.sum_filter, Finset.sum_product]
  have hrow : ∀ p ∈ Finset.range B,
      Finset.sum (Finset.range B)
        (fun q => if (p = r ∨ p = nr ∨ q = r ∨ q = nr) then D p q else 0) =
      (if p ≠ nr ∧ p ≠ r then D p r + D p nr else 0) +
      (if p = r then Finset.sum (Finset.range B) (fun q => D r q) else 0) +
      (if p = nr then Finset.sum (Finset.range B) (fun q => D nr q) else 0) := by
    intro p _
    by_cases h1 : p = r
    · subst h1; simp [hne]
    · by_cases h2 : p = nr
      · subst h2; simp [h1]
      · simp only [h1, h2, false_or, ne_eq, not_false_eq_true, and_self, if_true, if_false,
          add_zero]
        exact sum_only_two B r nr hr hnr hne (fun q => D p q)
  rw [Finset.sum_congr rfl hrow, Finset.sum_add_distrib, Finset.sum_add_distrib,
    Finset.sum_ite_eq', Finset.sum_ite_eq']
  simp only [Finset.mem_range, hr, hnr, if_true]
  rw [sum_split_two B r nr hr hnr hne (fun q => D r q),
    sum_split_two B r nr hr hnr hne (fun q => D nr q)]
  unfold touched_row
  rw [Finset.sum_add_distrib, Finset.sum_add_distrib, Finset.sum_ite_eq',
    Finset.sum_ite_eq']
  simp only [Finset.mem_range, hr, hnr, if_true]
  have e1 : ∀ s ∈ Finset.range B,
      (if s ≠ nr ∧ s ≠ r then D r s + D s r + D nr s + D s nr else 0) =
      (if s ≠ nr ∧ s ≠ r then D s r + D s nr else 0) +
      (if s ≠ nr ∧ s ≠ r then D r s else 0) + (if s ≠ nr ∧ s ≠ r then D nr s else 0) := by
    intro s _
    by_cases h : s ≠ nr ∧ s ≠ r
    · rw [if_pos h, if_pos h, if_pos h, if_pos h]; abel
    · rw [if_neg h, if_neg h, if_neg h, if_neg h]; simp
  rw [Finset.sum_congr rfl e1, Finset.sum_add_distrib, Finset.sum_add_distrib]
  abel

theorem sum_touched_und {R : Type} [AddCommGroup R] (B r nr : Nat) (hr : r < B) (hnr : nr < B)
    (hne : r ≠ nr) (D : Nat → Nat → R) (hD : ∀ p q, D p q = D q p) :
    Finset.sum (((Finset.range B ×ˢ Finset.range B).filter (fun k => k.1 ≤ k.2)).filter
        (fun k => k.1 = r ∨ k.1 = nr ∨ k.2 = r ∨ k.2 = nr)) (fun k => D k.1 k.2) =
      Finset.sum (Finset.range B) (touched_row_und D r nr) := by
  have h1 : Finset.sum (((Finset.range B ×ˢ Finset.range B).filter (fun k => k.1 ≤ k.2)).filter
        (fun k => k.1 = r ∨ k.1 = nr ∨ k.2 = r ∨ k.2 = nr)) (fun k => D k.1 k.2) =
      Finset.sum ((Finset.range B ×ˢ Finset.range B).filter
        (fun k => k.1 = r ∨ k.1 = nr ∨ k.2 = r ∨ k.2 = nr))
        (fun k => (fun p q => if p ≤ q then D p q else 0) k.1 k.2) := by
    rw [Finset.filter_filter, Finset.sum_filter, Finset.sum_filter]
    apply Finset.sum_congr rfl
    intro k _
    by_cases h1 : k.1 ≤ k.2 <;> by_cases h2 : (k.1 = r ∨ k.1 = nr ∨ k.2 = r ∨ k.2 = nr) <;>
      simp [h1, h2]
  rw [h1]
  refine (sum_touched_dir B r nr hr hnr hne (fun p q => if p ≤ q then D p q else 0)).trans ?_
  unfold touched_row touched_row_und
  rw [Finset.sum_add_distrib, Finset.sum_add_distrib, Finset.sum_ite_eq',
    Finset.sum_ite_eq', Finset.sum_add_distrib, Finset.sum_add_distrib, Finset.sum_ite_eq',
    Finset.sum_ite_eq']
  simp only [Finset.mem_range, hr, hnr, if_true, le_refl]
  have e1 : ∀ s ∈ Finset.range B,
      (if s ≠ nr ∧ s ≠ r then
        (if r ≤ s then D r s else 0) + (if s ≤ r then D s r else 0) +
        (if nr ≤ s then D nr s else 0) + (if s ≤ nr then D s nr else 0) else 0) =
      (if s ≠ nr ∧ s ≠ r then D r s + D nr s else 0) := by
    intro s _
    by_cases h : s ≠ nr ∧ s ≠ r
    · rw [if_pos h, if_pos h]
      have a1 : (if r ≤ s then D r s else 0) + (if s ≤ r then D s r else 0) = D r s := by
        rcases Nat.lt_or_gt_of_ne h.2 with h3 | h3
        · rw [if_neg (by omega), if_pos (by omega), hD s r]; simp
        · rw [if_pos (by omega), if_neg (by omega)]; simp
      have a2 : (if nr ≤ s then D nr s else 0) + (if s ≤ nr then D s nr else 0) = D nr s := by
        rcases Nat.lt_or_gt_of_ne h.1 with h3 | h3
        · rw [if_neg (by omega), if_pos (by omega), hD s nr]; simp
        · rw [if_pos (by omega), if_neg (by omega)]; simp
      have a3 : (if r ≤ s then D r s else 0) + (if s ≤ r then D s r else 0) +
          (if nr ≤ s then D nr s else 0) + (if s ≤ nr then D s nr else 0) =
          ((if r ≤ s then D r s else 0) + (if s ≤ r then D s r else 0)) +
          ((if nr ≤ s then D nr s else 0) + (if s ≤ nr then D s nr else 0)) := by abel
      rw [a3, a1, a2]
    · rw [if_neg h, if_neg h]
  rw [Finset.sum_congr rfl e1]
  have a3 : (if r ≤ nr then D r nr else 0) + (if nr ≤ r then D nr r else 0) = D r nr := by
    rcases Nat.lt_or_gt_of_ne hne with h3 | h3
    · rw [if_pos (by omega), if_neg (by omega)]; simp
    · rw [if_neg (by omega), if_pos (by omega), hD nr r]; simp
  have a5 : ∀ (S a b c d e : R), d + e = c → S + (a + d) + (b + e) = S + a + (b + c) := by
    intro S a b c d e h
    rw [← h]; abel
  exact a5 _ _ _ _ _ _ a3

namespace BlockState

theorem dense_iter_acc {R : Type} [AddCommGroup R] (T : Terms R) (st : BlockState)
    (r nr : Nat) (mg : Bool) (dp dm : Nat → Int) (dl dwr dwnr : Int) (acc : R × R) (s : Nat) :
    dense_iter T st r nr mg dp dm dl dwr dwnr acc s =
      (acc.1 + (dense_iter T st r nr mg dp dm dl dwr dwnr (0, 0) s).1,
       acc.2 + (dense_iter T st r nr mg dp dm dl dwr dwnr (0, 0) s).2) := by
  unfold dense_iter
  simp only
  split_ifs <;> refine Prod.ext ?_ ?_ <;> dsimp only <;> first | rfl | abel

theorem dense_iter_foldl {R : Type} [AddCommGroup R] (T : Terms R) (st : BlockState)
    (r nr : Nat) (mg : Bool) (dp dm : Nat → Int) (dl dwr dwnr : Int) (L : List Nat)
    (acc : R × R) :
    L.foldl (dense_iter T st r nr mg dp dm dl dwr dwnr) acc =
      (acc.1 + (L.map (fun s => (dense_iter T st r nr mg dp dm dl dwr dwnr (0, 0) s).1)).sum,
       acc.2 + (L.map (fun s => (dense_iter T st r nr mg dp dm dl dwr dwnr (0, 0) s).2)).sum) := by
  induction L generalizing acc with
  | nil => simp
  | cons s L ih =>
    rw [List.foldl_cons, ih, dense_iter_acc]
    simp only [List.map_cons, List.sum_cons, Prod.mk.injEq]
    constructor <;> abel

theorem list_range_sum {R : Type} [AddCommGroup R] (n : Nat) (f : Nat → R) :
    ((List.range n).map f).sum = Finset.sum (Finset.range n) f := by
  induction n with
  | zero => simp
  | succ n ih =>
    rw [List.range_succ, List.map_append, List.sum_append, ih, Finset.sum_range_succ]
    simp

theorem dense_iter_fst {R : Type} [AddCommGroup R] (T : Terms R) (st : BlockState)
    (r nr : Nat) (mg : Bool) (dp dm : Nat → Int) (dl dwr dwnr : Int) (s : Nat) :
    (dense_iter T st r nr mg dp dm dl dwr dwnr (0, 0) s).1 =
      if st.g.directed = false then touched_row_und (dense_term T st.get_mrs st.wr mg) r nr s
      else touched_row (dense_term T st.get_mrs st.wr mg) r nr s := by
  unfold dense_iter touched_row touched_row_und dense_term
  by_cases hd : st.g.directed = false
  · simp only [hd, if_true]
    by_cases h1 : s = r <;> by_cases h2 : s = nr
    · subst h1; subst h2; simp; abel
    · subst h1; simp [h2]
    · subst h2; simp [h1]
    · simp [h1, h2]
  · simp only [hd, if_false]
    by_cases h1 : s = r <;> by_cases h2 : s = nr
    · subst h1; subst h2; simp; abel
    · subst h1; simp [h2]
    · subst h2; simp [h1]
    · simp [h1, h2]

theorem wr_after_eval (st : BlockState) (v nr : Nat) (hne : st.b v ≠ nr) :
    st.wr_after v nr (st.b v) = st.wr (st.b v) - st.vweight v ∧
    st.wr_after v nr nr = st.wr nr + st.vweight v ∧
    ∀ s, s ≠ nr → s ≠ st.b v → st.wr_after v nr s = st.wr s := by
  have hne' : nr ≠ st.b v := fun e => hne e.symm
  refine ⟨?_, ?_, ?_⟩
  · simp [wr_after, Function.update, hne]
  · simp [wr_after, Function.update, hne']
  · intro s h1 h2
    simp [wr_after, Function.update, h1, h2]

theorem mrs_after_dir (st : BlockState) (v nr : Nat) (hne : st.b v ≠ nr)
    (hd : st.g.directed = true) :
    (∀ s, s ≠ nr → s ≠ st.b v →
      st.mrs_after v nr (st.b v) s = st.get_mrs (st.b v) s - st.out_to v s ∧
      st.mrs_after v nr s (st.b v) = st.get_mrs s (st.b v) - st.in_from v s ∧
      st.mrs_after v nr nr s = st.get_mrs nr s + st.out_to v s ∧
      st.mrs_after v nr s nr = st.get_mrs s nr + st.in_from v s) ∧
    st.mrs_after v nr (st.b v) (st.b v) =
      st.get_mrs (st.b v) (st.b v) - st.out_to v (st.b v) - st.in_from v (st.b v)
        - st.loops_at v ∧
    st.mrs_after v nr (st.b v) nr =
      st.get_mrs (st.b v) nr - st.out_to v nr + st.in_from v (st.b v) ∧
    st.mrs_after v nr nr nr =
      st.get_mrs nr nr + st.out_to v nr + st.in_from v nr + st.loops_at v ∧
    st.mrs_after v nr nr (st.b v) =
      st.get_mrs nr (st.b v) + st.out_to v (st.b v) - st.in_from v nr := by
  have hne' : nr ≠ st.b v := fun e => hne e.symm
  refine ⟨?_, ?_, ?_, ?_, ?_⟩
  · intro s h1 h2
    have h1' : nr ≠ s := fun e => h1 e.symm
    have h2' : st.b v ≠ s := fun e => h2 e.symm
    refine ⟨?_, ?_, ?_, ?_⟩ <;>
      simp [mrs_after, pair_shift, hd, hne, hne', h1, h2, h1', h2'] <;> ring
  · simp [mrs_after, pair_shift, hd, hne, hne']; ring
  · simp [mrs_after, pair_shift, hd, hne, hne']; ring
  · simp [mrs_after, pair_shift, hd, hne, hne']; ring
  · simp [mrs_after, pair_shift, hd, hne, hne']; ring

theorem mrs_after_und (st : BlockState) (v nr : Nat) (hne : st.b v ≠ nr)
    (hd : st.g.directed = false) :
    (∀ s, s ≠ nr → s ≠ st.b v →
      st.mrs_after v nr (st.b v) s = st.get_mrs (st.b v) s - st.out_to v s ∧
      st.mrs_after v nr nr s = st.get_mrs nr s + st.out_to v s) ∧
    st.mrs_after v nr (st.b v) (st.b v) =
      st.get_mrs (st.b v) (st.b v) - st.out_to v (st.b v) - st.loops_at v ∧
    st.mrs_after v nr nr nr = st.get_mrs nr nr + st.out_to v nr + st.loops_at v ∧
    st.mrs_after v nr (st.b v) nr =
      st.get_mrs (st.b v) nr - st.out_to v nr + st.out_to v (st.b v) := by
  have hne' : nr ≠ st.b v := fun e => hne e.symm
  refine ⟨?_, ?_, ?_, ?_⟩
  · intro s h1 h2
    have h1' : nr ≠ s := fun e => h1 e.symm
    have h2' : st.b v ≠ s := fun e => h2 e.symm
    refine ⟨?_, ?_⟩ <;>
      simp [mrs_after, pair_shift, hd, hne, hne', h1, h2, h1', h2'] <;> ring
  · simp [mrs_after, pair_shift, hd, hne, hne']; ring
  · simp [mrs_after, pair_shift, hd, hne, hne']; ring
  · simp [mrs_after, pair_shift, hd, hne, hne']; ring

theorem dense_iter_snd {R : Type} [AddCommGroup R] (T : Terms R) (st : BlockState)
    (v nr : Nat) (mg : Bool) (hne : st.b v ≠ nr) (s : Nat) :
    (dense_iter T st (st.b v) nr mg (st.out_to v) (st.in_from v) (st.loops_at v)
        (st.vweight v) (st.vweight v) (0, 0) s).2 =
      if st.g.directed = false then
        touched_row_und (dense_term T (st.mrs_after v nr) (st.wr_after v nr) mg) (st.b v) nr s
      else touched_row (dense_term T (st.mrs_after v nr) (st.wr_after v nr) mg) (st.b v) nr s := by
  obtain ⟨w1, w2, w3⟩ := wr_after_eval st v nr hne
  have hne' : nr ≠ st.b v := fun e => hne e.symm
  unfold dense_iter touched_row touched_row_und dense_term
  by_cases hd : st.g.directed = false
  · obtain ⟨m1, m2, m3, m4⟩ := mrs_after_und st v nr hne hd
    simp only [hd, if_true]
    by_cases h1 : s = st.b v
    · rw [h1]
      simp only [hne, ne_eq, not_true_eq_false, and_false, if_false, if_true, zero_add,
        w1, m2, add_zero]
    · by_cases h2 : s = nr
      · rw [h2]
        simp only [hne', ne_eq, not_true_eq_false, false_and, if_false, if_true, zero_add,
          w1, w2, m3, m4]
      · simp only [h1, h2, ne_eq, not_false_eq_true, and_self, if_true, if_false, zero_add,
          w1, w2, w3 s h2 h1, (m1 s h2 h1).1, (m1 s h2 h1).2, add_zero]
  · have hd' : st.g.directed = true := by simpa using hd
    obtain ⟨m1, m2, m3, m4, m5⟩ := mrs_after_dir st v nr hne hd'
    simp only [hd', Bool.true_eq_false, if_false]
    by_cases h1 : s = st.b v
    · rw [h1]
      simp only [hne, ne_eq, not_true_eq_false, and_false, if_false, if_true, zero_add,
        w1, w2, m2, m3, add_zero]
    · by_cases h2 : s = nr
      · rw [h2]
        simp only [hne', ne_eq, not_true_eq_false, false_and, if_false, if_true, zero_add,
          w1, w2, m4, m5]
      · simp only [h1, h2, ne_eq, not_false_eq_true, and_self, if_true, if_false, zero_add,
          w1, w2, w3 s h2 h1, (m1 s h2 h1).1, (m1 s h2 h1).2.1, (m1 s h2 h1).2.2.1,
          (m1 s h2 h1).2.2.2, add_zero]

theorem bkey_canonical (directed : Bool) (p q : Nat) (h : directed = true ∨ p ≤ q) :
    bkey directed p q = (p, q) := by
  unfold bkey
  rcases h with h | h
  · simp [h]
  · cases directed
    · simp [h]
    · rfl

theorem mem_block_pairs (directed : Bool) (B : Nat) (k : Nat × Nat) :
    k ∈ block_pairs directed B ↔ k.1 < B ∧ k.2 < B ∧ (directed = true ∨ k.1 ≤ k.2) := by
  unfold block_pairs
  cases directed <;> simp [and_assoc]

theorem bkey_is_canonical (directed : Bool) (p q : Nat) :
    directed = true ∨ (bkey directed p q).1 ≤ (bkey directed p q).2 := by
  cases directed
  · right; simp [bkey]
  · left; rfl

/-- The dense term of a pair depends only on the canonical form of the pair. -/
theorem dense_term_key {R : Type} (T : Terms R) (st : BlockState) (mg : Bool)
    (hsym : st.g.directed = false →
      ∀ p q m a b mg, p ≠ q → T.eterm_dense p q m a b mg = T.eterm_dense q p m b a mg)
    (p q : Nat) :
    dense_term T st.get_mrs st.wr mg p q =
      dense_term T st.get_mrs st.wr mg (bkey st.g.directed p q).1 (bkey st.g.directed p q).2 := by
  cases hd : st.g.directed
  · by_cases h : p ≤ q
    · rw [bkey_canonical false p q (Or.inr h)]
    · have hk : bkey false p q = (q, p) := by
        rw [bkey_comm]; exact bkey_canonical false q p (Or.inr (by omega))
      rw [hk]
      unfold dense_term
      rw [hsym hd p q _ _ _ _ (by omega)]
      have : st.get_mrs q p = st.get_mrs p q :=
        get_mrs_congr_key (by rw [hd]; exact bkey_comm q p)
      rw [this]
  · rw [bkey_canonical true p q (Or.inl rfl)]

/-- The sum of `dense_entropy` over the aggregate edge records is the sum of
the dense terms over the block pairs, when the dense term vanishes at weight 0
and (undirected) does not depend on the order of two distinct blocks. -/
theorem dense_sum_eq {R : Type} [AddCommGroup R] (T : Terms R) (st : BlockState) (mg : Bool)
    (wf : IndexWF st)
    (hz : ∀ p q a b mg, T.eterm_dense p q 0 a b mg = 0)
    (hsym : st.g.directed = false →
      ∀ p q m a b mg, p ≠ q → T.eterm_dense p q m a b mg = T.eterm_dense q p m b a mg)
    (hout : ∀ p q, ¬ (p < st.bg.nv ∧ q < st.bg.nv) → st.get_mrs p q = 0) :
    (st.bg.edges.map (fun e =>
      T.eterm_dense e.src e.tgt (st.mrs e.idx) (st.wr e.src) (st.wr e.tgt) mg)).sum =
      Finset.sum (block_pairs st.g.directed st.bg.nv)
        (fun k => dense_term T st.get_mrs st.wr mg k.1 k.2) := by
  have h1 : ∀ be ∈ st.bg.edges,
      T.eterm_dense be.src be.tgt (st.mrs be.idx) (st.wr be.src) (st.wr be.tgt) mg =
      (fun k : Nat × Nat => dense_term T st.get_mrs st.wr mg k.1 k.2)
        (bkey st.g.directed be.src be.tgt) := by
    intro be hbe
    rw [← get_mrs_of_some (wf.bg_index be hbe)]
    exact dense_term_key T st mg hsym be.src be.tgt
  have hnd : (st.bg.edges.map (fun be => bkey st.g.directed be.src be.tgt)).Nodup := by
    apply List.Nodup.map_on _ (List.Nodup.of_map _ wf.bg_nodup)
    intro x hx y hy hxy
    have e1 := wf.bg_index x hx
    have e2 := wf.bg_index y hy
    rw [get_me_congr_key hxy, e2] at e1
    exact eq_of_idx_eq wf.bg_nodup hx hy (Option.some.inj e1).symm
  have hsum : (st.bg.edges.map (fun e =>
      T.eterm_dense e.src e.tgt (st.mrs e.idx) (st.wr e.src) (st.wr e.tgt) mg)).sum =
      Finset.sum (st.bg.edges.map (fun be => bkey st.g.directed be.src be.tgt)).toFinset
        (fun k => dense_term T st.get_mrs st.wr mg k.1 k.2) := by
    rw [List.sum_toFinset _ hnd, List.map_map]
    congr 1
    apply List.map_congr_left
    intro be hbe
    exact h1 be hbe
  rw [hsum]
  have hzero : ∀ k : Nat × Nat, st.get_mrs k.1 k.2 = 0 →
      dense_term T st.get_mrs st.wr mg k.1 k.2 = 0 := by
    intro k hk
    unfold dense_term
    rw [hk, hz]
  have hA : Finset.sum (st.bg.edges.map (fun be => bkey st.g.directed be.src be.tgt)).toFinset
        (fun k => dense_term T st.get_mrs st.wr mg k.1 k.2) =
      Finset.sum ((st.bg.edges.map (fun be => bkey st.g.directed be.src be.tgt)).toFinset ∪
          block_pairs st.g.directed st.bg.nv)
        (fun k => dense_term T st.get_mrs st.wr mg k.1 k.2) := by
    apply Finset.sum_subset Finset.subset_union_left
    intro k hk hnk
    apply hzero
    have hkP : k ∈ block_pairs st.g.directed st.bg.nv := by
      rcases Finset.mem_union.1 hk with h | h
      · exact absurd h hnk
      · exact h
    rw [mem_block_pairs] at hkP
    cases hme : st.get_me k.1 k.2 with
    | none => exact get_mrs_of_none hme
    | some h =>
      exfalso
      obtain ⟨be, hbe, _, hkey⟩ := wf.index_bg k.1 k.2 h hme
      apply hnk
      rw [List.mem_toFinset, List.mem_map]
      refine ⟨be, hbe, ?_⟩
      rw [hkey, bkey_canonical _ _ _ hkP.2.2]
  have hB : Finset.sum (block_pairs st.g.directed st.bg.nv)
        (fun k => dense_term T st.get_mrs st.wr mg k.1 k.2) =
      Finset.sum ((st.bg.edges.map (fun be => bkey st.g.directed be.src be.tgt)).toFinset ∪
          block_pairs st.g.directed st.bg.nv)
        (fun k => dense_term T st.get_mrs st.wr mg k.1 k.2) := by
    apply Finset.sum_subset Finset.subset_union_right
    intro k hk hnk
    apply hzero
    apply hout
    intro hlt
    apply hnk
    rw [mem_block_pairs]
    refine ⟨hlt.1, hlt.2, ?_⟩
    rcases Finset.mem_union.1 hk with h | h
    · rw [List.mem_toFinset, List.mem_map] at h
      obtain ⟨be, _, hbe⟩ := h
      rw [← hbe]
      exact bkey_is_canonical _ _ _
    · exact absurd h hnk
  rw [hA, hB]

theorem virtual_move_dense_unfold {R : Type} [AddCommGroup R] (T : Terms R) (st : BlockState)
    (v nr : Nat) (mg : Bool) :
    st.virtual_move_dense T v nr mg =
      if st.deg_corr then .error (Err.unsupported, st)
      else if st.b v = nr then .ok (0, st)
      else .ok (dense_value T { st with m_entries := move_entries st v nr EntrySet.clear } v nr mg,
        { st with m_entries := move_entries st v nr EntrySet.clear }) := rfl

/-- The value of the body of `virtual_move_dense` as a difference of two sums
over the blocks. -/
theorem dense_value_eval {R : Type} [AddCommGroup R] (T : Terms R) (st : BlockState)
    (v nr : Nat) (mg : Bool) (hne : st.b v ≠ nr) :
    dense_value T st v nr mg =
      Finset.sum (Finset.range st.bg.nv) (fun s =>
          if st.g.directed = false then
            touched_row_und (dense_term T (st.mrs_after v nr) (st.wr_after v nr) mg) (st.b v) nr s
          else touched_row (dense_term T (st.mrs_after v nr) (st.wr_after v nr) mg) (st.b v) nr s)
        - Finset.sum (Finset.range st.bg.nv) (fun s =>
          if st.g.directed = false then
            touched_row_und (dense_term T st.get_mrs st.wr mg) (st.b v) nr s
          else touched_row (dense_term T st.get_mrs st.wr mg) (st.b v) nr s) := by
  unfold dense_value
  have hp : dense_deltap st v (out_edges_range st.g v) (fun _ => 0) = st.out_to v := by
    funext s
    exact deltap_eq_out_to st v s
  have hm : dense_deltam st v (in_edges_range st.g v) (fun _ => 0) = st.in_from v := by
    funext s
    exact deltam_eq_in_from st v s
  rw [hp, hm, deltal_eq_loops_at st v]
  simp only [dense_iter_foldl, list_range_sum, zero_add, add_zero]
  congr 1
  · apply Finset.sum_congr rfl
    intro s _
    exact dense_iter_snd T st v nr mg hne s
  · apply Finset.sum_congr rfl
    intro s _
    exact dense_iter_fst T st (st.b v) nr mg _ _ _ _ _ s

theorem mrs_out_of_range {st : BlockState} (h : Consistent st)
    (hB : ∀ e ∈ st.g.edges, st.b e.src < st.bg.nv ∧ st.b e.tgt < st.bg.nv)
    (p q : Nat) (hpq : ¬ (p < st.bg.nv ∧ q < st.bg.nv)) : st.get_mrs p q = 0 := by
  rw [h.exact p q]
  unfold pair_weight
  apply wsum_zero
  intro e he hP
  exfalso
  apply hpq
  have hb := hB e he
  simp only [in_pair, decide_eq_true_eq] at hP
  cases hd : st.g.directed
  · rw [hd, bkey_false_eq] at hP
    rcases hP with ⟨h1, h2⟩ | ⟨h1, h2⟩
    · rw [← h1, ← h2]; exact hb
    · rw [← h1, ← h2]; exact ⟨hb.2, hb.1⟩
  · rw [hd] at hP
    simp only [bkey, if_true, Prod.mk.injEq] at hP
    rw [← hP.1, ← hP.2]; exact hb

theorem pair_shift_untouched (st : BlockState) (v nr p q : Nat)
    (hk : ¬ (p = st.b v ∨ p = nr ∨ q = st.b v ∨ q = nr)) : st.pair_shift v nr p q = 0 := by
  simp only [not_or] at hk
  obtain ⟨h1, h2, h3, h4⟩ := hk
  unfold pair_shift
  simp [h1, h2, h3, h4]

theorem wr_after_untouched (st : BlockState) (v nr p : Nat) (h1 : p ≠ st.b v) (h2 : p ≠ nr) :
    st.wr_after v nr p = st.wr p := by
  simp [wr_after, Function.update, h1, h2]

/-- The dense terms summed over all block pairs differ, before and after the
move, by their difference over the pairs that involve `b[v]` or `nr`. -/
theorem dense_diff_touched {R : Type} [AddCommGroup R] (T : Terms R) (st : BlockState)
    (v nr : Nat) (mg : Bool) :
    Finset.sum (block_pairs st.g.directed st.bg.nv)
        (fun k => dense_term T (st.mrs_after v nr) (st.wr_after v nr) mg k.1 k.2) -
      Finset.sum (block_pairs st.g.directed st.bg.nv)
        (fun k => dense_term T st.get_mrs st.wr mg k.1 k.2) =
    Finset.sum (touched_pairs st.g.directed st.bg.nv (st.b v) nr)
        (fun k => dense_term T (st.mrs_after v nr) (st.wr_after v nr) mg k.1 k.2) -
      Finset.sum (touched_pairs st.g.directed st.bg.nv (st.b v) nr)
        (fun k => dense_term T st.get_mrs st.wr mg k.1 k.2) := by
  unfold touched_pairs
  rw [← Finset.sum_filter_add_sum_filter_not (block_pairs st.g.directed st.bg.nv)
      (fun k => k.1 = st.b v ∨ k.1 = nr ∨ k.2 = st.b v ∨ k.2 = nr)
      (fun k => dense_term T (st.mrs_after v nr) (st.wr_after v nr) mg k.1 k.2),
    ← Finset.sum_filter_add_sum_filter_not (block_pairs st.g.directed st.bg.nv)
      (fun k => k.1 = st.b v ∨ k.1 = nr ∨ k.2 = st.b v ∨ k.2 = nr)
      (fun k => dense_term T st.get_mrs st.wr mg k.1 k.2)]
  have hu : Finset.sum ((block_pairs st.g.directed st.bg.nv).filter
        (fun k => ¬ (k.1 = st.b v ∨ k.1 = nr ∨ k.2 = st.b v ∨ k.2 = nr)))
        (fun k => dense_term T (st.mrs_after v nr) (st.wr_after v nr) mg k.1 k.2) =
      Finset.sum ((block_pairs st.g.directed st.bg.nv).filter
        (fun k => ¬ (k.1 = st.b v ∨ k.1 = nr ∨ k.2 = st.b v ∨ k.2 = nr)))
        (fun k => dense_term T st.get_mrs st.wr mg k.1 k.2) := by
    apply Finset.sum_congr rfl
    intro k hk
    have hk2 := (Finset.mem_filter.1 hk).2
    have hk3 := hk2
    simp only [not_or] at hk3
    unfold dense_term mrs_after
    rw [pair_shift_untouched st v nr k.1 k.2 hk2, add_zero,
      wr_after_untouched st v nr k.1 hk3.1 hk3.2.1,
      wr_after_untouched st v nr k.2 hk3.2.2.1 hk3.2.2.2]
  rw [hu]
  abel

/-- The sum over the pairs that involve `r` or `nr` is the sum accumulated by
the loop over the blocks. -/
theorem sum_touched_pairs {R : Type} [AddCommGroup R] (directed : Bool) (B r nr : Nat)
    (hr : r < B) (hnr : nr < B) (hne : r ≠ nr) (D : Nat → Nat → R)
    (hD : directed = false → ∀ p q, D p q = D q p) :
    Finset.sum (touched_pairs directed B r nr) (fun k => D k.1 k.2) =
      Finset.sum (Finset.range B) (fun s =>
        if directed = false then touched_row_und D r nr s else touched_row D r nr s) := by
  unfold touched_pairs block_pairs
  cases directed
  · simp only [Bool.false_eq_true, if_false, if_true]
    exact sum_touched_und B r nr hr hnr hne D (hD rfl)
  · simp only [if_true, Bool.true_eq_false, if_false]
    exact sum_touched_dir B r nr hr hnr hne D

theorem dense_term_symm {R : Type} (T : Terms R) (st : BlockState) (mg : Bool)
    (hd : st.g.directed = false)
    (hsym : ∀ p q m a b mg, p ≠ q → T.eterm_dense p q m a b mg = T.eterm_dense q p m b a mg)
    (p q : Nat) :
    dense_term T st.get_mrs st.wr mg p q = dense_term T st.get_mrs st.wr mg q p := by
  by_cases hpq : p = q
  · rw [hpq]
  unfold dense_term
  rw [hsym p q _ _ _ _ hpq]
  have : st.get_mrs p q = st.get_mrs q p :=
    get_mrs_congr_key (by rw [hd]; exact bkey_comm p q)
  rw [this]

/-- The state reached by `move_vertex(v, nr)` from a consistent state has the
aggregate and block weights `mrs_after` and `wr_after`. -/
theorem move_vertex_after {st st' : BlockState} (h : Consistent st) (v nr : Nat)
    (hne : st.b v ≠ nr) (hok : st.move_vertex v nr = .ok st') :
    Consistent st' ∧ same_params st st' ∧ st'.b = Function.update st.b v nr ∧
      st'.get_mrs = st.mrs_after v nr ∧ st'.wr = st.wr_after v nr := by
  have he := move_vertex_effect st v nr
  rw [hok] at he
  rcases he with ⟨h1, _⟩ | ⟨_, hlab, _⟩
  · exact absurd h1 hne
  obtain ⟨st2, hrun, hc, _, hp, hb, _, hw⟩ := move_vertex_consistent h v nr hne hlab
  rw [hok] at hrun
  have hst : st' = st2 := by injection hrun
  subst hst
  refine ⟨hc, hp, hb, ?_, hw⟩
  funext p q
  rw [hc.exact p q, hp.1, hp.2.1, hb, pair_weight_move, ← h.exact p q]
  rfl

/-- C6: in a consistent state of a model without degree correction, whose
blocks are vertices of the block graph, with a dense edge term that is 0 at
aggregate weight 0 (and, on an undirected graph, does not depend on the order in
which two distinct blocks are given), for every vertex `v`, block `nr != b[v]` and flag
`multigraph`: `move_vertex(v, nr)` returns when the labels are compatible, and
whenever it returns, `dense_entropy` returns before and after it and
`virtual_move_dense(v, nr, multigraph)` returns their difference, which is the
sum, over the block pairs involving `b[v]` or `nr` (each ordered pair once on a
directed graph, each unordered pair once on an undirected graph), of the dense
term at the post-move edge count and block sizes minus the term before. -/
theorem virtual_move_dense_exact {R : Type} [AddCommGroup R] (T : Terms R) {st : BlockState}
    (h : Consistent st) (hdc : st.deg_corr = false)
    (hz : ∀ p q a b mg, T.eterm_dense p q 0 a b mg = 0)
    (hsym : st.g.directed = false →
      ∀ p q m a b mg, p ≠ q → T.eterm_dense p q m a b mg = T.eterm_dense q p m b a mg)
    (hB : ∀ e ∈ st.g.edges, st.b e.src < st.bg.nv ∧ st.b e.tgt < st.bg.nv)
    (v nr : Nat) (hr : st.b v < st.bg.nv) (hnr : nr < st.bg.nv) (hne : st.b v ≠ nr)
    (mg : Bool) :
    (st.bclabel (st.b v) = st.bclabel nr → ∃ st', st.move_vertex v nr = .ok st') ∧
    ∀ st', st.move_vertex v nr = .ok st' →
      ∃ S S' st1, st.dense_entropy T mg = .ok S ∧ st'.dense_entropy T mg = .ok S' ∧
        st.virtual_move_dense T v nr mg = .ok (S' - S, st1) ∧
        S' - S = Finset.sum (touched_pairs st.g.directed st.bg.nv (st.b v) nr)
          (fun k => dense_term T st'.get_mrs st'.wr mg k.1 k.2 -
            dense_term T st.get_mrs st.wr mg k.1 k.2) := by
  constructor
  · intro hlab
    obtain ⟨st', hrun, _⟩ := move_vertex_consistent h v nr hne hlab
    exact ⟨st', hrun⟩
  intro st' hok
  obtain ⟨hc', hp, hb, hM, hW⟩ := move_vertex_after h v nr hne hok
  have hg : st'.g = st.g := hp.1
  have hnv : st'.bg.nv = st.bg.nv := hp.2.2.2.2.2.2.1
  have hdc' : st'.deg_corr = false := by rw [hp.2.2.2.2.2.2.2.1]; exact hdc
  have hB' : ∀ e ∈ st'.g.edges, st'.b e.src < st'.bg.nv ∧ st'.b e.tgt < st'.bg.nv := by
    rw [hg, hb, hnv]
    intro e he
    constructor
    · by_cases h1 : e.src = v
      · simp [Function.update, h1, hnr]
      · simp only [Function.update, h1, dite_false]; exact (hB e he).1
    · by_cases h1 : e.tgt = v
      · simp [Function.update, h1, hnr]
      · simp only [Function.update, h1, dite_false]; exact (hB e he).2
  have hS := dense_sum_eq T st mg h.index_wf hz hsym (mrs_out_of_range h hB)
  have hS' : (st'.bg.edges.map (fun e =>
      T.eterm_dense e.src e.tgt (st'.mrs e.idx) (st'.wr e.src) (st'.wr e.tgt) mg)).sum =
      Finset.sum (block_pairs st.g.directed st.bg.nv)
        (fun k => dense_term T (st.mrs_after v nr) (st.wr_after v nr) mg k.1 k.2) := by
    rw [dense_sum_eq T st' mg hc'.index_wf hz (by rw [hg]; exact hsym)
      (mrs_out_of_range hc' hB'), hg, hnv, hM, hW]
  have hdiff := dense_diff_touched T st v nr mg
  have hsymD : ∀ (x : BlockState), x.g.directed = st.g.directed →
      st.g.directed = false → ∀ p q,
      dense_term T x.get_mrs x.wr mg p q = dense_term T x.get_mrs x.wr mg q p := by
    intro x hx hd p q
    exact dense_term_symm T x mg (by rw [hx]; exact hd) (hsym hd) p q
  have ht0 := sum_touched_pairs st.g.directed st.bg.nv (st.b v) nr hr hnr hne
    (dense_term T st.get_mrs st.wr mg) (hsymD st rfl)
  have ht1 := sum_touched_pairs st.g.directed st.bg.nv (st.b v) nr hr hnr hne
    (dense_term T (st.mrs_after v nr) (st.wr_after v nr) mg)
    (by rw [← hM, ← hW]; exact hsymD st' (by rw [hg]))
  have hval := dense_value_eval T { st with m_entries := move_entries st v nr EntrySet.clear }
    v nr mg hne
  have hval' : dense_value T { st with m_entries := move_entries st v nr EntrySet.clear }
      v nr mg =
      Finset.sum (Finset.range st.bg.nv) (fun s =>
          if st.g.directed = false then
            touched_row_und (dense_term T (st.mrs_after v nr) (st.wr_after v nr) mg) (st.b v) nr s
          else touched_row (dense_term T (st.mrs_after v nr) (st.wr_after v nr) mg) (st.b v) nr s)
        - Finset.sum (Finset.range st.bg.nv) (fun s =>
          if st.g.directed = false then
            touched_row_und (dense_term T st.get_mrs st.wr mg) (st.b v) nr s
          else touched_row (dense_term T st.get_mrs st.wr mg) (st.b v) nr s) := hval
  refine ⟨(st.bg.edges.map (fun e =>
      T.eterm_dense e.src e.tgt (st.mrs e.idx) (st.wr e.src) (st.wr e.tgt) mg)).sum,
    (st'.bg.edges.map (fun e =>
      T.eterm_dense e.src e.tgt (st'.mrs e.idx) (st'.wr e.src) (st'.wr e.tgt) mg)).sum,
    { st with m_entries := move_entries st v nr EntrySet.clear }, ?_, ?_, ?_, ?_⟩
  · unfold dense_entropy
    rw [hdc]
    rfl
  · unfold dense_entropy
    rw [hdc']
    rfl
  · rw [virtual_move_dense_unfold, if_neg (by simp [hdc]), if_neg hne, hval', ← ht0, ← ht1,
      ← hdiff, ← hS, ← hS']
  · rw [hS, hS', hM, hW, hdiff, Finset.sum_sub_distrib]

theorem virtual_move_dense_exact_witness :
    ∃ S S' st1, ex_ring.dense_entropy ex_terms true = .ok S ∧
      (state_of (ex_ring.move_vertex 1 2) ex_ring).dense_entropy ex_terms true = .ok S' ∧
      ex_ring.virtual_move_dense ex_terms 1 2 true = .ok (S' - S, st1) ∧
      S' - S = Finset.sum (touched_pairs ex_ring.g.directed ex_ring.bg.nv (ex_ring.b 1) 2)
        (fun k => dense_term ex_terms (state_of (ex_ring.move_vertex 1 2) ex_ring).get_mrs
            (state_of (ex_ring.move_vertex 1 2) ex_ring).wr true k.1 k.2 -
          dense_term ex_terms ex_ring.get_mrs ex_ring.wr true k.1 k.2) :=
  (virtual_move_dense_exact ex_terms ex_ring_consistent rfl
    (by intro p q a b mg; simp [ex_terms])
    (by
      intro _ p q m a b mg hpq
      have hqp : ¬ (q = p) := fun e => hpq e.symm
      simp [ex_terms, hpq, hqp, mul_comm])
    ex_ring_in_range 1 2 (by decide) (by decide) (by decide) true).2
    (state_of (ex_ring.move_vertex 1 2) ex_ring) rfl

end BlockState

theorem delta_of_nil (k : Nat × Nat) : delta_of [] k = 0 := rfl

theorem delta_of_cons (p : (Nat × Nat) × Int) (l : List ((Nat × Nat) × Int)) (k : Nat × Nat) :
    delta_of (p :: l) k = if p.1 = k then p.2 else delta_of l k := by
  unfold delta_of
  by_cases h : p.1 = k
  · simp [List.find?_cons, h]
  · simp [List.find?_cons, h]

theorem delta_of_not_mem (l : List ((Nat × Nat) × Int)) (k : Nat × Nat)
    (h : k ∉ l.map Prod.fst) : delta_of l k = 0 := by
  induction l with
  | nil => rfl
  | cons p l ih =>
    rw [delta_of_cons]
    simp only [List.map_cons, List.mem_cons, not_or] at h
    rw [if_neg (fun e => h.1 e.symm), ih h.2]

theorem delta_of_map (l : List ((Nat × Nat) × Int)) (k0 k : Nat × Nat) (d : Int) :
    delta_of (l.map (fun p => if p.1 = k0 then (p.1, p.2 + d) else p)) k =
      delta_of l k + (if k0 = k ∧ k ∈ l.map Prod.fst then d else 0) := by
  induction l with
  | nil => simp [delta_of_nil]
  | cons p l ih =>
    rw [List.map_cons, delta_of_cons, delta_of_cons, ih]
    by_cases h1 : p.1 = k0
    · rw [if_pos h1]
      by_cases h2 : p.1 = k
      · have h3 : k0 = k := h1.symm.trans h2
        simp [h2, h3]
      · have h3 : ¬ (k0 = k) := fun e => h2 (h1.trans e)
        simp [h2, h3]
    · rw [if_neg h1]
      by_cases h2 : p.1 = k
      · have h3 : ¬ (k0 = k) := fun e => h1 (h2.trans e.symm)
        simp [h2, h3]
      · have h4 : ¬ (k = p.1) := fun e => h2 e.symm
        have hm : (k0 = k ∧ k ∈ p.1 :: List.map Prod.fst l) ↔
            (k0 = k ∧ k ∈ List.map Prod.fst l) := by
          rw [List.mem_cons]
          constructor
          · rintro ⟨a, b | b⟩
            · exact absurd b h4
            · exact ⟨a, b⟩
          · rintro ⟨a, b⟩
            exact ⟨a, Or.inr b⟩
        rw [if_neg h2, List.map_cons, if_congr hm rfl rfl, if_neg h2]

theorem delta_of_append_single (l : List ((Nat × Nat) × Int)) (k0 k : Nat × Nat) (d : Int)
    (h : k0 ∉ l.map Prod.fst) :
    delta_of (l ++ [(k0, d)]) k = delta_of l k + (if k0 = k then d else 0) := by
  induction l with
  | nil => simp [delta_of_cons, delta_of_nil]
  | cons p l ih =>
    simp only [List.map_cons, List.mem_cons, not_or] at h
    rw [List.cons_append, delta_of_cons, delta_of_cons, ih h.2]
    by_cases h2 : p.1 = k
    · have h3 : ¬ (k0 = k) := fun e => h.1 (e.trans h2.symm)
      simp [h2, h3]
    · simp [h2]

/-- Effect of `insert_delta` on the recorded change of every key. -/
theorem delta_of_insert (directed : Bool) (m : EntrySet) (r s : Nat) (d : Int)
    (k : Nat × Nat) :
    delta_of (m.insert_delta directed r s d).entries k =
      delta_of m.entries k + (if bkey directed r s = k then d else 0) := by
  unfold EntrySet.insert_delta
  by_cases h : m.entries.any (fun p => decide (p.1 = bkey directed r s)) = true
  · rw [if_pos h]
    simp only
    rw [delta_of_map]
    have hm : bkey directed r s ∈ m.entries.map Prod.fst := by
      simp only [List.any_eq_true, decide_eq_true_eq] at h
      obtain ⟨p, hp, he⟩ := h
      exact List.mem_map.2 ⟨p, hp, he⟩
    by_cases h2 : bkey directed r s = k
    · rw [← h2]; simp [hm]
    · simp [h2]
  · rw [if_neg h]
    simp only
    apply delta_of_append_single
    intro hm
    apply h
    obtain ⟨p, hp, he⟩ := List.mem_map.1 hm
    simp only [List.any_eq_true, decide_eq_true_eq]
    exact ⟨p, hp, he⟩

theorem get_delta_eq (directed : Bool) (m : EntrySet) (r s : Nat) :
    m.get_delta directed r s = delta_of m.entries (bkey directed r s) := rfl

theorem bkey_idem (directed : Bool) (r s : Nat) :
    bkey directed (bkey directed r s).1 (bkey directed r s).2 = bkey directed r s := by
  cases directed
  · simp [bkey]
  · rfl

theorem entries_wf_insert (directed : Bool) (m : EntrySet) (r s : Nat) (d : Int)
    (h : entries_wf directed m.entries) :
    entries_wf directed (m.insert_delta directed r s d).entries := by
  unfold EntrySet.insert_delta
  by_cases ha : m.entries.any (fun p => decide (p.1 = bkey directed r s)) = true
  · rw [if_pos ha]
    simp only
    have hk : (m.entries.map (fun p => if p.1 = bkey directed r s then (p.1, p.2 + d) else p)).map
        Prod.fst = m.entries.map Prod.fst := by
      rw [List.map_map]
      apply List.map_congr_left
      intro p _
      by_cases h1 : p.1 = bkey directed r s <;> simp [h1]
    refine ⟨by rw [hk]; exact h.1, ?_⟩
    intro p hp
    obtain ⟨p0, hp0, he⟩ := List.mem_map.1 hp
    by_cases h1 : p0.1 = bkey directed r s
    · rw [if_pos h1] at he
      rw [← he]
      exact h.2 p0 hp0
    · rw [if_neg h1] at he
      rw [← he]
      exact h.2 p0 hp0
  · rw [if_neg ha]
    simp only
    constructor
    · rw [List.map_append, List.map_singleton]
      apply List.Nodup.append h.1 (List.nodup_singleton _)
      intro k hk1 hk2
      rw [List.mem_singleton] at hk2
      apply ha
      obtain ⟨p, hp, he⟩ := List.mem_map.1 hk1
      simp only [List.any_eq_true, decide_eq_true_eq]
      exact ⟨p, hp, he.trans hk2⟩
    · intro p hp
      rcases List.mem_append.1 hp with hp | hp
      · exact h.2 p hp
      · rw [List.mem_singleton] at hp
        rw [hp]
        exact bkey_idem directed r s

theorem delta_of_mem {l : List ((Nat × Nat) × Int)} (h : (l.map Prod.fst).Nodup)
    {p : (Nat × Nat) × Int} (hp : p ∈ l) : delta_of l p.1 = p.2 := by
  induction l with
  | nil => cases hp
  | cons q l ih =>
    rw [delta_of_cons]
    rw [List.map_cons, List.nodup_cons] at h
    rcases List.mem_cons.1 hp with rfl | hm
    · simp
    · have : ¬ (q.1 = p.1) := by
        intro e
        apply h.1
        rw [e]
        exact List.mem_map.2 ⟨p, hm, rfl⟩
      rw [if_neg this]
      exact ih h.2 hm

/-- A sum over the entries is a sum over the keys. -/
theorem entries_sum {R : Type} [AddCommGroup R] {l : List ((Nat × Nat) × Int)}
    (h : (l.map Prod.fst).Nodup) (H : Nat × Nat → Int → R) :
    (l.map (fun p => H p.1 p.2)).sum =
      Finset.sum (l.map Prod.fst).toFinset (fun k => H k (delta_of l k)) := by
  rw [List.sum_toFinset _ h, List.map_map]
  congr 1
  apply List.map_congr_left
  intro p hp
  simp only [Function.comp]
  rw [delta_of_mem h hp]

namespace BlockState

theorem move_entries_out_spec (st : BlockState) (v r nr : Nat) (L : List Edge) :
    ∀ (m : EntrySet) (sw : Int), entries_wf st.g.directed m.entries →
      entries_wf st.g.directed (move_entries_out st v r nr L m sw).1.entries ∧
      (∀ k, delta_of (move_entries_out st v r nr L m sw).1.entries k =
        delta_of m.entries k + (L.map (out_change st v r nr k)).sum) ∧
      (move_entries_out st v r nr L m sw).2 = sw +
        ((L.filter (fun e => decide (e.tgt = v))).map (fun e => st.eweight e.idx)).sum *
          (if st.g.directed = false then 1 else 0) := by
  induction L with
  | nil =>
    intro m sw hwf
    simp [move_entries_out, hwf]
  | cons e es ih =>
    intro m sw hwf
    unfold move_entries_out
    by_cases h1 : e.tgt = v ∧ st.g.directed = false
    · rw [if_pos h1]
      obtain ⟨i1, i2, i3⟩ := ih m (sw + st.eweight e.idx) hwf
      refine ⟨i1, ?_, ?_⟩
      · intro k
        rw [i2 k, List.map_cons, List.sum_cons]
        simp [out_change, h1.1, h1.2]
      · rw [i3]
        simp [List.filter_cons, h1.1, h1.2]
        ring
    · rw [if_neg h1]
      simp only
      have hwf2 := entries_wf_insert st.g.directed _ nr (if e.tgt = v then nr else st.b e.tgt)
        (st.eweight e.idx)
        (entries_wf_insert st.g.directed m r (st.b e.tgt) (-st.eweight e.idx) hwf)
      obtain ⟨i1, i2, i3⟩ := ih _ sw hwf2
      refine ⟨i1, ?_, ?_⟩
      · intro k
        rw [i2 k, delta_of_insert, delta_of_insert, List.map_cons, List.sum_cons]
        unfold out_change ind
        rw [if_neg h1]
        split_ifs <;> ring
      · rw [i3]
        by_cases h2 : e.tgt = v
        · have h3 : ¬ (st.g.directed = false) := fun h => h1 ⟨h2, h⟩
          simp [h3]
        · simp [List.filter_cons, h2]

theorem move_entries_in_spec (st : BlockState) (v r nr : Nat) (L : List Edge) :
    ∀ (m : EntrySet), entries_wf st.g.directed m.entries →
      entries_wf st.g.directed (move_entries_in st v r nr L m).entries ∧
      (∀ k, delta_of (move_entries_in st v r nr L m).entries k =
        delta_of m.entries k + (L.map (in_change st v r nr k)).sum) := by
  induction L with
  | nil =>
    intro m hwf
    simp [move_entries_in, hwf]
  | cons e es ih =>
    intro m hwf
    unfold move_entries_in
    by_cases h1 : e.src = v
    · rw [if_pos h1]
      obtain ⟨i1, i2⟩ := ih m hwf
      refine ⟨i1, ?_⟩
      intro k
      rw [i2 k, List.map_cons, List.sum_cons]
      simp [in_change, h1]
    · rw [if_neg h1]
      simp only
      have hwf2 := entries_wf_insert st.g.directed _ (st.b e.src) nr (st.eweight e.idx)
        (entries_wf_insert st.g.directed m (st.b e.src) r (-st.eweight e.idx) hwf)
      obtain ⟨i1, i2⟩ := ih _ hwf2
      refine ⟨i1, ?_⟩
      intro k
      rw [i2 k, delta_of_insert, delta_of_insert, List.map_cons, List.sum_cons]
      unfold in_change ind
      rw [if_neg h1]
      split_ifs <;> ring

theorem sum_filter_map (P : Edge → Bool) (f : Edge → Int) (es : List Edge) :
    ((es.filter P).map f).sum = (es.map (fun e => if P e then f e else 0)).sum := by
  induction es with
  | nil => rfl
  | cons e es ih =>
    cases hp : P e <;> simp [List.filter_cons, hp, ih]

theorem sum_filter_map_map (P : Edge → Bool) (g : Edge → Edge) (f : Edge → Int)
    (es : List Edge) :
    (((es.filter P).map g).map f).sum = (es.map (fun e => if P e then f (g e) else 0)).sum := by
  rw [List.map_map, sum_filter_map]
  rfl

theorem list_sum_add (f g : Edge → Int) (es : List Edge) :
    (es.map f).sum + (es.map g).sum = (es.map (fun e => f e + g e)).sum := by
  induction es with
  | nil => rfl
  | cons e es ih =>
    simp only [List.map_cons, List.sum_cons, ← ih]
    ring

theorem list_sum_mul (f : Edge → Int) (c : Int) (es : List Edge) :
    (es.map f).sum * c = (es.map (fun e => f e * c)).sum := by
  induction es with
  | nil => simp
  | cons e es ih =>
    simp only [List.map_cons, List.sum_cons, ← ih]
    ring

theorem pair_weight_diff (directed : Bool) (w : Nat → Int) (bm bm' : Nat → Nat)
    (es : List Edge) (p q : Nat) :
    pair_weight directed w bm' es p q - pair_weight directed w bm es p q =
      (es.map (fun e => w e.idx *
        (ind (bkey directed (bm' e.src) (bm' e.tgt)) (bkey directed p q) -
          ind (bkey directed (bm e.src) (bm e.tgt)) (bkey directed p q)))).sum := by
  unfold pair_weight wsum in_pair ind
  induction es with
  | nil => rfl
  | cons e es ih =>
    simp only [List.map_cons, List.sum_cons, ← ih, decide_eq_true_eq]
    split_ifs <;> ring

/-- Per edge, the changes recorded by `move_entries` on a directed graph add up
to the change of the block pair of the edge. -/
theorem edge_changes_dir (st : BlockState) (hd : st.g.directed = true) (v nr : Nat)
    (k : Nat × Nat) (e : Edge) :
    (if decide (e.src = v) then out_change st v (st.b v) nr k e else 0) +
      (if decide (e.tgt = v) then in_change st v (st.b v) nr k e else 0) =
    st.eweight e.idx *
      (ind (bkey true (Function.update st.b v nr e.src) (Function.update st.b v nr e.tgt)) k -
        ind (bkey true (st.b e.src) (st.b e.tgt)) k) := by
  unfold out_change in_change
  rw [hd]
  by_cases hs : e.src = v <;> by_cases ht : e.tgt = v
  · simp [hs, ht, Function.update]
  · simp [hs, ht, Function.update]
  · simp [hs, ht, Function.update]
  · simp [hs, ht, Function.update]

/-- Per edge, the changes recorded by `move_entries` on an undirected graph
(for the edge seen from its source, seen from its target, and as a self-loop)
add up to the change of the block pair of the edge. -/
theorem edge_changes_und (st : BlockState) (hd : st.g.directed = false) (v nr : Nat)
    (k : Nat × Nat) (e : Edge) :
    (if decide (e.src = v) then out_change st v (st.b v) nr k e else 0) +
      (if decide (e.tgt = v) then out_change st v (st.b v) nr k ⟨e.tgt, e.src, e.idx⟩ else 0) +
      (if (decide (e.src = v) && decide (e.tgt = v)) then st.eweight e.idx else 0) *
        (ind (bkey false nr nr) k - ind (bkey false (st.b v) (st.b v)) k) =
    st.eweight e.idx *
      (ind (bkey false (Function.update st.b v nr e.src) (Function.update st.b v nr e.tgt)) k -
        ind (bkey false (st.b e.src) (st.b e.tgt)) k) := by
  unfold out_change
  rw [hd]
  by_cases hs : e.src = v <;> by_cases ht : e.tgt = v
  · simp [hs, ht, Function.update]
  · simp [hs, ht, Function.update]
  · simp [hs, ht, Function.update]
    rw [bkey_comm nr (st.b e.src), bkey_comm (st.b v) (st.b e.src)]
    left; rfl
  · simp [hs, ht, Function.update]

theorem out_loops_sum (st : BlockState) (v : Nat) :
    (((out_edges_range st.g v).filter (fun e => decide (e.tgt = v))).map
      (fun e => st.eweight e.idx)).sum * (if st.g.directed = false then 1 else 0) =
    2 * (if st.g.directed = false then st.loops_at v else 0) := by
  unfold out_edges_range loops_at
  cases hd : st.g.directed
  · simp only [Bool.false_eq_true, if_false, if_true, List.filter_append, List.map_append,
      List.sum_append, mul_one]
    rw [sum_filter_filter, sum_filter_swap]
    have h1 : wsum (fun e => decide (e.tgt = v) && decide ((⟨e.tgt, e.src, e.idx⟩ : Edge).tgt = v))
        st.eweight st.g.edges =
        wsum (fun e => decide (e.src = v) && decide (e.tgt = v)) st.eweight st.g.edges := by
      apply wsum_pred_congr; intro e _ _; simp [Bool.and_comm]
    rw [h1]
    ring
  · simp

/-- The entry set filled by `move_entries(v, nr)` records, for every block
pair, the change of the weight of the pair when `v` goes to `nr`. -/
theorem move_entries_delta (st : BlockState) (hpos : ∀ e ∈ st.g.edges, 0 ≤ st.eweight e.idx)
    (v nr p q : Nat) :
    entries_wf st.g.directed (move_entries st v nr EntrySet.clear).entries ∧
    delta_of (move_entries st v nr EntrySet.clear).entries (bkey st.g.directed p q) =
      pair_weight st.g.directed st.eweight (Function.update st.b v nr) st.g.edges p q -
        pair_weight st.g.directed st.eweight st.b st.g.edges p q := by
  have hwf0 : entries_wf st.g.directed EntrySet.clear.entries := by
    simp [entries_wf, EntrySet.clear]
  obtain ⟨o1, o2, o3⟩ := move_entries_out_spec st v (st.b v) nr (out_edges_range st.g v)
    EntrySet.clear 0 hwf0
  rw [zero_add, out_loops_sum] at o3
  have hl0 : 0 ≤ (if st.g.directed = false then st.loops_at v else 0) := by
    split_ifs
    · exact wsum_nonneg hpos
    · exact le_refl _
  -- the self-loop entries
  have hself : ∃ m1 : EntrySet, entries_wf st.g.directed m1.entries ∧
      move_entries st v nr EntrySet.clear =
        move_entries_in st v (st.b v) nr (in_edges_range st.g v) m1 ∧
      ∀ k, delta_of m1.entries k =
        (((out_edges_range st.g v).map (out_change st v (st.b v) nr k)).sum) +
        (if st.g.directed = false then st.loops_at v else 0) *
          (ind (bkey st.g.directed nr nr) k - ind (bkey st.g.directed (st.b v) (st.b v)) k) := by
    by_cases hsw : (move_entries_out st v (st.b v) nr (out_edges_range st.g v)
        EntrySet.clear 0).2 > 0
    · refine ⟨((move_entries_out st v (st.b v) nr (out_edges_range st.g v)
          EntrySet.clear 0).1.insert_delta st.g.directed (st.b v) (st.b v)
          (-((move_entries_out st v (st.b v) nr (out_edges_range st.g v)
            EntrySet.clear 0).2 / 2))).insert_delta st.g.directed nr nr
          ((move_entries_out st v (st.b v) nr (out_edges_range st.g v) EntrySet.clear 0).2 / 2),
        entries_wf_insert _ _ _ _ _ (entries_wf_insert _ _ _ _ _ o1), ?_, ?_⟩
      · unfold move_entries
        simp only [hsw, if_true]
      · intro k
        rw [delta_of_insert, delta_of_insert, o2 k, o3]
        simp only [delta_of, EntrySet.clear, List.find?_nil, zero_add]
        have : (2 * (if st.g.directed = false then st.loops_at v else 0)) / 2 =
            (if st.g.directed = false then st.loops_at v else 0) := by omega
        rw [this]
        unfold ind
        split_ifs <;> ring
    · refine ⟨(move_entries_out st v (st.b v) nr (out_edges_range st.g v)
          EntrySet.clear 0).1, o1, ?_, ?_⟩
      · unfold move_entries
        simp only [hsw, if_false]
      · intro k
        rw [o2 k]
        have hz : (if st.g.directed = false then st.loops_at v else 0) = 0 := by
          rw [o3] at hsw
          omega
        rw [hz]
        simp [delta_of, EntrySet.clear]
  obtain ⟨m1, hwf1, hrun, hd1⟩ := hself
  obtain ⟨i1, i2⟩ := move_entries_in_spec st v (st.b v) nr (in_edges_range st.g v) m1 hwf1
  rw [hrun]
  refine ⟨i1, ?_⟩
  rw [i2, hd1, pair_weight_diff]
  unfold out_edges_range in_edges_range loops_at
  cases hd : st.g.directed
  · simp only [Bool.false_eq_true, if_false, if_true, List.map_append, List.sum_append,
      List.map_nil, List.sum_nil, add_zero]
    rw [sum_filter_map, sum_filter_map_map]
    unfold wsum
    rw [list_sum_mul, list_sum_add, list_sum_add]
    apply sum_map_congr
    intro e _
    exact edge_changes_und st hd v nr _ e
  · simp only [if_true, Bool.true_eq_false, if_false, zero_mul, add_zero]
    rw [sum_filter_map, sum_filter_map, list_sum_add]
    apply sum_map_congr
    intro e _
    exact edge_changes_dir st hd v nr _ e

theorem pair_weight_out_of_range (directed : Bool) (w : Nat → Int) (bm : Nat → Nat)
    (es : List Edge) (B : Nat) (hB : ∀ e ∈ es, bm e.src < B ∧ bm e.tgt < B)
    (p q : Nat) (hpq : ¬ (p < B ∧ q < B)) : pair_weight directed w bm es p q = 0 := by
  unfold pair_weight
  apply wsum_zero
  intro e he hP
  exfalso
  apply hpq
  have hb := hB e he
  simp only [in_pair, decide_eq_true_eq] at hP
  cases directed
  · rw [bkey_false_eq] at hP
    rcases hP with ⟨h1, h2⟩ | ⟨h1, h2⟩
    · rw [← h1, ← h2]; exact hb
    · rw [← h1, ← h2]; exact ⟨hb.2, hb.1⟩
  · simp only [bkey, if_true, Prod.mk.injEq] at hP
    rw [← hP.1, ← hP.2]; exact hb

theorem update_in_range {bm : Nat → Nat} {es : List Edge} {B : Nat}
    (hB : ∀ e ∈ es, bm e.src < B ∧ bm e.tgt < B) (v nr : Nat) (hnr : nr < B) :
    ∀ e ∈ es, Function.update bm v nr e.src < B ∧ Function.update bm v nr e.tgt < B := by
  intro e he
  constructor
  · by_cases h1 : e.src = v
    · simp [Function.update, h1, hnr]
    · simp only [Function.update, h1, dite_false]; exact (hB e he).1
  · by_cases h1 : e.tgt = v
    · simp [Function.update, h1, hnr]
    · simp only [Function.update, h1, dite_false]; exact (hB e he).2

theorem mrs_after_eq {st : BlockState} (h : Consistent st) (v nr p q : Nat) :
    st.mrs_after v nr p q =
      pair_weight st.g.directed st.eweight (Function.update st.b v nr) st.g.edges p q := by
  unfold mrs_after
  rw [h.exact p q, pair_weight_move]

/-- In a consistent state, `entries_dS` over the entry set filled by
`move_entries(v, nr)` is the change of the sparse edge terms over all block
pairs. -/
theorem entries_dS_eq {R : Type} [AddCommGroup R] (T : Terms R) {st : BlockState}
    (h : Consistent st)
    (hB : ∀ e ∈ st.g.edges, st.b e.src < st.bg.nv ∧ st.b e.tgt < st.bg.nv)
    (v nr : Nat) (hnr : nr < st.bg.nv) :
    entries_dS T st (move_entries st v nr EntrySet.clear) =
      Finset.sum (block_pairs st.g.directed st.bg.nv)
        (fun k => sparse_term T (st.mrs_after v nr) k - sparse_term T st.get_mrs k) := by
  have hpos : ∀ e ∈ st.g.edges, 0 ≤ st.eweight e.idx := fun e he => le_of_lt (h.weights_pos e he)
  have hwf := (move_entries_delta st hpos v nr 0 0).1
  have hdel : ∀ k : Nat × Nat, bkey st.g.directed k.1 k.2 = k →
      st.get_mrs k.1 k.2 + delta_of (move_entries st v nr EntrySet.clear).entries k =
        st.mrs_after v nr k.1 k.2 := by
    intro k hk
    have := (move_entries_delta st hpos v nr k.1 k.2).2
    rw [hk] at this
    rw [this, mrs_after_eq h, h.exact k.1 k.2]
    ring
  unfold entries_dS
  rw [entries_sum hwf.1 (fun k d => T.eterm k.1 k.2 (st.get_mrs k.1 k.2 + d) -
    T.eterm k.1 k.2 (st.get_mrs k.1 k.2))]
  have hA : Finset.sum ((move_entries st v nr EntrySet.clear).entries.map Prod.fst).toFinset
      (fun k => T.eterm k.1 k.2 (st.get_mrs k.1 k.2 +
        delta_of (move_entries st v nr EntrySet.clear).entries k) -
        T.eterm k.1 k.2 (st.get_mrs k.1 k.2)) =
      Finset.sum (((move_entries st v nr EntrySet.clear).entries.map Prod.fst).toFinset ∪
        block_pairs st.g.directed st.bg.nv)
      (fun k => sparse_term T (st.mrs_after v nr) k - sparse_term T st.get_mrs k) := by
    have h1 : ∀ k ∈ ((move_entries st v nr EntrySet.clear).entries.map Prod.fst).toFinset,
        T.eterm k.1 k.2 (st.get_mrs k.1 k.2 +
          delta_of (move_entries st v nr EntrySet.clear).entries k) -
          T.eterm k.1 k.2 (st.get_mrs k.1 k.2) =
        sparse_term T (st.mrs_after v nr) k - sparse_term T st.get_mrs k := by
      intro k hk
      rw [List.mem_toFinset, List.mem_map] at hk
      obtain ⟨p, hp, hpk⟩ := hk
      have hcan := hwf.2 p hp
      rw [hpk] at hcan
      rw [hdel k hcan]
      rfl
    rw [Finset.sum_congr rfl h1]
    apply Finset.sum_subset Finset.subset_union_left
    intro k hk hnk
    have hkP : k ∈ block_pairs st.g.directed st.bg.nv := by
      rcases Finset.mem_union.1 hk with h | h
      · exact absurd h hnk
      · exact h
    rw [mem_block_pairs] at hkP
    have hcan := bkey_canonical st.g.directed k.1 k.2 hkP.2.2
    have h0 : delta_of (move_entries st v nr EntrySet.clear).entries k = 0 := by
      apply delta_of_not_mem
      intro hm
      exact hnk (List.mem_toFinset.2 hm)
    have := hdel k hcan
    rw [h0, add_zero] at this
    unfold sparse_term
    rw [← this]
    exact sub_self _
  have hB2 : Finset.sum (block_pairs st.g.directed st.bg.nv)
      (fun k => sparse_term T (st.mrs_after v nr) k - sparse_term T st.get_mrs k) =
      Finset.sum (((move_entries st v nr EntrySet.clear).entries.map Prod.fst).toFinset ∪
        block_pairs st.g.directed st.bg.nv)
      (fun k => sparse_term T (st.mrs_after v nr) k - sparse_term T st.get_mrs k) := by
    apply Finset.sum_subset Finset.subset_union_right
    intro k hk hnk
    have hout : ¬ (k.1 < st.bg.nv ∧ k.2 < st.bg.nv) := by
      intro hlt
      apply hnk
      rw [mem_block_pairs]
      refine ⟨hlt.1, hlt.2, ?_⟩
      rcases Finset.mem_union.1 hk with h1 | h1
      · rw [List.mem_toFinset, List.mem_map] at h1
        obtain ⟨p, hp, hpk⟩ := h1
        have hcan := hwf.2 p hp
        rw [hpk] at hcan
        rw [← hcan]
        exact bkey_is_canonical _ _ _
      · exact absurd h1 hnk
    unfold sparse_term
    rw [mrs_after_eq h, h.exact k.1 k.2,
      pair_weight_out_of_range _ _ _ _ _ (update_in_range hB v nr hnr) _ _ hout,
      pair_weight_out_of_range _ _ _ _ _ hB _ _ hout]
    exact sub_self _
  rw [hA, hB2]

theorem wsum_update_end (f : Edge → Nat) (bm : Nat → Nat) (w : Nat → Int) (v nr x : Nat)
    (es : List Edge) :
    wsum (fun e => decide (Function.update bm v nr (f e) = x)) w es =
      wsum (fun e => decide (bm (f e) = x)) w es +
      ((if x = nr then 1 else 0) - (if x = bm v then 1 else 0)) *
        wsum (fun e => decide (f e = v)) w es := by
  induction es with
  | nil => simp
  | cons e es ih =>
    simp only [wsum_cons, ih, decide_eq_true_eq]
    by_cases h1 : f e = v
    · have e1 : ∀ a b : Nat, (a = b) = (b = a) := fun a b => propext eq_comm
      simp only [Function.update, h1, dite_true, eq_rec_constant, if_true, e1 nr x, e1 (bm v) x]
      split_ifs <;> ring
    · simp only [Function.update, h1, dite_false, if_false]
      ring

theorem out_degreeS_eq (st : BlockState) (v : Nat) :
    out_degreeS st.g st.eweight v = st.kout_of v := by
  unfold out_degreeS out_edges_range kout_of
  cases hd : st.g.directed
  · simp only [Bool.false_eq_true, if_false, List.map_append, List.sum_append, List.map_map]
    rw [sum_filter_eq_wsum]
    congr 1
    have := sum_filter_eq_wsum (fun e => decide (e.tgt = v)) st.eweight st.g.edges
    rw [← this]
    rfl
  · simp only [if_true, add_zero]
    rw [sum_filter_eq_wsum]

theorem kin_eq (st : BlockState) (v : Nat) :
    (if st.g.directed then in_degreeS st.g st.eweight v else out_degreeS st.g st.eweight v) =
      st.kin_of v := by
  cases hd : st.g.directed
  · simp only [Bool.false_eq_true, if_false]
    rw [out_degreeS_eq]
    unfold kout_of kin_of
    rw [hd]
    simp only [Bool.false_eq_true, if_false]
    ring
  · simp only [if_true]
    unfold in_degreeS in_edges_range kin_of
    rw [hd]
    simp only [if_true, add_zero]
    rw [sum_filter_eq_wsum]

theorem out_weight_move (st : BlockState) (v nr x : Nat) :
    out_weight st.g.directed st.eweight (Function.update st.b v nr) st.g.edges x =
      out_weight st.g.directed st.eweight st.b st.g.edges x +
      ((if x = nr then 1 else 0) - (if x = st.b v then 1 else 0)) * st.kout_of v := by
  unfold out_weight kout_of
  rw [wsum_update_end (fun e => e.src), wsum_update_end (fun e => e.tgt)]
  cases st.g.directed
  · simp only [Bool.false_eq_true, if_false]; ring
  · simp only [if_true]; ring

theorem in_weight_move (st : BlockState) (v nr x : Nat) :
    in_weight st.g.directed st.eweight (Function.update st.b v nr) st.g.edges x =
      in_weight st.g.directed st.eweight st.b st.g.edges x +
      ((if x = nr then 1 else 0) - (if x = st.b v then 1 else 0)) * st.kin_of v := by
  unfold in_weight kin_of
  rw [wsum_update_end (fun e => e.src), wsum_update_end (fun e => e.tgt)]
  cases st.g.directed
  · simp only [Bool.false_eq_true, if_false]; ring
  · simp only [if_true]; ring

/-- The degree sums of the state reached by `move_vertex(v, nr)` from a
consistent state. -/
theorem move_vertex_degs {st st' : BlockState} (h : Consistent st)
    (hsh : st.mrm_is_mrp = !st.g.directed) (v nr : Nat)
    (hne : st.b v ≠ nr) (hok : st.move_vertex v nr = .ok st') :
    (∀ x, st'.mrp x = st.mrp x +
      ((if x = nr then 1 else 0) - (if x = st.b v then 1 else 0)) * st.kout_of v) ∧
    (∀ x, st'.get_mrm x = st.get_mrm x +
      ((if x = nr then 1 else 0) - (if x = st.b v then 1 else 0)) * st.kin_of v) := by
  have he := move_vertex_effect st v nr
  rw [hok] at he
  rcases he with ⟨h1, _⟩ | ⟨_, hlab, _⟩
  · exact absurd h1 hne
  obtain ⟨st2, hrun, _, _, hp, hb, hd, _⟩ := move_vertex_consistent h v nr hne hlab
  rw [hok] at hrun
  have hst : st' = st2 := by injection hrun
  subst hst
  have hd0 : DegCounted st st.eweight st.b
      (fun x => st.mrp x - out_weight st.g.directed st.eweight st.b st.g.edges x)
      (fun x => st.get_mrm x - in_weight st.g.directed st.eweight st.b st.g.edges x) :=
    ⟨hsh, fun x => by ring, fun x => by ring⟩
  have hd1 := hd _ _ hd0
  constructor
  · intro x
    rw [hd1.mrp_eq x, hp.1, hp.2.1, hb, out_weight_move]
    ring
  · intro x
    rw [hd1.mrm_eq x, hp.1, hp.2.1, hb, in_weight_move]
    ring

/-- The change of the sum of the vertex terms over the blocks, when only the
terms of `r` and `nr` change. -/
theorem vterm_sum_diff {R : Type} [AddCommGroup R] (B r nr : Nat) (hr : r < B) (hnr : nr < B)
    (hne : r ≠ nr) (f f' : Nat → R) (hf : ∀ x, x ≠ nr → x ≠ r → f' x = f x) :
    ((List.range B).map f').sum - ((List.range B).map f).sum =
      f' r + f' nr - f r - f nr := by
  rw [list_range_sum, list_range_sum, sum_split_two B r nr hr hnr hne f,
    sum_split_two B r nr hr hnr hne f']
  have h1 : ∀ q ∈ Finset.range B, (if q ≠ nr ∧ q ≠ r then f' q else 0) =
      (if q ≠ nr ∧ q ≠ r then f q else 0) := by
    intro q _
    by_cases hq : q ≠ nr ∧ q ≠ r
    · rw [if_pos hq, if_pos hq, hf q hq.1 hq.2]
    · rw [if_neg hq, if_neg hq]
  rw [Finset.sum_congr rfl h1]
  abel

theorem get_deg_entropy_congr {R : Type} [AddCommGroup R] (T : Terms R) {st st' : BlockState}
    (hp : same_params st st') (v : Nat) :
    get_deg_entropy T st' v = get_deg_entropy T st v := by
  unfold get_deg_entropy
  obtain ⟨a1, a2, a3, a4, a5, a6, a7, a8, a9, a10, a11⟩ := hp
  rw [a1, a3, a10, a11]

theorem parallel_term_congr {R : Type} [AddCommGroup R] (T : Terms R) {st st' : BlockState}
    (hp : same_params st st') (v : Nat) :
    parallel_term T st' v = parallel_term T st v := by
  unfold parallel_term
  rw [hp.1, hp.2.1]

/-- The terms of `sparse_entropy` that depend on the partition are the edge
terms and the vertex terms. -/
theorem sparse_entropy_diff {R : Type} [AddCommGroup R] (T : Terms R) {st st' : BlockState}
    (hp : same_params st st') (mg de : Bool) :
    st'.sparse_entropy T mg de - st.sparse_entropy T mg de =
      (edge_terms T st' - edge_terms T st) + (vertex_terms T st' - vertex_terms T st) := by
  have hD : ((List.range st'.g.nv).map (fun v => get_deg_entropy T st' v)).sum =
      ((List.range st.g.nv).map (fun v => get_deg_entropy T st v)).sum := by
    rw [hp.1]
    congr 1
    apply List.map_congr_left
    intro v _
    exact get_deg_entropy_congr T hp v
  have hP : ((List.range st'.g.nv).map (fun v => parallel_term T st' v)).sum =
      ((List.range st.g.nv).map (fun v => parallel_term T st v)).sum := by
    rw [hp.1]
    congr 1
    apply List.map_congr_left
    intro v _
    exact parallel_term_congr T hp v
  have hdc : st'.deg_corr = st.deg_corr := hp.2.2.2.2.2.2.2.1
  unfold sparse_entropy edge_terms vertex_terms
  simp only [hD, hP, hdc]
  split_ifs <;> abel

/-- The sum of the sparse edge terms over the aggregate edge records is their
sum over the block pairs. -/
theorem edge_terms_eq {R : Type} [AddCommGroup R] (T : Terms R) (st : BlockState)
    (wf : IndexWF st) (hz : ∀ p q, T.eterm p q 0 = 0)
    (hsym : st.g.directed = false → ∀ p q m, p ≠ q → T.eterm p q m = T.eterm q p m)
    (hout : ∀ p q, ¬ (p < st.bg.nv ∧ q < st.bg.nv) → st.get_mrs p q = 0) :
    edge_terms T st = Finset.sum (block_pairs st.g.directed st.bg.nv)
      (fun k => sparse_term T st.get_mrs k) :=
  dense_sum_eq { T with eterm_dense := fun p q m _ _ _ => T.eterm p q m } st true wf
    (fun p q _ _ _ => hz p q) (fun hd p q m _ _ _ hpq => hsym hd p q m hpq) hout

/-- The value of `virtual_move_sparse` for a move to another block. -/
theorem virtual_move_sparse_eval {R : Type} [AddCommGroup R] (T : Terms R) (st : BlockState)
    (v nr : Nat) (hne : st.b v ≠ nr) :
    (st.virtual_move_sparse T v nr).1 =
      entries_dS T st (move_entries st v nr EntrySet.clear) +
        T.vterm (st.mrp (st.b v) - st.kout_of v) (st.get_mrm (st.b v) - st.kin_of v)
          (st.wr (st.b v) - st.vweight v) st.deg_corr +
        T.vterm (st.mrp nr + st.kout_of v) (st.get_mrm nr + st.kin_of v)
          (st.wr nr + st.vweight v) st.deg_corr -
        T.vterm (st.mrp (st.b v)) (st.get_mrm (st.b v)) (st.wr (st.b v)) st.deg_corr -
        T.vterm (st.mrp nr) (st.get_mrm nr) (st.wr nr) st.deg_corr := by
  unfold virtual_move_sparse
  rw [if_neg hne]
  simp only
  have h1 : out_degreeS st.g st.eweight v = st.kout_of v := out_degreeS_eq st v
  have h2 := kin_eq st v
  rw [h1] at h2
  rw [h1, h2]
  rfl

/-- C5: in a consistent state (with `mrm` the map `mrp` exactly on an
undirected graph and with blocks that are vertices of the block graph), for a
sparse edge term that is 0 at aggregate weight 0 and, on an undirected graph,
does not depend on the order in which two distinct blocks are given: for every vertex `v`
and label-compatible block `nr`, `move_vertex(v, nr)` returns and the value of
`virtual_move_sparse(v, nr)` is `sparse_entropy(multigraph, deg_entropy)` after
the move minus `sparse_entropy(multigraph, deg_entropy)` before it, for every
choice of the two flags. -/
theorem virtual_move_sparse_exact {R : Type} [AddCommGroup R] (T : Terms R) {st : BlockState}
    (h : Consistent st) (hsh : st.mrm_is_mrp = !st.g.directed)
    (hz : ∀ p q, T.eterm p q 0 = 0)
    (hsym : st.g.directed = false → ∀ p q m, p ≠ q → T.eterm p q m = T.eterm q p m)
    (hB : ∀ e ∈ st.g.edges, st.b e.src < st.bg.nv ∧ st.b e.tgt < st.bg.nv)
    (v nr : Nat) (hr : st.b v < st.bg.nv) (hnr : nr < st.bg.nv)
    (hlab : st.bclabel (st.b v) = st.bclabel nr) (mg de : Bool) :
    ∃ st', st.move_vertex v nr = .ok st' ∧
      (st.virtual_move_sparse T v nr).1 =
        st'.sparse_entropy T mg de - st.sparse_entropy T mg de := by
  by_cases hne : st.b v = nr
  · refine ⟨st, by rw [← hne]; simp [move_vertex], ?_⟩
    unfold virtual_move_sparse
    rw [if_pos hne, sub_self]
  obtain ⟨st', hok, _⟩ := move_vertex_consistent h v nr hne hlab
  refine ⟨st', hok, ?_⟩
  obtain ⟨hc', hp, hb, hM, hW⟩ := move_vertex_after h v nr hne hok
  obtain ⟨hmrp, hmrm⟩ := move_vertex_degs h hsh v nr hne hok
  have hg : st'.g = st.g := hp.1
  have hnv : st'.bg.nv = st.bg.nv := hp.2.2.2.2.2.2.1
  have hdc : st'.deg_corr = st.deg_corr := hp.2.2.2.2.2.2.2.1
  have hB' : ∀ e ∈ st'.g.edges, st'.b e.src < st'.bg.nv ∧ st'.b e.tgt < st'.bg.nv := by
    rw [hg, hb, hnv]
    exact update_in_range hB v nr hnr
  have hne' : nr ≠ st.b v := fun e => hne e.symm
  obtain ⟨w1, w2, w3⟩ := wr_after_eval st v nr hne
  rw [sparse_entropy_diff T hp, virtual_move_sparse_eval T st v nr hne,
    entries_dS_eq T h hB v nr hnr, Finset.sum_sub_distrib,
    edge_terms_eq T st h.index_wf hz hsym (mrs_out_of_range h hB),
    edge_terms_eq T st' hc'.index_wf hz (by rw [hg]; exact hsym) (mrs_out_of_range hc' hB'),
    hg, hnv, hM]
  unfold vertex_terms
  rw [hnv, vterm_sum_diff st.bg.nv (st.b v) nr hr hnr hne
    (fun x => T.vterm (st.mrp x) (st.get_mrm x) (st.wr x) st.deg_corr)
    (fun x => T.vterm (st'.mrp x) (st'.get_mrm x) (st'.wr x) st'.deg_corr)
    (by
      intro x h1 h2
      simp only [hmrp x, hmrm x, hW, w3 x h1 h2, hdc, h1, h2, if_false, sub_self, zero_mul,
        add_zero])]
  simp only [hmrp, hmrm, hW, w1, w2, hdc, hne, hne', if_true, if_false]
  have e1 : st.mrp (st.b v) + (0 - 1) * st.kout_of v = st.mrp (st.b v) - st.kout_of v := by ring
  have e2 : st.get_mrm (st.b v) + (0 - 1) * st.kin_of v = st.get_mrm (st.b v) - st.kin_of v := by
    ring
  have e3 : st.mrp nr + (1 - 0) * st.kout_of v = st.mrp nr + st.kout_of v := by ring
  have e4 : st.get_mrm nr + (1 - 0) * st.kin_of v = st.get_mrm nr + st.kin_of v := by ring
  rw [e1, e2, e3, e4]
  abel

theorem virtual_move_sparse_exact_witness :
    ∃ st', ex_ring.move_vertex 1 2 = .ok st' ∧
      (ex_ring.virtual_move_sparse ex_terms 1 2).1 =
        st'.sparse_entropy ex_terms true true - ex_ring.sparse_entropy ex_terms true true :=
  virtual_move_sparse_exact ex_terms ex_ring_consistent rfl
    (by intro p q; simp [ex_terms]) (fun _ p q m _ => rfl) ex_ring_in_range
    1 2 (by decide) (by decide) rfl true true

end BlockState

namespace BlockState

/-! ## The evaluators: same block, unsupported configuration, frame -/

/-- C11 fails as stated: in the degree-corrected state `ex_pair_dc` the dense
virtual move of vertex 0 to its own block does not return 0 but fails with the
unsupported-configuration error, and so does `virtual_move` with
`dense = true`. -/
theorem virtual_move_same_block_dense_fails :
    ex_pair_dc.deg_corr = true ∧
    ex_pair_dc.virtual_move_dense ex_terms 0 (ex_pair_dc.b 0) false =
      .error (Err.unsupported, ex_pair_dc) ∧
    ex_pair_dc.virtual_move ex_terms 0 (ex_pair_dc.b 0) true false false false false =
      .error (Err.unsupported, ex_pair_dc) :=
  ⟨rfl, rfl, rfl⟩

/-- C11 (amended): for every vertex `v` and every state, the virtual move of
`v` to its current block returns exactly 0 and the unchanged state from
`virtual_move_sparse` and from `virtual_move` with `dense = false` and the
three description-length flags off; `virtual_move_dense` and `virtual_move`
with `dense = true` return exactly 0 when the model is not degree-corrected and
fail with the unsupported-configuration error when it is. -/
theorem virtual_move_same_block {R : Type} [AddCommGroup R] (T : Terms R)
    (st : BlockState) (v : Nat) (multigraph : Bool) :
    st.virtual_move_sparse T v (st.b v) = (0, st) ∧
    st.virtual_move_dense T v (st.b v) multigraph =
      (if st.deg_corr then .error (Err.unsupported, st) else .ok (0, st)) ∧
    st.virtual_move T v (st.b v) false multigraph false false false = .ok (some 0, st) ∧
    st.virtual_move T v (st.b v) true multigraph false false false =
      (if st.deg_corr then .error (Err.unsupported, st) else .ok (some 0, st)) := by
  have h1 : st.virtual_move_sparse T v (st.b v) = (0, st) := by
    simp [virtual_move_sparse]
  have h2 : st.virtual_move_dense T v (st.b v) multigraph =
      (if st.deg_corr then .error (Err.unsupported, st) else .ok (0, st)) := by
    simp [virtual_move_dense]
  refine ⟨h1, h2, ?_, ?_⟩
  · unfold virtual_move
    simp [h1]
  · unfold virtual_move
    rw [h2]
    cases st.deg_corr <;> simp

/-- C12: under a degree-corrected model, `virtual_move_dense(v, nr,
multigraph)`, `dense_entropy(multigraph)` and `entropy(dense = true, ...)` fail
with the unsupported-configuration error for every input, raised in the
unchanged state; under `deg_corr = false` each of them returns normally, so
none raises that error. -/
theorem dense_unsupported_iff_deg_corr {R : Type} [AddCommGroup R] (T : Terms R)
    (st : BlockState) (v nr : Nat) (multigraph deg_entropy : Bool) :
    (st.deg_corr = true →
      st.virtual_move_dense T v nr multigraph = .error (Err.unsupported, st) ∧
      st.dense_entropy T multigraph = .error (Err.unsupported, st) ∧
      st.entropy T true multigraph deg_entropy = .error (Err.unsupported, st)) ∧
    (st.deg_corr = false →
      (∃ x, st.virtual_move_dense T v nr multigraph = .ok x) ∧
      (∃ x, st.dense_entropy T multigraph = .ok x) ∧
      (∃ x, st.entropy T true multigraph deg_entropy = .ok x)) := by
  constructor
  · intro h
    simp [virtual_move_dense, dense_entropy, entropy, h]
  · intro h
    refine ⟨?_, ?_, ?_⟩
    · unfold virtual_move_dense
      rw [h]
      simp only [Bool.false_eq_true, if_false]
      split_ifs <;> exact ⟨_, rfl⟩
    · unfold dense_entropy
      rw [h]
      exact ⟨_, rfl⟩
    · unfold entropy dense_entropy
      rw [h]
      exact ⟨_, rfl⟩

theorem only_scratch.scratch_refl (st : BlockState) : only_scratch st st := by
  unfold only_scratch
  rfl

theorem only_scratch.of_entries (st : BlockState) (m : EntrySet) :
    only_scratch st { st with m_entries := m } := by
  unfold only_scratch
  rfl

theorem only_scratch.scratch_trans {a b c : BlockState} (h1 : only_scratch a b)
    (h2 : only_scratch b c) : only_scratch a c := by
  unfold only_scratch at *
  rw [← h1, ← h2]

theorem enable_partition_stats_scratch (st : BlockState) :
    only_scratch st (end_state (st.enable_partition_stats.map (fun s => ((), s)))) := by
  unfold enable_partition_stats
  by_cases h : st.partition_stats.isEmpty = true
  · rw [if_pos h]
    by_cases h0 : st.g.nv = 0
    · simp only [h0, if_true]
      exact only_scratch.scratch_refl st
    · simp only [h0, if_false]
      unfold only_scratch end_state
      rfl
  · rw [if_neg h]
    exact only_scratch.scratch_refl st

theorem virtual_move_sparse_scratch {R : Type} [AddCommGroup R] (T : Terms R)
    (st : BlockState) (v nr : Nat) : only_scratch st (st.virtual_move_sparse T v nr).2 := by
  unfold virtual_move_sparse
  by_cases h : st.b v = nr
  · simp only [h, if_true]
    exact only_scratch.scratch_refl st
  · simp only [h, if_false]
    exact only_scratch.of_entries st _

theorem virtual_move_dense_scratch {R : Type} [AddCommGroup R] (T : Terms R)
    (st : BlockState) (v nr : Nat) (multigraph : Bool) :
    only_scratch st (end_state (st.virtual_move_dense T v nr multigraph)) := by
  unfold virtual_move_dense
  by_cases hd : st.deg_corr = true
  · rw [if_pos hd]
    exact only_scratch.scratch_refl st
  · rw [if_neg hd]
    by_cases h : st.b v = nr
    · rw [if_pos h]
      exact only_scratch.scratch_refl st
    · rw [if_neg h]
      exact only_scratch.of_entries st _

theorem virtual_move_scratch {R : Type} [AddCommGroup R] (T : Terms R)
    (st : BlockState) (v nr : Nat) (dense multigraph partition_dl deg_dl edges_dl : Bool) :
    only_scratch st
      (end_state (st.virtual_move T v nr dense multigraph partition_dl deg_dl edges_dl)) := by
  unfold virtual_move
  by_cases hl : st.bclabel (st.b v) ≠ st.bclabel nr
  · simp only [hl, ne_eq, not_false_eq_true, if_true]
    exact only_scratch.scratch_refl st
  · simp only [hl, if_false]
    have key : ∀ x : Res (R × BlockState), only_scratch st (end_state x) →
        only_scratch st (end_state (match x with
          | .error x => (.error x : Res (Option R × BlockState))
          | .ok (dS, st1) =>
            if partition_dl ∨ deg_dl ∨ edges_dl then
              match st1.enable_partition_stats with
              | .error x => .error x
              | .ok st2 =>
                match st2.partition_stats.get? (st2.pclabel v) with
                | none => .error (Err.undefined, st2)
                | some ps =>
                  let dS := if partition_dl then dS + T.get_delta_dl ps v (st.b v) nr st2.vweight
                    else dS
                  let dS :=
                    if st2.deg_corr ∧ deg_dl then
                      dS + T.get_delta_deg_dl ps v (st.b v) nr st2.vweight st2.eweight st2.g
                    else dS
                  let dS :=
                    if edges_dl then
                      dS + T.get_delta_edges_dl ps v (st.b v) nr st2.vweight st2.g
                    else dS
                  .ok (some dS, st2)
            else .ok (some dS, st1))) := by
      intro x hx
      rcases x with ⟨e⟩ | ⟨dS, st1⟩
      · exact hx
      · have hx1 : only_scratch st st1 := hx
        by_cases hf : partition_dl ∨ deg_dl ∨ edges_dl
        · simp only [hf, if_true]
          have hen := enable_partition_stats_scratch st1
          rcases hq : st1.enable_partition_stats with ⟨e⟩ | st2
          · rw [hq] at hen
            exact hx1.scratch_trans hen
          · rw [hq] at hen
            have h2 : only_scratch st st2 := hx1.scratch_trans hen
            dsimp only
            rcases st2.partition_stats.get? (st2.pclabel v) with _ | ps
            · exact h2
            · exact h2
        · simp only [hf, if_false]
          exact hx1
    apply key
    cases dense
    · simp only [Bool.false_eq_true, if_false]
      exact virtual_move_sparse_scratch T st v nr
    · simp only [if_true]
      exact virtual_move_dense_scratch T st v nr multigraph

theorem only_scratch.to_read_only {st st' : BlockState} (h : only_scratch st st') :
    read_only st st' := by
  refine ⟨?_, ?_, ?_, ?_, ?_, ?_, ?_, ?_, h⟩ <;>
  · unfold only_scratch at h
    rw [← h]

/-- C13: the evaluators are read-only on the model.  For every `v`, `nr`, `r`,
`s`, `c` and flag values, the state in which `virtual_move`,
`virtual_move_sparse`, `virtual_move_dense` and `get_move_prob` end (by a
return or by a failure) differs from the state they were given at most in the
scratch entry set and in the partition statistics: the partition `b`, the
aggregates `mrs`, `mrp`, `mrm`, `wr`, the block-pair index, the block graph and
the per-edge cache are unchanged. -/
theorem evaluators_read_only {R : Type} [Field R] (T : Terms R) (st : BlockState)
    (v nr r s : Nat) (c : R)
    (dense multigraph partition_dl deg_dl edges_dl reverse : Bool) :
    read_only st
      (end_state (st.virtual_move T v nr dense multigraph partition_dl deg_dl edges_dl)) ∧
    read_only st (st.virtual_move_sparse T v nr).2 ∧
    read_only st (end_state (st.virtual_move_dense T v nr multigraph)) ∧
    read_only st (st.get_move_prob v r s c reverse).2 :=
  ⟨(virtual_move_scratch T st v nr dense multigraph partition_dl deg_dl edges_dl).to_read_only,
    (virtual_move_sparse_scratch T st v nr).to_read_only,
    (virtual_move_dense_scratch T st v nr multigraph).to_read_only,
    (only_scratch.of_entries st _).to_read_only⟩

end BlockState
namespace BlockState

/-! ## The proposal probability -/

theorem move_prob_iter_eq {R : Type} [Field R] (st : BlockState) (v r s : Nat) (c : R)
    (reverse : Bool) (m : EntrySet) (acc : R × Int) (e : Edge) :
    move_prob_iter st v r s c reverse m (out_degreeS st.g st.eweight v)
        (if st.g.directed then in_degreeS st.g st.eweight v else out_degreeS st.g st.eweight v)
        acc e =
      (acc.1 + (st.eweight e.idx : R) * st.move_prob_term v r s c reverse m e,
        acc.2 + st.eweight e.idx) := by
  unfold move_prob_iter move_prob_term
  cases st.g.directed
  · simp only [Bool.false_eq_true, if_false, mul_div_assoc]
  · simp only [if_true]

theorem move_prob_foldl {R : Type} [Field R] (t : Edge → R) (w : Edge → Int)
    (f : R × Int → Edge → R × Int)
    (hf : ∀ acc e, f acc e = (acc.1 + (w e : R) * t e, acc.2 + w e)) :
    ∀ (es : List Edge) (acc : R × Int),
      es.foldl f acc =
        (acc.1 + (es.map (fun e => (w e : R) * t e)).sum, acc.2 + (es.map w).sum) := by
  intro es
  induction es with
  | nil => intro acc; simp
  | cons e es ih =>
    intro acc
    rw [List.foldl_cons, ih, hf]
    simp only [List.map_cons, List.sum_cons]
    refine Prod.ext ?_ ?_
    · simp only [add_assoc]
    · simp only [add_assoc]

/-- The value of `get_move_prob` for a given entry set, in closed form. -/
theorem get_move_prob_entries_eq {R : Type} [Field R] (st : BlockState) (v r s : Nat)
    (c : R) (reverse : Bool) (m : EntrySet) :
    st.get_move_prob_entries v r s c reverse m =
      if 0 < ((all_edges_range st.g v).map (fun e => st.eweight e.idx)).sum then
        ((all_edges_range st.g v).map
          (fun e => (st.eweight e.idx : R) * st.move_prob_term v r s c reverse m e)).sum /
          ((((all_edges_range st.g v).map (fun e => st.eweight e.idx)).sum : Int) : R)
      else 1 / (st.bg.nv : R) := by
  unfold get_move_prob_entries
  simp only []
  rw [move_prob_foldl (fun e => st.move_prob_term v r s c reverse m e)
    (fun e => st.eweight e.idx) _ (fun acc e => move_prob_iter_eq st v r s c reverse m acc e)]
  simp only [zero_add, gt_iff_lt]

/-- The per-edge contribution only reads the entry set it is given. -/
theorem move_prob_term_entries {R : Type} [Field R] (st : BlockState) (m0 : EntrySet)
    (v r s : Nat) (c : R) (reverse : Bool) (m : EntrySet) (e : Edge) :
    move_prob_term { st with m_entries := m0 } v r s c reverse m e =
      st.move_prob_term v r s c reverse m e := rfl

/-- C15: for every vertex `v` whose total incident edge weight `w` (the sum of
the weights over `all_edges_range(v, g)`) is 0, in particular for every vertex
with no incident edge, `get_move_prob(v, r, s, c, reverse)` returns `1/B`, with
`B` the number of vertices of the block graph, for every `r`, `s`, `c` and both
values of `reverse`; for a vertex with `w > 0` it returns the sum over the
incident edges of the edge weight times the per-edge contribution, divided by
`w`. -/
theorem get_move_prob_value {R : Type} [Field R] (st : BlockState) (v r s : Nat) (c : R)
    (reverse : Bool) :
    (((all_edges_range st.g v).map (fun e => st.eweight e.idx)).sum = 0 →
      (st.get_move_prob v r s c reverse).1 = 1 / (st.bg.nv : R)) ∧
    (all_edges_range st.g v = [] →
      (st.get_move_prob v r s c reverse).1 = 1 / (st.bg.nv : R)) ∧
    (0 < ((all_edges_range st.g v).map (fun e => st.eweight e.idx)).sum →
      (st.get_move_prob v r s c reverse).1 =
        ((all_edges_range st.g v).map (fun e => (st.eweight e.idx : R) *
          st.move_prob_term v r s c reverse
            (move_entries st v (if reverse then r else s) EntrySet.clear) e)).sum /
        ((((all_edges_range st.g v).map (fun e => st.eweight e.idx)).sum : Int) : R)) := by
  have h := get_move_prob_entries_eq
    { st with m_entries := move_entries st v (if reverse then r else s) EntrySet.clear }
    v r s c reverse (move_entries st v (if reverse then r else s) EntrySet.clear)
  have hval : (st.get_move_prob v r s c reverse).1 =
      get_move_prob_entries
        { st with m_entries := move_entries st v (if reverse then r else s) EntrySet.clear }
        v r s c reverse (move_entries st v (if reverse then r else s) EntrySet.clear) := rfl
  rw [hval, h]
  simp only [move_prob_term_entries]
  refine ⟨?_, ?_, ?_⟩
  · intro h0
    rw [if_neg (by rw [h0]; exact lt_irrefl 0)]
  · intro h0
    rw [h0]
    simp
  · intro h0
    rw [if_pos h0]

/-- The aggregate weight of every block pair after `move_vertex(v, nr)` is the
weight before plus the change recorded by the entry set of `move_entries`. -/
theorem move_entries_get_delta {st st' : BlockState} (h : Consistent st) (v nr : Nat)
    (hne : st.b v ≠ nr) (hok : st.move_vertex v nr = .ok st') (p q : Nat) :
    (move_entries st v nr EntrySet.clear).get_delta st.g.directed p q =
      st'.get_mrs p q - st.get_mrs p q := by
  obtain ⟨_, _, _, hmrs, _⟩ := move_vertex_after h v nr hne hok
  rw [hmrs, mrs_after_eq h, h.exact p q, get_delta_eq,
    (move_entries_delta st (fun e he => le_of_lt (h.weights_pos e he)) v nr p q).2]

theorem kin_of_und (st : BlockState) (v : Nat) (hd : st.g.directed = false) :
    st.kin_of v = st.kout_of v := by
  unfold kin_of kout_of
  rw [hd]
  simp only [Bool.false_eq_true, if_false]
  ring

/-- The quantities read by one iteration of the loop of `get_move_prob` with
`reverse = true` before `move_vertex(v, nr)` are those read with
`reverse = false` after it, for every entry set that records the change of
`mrs`. -/
theorem move_prob_term_reverse {R : Type} [Field R] {st st' : BlockState}
    (h : Consistent st) (hsh : st.mrm_is_mrp = !st.g.directed) (v nr : Nat) (c : R)
    (hne : st.b v ≠ nr) (hok : st.move_vertex v nr = .ok st') (m m' : EntrySet)
    (hm : ∀ p q, m.get_delta st.g.directed p q = st'.get_mrs p q - st.get_mrs p q)
    (e : Edge) :
    st.move_prob_term v nr (st.b v) c true m e =
      st'.move_prob_term v nr (st.b v) c false m' e := by
  obtain ⟨_, hp, hb, _, _⟩ := move_vertex_after h v nr hne hok
  obtain ⟨hmrp, hmrm⟩ := move_vertex_degs h hsh v nr hne hok
  have hg : st'.g = st.g := hp.1
  have hw : st'.eweight = st.eweight := hp.2.1
  have hnv : st'.bg.nv = st.bg.nv := hp.2.2.2.2.2.2.1
  have hfe : st'.far_end v e = st.far_end v e := by
    unfold far_end; rw [hg]
  have hfb : st'.far_block v nr e = st.far_block v nr e := by
    unfold far_block
    rw [hfe, hb]
    by_cases hu : st.far_end v e = v
    · rw [if_pos hu, if_pos hu]
    · rw [if_neg hu, if_neg hu, Function.update_noteq hu]
  have hko : out_degreeS st.g st.eweight v = st.kout_of v := out_degreeS_eq st v
  have hki := kin_eq st v
  have hmts : ∀ t, st.prob_mts (st.b v) true m t = st'.prob_mts (st.b v) false m' t := by
    intro t
    unfold prob_mts
    simp only [if_true, Bool.false_eq_true, if_false]
    rw [hm]; ring
  have hmst : ∀ t, st.prob_mst (st.b v) true m t = st'.prob_mst (st.b v) false m' t := by
    intro t
    unfold prob_mst
    simp only [if_true, Bool.false_eq_true, if_false]
    rw [hg]
    cases hd : st.g.directed
    · simp only [Bool.false_eq_true, if_false]
      have := hm t (st.b v)
      rw [hd] at this
      rw [this]; ring
    · simp only [if_true]
      have := hm (st.b v) t
      rw [hd] at this
      rw [this]; ring
  have hmtp : ∀ t, st.prob_mtp nr (st.b v) true (out_degreeS st.g st.eweight v) t =
      st'.prob_mtp nr (st.b v) false (out_degreeS st'.g st'.eweight v) t := by
    intro t
    unfold prob_mtp
    simp only [true_and, Bool.false_eq_true, false_and, if_false]
    rw [hmrp t, hko]
    split_ifs <;> ring
  have hmtm : st.g.directed = true → ∀ t,
      st.prob_mtm nr (st.b v) true
        (if st.g.directed then in_degreeS st.g st.eweight v
          else out_degreeS st.g st.eweight v) t =
      st'.prob_mtm nr (st.b v) false
        (if st'.g.directed then in_degreeS st'.g st'.eweight v
          else out_degreeS st'.g st'.eweight v) t := by
    intro hd t
    unfold prob_mtm
    simp only [true_and, Bool.false_eq_true, false_and, if_false]
    rw [hki, hg, hd]
    simp only [if_true]
    rw [hmrm t]
    split_ifs <;> ring
  unfold move_prob_term
  simp only []
  rw [hfb, hnv]
  cases hd : st.g.directed
  · have hd' : st'.g.directed = false := by rw [hg]; exact hd
    rw [hd']
    simp only [Bool.false_eq_true, if_false]
    rw [hmts, hmtp]
  · have hd' : st'.g.directed = true := by rw [hg]; exact hd
    have h4 := hmtm hd (st.far_block v nr e)
    rw [hd, hd'] at h4
    simp only [if_true] at h4
    rw [hd']
    simp only [if_true]
    rw [hmts, hmst, hmtp, h4]

/-- C14: the reverse proposal probability simulates the committed move.  In a
consistent state (where `mrm` is the map `mrp` exactly on an undirected graph),
for every block `nr` other than `b[v]` with a compatible label and every `c`,
`move_vertex(v, nr)` returns, and `get_move_prob(v, nr, b[v], c, reverse =
true)` evaluated before the move equals `get_move_prob(v, nr, b[v], c,
reverse = false)` evaluated in the state after the move, over exact
arithmetic.  The equality holds for every entry set that records, for each
block pair, the change of `mrs` caused by the move, and the entry set filled by
`move_entries` is one. -/
theorem get_move_prob_reverse {R : Type} [Field R] {st : BlockState} (h : Consistent st)
    (hsh : st.mrm_is_mrp = !st.g.directed) (v nr : Nat) (c : R)
    (hne : st.b v ≠ nr) (hlab : st.bclabel (st.b v) = st.bclabel nr) :
    ∃ st', st.move_vertex v nr = .ok st' ∧
      (∀ m m' : EntrySet,
        (∀ p q, m.get_delta st.g.directed p q = st'.get_mrs p q - st.get_mrs p q) →
        st.get_move_prob_entries v nr (st.b v) c true m =
          st'.get_move_prob_entries v nr (st.b v) c false m') ∧
      (∀ p q, (move_entries st v nr EntrySet.clear).get_delta st.g.directed p q =
        st'.get_mrs p q - st.get_mrs p q) ∧
      (st.get_move_prob v nr (st.b v) c true).1 =
        (st'.get_move_prob v nr (st.b v) c false).1 := by
  obtain ⟨st', hok, _, _, hp, _⟩ := move_vertex_consistent h v nr hne hlab
  have hg : st'.g = st.g := hp.1
  have hw : st'.eweight = st.eweight := hp.2.1
  have hnv : st'.bg.nv = st.bg.nv := hp.2.2.2.2.2.2.1
  have hgen : ∀ m m' : EntrySet,
      (∀ p q, m.get_delta st.g.directed p q = st'.get_mrs p q - st.get_mrs p q) →
      st.get_move_prob_entries v nr (st.b v) c true m =
        st'.get_move_prob_entries v nr (st.b v) c false m' := by
    intro m m' hm
    rw [get_move_prob_entries_eq, get_move_prob_entries_eq, hg, hw, hnv]
    simp only [move_prob_term_reverse h hsh v nr c hne hok m m' hm]
  have hent := move_entries_get_delta h v nr hne hok
  refine ⟨st', hok, hgen, hent, ?_⟩
  have h1 : (st.get_move_prob v nr (st.b v) c true).1 =
      get_move_prob_entries { st with m_entries := move_entries st v nr EntrySet.clear }
        v nr (st.b v) c true (move_entries st v nr EntrySet.clear) := rfl
  have h2 : get_move_prob_entries { st with m_entries := move_entries st v nr EntrySet.clear }
        v nr (st.b v) c true (move_entries st v nr EntrySet.clear) =
      st.get_move_prob_entries v nr (st.b v) c true (move_entries st v nr EntrySet.clear) := by
    rw [get_move_prob_entries_eq, get_move_prob_entries_eq]
    simp only [move_prob_term_entries]
  have h3 : (st'.get_move_prob v nr (st.b v) c false).1 =
      get_move_prob_entries
        { st' with m_entries := move_entries st' v (st.b v) EntrySet.clear }
        v nr (st.b v) c false (move_entries st' v (st.b v) EntrySet.clear) := rfl
  have h4 : get_move_prob_entries
        { st' with m_entries := move_entries st' v (st.b v) EntrySet.clear }
        v nr (st.b v) c false (move_entries st' v (st.b v) EntrySet.clear) =
      st'.get_move_prob_entries v nr (st.b v) c false
        (move_entries st' v (st.b v) EntrySet.clear) := by
    rw [get_move_prob_entries_eq, get_move_prob_entries_eq]
    simp only [move_prob_term_entries]
  rw [h1, h2, h3, h4]
  exact hgen _ _ hent

theorem get_move_prob_reverse_witness :
    ∃ st', ex_ring.move_vertex 1 2 = .ok st' ∧
      (∀ m m' : EntrySet,
        (∀ p q, m.get_delta ex_ring.g.directed p q =
          st'.get_mrs p q - ex_ring.get_mrs p q) →
        ex_ring.get_move_prob_entries 1 2 (ex_ring.b 1) (1 / 2 : ℚ) true m =
          st'.get_move_prob_entries 1 2 (ex_ring.b 1) (1 / 2 : ℚ) false m') ∧
      (∀ p q, (move_entries ex_ring 1 2 EntrySet.clear).get_delta ex_ring.g.directed p q =
        st'.get_mrs p q - ex_ring.get_mrs p q) ∧
      (ex_ring.get_move_prob 1 2 (ex_ring.b 1) (1 / 2 : ℚ) true).1 =
        (st'.get_move_prob 1 2 (ex_ring.b 1) (1 / 2 : ℚ) false).1 :=
  get_move_prob_reverse ex_ring_consistent rfl 1 2 (1 / 2 : ℚ) (by decide) rfl

end BlockState

/-! ## merge_vertices -/

@[simp] theorem fsum_nil (f : Nat → Nat → Int) (c : Nat → Int) : fsum f c [] = 0 := rfl

@[simp] theorem fsum_cons (f : Nat → Nat → Int) (c : Nat → Int) (e : Edge) (es : List Edge) :
    fsum f c (e :: es) = f e.src e.tgt * c e.idx + fsum f c es := by
  simp [fsum]

theorem fsum_append (f : Nat → Nat → Int) (c : Nat → Int) (es fs : List Edge) :
    fsum f c (es ++ fs) = fsum f c es + fsum f c fs := by
  simp [fsum]

theorem fsum_congr {f : Nat → Nat → Int} {c d : Nat → Int} {es : List Edge}
    (h : ∀ e ∈ es, c e.idx = d e.idx) : fsum f c es = fsum f d es := by
  unfold fsum
  apply sum_map_congr
  intro e he
  rw [h e he]

theorem fsum_update_not_mem (f : Nat → Nat → Int) (c : Nat → Int) (es : List Edge) (i : Nat)
    (x : Int) (h : i ∉ es.map (fun e => e.idx)) :
    fsum f (Function.update c i x) es = fsum f c es := by
  apply fsum_congr
  intro e he
  have : e.idx ≠ i := fun hi => h (List.mem_map.2 ⟨e, he, hi⟩)
  simp [Function.update, this]

theorem fsum_update (f : Nat → Nat → Int) (c : Nat → Int) {es : List Edge}
    (hnd : (es.map (fun e => e.idx)).Nodup) {e0 : Edge} (h0 : e0 ∈ es) (x : Int) :
    fsum f (Function.update c e0.idx x) es =
      fsum f c es + f e0.src e0.tgt * (x - c e0.idx) := by
  induction es with
  | nil => cases h0
  | cons e es ih =>
    rw [List.map_cons, List.nodup_cons] at hnd
    rw [fsum_cons, fsum_cons]
    rcases List.mem_cons.1 h0 with rfl | hmem
    · rw [fsum_update_not_mem f c es _ x hnd.1]
      simp only [Function.update_same]
      ring
    · have hne : e.idx ≠ e0.idx := by
        intro hi
        exact hnd.1 (List.mem_map.2 ⟨e0, hmem, hi.symm⟩)
      rw [ih hnd.2 hmem]
      simp only [Function.update, hne, dite_false]
      ring

theorem fsum_filter (f : Nat → Nat → Int) (c : Nat → Int) (Q : Edge → Bool) (es : List Edge) :
    fsum f c (es.filter Q) =
      (es.map (fun e => if Q e then f e.src e.tgt * c e.idx else 0)).sum := by
  unfold fsum
  exact sum_filter_map Q _ es

theorem wsum_eq_fsum (p : Nat → Nat → Bool) (c : Nat → Int) (es : List Edge) :
    wsum (fun e => p e.src e.tgt) c es = fsum (fun x y => if p x y then 1 else 0) c es := by
  unfold wsum fsum
  apply sum_map_congr
  intro e _
  by_cases h : p e.src e.tgt = true <;> simp [h]

theorem graph_fresh_gt (g : Graph) : ∀ e ∈ g.edges, e.idx < g.fresh := by
  unfold Graph.fresh
  induction g.edges with
  | nil => intro e he; cases he
  | cons a as ih =>
    intro e he
    simp only [List.map_cons, List.foldr_cons]
    rcases List.mem_cons.1 he with rfl | hm
    · omega
    · have := ih e hm
      omega

theorem graph_fresh_not_mem (g : Graph) : g.fresh ∉ g.edges.map (fun e => e.idx) := by
  intro h
  obtain ⟨e, he, hi⟩ := List.mem_map.1 h
  have := graph_fresh_gt g e he
  omega

namespace BlockState

theorem merge_frame.merge_refl (st : BlockState) : merge_frame st st := by
  unfold merge_frame
  rfl

theorem merge_frame.merge_trans {a b c : BlockState} (h1 : merge_frame a b)
    (h2 : merge_frame b c) : merge_frame a c := by
  unfold merge_frame at *
  rw [← h1, ← h2]

/-- The statements shared by the two loops of `merge_vertices`, applied to the
key `k` whose end points `(a, b)` are not `u`: the invariant is kept and
`fsum f` grows by `f a b * w`. -/
theorem fold_or_add_spec {g0 : Graph} {c0 : Nat → Int} {u : Nat} {mk : Nat → Nat × Nat}
    {st : BlockState} {ns_v : Nat → List Edge} (hI : MergeInv g0 c0 u mk st ns_v)
    (k a b : Nat) (w : Int) (es : List Edge) (hm : mk k = (a, b)) (ha : a ≠ u) (hb : b ≠ u) :
    MergeInv g0 c0 u mk (fold_or_add st ns_v k a b w es).1 (fold_or_add st ns_v k a b w es).2 ∧
    merge_frame st (fold_or_add st ns_v k a b w es).1 ∧
    ∀ f : Nat → Nat → Int, (g0.directed = false → ∀ x y, f x y = f y x) →
      fsum f (fold_or_add st ns_v k a b w es).1.eweight (fold_or_add st ns_v k a b w es).1.g.edges =
        fsum f st.eweight st.g.edges + f a b * w := by
  unfold fold_or_add
  rcases hk : ns_v k with _ | ⟨e, rest⟩
  · -- the key is absent: a new edge
    simp only []
    have hfr := graph_fresh_not_mem st.g
    refine ⟨⟨?_, hI.directed, hI.nv, ?_, ?_, ?_⟩, rfl, ?_⟩
    · show ((st.g.edges ++ [(⟨a, b, st.g.fresh⟩ : Edge)]).map (fun e => e.idx)).Nodup
      rw [List.map_append, List.nodup_append]
      refine ⟨hI.nodup, by simp, ?_⟩
      intro i hi hi'
      simp only [List.map_cons, List.map_nil, List.mem_singleton] at hi'
      rw [hi'] at hi
      exact hfr hi
    · obtain ⟨extra, hex, hinc⟩ := hI.grown
      refine ⟨extra ++ [⟨a, b, st.g.fresh⟩], ?_, ?_⟩
      · show st.g.edges ++ [⟨a, b, st.g.fresh⟩] = g0.edges ++ (extra ++ [⟨a, b, st.g.fresh⟩])
        rw [hex, List.append_assoc]
      · intro e he
        rcases List.mem_append.1 he with h1 | h1
        · exact hinc e h1
        · simp only [List.mem_singleton] at h1
          rw [h1]
          simp [incident, ha, hb]
    · intro e he hinc
      obtain ⟨extra, hex, _⟩ := hI.grown
      have hmem : e ∈ st.g.edges := by rw [hex]; exact List.mem_append_left _ he
      have hlt := graph_fresh_gt st.g e hmem
      show Function.update st.eweight st.g.fresh w e.idx = c0 e.idx
      rw [Function.update_noteq (by omega)]
      exact hI.kept e he hinc
    · intro k' e he
      show (e.src, e.tgt) = mk k' ∧
        ∃ e0 ∈ st.g.edges ++ [⟨a, b, st.g.fresh⟩], descr st.g.directed e e0
      by_cases hkk : k' = k
      · rw [hkk, Function.update_same, List.nil_append, List.mem_singleton] at he
        rw [he, hkk, hm]
        exact ⟨rfl, _, List.mem_append_right _ (List.mem_singleton_self _), rfl,
          Or.inl ⟨rfl, rfl⟩⟩
      · rw [Function.update_noteq hkk] at he
        obtain ⟨h1, e0, h0, hd⟩ := hI.keys k' e he
        exact ⟨h1, e0, List.mem_append_left _ h0, hd⟩
    · intro f _
      show fsum f (Function.update st.eweight st.g.fresh w)
        (st.g.edges ++ [⟨a, b, st.g.fresh⟩]) = _
      rw [fsum_append, fsum_update_not_mem f _ _ _ _ hfr]
      simp
  · -- the key is present: the weight goes to the first edge of the group
    simp only []
    obtain ⟨hends, e0, h0, hi, hor⟩ := hI.keys k e (by rw [hk]; exact List.mem_cons_self _ _)
    rw [hm] at hends
    have hsrc : e.src = a := (Prod.mk.inj hends).1
    have htgt : e.tgt = b := (Prod.mk.inj hends).2
    have hninc : incident u e0 = false := by
      rcases hor with ⟨h1, h2⟩ | ⟨_, h1, h2⟩
      · simp [incident, ← h1, ← h2, hsrc, htgt, ha, hb]
      · simp [incident, ← h1, ← h2, hsrc, htgt, ha, hb]
    refine ⟨⟨hI.nodup, hI.directed, hI.nv, hI.grown, ?_, hI.keys⟩, rfl, ?_⟩
    · intro e1 he1 hinc
      obtain ⟨extra, hex, _⟩ := hI.grown
      have hmem : e1 ∈ st.g.edges := by rw [hex]; exact List.mem_append_left _ he1
      have hne : e1.idx ≠ e.idx := by
        intro h
        have : e1 = e0 := eq_of_idx_eq hI.nodup hmem h0 (h.trans hi.symm)
        rw [this, hninc] at hinc
        cases hinc
      show Function.update st.eweight e.idx (st.eweight e.idx + w) e1.idx = c0 e1.idx
      rw [Function.update_noteq hne]
      exact hI.kept e1 he1 hinc
    · intro f hf
      show fsum f (Function.update st.eweight e.idx (st.eweight e.idx + w)) st.g.edges = _
      rw [← hi, fsum_update f _ hI.nodup h0]
      have hfe : f e0.src e0.tgt = f a b := by
        rcases hor with ⟨h1, h2⟩ | ⟨hd, h1, h2⟩
        · rw [← h1, ← h2, hsrc, htgt]
        · rw [← h1, ← h2, hsrc, htgt]
          exact hf (by rw [← hI.directed]; exact hd) b a
      rw [hfe]
      ring

end BlockState
namespace BlockState

/-- Inside the loops of `merge_vertices` the weight of a group of edges of `u`
is its weight at the call. -/
theorem MergeInv.group_weight {g0 : Graph} {c0 : Nat → Int} {u : Nat} {mk : Nat → Nat × Nat}
    {st : BlockState} {ns_v : Nat → List Edge} (hI : MergeInv g0 c0 u mk st ns_v)
    (es : List Edge)
    (hes : ∀ e ∈ es, ∃ e0 ∈ g0.edges, incident u e0 = true ∧ e0.idx = e.idx) :
    (es.map (fun e => st.eweight e.idx)).sum = (es.map (fun e => c0 e.idx)).sum := by
  apply sum_map_congr
  intro e he
  obtain ⟨e0, h0, hinc, hi⟩ := hes e he
  rw [← hi]
  exact hI.kept e0 h0 hinc

/-- The first loop of `merge_vertices(u, v)`: it returns normally, keeps the
invariant, and `fsum f` grows by the sum of the gains of the visited keys. -/
theorem merge_out_loop_spec (g0 : Graph) (c0 : Nat → Int) (u v : Nat) (huv : u ≠ v)
    (ns_u : Nat → List Edge)
    (hns : ∀ t, ∀ e ∈ ns_u t, ∃ e0 ∈ g0.edges, incident u e0 = true ∧ e0.idx = e.idx)
    (heven : g0.directed = false → ((ns_u u).map (fun e => c0 e.idx)).sum % 2 = 0) :
    ∀ (ts : List Nat) (st : BlockState) (ns_v : Nat → List Edge),
      MergeInv g0 c0 u (fun k => (v, k)) st ns_v →
      ∃ st' ns_v', merge_out_loop u v ns_u ts (st, ns_v) = .ok (st', ns_v') ∧
        MergeInv g0 c0 u (fun k => (v, k)) st' ns_v' ∧ merge_frame st st' ∧
        ∀ f : Nat → Nat → Int, (g0.directed = false → ∀ x y, f x y = f y x) →
          fsum f st'.eweight st'.g.edges =
            fsum f st.eweight st.g.edges + (ts.map (out_gain g0 c0 u v ns_u f)).sum := by
  intro ts
  induction ts with
  | nil =>
    intro st ns_v hI
    exact ⟨st, ns_v, rfl, hI, merge_frame.merge_refl st, fun f _ => by simp⟩
  | cons t ts ih =>
    intro st ns_v hI
    have hw := hI.group_weight (ns_u t) (hns t)
    have hvu : v ≠ u := fun h => huv h.symm
    -- the step
    have hstep : ∃ acc1, merge_out_step u v ns_u (st, ns_v) t = .ok acc1 ∧
        MergeInv g0 c0 u (fun k => (v, k)) acc1.1 acc1.2 ∧ merge_frame st acc1.1 ∧
        ∀ f : Nat → Nat → Int, (g0.directed = false → ∀ x y, f x y = f y x) →
          fsum f acc1.1.eweight acc1.1.g.edges =
            fsum f st.eweight st.g.edges + out_gain g0 c0 u v ns_u f t := by
      unfold merge_out_step
      simp only []
      rw [hw]
      by_cases htu : t = u
      · rw [if_pos htu]
        by_cases hd : st.g.directed = false
        · rw [if_pos hd]
          have hd0 : g0.directed = false := by rw [← hI.directed]; exact hd
          have hev : ((ns_u t).map (fun e => c0 e.idx)).sum % 2 = 0 := by
            rw [htu]; exact heven hd0
          rw [if_neg (by rw [hev]; simp)]
          obtain ⟨h1, h2, h3⟩ := fold_or_add_spec hI v v v
            (((ns_u t).map (fun e => c0 e.idx)).sum / 2) (ns_u t) rfl hvu hvu
          refine ⟨_, rfl, h1, h2, ?_⟩
          intro f hf
          rw [h3 f hf]
          unfold out_gain merged
          rw [if_pos htu, if_pos ⟨htu, hd0⟩]
        · rw [if_neg hd]
          have hd0 : ¬ g0.directed = false := by rw [← hI.directed]; exact hd
          obtain ⟨h1, h2, h3⟩ := fold_or_add_spec hI v v v
            (((ns_u t).map (fun e => c0 e.idx)).sum) (ns_u t) rfl hvu hvu
          refine ⟨_, rfl, h1, h2, ?_⟩
          intro f hf
          rw [h3 f hf]
          unfold out_gain merged
          rw [if_pos htu, if_neg (fun h => hd0 h.2)]
      · rw [if_neg htu]
        obtain ⟨h1, h2, h3⟩ := fold_or_add_spec hI t v t
          (((ns_u t).map (fun e => c0 e.idx)).sum) (ns_u t) rfl hvu htu
        refine ⟨_, rfl, h1, h2, ?_⟩
        intro f hf
        rw [h3 f hf]
        unfold out_gain merged
        rw [if_neg htu, if_neg (fun h => htu h.1)]
    obtain ⟨acc1, hrun1, hI1, hfr1, hsum1⟩ := hstep
    obtain ⟨st', ns_v', hrun, hI', hfr', hsum'⟩ := ih acc1.1 acc1.2 hI1
    refine ⟨st', ns_v', ?_, hI', hfr1.merge_trans hfr', ?_⟩
    · rw [merge_out_loop, hrun1]
      exact hrun
    · intro f hf
      rw [hsum' f hf, hsum1 f hf, List.map_cons, List.sum_cons]
      ring

/-- The second loop of `merge_vertices(u, v)` (directed graphs): it keeps the
invariant, and `fsum f` grows by the sum of the gains of the visited keys. -/
theorem merge_in_loop_spec (g0 : Graph) (c0 : Nat → Int) (u v : Nat) (huv : u ≠ v)
    (ns_u : Nat → List Edge)
    (hns : ∀ t, ∀ e ∈ ns_u t, ∃ e0 ∈ g0.edges, incident u e0 = true ∧ e0.idx = e.idx) :
    ∀ (ss : List Nat) (st : BlockState) (ns_v : Nat → List Edge),
      MergeInv g0 c0 u (fun k => (k, v)) st ns_v →
      MergeInv g0 c0 u (fun k => (k, v)) (ss.foldl (merge_in_step u v ns_u) (st, ns_v)).1
          (ss.foldl (merge_in_step u v ns_u) (st, ns_v)).2 ∧
        merge_frame st (ss.foldl (merge_in_step u v ns_u) (st, ns_v)).1 ∧
        ∀ f : Nat → Nat → Int, (g0.directed = false → ∀ x y, f x y = f y x) →
          fsum f (ss.foldl (merge_in_step u v ns_u) (st, ns_v)).1.eweight
              (ss.foldl (merge_in_step u v ns_u) (st, ns_v)).1.g.edges =
            fsum f st.eweight st.g.edges + (ss.map (in_gain c0 u v ns_u f)).sum := by
  intro ss
  induction ss with
  | nil =>
    intro st ns_v hI
    exact ⟨hI, merge_frame.merge_refl st, fun f _ => by simp⟩
  | cons s ss ih =>
    intro st ns_v hI
    have hw := hI.group_weight (ns_u s) (hns s)
    have hvu : v ≠ u := fun h => huv h.symm
    have hstep : MergeInv g0 c0 u (fun k => (k, v)) (merge_in_step u v ns_u (st, ns_v) s).1
          (merge_in_step u v ns_u (st, ns_v) s).2 ∧
        merge_frame st (merge_in_step u v ns_u (st, ns_v) s).1 ∧
        ∀ f : Nat → Nat → Int, (g0.directed = false → ∀ x y, f x y = f y x) →
          fsum f (merge_in_step u v ns_u (st, ns_v) s).1.eweight
              (merge_in_step u v ns_u (st, ns_v) s).1.g.edges =
            fsum f st.eweight st.g.edges + in_gain c0 u v ns_u f s := by
      unfold merge_in_step
      by_cases hsu : s = u
      · rw [if_pos hsu]
        exact ⟨hI, merge_frame.merge_refl st, fun f _ => by simp [in_gain, hsu]⟩
      · rw [if_neg hsu]
        simp only []
        rw [hw]
        obtain ⟨h1, h2, h3⟩ := fold_or_add_spec hI s s v
          (((ns_u s).map (fun e => c0 e.idx)).sum) (ns_u s) rfl hsu hvu
        refine ⟨h1, h2, ?_⟩
        intro f hf
        rw [h3 f hf]
        unfold in_gain
        rw [if_neg hsu]
    obtain ⟨hI1, hfr1, hsum1⟩ := hstep
    obtain ⟨hI', hfr', hsum'⟩ := ih _ _ hI1
    rw [List.foldl_cons]
    refine ⟨hI', hfr1.merge_trans hfr', ?_⟩
    intro f hf
    rw [hsum' f hf, hsum1 f hf, List.map_cons, List.sum_cons]
    ring

end BlockState
namespace BlockState

/-- The weight of the group of key `t` among the out-edges of `u`. -/
theorem group_out_sum (g : Graph) (u t : Nat) (c : Nat → Int) :
    ((group_edges (fun e => e.tgt) (out_edges_range g u) t).map (fun e => c e.idx)).sum =
      wsum (fun e => decide (e.src = u) && decide (e.tgt = t)) c g.edges +
        (if g.directed then 0
          else wsum (fun e => decide (e.tgt = u) && decide (e.src = t)) c g.edges) := by
  unfold group_edges out_edges_range
  cases hd : g.directed
  · simp only [Bool.false_eq_true, if_false, List.filter_append, List.map_append,
      List.sum_append]
    rw [sum_filter_filter, sum_filter_swap]
  · simp only [if_true, add_zero]
    rw [sum_filter_filter]

/-- The weight of the group of key `s` among the in-edges of `u`. -/
theorem group_in_sum (g : Graph) (u s : Nat) (c : Nat → Int) (hd : g.directed = true) :
    ((group_edges (fun e => e.src) (in_edges_range g u) s).map (fun e => c e.idx)).sum =
      wsum (fun e => decide (e.tgt = u) && decide (e.src = s)) c g.edges := by
  unfold group_edges in_edges_range
  rw [hd]
  simp only [if_true]
  rw [sum_filter_filter]

/-- On an undirected graph the group of the self-loops of `u` lists every
self-loop twice, so its weight is even whatever the edge weights are. -/
theorem self_group_even (g : Graph) (u : Nat) (c : Nat → Int) (hd : g.directed = false) :
    ((group_edges (fun e => e.tgt) (out_edges_range g u) u).map (fun e => c e.idx)).sum % 2
      = 0 := by
  rw [group_out_sum, hd]
  simp only [Bool.false_eq_true, if_false]
  have : wsum (fun e => decide (e.tgt = u) && decide (e.src = u)) c g.edges =
      wsum (fun e => decide (e.src = u) && decide (e.tgt = u)) c g.edges :=
    wsum_pred_congr (fun e _ _ => by simp only [Bool.and_comm])
  rw [this]
  omega

theorem wsum_or_disjoint (A B : Edge → Bool) (c : Nat → Int) (es : List Edge)
    (h : ∀ e ∈ es, ¬ (A e = true ∧ B e = true)) :
    wsum A c es + wsum B c es = wsum (fun e => A e || B e) c es := by
  induction es with
  | nil => rfl
  | cons e es ih =>
    rw [wsum_cons, wsum_cons, wsum_cons, ← ih (fun x hx => h x (List.mem_cons_of_mem _ hx))]
    have := h e (List.mem_cons_self _ _)
    cases ha : A e <;> cases hb : B e
    · simp
    · simp; ring
    · simp; ring
    · exact absurd ⟨ha, hb⟩ this

/-- The weight that the iteration of key `t` of the first loop of
`merge_vertices` moves: the weight of the edges that join `u` and `t`. -/
theorem out_group_weight (g : Graph) (u t : Nat) (c : Nat → Int) :
    (if t = u ∧ g.directed = false then
        ((group_edges (fun e => e.tgt) (out_edges_range g u) t).map (fun e => c e.idx)).sum / 2
      else
        ((group_edges (fun e => e.tgt) (out_edges_range g u) t).map (fun e => c e.idx)).sum) =
      wsum (joins g.directed u t) c g.edges := by
  rw [group_out_sum]
  cases hd : g.directed
  · simp only [Bool.false_eq_true, if_false, and_true]
    by_cases htu : t = u
    · rw [if_pos htu, htu]
      have h1 : wsum (fun e => decide (e.tgt = u) && decide (e.src = u)) c g.edges =
          wsum (fun e => decide (e.src = u) && decide (e.tgt = u)) c g.edges :=
        wsum_pred_congr (fun e _ _ => by simp only [Bool.and_comm])
      have h2 : wsum (joins false u u) c g.edges =
          wsum (fun e => decide (e.src = u) && decide (e.tgt = u)) c g.edges :=
        wsum_pred_congr (fun e _ _ => by
          simp only [joins, Bool.not_false, Bool.true_and]
          cases decide (e.src = u) <;> cases decide (e.tgt = u) <;> rfl)
      rw [h1, h2]
      omega
    · rw [if_neg htu, wsum_or_disjoint]
      · exact wsum_pred_congr (fun e _ _ => by simp [joins])
      · intro e _ h
        simp only [Bool.and_eq_true, decide_eq_true_eq] at h
        exact htu (h.2.2.symm.trans h.1.1)
  · simp only [if_true, add_zero]
    rw [if_neg (fun h => by simp at h)]
    exact wsum_pred_congr (fun e _ _ => by simp [joins])

/-- A sum over the distinct keys `ks` of the weights of the edges with that
key is a sum over the edges whose key is listed. -/
theorem sum_over_keys (Q : Edge → Bool) (key : Edge → Nat) (h : Nat → Int) (c : Nat → Int)
    (es : List Edge) :
    ∀ ks : List Nat, ks.Nodup →
      (ks.map (fun t => h t * wsum (fun e => Q e && decide (key e = t)) c es)).sum =
        (es.map (fun e => if Q e = true ∧ key e ∈ ks then h (key e) * c e.idx else 0)).sum := by
  intro ks
  induction ks with
  | nil => intro _; simp
  | cons t ks ih =>
    intro hnd
    rw [List.nodup_cons] at hnd
    rw [List.map_cons, List.sum_cons, ih hnd.2]
    unfold wsum
    rw [← List.sum_map_mul_left, list_sum_add]
    apply sum_map_congr
    intro e _
    by_cases hq : Q e = true
    · by_cases hk : key e = t
      · have : key e ∉ ks := by rw [hk]; exact hnd.1
        simp [hq, hk, this, hnd.1]
      · by_cases hm : key e ∈ ks
        · simp [hq, hk, hm]
        · simp [hq, hk, hm]
    · simp [hq]

end BlockState
namespace BlockState

theorem joins_eq (directed : Bool) (u t : Nat) (e : Edge) :
    joins directed u t e = (at_u directed u e && decide (other_end u e = t)) := by
  unfold joins at_u other_end
  by_cases h1 : e.src = u
  · by_cases h2 : e.tgt = t
    · simp [h1, h2]
    · by_cases h3 : e.tgt = u
      · have : ¬ u = t := fun h => h2 (h3.trans h)
        simp [h1, h2, h3, this]
      · simp [h1, h2, h3]
  · simp [h1]

theorem other_end_mem_keys (g : Graph) (u : Nat) (e : Edge) (he : e ∈ g.edges)
    (ha : at_u g.directed u e = true) :
    other_end u e ∈ group_keys (fun e => e.tgt) (out_edges_range g u) := by
  unfold group_keys
  rw [List.mem_dedup, List.mem_map]
  unfold at_u at ha
  unfold other_end out_edges_range
  by_cases h1 : e.src = u
  · refine ⟨e, ?_, by rw [if_pos h1]⟩
    cases g.directed
    · simp only [Bool.false_eq_true, if_false, List.mem_append, List.mem_filter,
        decide_eq_true_eq]
      exact Or.inl ⟨he, h1⟩
    · simp only [if_true, List.mem_filter, decide_eq_true_eq]
      exact ⟨he, h1⟩
  · simp only [h1, decide_False, Bool.false_or, Bool.and_eq_true, Bool.not_eq_true',
      decide_eq_true_eq] at ha
    refine ⟨⟨e.tgt, e.src, e.idx⟩, ?_, by rw [if_neg h1]⟩
    rw [ha.1]
    simp only [Bool.false_eq_true, if_false, List.mem_append, List.mem_filter, List.mem_map,
      decide_eq_true_eq]
    exact Or.inr ⟨e, ⟨he, ha.2⟩, rfl⟩

/-- The total change of `fsum f` over the first loop of `merge_vertices(u, v)`,
as a sum over the edges of the graph. -/
theorem out_total_eq (g : Graph) (c : Nat → Int) (u v : Nat) (f : Nat → Nat → Int) :
    ((group_keys (fun e => e.tgt) (out_edges_range g u)).map
      (out_gain g c u v (group_edges (fun e => e.tgt) (out_edges_range g u)) f)).sum =
    (g.edges.map (fun e => if at_u g.directed u e = true
      then f v (merged u v (other_end u e)) * c e.idx else 0)).sum := by
  have h1 : ∀ t, out_gain g c u v (group_edges (fun e => e.tgt) (out_edges_range g u)) f t =
      f v (merged u v t) *
        wsum (fun e => at_u g.directed u e && decide (other_end u e = t)) c g.edges := by
    intro t
    unfold out_gain
    rw [out_group_weight]
    congr 1
    exact wsum_pred_congr (fun e _ _ => joins_eq g.directed u t e)
  rw [funext h1]
  have hnk : (group_keys (fun e => e.tgt) (out_edges_range g u)).Nodup := List.nodup_dedup _
  rw [sum_over_keys (at_u g.directed u) (other_end u) (fun t => f v (merged u v t)) c g.edges
    _ hnk]
  apply sum_map_congr
  intro e he
  by_cases ha : at_u g.directed u e = true
  · rw [if_pos ⟨ha, other_end_mem_keys g u e he ha⟩, if_pos ha]
  · rw [if_neg (fun h => ha h.1), if_neg ha]

theorem src_mem_in_keys (g : Graph) (u : Nat) (hd : g.directed = true) (e : Edge)
    (he : e ∈ g.edges) (ht : e.tgt = u) :
    e.src ∈ group_keys (fun e => e.src) (in_edges_range g u) := by
  unfold group_keys in_edges_range
  rw [List.mem_dedup, List.mem_map, hd]
  refine ⟨e, ?_, rfl⟩
  simp only [if_true, List.mem_filter, decide_eq_true_eq]
  exact ⟨he, ht⟩

/-- The total change of `fsum f` over the second loop of `merge_vertices(u,
v)`, as a sum over the edges of the graph. -/
theorem in_total_eq (g : Graph) (hd : g.directed = true) (c : Nat → Int) (u v : Nat)
    (f : Nat → Nat → Int) :
    ((group_keys (fun e => e.src) (in_edges_range g u)).map
      (in_gain c u v (group_edges (fun e => e.src) (in_edges_range g u)) f)).sum =
    (g.edges.map (fun e => if e.tgt = u ∧ e.src ≠ u then f e.src v * c e.idx else 0)).sum := by
  have h1 : ∀ s, in_gain c u v (group_edges (fun e => e.src) (in_edges_range g u)) f s =
      (if s = u then 0 else f s v) *
        wsum (fun e => decide (e.tgt = u) && decide (e.src = s)) c g.edges := by
    intro s
    unfold in_gain
    rw [group_in_sum g u s c hd]
    split_ifs <;> simp
  rw [funext h1]
  have hnk : (group_keys (fun e => e.src) (in_edges_range g u)).Nodup := List.nodup_dedup _
  rw [sum_over_keys (fun e => decide (e.tgt = u)) (fun e => e.src)
    (fun s => if s = u then 0 else f s v) c g.edges _ hnk]
  apply sum_map_congr
  intro e he
  by_cases ht : e.tgt = u
  · rw [if_pos ⟨by simpa using ht, src_mem_in_keys g u hd e he ht⟩]
    by_cases hs : e.src = u
    · simp [hs]
    · simp [hs, ht]
  · rw [if_neg (fun h => ht (by simpa using h.1)), if_neg (fun h => ht h.1)]

theorem foldl_zero_apply (i : Nat) :
    ∀ (L : List Edge) (w : Nat → Int),
      (L.foldl (fun w e => Function.update w e.idx 0) w) i =
        if i ∈ L.map (fun e => e.idx) then 0 else w i := by
  intro L
  induction L with
  | nil => intro w; simp
  | cons e es ih =>
    intro w
    rw [List.foldl_cons, ih]
    by_cases h1 : i ∈ es.map (fun e => e.idx)
    · rw [if_pos h1, if_pos (by rw [List.map_cons]; exact List.mem_cons_of_mem _ h1)]
    · rw [if_neg h1]
      by_cases h2 : i = e.idx
      · rw [if_pos (by rw [List.map_cons, h2]; exact List.mem_cons_self _ _), h2,
          Function.update_same]
      · rw [if_neg (by
          rw [List.map_cons, List.mem_cons]
          exact fun h => h.elim h2 h1), Function.update_noteq h2]

/-- The descriptors listed by `all_edges_range(u, g)` denote edges of the graph
that are incident to `u`. -/
theorem all_items (g : Graph) (u : Nat) :
    ∀ e ∈ all_edges_range g u, ∃ e0 ∈ g.edges, incident u e0 = true ∧ e0.idx = e.idx := by
  intro e he
  unfold all_edges_range at he
  rcases List.mem_append.1 he with h | h
  · obtain ⟨hs, e0, h0, hde⟩ := out_items g u e h
    exact ⟨e0, h0, out_items_incident g u hs hde, hde.1⟩
  · obtain ⟨ht, e0, h0, hde⟩ := in_items g u e h
    exact ⟨e0, h0, in_items_incident g u ht hde, hde.1⟩

/-- Every edge of the graph that is incident to `u` is listed by
`all_edges_range(u, g)`. -/
theorem mem_all_edges_idx (g : Graph) (u : Nat) (e : Edge) (he : e ∈ g.edges)
    (hinc : incident u e = true) :
    e.idx ∈ (all_edges_range g u).map (fun e => e.idx) := by
  unfold all_edges_range out_edges_range in_edges_range
  simp only [incident, Bool.or_eq_true, decide_eq_true_eq] at hinc
  rw [List.mem_map]
  cases hd : g.directed
  · simp only [Bool.false_eq_true, if_false, List.append_nil, List.mem_append,
      List.mem_filter, List.mem_map, decide_eq_true_eq]
    rcases hinc with h | h
    · exact ⟨e, Or.inl ⟨he, h⟩, rfl⟩
    · exact ⟨⟨e.tgt, e.src, e.idx⟩, Or.inr ⟨e, ⟨he, h⟩, rfl⟩, rfl⟩
  · simp only [if_true, List.mem_append, List.mem_filter, decide_eq_true_eq]
    rcases hinc with h | h
    · exact ⟨e, Or.inl ⟨he, h⟩, rfl⟩
    · exact ⟨e, Or.inr ⟨he, h⟩, rfl⟩

/-- The weights of the edges that are not incident to `u` after the tail of
`merge_vertices(u, v)`. -/
theorem merge_tail_eweight (st : BlockState) (u v : Nat)
    (hnd : (st.g.edges.map (fun e => e.idx)).Nodup) (e : Edge) (he : e ∈ st.g.edges)
    (hinc : incident u e = false) :
    (merge_tail st u v).eweight e.idx = st.eweight e.idx := by
  show ((all_edges_range st.g u).foldl (fun w e => Function.update w e.idx 0) st.eweight)
    e.idx = _
  rw [foldl_zero_apply]
  rw [if_neg]
  intro hm
  obtain ⟨d, hd, hi⟩ := List.mem_map.1 hm
  obtain ⟨e0, h0, hinc0, hi0⟩ := all_items st.g u d hd
  have : e0 = e := eq_of_idx_eq hnd h0 he (hi0.trans hi)
  rw [this, hinc] at hinc0
  cases hinc0

/-- The value of `fsum f` after the tail of `merge_vertices(u, v)`: the edges
incident to `u` no longer contribute. -/
theorem merge_tail_fsum (st : BlockState) (u v : Nat)
    (hnd : (st.g.edges.map (fun e => e.idx)).Nodup) (f : Nat → Nat → Int) :
    fsum f (merge_tail st u v).eweight (merge_tail st u v).g.edges =
      fsum f st.eweight st.g.edges -
        (st.g.edges.map (fun e => if incident u e = true
          then f e.src e.tgt * st.eweight e.idx else 0)).sum := by
  have hedges : (merge_tail st u v).g.edges =
      st.g.edges.filter (fun e => !incident u e) := by
    show st.g.edges.filter _ = _
    apply List.filter_congr
    intro e _
    simp only [incident]
    by_cases h1 : e.src = u <;> by_cases h2 : e.tgt = u <;> simp [h1, h2]
  rw [hedges]
  have h1 : fsum f (merge_tail st u v).eweight (st.g.edges.filter (fun e => !incident u e)) =
      fsum f st.eweight (st.g.edges.filter (fun e => !incident u e)) := by
    apply fsum_congr
    intro e he
    rw [List.mem_filter] at he
    exact merge_tail_eweight st u v hnd e he.1 (by simpa using he.2)
  rw [h1, fsum_filter, eq_sub_iff_add_eq]
  unfold fsum
  rw [list_sum_add]
  apply sum_map_congr
  intro e _
  cases incident u e <;> simp

end BlockState
namespace BlockState

theorem sum_four {es : List Edge} {F1 F2 F3 F4 F5 : Edge → Int}
    (h : ∀ e ∈ es, F1 e + F2 e + F3 e - F4 e = F5 e) :
    (es.map F1).sum + (es.map F2).sum + (es.map F3).sum - (es.map F4).sum = (es.map F5).sum := by
  induction es with
  | nil => simp
  | cons e es ih =>
    have h1 := h e (List.mem_cons_self _ _)
    have h2 := ih (fun x hx => h x (List.mem_cons_of_mem _ hx))
    simp only [List.map_cons, List.sum_cons]
    omega

theorem in_edges_grown (g g1 : Graph) (u : Nat) (hd : g1.directed = g.directed)
    (extra : List Edge) (hex : g1.edges = g.edges ++ extra)
    (hinc : ∀ e ∈ extra, incident u e = false) :
    in_edges_range g1 u = in_edges_range g u := by
  unfold in_edges_range
  rw [hd, hex, List.filter_append]
  have : extra.filter (fun e => decide (e.tgt = u)) = [] := by
    rw [List.filter_eq_nil_iff]
    intro e he
    have := hinc e he
    simp only [incident, Bool.or_eq_false_iff, decide_eq_false_iff_not] at this
    simpa using this.2
  rw [this, List.append_nil]

/-- The weight of the edges incident to `u`, under a multiplicity of the end
points, is the same inside the loops of `merge_vertices(u, v)` as at the
call. -/
theorem MergeInv.incident_sum {g0 : Graph} {c0 : Nat → Int} {u : Nat} {mk : Nat → Nat × Nat}
    {st : BlockState} {ns_v : Nat → List Edge} (hI : MergeInv g0 c0 u mk st ns_v)
    (f : Nat → Nat → Int) :
    (st.g.edges.map (fun e => if incident u e = true
        then f e.src e.tgt * st.eweight e.idx else 0)).sum =
      (g0.edges.map (fun e => if incident u e = true
        then f e.src e.tgt * c0 e.idx else 0)).sum := by
  obtain ⟨extra, hex, hinc⟩ := hI.grown
  rw [hex, List.map_append, List.sum_append]
  have h1 : (extra.map (fun e => if incident u e = true
        then f e.src e.tgt * st.eweight e.idx else 0)).sum = 0 := by
    apply List.sum_eq_zero
    intro x hx
    obtain ⟨e, he, rfl⟩ := List.mem_map.1 hx
    rw [hinc e he]
    simp
  rw [h1, add_zero]
  apply sum_map_congr
  intro e he
  by_cases hi : incident u e = true
  · rw [if_pos hi, if_pos hi, hI.kept e he hi]
  · rw [if_neg hi, if_neg hi]

/-- The invariant of the loops of `merge_vertices(u, v)` at the call. -/
theorem MergeInv.init (st : BlockState) (u v : Nat)
    (hnd : (st.g.edges.map (fun e => e.idx)).Nodup) :
    MergeInv st.g st.eweight u (fun k => (v, k)) st
      (group_edges (fun e => e.tgt) (out_edges_range st.g v)) := by
  refine ⟨hnd, rfl, rfl, ⟨[], by simp, by simp⟩, fun _ _ _ => rfl, ?_⟩
  intro k e he
  unfold group_edges at he
  rw [List.mem_filter] at he
  obtain ⟨hs, e0, h0, hde⟩ := out_items st.g v e he.1
  have ht : e.tgt = k := by simpa using he.2
  exact ⟨by rw [hs, ht], e0, h0, hde⟩

/-- The invariant of the second loop of `merge_vertices(u, v)` when it
starts. -/
theorem MergeInv.to_in {g0 : Graph} {c0 : Nat → Int} {u v : Nat} {mk : Nat → Nat × Nat}
    {st : BlockState} {ns_v : Nat → List Edge} (hI : MergeInv g0 c0 u mk st ns_v) :
    MergeInv g0 c0 u (fun k => (k, v)) st
      (group_edges (fun e => e.src) (in_edges_range st.g v)) := by
  refine ⟨hI.nodup, hI.directed, hI.nv, hI.grown, hI.kept, ?_⟩
  intro k e he
  unfold group_edges at he
  rw [List.mem_filter] at he
  obtain ⟨ht, e0, h0, hde⟩ := in_items st.g v e he.1
  have hs : e.src = k := by simpa using he.2
  exact ⟨by rw [hs, ht], e0, h0, hde⟩

theorem group_out_items (g : Graph) (u : Nat) :
    ∀ t, ∀ e ∈ group_edges (fun e => e.tgt) (out_edges_range g u) t,
      ∃ e0 ∈ g.edges, incident u e0 = true ∧ e0.idx = e.idx := by
  intro t e he
  unfold group_edges at he
  rw [List.mem_filter] at he
  obtain ⟨hs, e0, h0, hde⟩ := out_items g u e he.1
  exact ⟨e0, h0, out_items_incident g u hs hde, hde.1⟩

theorem group_in_items (g : Graph) (u : Nat) :
    ∀ t, ∀ e ∈ group_edges (fun e => e.src) (in_edges_range g u) t,
      ∃ e0 ∈ g.edges, incident u e0 = true ∧ e0.idx = e.idx := by
  intro t e he
  unfold group_edges at he
  rw [List.mem_filter] at he
  obtain ⟨hs, e0, h0, hde⟩ := in_items g u e he.1
  exact ⟨e0, h0, in_items_incident g u hs hde, hde.1⟩

/-- `merge_vertices(u, v)` on a weighted model whose edge identities are
distinct: it returns normally, and the weight of the graph under every
multiplicity `f` of the end points (symmetric on an undirected graph) is the
weight, before the merge, under `f` read at the end points with `u` replaced by
`v`. -/
theorem merge_weighted_fsum (st : BlockState) (u v : Nat) (huv : u ≠ v)
    (hnd : (st.g.edges.map (fun e => e.idx)).Nodup) :
    ∃ st', merge_vertices_weighted st u v = .ok st' ∧
      ∀ f : Nat → Nat → Int, (st.g.directed = false → ∀ x y, f x y = f y x) →
        fsum f st'.eweight st'.g.edges =
          fsum (fun x y => f (merged u v x) (merged u v y)) st.eweight st.g.edges := by
  obtain ⟨st1, ns1, hrun1, hI1, _, hsum1⟩ :=
    merge_out_loop_spec st.g st.eweight u v huv
      (group_edges (fun e => e.tgt) (out_edges_range st.g u)) (group_out_items st.g u)
      (self_group_even st.g u st.eweight)
      (group_keys (fun e => e.tgt) (out_edges_range st.g u)) st _ (MergeInv.init st u v hnd)
  -- the per-edge identity behind the result
  have hedge : ∀ f : Nat → Nat → Int, (st.g.directed = false → ∀ x y, f x y = f y x) →
      ∀ e ∈ st.g.edges,
        f e.src e.tgt * st.eweight e.idx +
          (if at_u st.g.directed u e = true
            then f v (merged u v (other_end u e)) * st.eweight e.idx else 0) +
          (if st.g.directed = true then
            (if e.tgt = u ∧ e.src ≠ u then f e.src v * st.eweight e.idx else 0) else 0) -
          (if incident u e = true then f e.src e.tgt * st.eweight e.idx else 0) =
        f (merged u v e.src) (merged u v e.tgt) * st.eweight e.idx := by
    intro f hf e _
    unfold at_u other_end merged incident
    cases hd : st.g.directed
    · have hs := hf hd
      by_cases h1 : e.src = u
      · by_cases h2 : e.tgt = u
        · simp [h1, h2]
        · simp [h1, h2]
      · by_cases h2 : e.tgt = u
        · simp [h1, h2, hs v e.src]
        · simp [h1, h2]
    · by_cases h1 : e.src = u
      · by_cases h2 : e.tgt = u
        · simp [h1, h2]
        · simp [h1, h2]
      · by_cases h2 : e.tgt = u
        · simp [h1, h2]
        · simp [h1, h2]
  unfold merge_vertices_weighted
  simp only []
  rw [hrun1]
  simp only []
  by_cases hd1 : st1.g.directed = true
  · -- directed: the second loop runs
    have hd0 : st.g.directed = true := by rw [← hI1.directed]; exact hd1
    obtain ⟨extra, hex, hinc⟩ := hI1.grown
    have hin : in_edges_range st1.g u = in_edges_range st.g u :=
      in_edges_grown st.g st1.g u hI1.directed extra hex hinc
    rw [if_pos hd1, hin]
    obtain ⟨hI2, _, hsum2⟩ := merge_in_loop_spec st.g st.eweight u v huv
      (group_edges (fun e => e.src) (in_edges_range st.g u)) (group_in_items st.g u)
      (group_keys (fun e => e.src) (in_edges_range st.g u)) st1 _ (hI1.to_in)
    refine ⟨_, rfl, ?_⟩
    intro f hf
    rw [merge_tail_fsum _ u v hI2.nodup f, hI2.incident_sum f, hsum2 f hf, hsum1 f hf,
      out_total_eq, in_total_eq st.g hd0]
    unfold fsum
    have := sum_four (hedge f hf)
    simp only [hd0, if_true] at this ⊢
    exact this
  · -- undirected: only the first loop
    have hd0 : st.g.directed = false := by
      rw [← hI1.directed]; simpa using hd1
    rw [if_neg hd1]
    refine ⟨_, rfl, ?_⟩
    intro f hf
    rw [merge_tail_fsum _ u v hI1.nodup f, hI1.incident_sum f, hsum1 f hf, out_total_eq]
    unfold fsum
    have := sum_four (hedge f hf)
    simp only [hd0, Bool.false_eq_true, if_false, List.map_const', List.sum_replicate,
      smul_zero, add_zero] at this ⊢
    exact this

end BlockState
namespace BlockState

theorem grows.grows_refl (st : BlockState) : grows st st :=
  ⟨merge_frame.merge_refl st, rfl, rfl, [], by simp⟩

theorem grows.grows_trans {a b c : BlockState} (h1 : grows a b) (h2 : grows b c) :
    grows a c := by
  obtain ⟨f1, d1, n1, x1, e1⟩ := h1
  obtain ⟨f2, d2, n2, x2, e2⟩ := h2
  exact ⟨f1.merge_trans f2, d2.trans d1, n2.trans n1, x1 ++ x2,
    by rw [e2, e1, List.append_assoc]⟩

theorem fold_or_add_grows (st : BlockState) (ns_v : Nat → List Edge) (k a b : Nat) (w : Int)
    (es : List Edge) : grows st (fold_or_add st ns_v k a b w es).1 := by
  unfold fold_or_add
  rcases ns_v k with _ | ⟨e, rest⟩
  · exact ⟨rfl, rfl, rfl, [⟨a, b, st.g.fresh⟩], rfl⟩
  · exact ⟨rfl, rfl, rfl, [], by simp⟩

/-- The first loop of `merge_vertices(u, v)` returns normally in every state,
provided the weight of the group of the self-loops of `u` is even on an
undirected graph. -/
theorem merge_out_loop_total (u v : Nat) (ns_u : Nat → List Edge) (d0 : Bool)
    (heven : d0 = false → ∀ c : Nat → Int, ((ns_u u).map (fun e => c e.idx)).sum % 2 = 0) :
    ∀ (ts : List Nat) (acc : BlockState × (Nat → List Edge)), acc.1.g.directed = d0 →
      ∃ acc', merge_out_loop u v ns_u ts acc = .ok acc' ∧ grows acc.1 acc'.1 := by
  intro ts
  induction ts with
  | nil => intro acc _; exact ⟨acc, rfl, grows.grows_refl _⟩
  | cons t ts ih =>
    intro acc hd
    have hstep : ∃ acc1, merge_out_step u v ns_u acc t = .ok acc1 ∧ grows acc.1 acc1.1 := by
      unfold merge_out_step
      simp only []
      by_cases htu : t = u
      · rw [if_pos htu]
        by_cases hdd : acc.1.g.directed = false
        · rw [if_pos hdd]
          have hev := heven (by rw [← hd]; exact hdd) acc.1.eweight
          rw [htu, if_neg (by rw [hev]; simp)]
          exact ⟨_, rfl, fold_or_add_grows _ _ _ _ _ _ _⟩
        · rw [if_neg hdd]
          exact ⟨_, rfl, fold_or_add_grows _ _ _ _ _ _ _⟩
      · rw [if_neg htu]
        exact ⟨_, rfl, fold_or_add_grows _ _ _ _ _ _ _⟩
    obtain ⟨acc1, hrun1, hg1⟩ := hstep
    obtain ⟨acc', hrun, hg⟩ := ih acc1 (hg1.2.1.trans hd)
    exact ⟨acc', by rw [merge_out_loop, hrun1]; exact hrun, hg1.grows_trans hg⟩

theorem merge_in_loop_grows (u v : Nat) (ns_u : Nat → List Edge) :
    ∀ (ss : List Nat) (acc : BlockState × (Nat → List Edge)),
      grows acc.1 (ss.foldl (merge_in_step u v ns_u) acc).1 := by
  intro ss
  induction ss with
  | nil => intro acc; exact grows.grows_refl _
  | cons s ss ih =>
    intro acc
    rw [List.foldl_cons]
    have h1 : grows acc.1 (merge_in_step u v ns_u acc s).1 := by
      unfold merge_in_step
      by_cases hs : s = u
      · rw [if_pos hs]; exact grows.grows_refl _
      · rw [if_neg hs]; exact fold_or_add_grows _ _ _ _ _ _ _
    exact h1.grows_trans (ih _)

/-- `merge_vertices(u, v)` on a weighted model returns normally in every
state: its result is the tail applied to a state that the loops have reached
by growing the graph. -/
theorem merge_weighted_total (st : BlockState) (u v : Nat) :
    ∃ st2, grows st st2 ∧ merge_vertices_weighted st u v = .ok (merge_tail st2 u v) := by
  obtain ⟨acc1, hrun1, hg1⟩ := merge_out_loop_total u v
    (group_edges (fun e => e.tgt) (out_edges_range st.g u)) st.g.directed
    (fun hd c => self_group_even st.g u c hd)
    (group_keys (fun e => e.tgt) (out_edges_range st.g u))
    (st, group_edges (fun e => e.tgt) (out_edges_range st.g v)) rfl
  unfold merge_vertices_weighted
  simp only []
  rw [hrun1]
  simp only []
  by_cases hd : acc1.1.g.directed = true
  · rw [if_pos hd]
    refine ⟨_, ?_, rfl⟩
    exact hg1.grows_trans (merge_in_loop_grows u v _ _
      (acc1.1, group_edges (fun e => e.src) (in_edges_range acc1.1.g v)))
  · rw [if_neg hd]
    exact ⟨_, hg1, rfl⟩

theorem all_edges_grown (g g2 : Graph) (u : Nat) (hd : g2.directed = g.directed)
    (extra : List Edge) (hex : g2.edges = g.edges ++ extra) :
    ∀ e ∈ all_edges_range g u, e ∈ all_edges_range g2 u := by
  intro e he
  unfold all_edges_range out_edges_range in_edges_range at he ⊢
  rw [hd, hex]
  cases hdd : g.directed <;> rw [hdd] at he
  · simp only [Bool.false_eq_true, if_false, List.append_nil, List.mem_append,
      List.mem_filter, List.mem_map, decide_eq_true_eq] at he ⊢
    rcases he with ⟨h1, h2⟩ | ⟨x, ⟨h1, h2⟩, h3⟩
    · exact Or.inl ⟨Or.inl h1, h2⟩
    · exact Or.inr ⟨x, ⟨Or.inl h1, h2⟩, h3⟩
  · simp only [if_true, List.mem_append, List.mem_filter, decide_eq_true_eq] at he ⊢
    rcases he with ⟨h1, h2⟩ | ⟨h1, h2⟩
    · exact Or.inl ⟨Or.inl h1, h2⟩
    · exact Or.inr ⟨Or.inl h1, h2⟩

theorem all_edges_cleared (g : Graph) (u : Nat) :
    all_edges_range (g.clear_vertex u) u = [] := by
  unfold all_edges_range out_edges_range in_edges_range Graph.clear_vertex
  have h1 : (g.edges.filter (fun e => decide (e.src ≠ u ∧ e.tgt ≠ u))).filter
      (fun e => decide (e.src = u)) = [] := by
    rw [List.filter_eq_nil_iff]
    intro e he
    rw [List.mem_filter] at he
    simp only [decide_eq_true_eq] at he ⊢
    exact he.2.1
  have h2 : (g.edges.filter (fun e => decide (e.src ≠ u ∧ e.tgt ≠ u))).filter
      (fun e => decide (e.tgt = u)) = [] := by
    rw [List.filter_eq_nil_iff]
    intro e he
    rw [List.mem_filter] at he
    simp only [decide_eq_true_eq] at he ⊢
    exact he.2.2
  simp only [h1, h2]
  cases g.directed <;> simp

/-- What `merge_vertices(u, v)` does on a weighted model to the absorbed
vertex and to the members other than the graph, the edge weights and the
per-edge cache, in every state. -/
theorem merge_weighted_effect (st : BlockState) (u v : Nat) :
    ∃ st', merge_vertices_weighted st u v = .ok st' ∧
      st'.vweight = Function.update
        (Function.update st.vweight v (st.vweight v + st.vweight u)) u 0 ∧
      st'.merge_map = Function.update st.merge_map u v ∧
      st'.g.nv = st.g.nv ∧ st'.g.directed = st.g.directed ∧
      (∀ e ∈ st'.g.edges, e.src ≠ u ∧ e.tgt ≠ u) ∧
      all_edges_range st'.g u = [] ∧
      (∀ e ∈ all_edges_range st.g u, st'.eweight e.idx = 0) := by
  obtain ⟨st2, ⟨hfr, hd, hnv, extra, hex⟩, hrun⟩ := merge_weighted_total st u v
  have hvw : st2.vweight = st.vweight := by
    unfold merge_frame at hfr; rw [← hfr]
  have hmm : st2.merge_map = st.merge_map := by
    unfold merge_frame at hfr; rw [← hfr]
  refine ⟨_, hrun, ?_, ?_, hnv, hd, ?_, all_edges_cleared st2.g u, ?_⟩
  · show Function.update (Function.update st2.vweight v (st2.vweight v + st2.vweight u)) u 0 = _
    rw [hvw]
  · show Function.update st2.merge_map u (v : Int) = _
    rw [hmm]
  · intro e he
    have : e ∈ st2.g.edges.filter (fun e => decide (e.src ≠ u ∧ e.tgt ≠ u)) := he
    rw [List.mem_filter] at this
    simpa using this.2
  · intro e he
    have hmem := all_edges_grown st.g st2.g u hd extra hex e he
    show ((all_edges_range st2.g u).foldl (fun w e => Function.update w e.idx 0) st2.eweight)
      e.idx = 0
    rw [foldl_zero_apply, if_pos (List.mem_map.2 ⟨e, hmem, rfl⟩)]

end BlockState
theorem fsum_add (f g : Nat → Nat → Int) (c : Nat → Int) (es : List Edge) :
    fsum f c es + fsum g c es = fsum (fun x y => f x y + g x y) c es := by
  unfold fsum
  rw [list_sum_add]
  apply sum_map_congr
  intro e _
  ring

theorem fsum_congr_fun {f g : Nat → Nat → Int} (c : Nat → Int) (es : List Edge)
    (h : ∀ x y, f x y = g x y) : fsum f c es = fsum g c es := by
  unfold fsum
  apply sum_map_congr
  intro e _
  rw [h]

theorem fsum_zero_fun (c : Nat → Int) (es : List Edge) : fsum (fun _ _ => 0) c es = 0 := by
  unfold fsum
  simp

theorem fsum_one (c : Nat → Int) (es : List Edge) :
    fsum (fun _ _ => 1) c es = (es.map (fun e => c e.idx)).sum := by
  unfold fsum
  simp

namespace BlockState

theorem out_degreeS_fsum (st : BlockState) (v : Nat) :
    out_degreeS st.g st.eweight v =
      fsum (fun x y => (if x = v then 1 else 0) +
        (if st.g.directed then 0 else if y = v then 1 else 0)) st.eweight st.g.edges := by
  rw [out_degreeS_eq, kout_of, ← fsum_add]
  have h1 := wsum_eq_fsum (fun x _ => decide (x = v)) st.eweight st.g.edges
  have h2 := wsum_eq_fsum (fun _ y => decide (y = v)) st.eweight st.g.edges
  simp only [decide_eq_true_eq] at h1 h2
  rw [h1]
  cases st.g.directed
  · simp only [Bool.false_eq_true, if_false]
    rw [h2]
  · simp only [if_true]
    rw [fsum_zero_fun]

theorem in_degreeS_fsum (st : BlockState) (v : Nat) :
    in_degreeS st.g st.eweight v =
      fsum (fun _ y => if st.g.directed then (if y = v then 1 else 0) else 0)
        st.eweight st.g.edges := by
  unfold in_degreeS in_edges_range
  cases st.g.directed
  · simp only [Bool.false_eq_true, if_false, List.map_nil, List.sum_nil]
    rw [fsum_zero_fun]
  · simp only [if_true]
    rw [sum_filter_eq_wsum]
    have h2 := wsum_eq_fsum (fun _ y => decide (y = v)) st.eweight st.g.edges
    simp only [decide_eq_true_eq] at h2
    exact h2

theorem sum_range_update (n : Nat) (w : Nat → Int) (i : Nat) (hi : i < n) (x : Int) :
    ((List.range n).map (Function.update w i x)).sum =
      ((List.range n).map w).sum + (x - w i) := by
  have h := rsum_single n i (x - w i)
  rw [if_pos hi] at h
  have h2 := rsum_add n w (fun k => if k = i then x - w i else 0)
  unfold rsum at h h2
  rw [h] at h2
  rw [← h2]
  apply congrArg List.sum
  apply List.map_congr_left
  intro k _
  by_cases hk : k = i
  · rw [hk, Function.update_same]; simp
  · rw [Function.update_noteq hk]; simp [hk]

theorem merge_vertices_of_weighted (st : BlockState) (u v : Nat) (huv : u ≠ v)
    (hvw : st.vweight_is_constant = false) (hew : st.eweight_is_constant = false) :
    st.merge_vertices u v = merge_vertices_weighted st u v := by
  unfold merge_vertices
  rw [if_neg huv, if_neg (by simp [hvw, hew])]

/-- C17: after `merge_vertices(u, v)` with `u != v` on a weighted model (in
every state: the call returns normally), the absorbed vertex `u` has vertex
weight 0 and no incident edge, the weight of every edge that was incident to
`u` is zero, `u` is still a vertex of the graph (the number of vertices is
unchanged), and `merge_map[u] = v` while `merge_map` is unchanged at every
other vertex. -/
theorem merge_vertices_absorbed (st : BlockState) (u v : Nat) (huv : u ≠ v)
    (hvw : st.vweight_is_constant = false) (hew : st.eweight_is_constant = false) :
    ∃ st', st.merge_vertices u v = .ok st' ∧
      st'.vweight u = 0 ∧
      (∀ e ∈ st'.g.edges, e.src ≠ u ∧ e.tgt ≠ u) ∧
      all_edges_range st'.g u = [] ∧
      (∀ e ∈ all_edges_range st.g u, st'.eweight e.idx = 0) ∧
      st'.g.nv = st.g.nv ∧ (u < st.g.nv → u < st'.g.nv) ∧
      st'.merge_map u = v ∧ (∀ x, x ≠ u → st'.merge_map x = st.merge_map x) := by
  obtain ⟨st', hrun, hvw', hmm, hnv, _, hed, hall, hz⟩ := merge_weighted_effect st u v
  refine ⟨st', by rw [merge_vertices_of_weighted st u v huv hvw hew]; exact hrun,
    ?_, hed, hall, hz, hnv, fun h => by rw [hnv]; exact h, ?_, ?_⟩
  · rw [hvw', Function.update_same]
  · rw [hmm, Function.update_same]
  · intro x hx
    rw [hmm, Function.update_noteq hx]

theorem merge_vertices_absorbed_witness :
    ∃ st', ex_ring.merge_vertices 0 1 = .ok st' ∧
      st'.vweight 0 = 0 ∧
      (∀ e ∈ st'.g.edges, e.src ≠ 0 ∧ e.tgt ≠ 0) ∧
      all_edges_range st'.g 0 = [] ∧
      (∀ e ∈ all_edges_range ex_ring.g 0, st'.eweight e.idx = 0) ∧
      st'.g.nv = ex_ring.g.nv ∧ (0 < ex_ring.g.nv → 0 < st'.g.nv) ∧
      st'.merge_map 0 = 1 ∧ (∀ x, x ≠ 0 → st'.merge_map x = ex_ring.merge_map x) :=
  merge_vertices_absorbed ex_ring 0 1 (by decide) rfl rfl

/-- C18: merge conserves weight on the surviving vertex.  After
`merge_vertices(u, v)` with `u != v` on a weighted model whose edge identities
are distinct and where `u` and `v` are vertices of the graph (the call returns
normally), `vweight[v]` is the sum of the weights that `u` and `v` had, the
weighted out-degree of `v` is the sum of the weighted out-degrees that `u` and
`v` had, and so is its weighted in-degree; the self-loops of `v` weigh what the
edges with both end points among `u` and `v` weighed (the self-loops of `u` and
of `v` and the edges between `u` and `v`); and the total edge weight of the
graph and the total vertex weight are unchanged. -/
theorem merge_vertices_conserves (st : BlockState) (u v : Nat) (huv : u ≠ v)
    (hvw : st.vweight_is_constant = false) (hew : st.eweight_is_constant = false)
    (hnd : (st.g.edges.map (fun e => e.idx)).Nodup) (hu : u < st.g.nv) (hv : v < st.g.nv) :
    ∃ st', st.merge_vertices u v = .ok st' ∧
      st'.vweight v = st.vweight u + st.vweight v ∧
      out_degreeS st'.g st'.eweight v =
        out_degreeS st.g st.eweight u + out_degreeS st.g st.eweight v ∧
      in_degreeS st'.g st'.eweight v =
        in_degreeS st.g st.eweight u + in_degreeS st.g st.eweight v ∧
      wsum (fun e => decide (e.src = v) && decide (e.tgt = v)) st'.eweight st'.g.edges =
        wsum (fun e => (decide (e.src = u) || decide (e.src = v)) &&
          (decide (e.tgt = u) || decide (e.tgt = v))) st.eweight st.g.edges ∧
      (st'.g.edges.map (fun e => st'.eweight e.idx)).sum =
        (st.g.edges.map (fun e => st.eweight e.idx)).sum ∧
      ((List.range st'.g.nv).map st'.vweight).sum =
        ((List.range st.g.nv).map st.vweight).sum := by
  obtain ⟨st', hrun, hfs⟩ := merge_weighted_fsum st u v huv hnd
  obtain ⟨st'', hrun', hvw', _, hnv, hd, _⟩ := merge_weighted_effect st u v
  have hst : st'' = st' := by
    rw [hrun] at hrun'
    injection hrun' with h
    exact h.symm
  rw [hst] at hvw' hnv hd
  have hvu : v ≠ u := fun h => huv h.symm
  refine ⟨st', by rw [merge_vertices_of_weighted st u v huv hvw hew]; exact hrun,
    ?_, ?_, ?_, ?_, ?_, ?_⟩
  · rw [hvw', Function.update_noteq hvu, Function.update_same]
    ring
  · rw [out_degreeS_fsum, out_degreeS_fsum, out_degreeS_fsum, hd, hfs, fsum_add]
    · apply fsum_congr_fun
      intro x y
      unfold merged
      cases st.g.directed
      · by_cases h1 : x = u <;> by_cases h2 : y = u <;> by_cases h3 : x = v <;>
          by_cases h4 : y = v <;> simp_all
      · by_cases h1 : x = u <;> by_cases h3 : x = v <;> simp_all
    · intro hdir x y
      rw [hdir]
      simp only [Bool.false_eq_true, if_false]
      ring
  · rw [in_degreeS_fsum, in_degreeS_fsum, in_degreeS_fsum, hd, hfs, fsum_add]
    · apply fsum_congr_fun
      intro x y
      unfold merged
      cases st.g.directed
      · simp
      · by_cases h2 : y = u <;> by_cases h4 : y = v <;> simp_all
    · intro hdir x y
      rw [hdir]
      simp
  · have h1 := wsum_eq_fsum (fun x y => decide (x = v) && decide (y = v))
      st'.eweight st'.g.edges
    have h2 := wsum_eq_fsum (fun x y => (decide (x = u) || decide (x = v)) &&
      (decide (y = u) || decide (y = v))) st.eweight st.g.edges
    rw [h1, h2, hfs]
    · apply fsum_congr_fun
      intro x y
      unfold merged
      by_cases h1 : x = u <;> by_cases h2 : y = u <;> by_cases h3 : x = v <;>
        by_cases h4 : y = v <;> simp_all
    · intro _ x y
      by_cases h3 : x = v <;> by_cases h4 : y = v <;> simp [h3, h4]
  · rw [← fsum_one, ← fsum_one, hfs]
    intro _ x y
    rfl
  · rw [hnv, hvw', sum_range_update _ _ _ hu, sum_range_update _ _ _ hv,
      Function.update_noteq huv]
    ring

theorem merge_vertices_conserves_witness :
    ∃ st', ex_ring.merge_vertices 0 1 = .ok st' ∧
      st'.vweight 1 = ex_ring.vweight 0 + ex_ring.vweight 1 ∧
      out_degreeS st'.g st'.eweight 1 =
        out_degreeS ex_ring.g ex_ring.eweight 0 + out_degreeS ex_ring.g ex_ring.eweight 1 ∧
      in_degreeS st'.g st'.eweight 1 =
        in_degreeS ex_ring.g ex_ring.eweight 0 + in_degreeS ex_ring.g ex_ring.eweight 1 ∧
      wsum (fun e => decide (e.src = 1) && decide (e.tgt = 1)) st'.eweight st'.g.edges =
        wsum (fun e => (decide (e.src = 0) || decide (e.src = 1)) &&
          (decide (e.tgt = 0) || decide (e.tgt = 1))) ex_ring.eweight ex_ring.g.edges ∧
      (st'.g.edges.map (fun e => st'.eweight e.idx)).sum =
        (ex_ring.g.edges.map (fun e => ex_ring.eweight e.idx)).sum ∧
      ((List.range st'.g.nv).map st'.vweight).sum =
        ((List.range ex_ring.g.nv).map ex_ring.vweight).sum :=
  merge_vertices_conserves ex_ring 0 1 (by decide) rfl rfl (by decide) (by decide) (by decide)

end BlockState

namespace BlockState

/-! ## Batch removal -/

/-- A loop of `remove_vertex` with an edge filter is the loop without filter
over the descriptors that the filter lets through. -/
theorem remove_out_loop_push (v r : Nat) (efilt : Edge → Bool) :
    ∀ (es : List Edge) (st : BlockState) (sw : Int),
      remove_out_loop v r efilt es st sw =
        remove_out_loop v r (fun _ => false) (es.filter (fun e => !efilt e)) st sw := by
  intro es
  induction es with
  | nil => intro st sw; rfl
  | cons e es ih =>
    intro st sw
    rw [remove_out_loop_unfold]
    by_cases hf : efilt e = true
    · rw [if_pos hf, List.filter_cons_of_neg (by simp [hf])]
      exact ih st sw
    · rw [if_neg hf, List.filter_cons_of_pos (by simpa using hf)]
      have hR := remove_out_loop_unfold v r (fun _ => false) e
        (es.filter (fun e => !efilt e)) st sw
      simp only [Bool.false_eq_true, if_false] at hR
      rw [hR]
      by_cases h1 : e.tgt = v ∧ st.g.directed = false
      · rw [if_pos h1, if_pos h1]
        exact ih _ _
      · rw [if_neg h1, if_neg h1]
        rcases st.bedge e.idx with _ | me
        · rfl
        · simp only []
          split_ifs
          · rfl
          · exact ih _ _

theorem remove_in_loop_push (v r : Nat) (efilt : Edge → Bool) :
    ∀ (es : List Edge) (st : BlockState),
      remove_in_loop v r efilt es st =
        remove_in_loop v r (fun _ => false) (es.filter (fun e => !efilt e)) st := by
  intro es
  induction es with
  | nil => intro st; rfl
  | cons e es ih =>
    intro st
    rw [remove_in_loop_unfold]
    by_cases hf : efilt e = true
    · rw [if_pos hf, List.filter_cons_of_neg (by simp [hf])]
      exact ih st
    · rw [if_neg hf, List.filter_cons_of_pos (by simpa using hf)]
      have hR := remove_in_loop_unfold v r (fun _ => false) e
        (es.filter (fun e => !efilt e)) st
      simp only [Bool.false_eq_true, if_false] at hR
      rw [hR]
      by_cases h1 : e.src = v
      · rw [if_pos h1, if_pos h1]
        exact ih _
      · rw [if_neg h1, if_neg h1]
        rcases st.bedge e.idx with _ | me
        · rfl
        · exact ih _

/-- The identities of the processed descriptors that an identity-based filter
lets through. -/
theorem mem_filtered_idx (efilt : Edge → Bool)
    (hF : ∀ e e' : Edge, e.idx = e'.idx → efilt e = efilt e') (P : Edge → Bool)
    (es : List Edge) (e : Edge) :
    e.idx ∈ ((es.filter (fun e => !efilt e)).filter P).map (fun e => e.idx) ↔
      (e.idx ∈ (es.filter P).map (fun e => e.idx) ∧ efilt e = false) := by
  simp only [List.mem_map, List.mem_filter, Bool.not_eq_true', and_assoc]
  constructor
  · rintro ⟨d, hd, hfd, hp, hi⟩
    exact ⟨⟨d, hd, hp, hi⟩, by rw [← hF d e hi]; exact hfd⟩
  · rintro ⟨⟨d, hd, hp, hi⟩, hfe⟩
    exact ⟨d, hd, by rw [hF d e hi]; exact hfe, hp, hi⟩

theorem nodup_filtered_idx (efilt : Edge → Bool) (P : Edge → Bool) (es : List Edge)
    (h : ((es.filter P).map (fun e => e.idx)).Nodup) :
    (((es.filter (fun e => !efilt e)).filter P).map (fun e => e.idx)).Nodup := by
  have hs : ((es.filter (fun e => !efilt e)).filter P).Sublist (es.filter P) := by
    apply List.Sublist.filter
    exact List.filter_sublist _
  exact h.sublist (hs.map _)

/-- `remove_vertex(v, efilt)` with a filter that decides by the identity of
the edge and excludes the self-loops of `v`, in a state where the counting
invariant holds and the edges incident to `v` that the filter lets through are
counted with their positive weight: it returns normally, those edges are no
longer counted, and only `wr[b[v]]` changes among the block weights. -/
theorem remove_vertex_filt_spec {st : BlockState} {c : Nat → Int} {bs : Nat → Nat → Int}
    (v : Nat) (efilt : Edge → Bool)
    (hF : ∀ e e' : Edge, e.idx = e'.idx → efilt e = efilt e')
    (hnd : (st.g.edges.map (fun e => e.idx)).Nodup)
    (hc : Counted st c st.b bs (fun _ => False))
    (hself : ∀ e ∈ st.g.edges, is_self v e = true → efilt e = true)
    (hcv : ∀ e ∈ st.g.edges, incident v e = true → efilt e = false →
      0 < c e.idx ∧ c e.idx = st.eweight e.idx) :
    ∃ st', st.remove_vertex_filt v efilt = .ok st' ∧
      Counted st' (zero_edges st.g.edges (fun e => incident v e && !efilt e) c) st.b bs
        (fun _ => False) ∧
      (∀ bp bq, DegCounted st c st.b bp bq →
        DegCounted st' (zero_edges st.g.edges (fun e => incident v e && !efilt e) c)
          st.b bp bq) ∧
      (∀ X, SparseX st X → SparseX st' X) ∧
      same_params st st' ∧ st'.b = st.b ∧
      st'.wr = Function.update st.wr (st.b v) (st.wr (st.b v) - st.vweight v) := by
  have hinc : ∀ e, incident v e = (ph_out st.g.directed v e || ph_self st.g.directed v e ||
      ph_in st.g.directed v e) := incident_split st.g.directed v
  have hselfF : ∀ e ∈ st.g.edges, ph_self st.g.directed v e = true → efilt e = true := by
    intro e he hp
    apply hself e he
    simp only [ph_self, Bool.and_eq_true] at hp
    exact hp.2
  -- first loop
  obtain ⟨st1, hrun1, hc1, ht1, hs1⟩ := remove_out_loop_spec v (st.b v) st.b bs rfl
    ((out_edges_range st.g v).filter (fun e => !efilt e)) st c 0 hnd hc rfl
    (fun e he => out_items st.g v e (List.mem_of_mem_filter he))
    (nodup_filtered_idx efilt _ _ (out_proc_nodup hnd v))
    (by
      intro e he hp
      rw [List.mem_filter] at he
      obtain ⟨_, e0, h0, hde⟩ := out_items st.g v e he.1
      have hm : e0.idx ∈ ((out_edges_range st.g v).filter (out_proc st.g.directed v)).map
          (fun e => e.idx) := by
        rw [hde.1]
        exact List.mem_map.2 ⟨e, List.mem_filter.2 ⟨he.1, hp⟩, rfl⟩
      have hph := (out_proc_mem hnd v h0).1 hm
      have hfe : efilt e0 = false := by
        rw [hF e0 e hde.1]; simpa using he.2
      have := hcv e0 h0 (by rw [hinc, hph]; rfl) hfe
      rw [← hde.1]; exact this)
  have hg1 : st1.g = st.g := ht1.frame.1
  have hew1 : st1.eweight = st.eweight := ht1.frame.2.1
  have hb1 : st1.b = st.b := ht1.frame.2.2.2.1
  -- no self-loop descriptor passes the filter
  have hsw : ((((out_edges_range st.g v).filter (fun e => !efilt e)).filter
      (fun e => !out_proc st.g.directed v e)).map (fun e => st.eweight e.idx)).sum = 0 := by
    have : ((out_edges_range st.g v).filter (fun e => !efilt e)).filter
        (fun e => !out_proc st.g.directed v e) = [] := by
      rw [List.filter_eq_nil_iff]
      intro e he hp
      rw [List.mem_filter] at he
      obtain ⟨hsrc, e0, h0, hde⟩ := out_items st.g v e he.1
      simp only [out_proc, Bool.not_not, Bool.and_eq_true, decide_eq_true_eq,
        Bool.not_eq_true'] at hp
      have hs0 : is_self v e0 = true := by
        rcases hde.2 with ⟨h1, h2⟩ | ⟨_, h1, h2⟩
        · simp [is_self, ← h1, ← h2, hsrc, hp.1]
        · simp [is_self, ← h1, ← h2, hsrc, hp.1]
      have := hself e0 h0 hs0
      rw [hF e0 e hde.1] at this
      simp [this] at he
    rw [this]
    rfl
  rw [hsw, add_zero] at hrun1
  have hd1 : ∀ e ∈ st.g.edges,
      zero_edges st.g.edges (fun e => ph_out st.g.directed v e && !efilt e) c e.idx =
      zero_on ((((out_edges_range st.g v).filter (fun e => !efilt e)).filter
        (out_proc st.g.directed v)).map (fun e => e.idx)) c e.idx := by
    intro e he
    rw [zero_edges_apply hnd _ _ he]
    unfold zero_on
    have hiff := (mem_filtered_idx efilt hF (out_proc st.g.directed v)
      (out_edges_range st.g v) e).trans (and_congr (out_proc_mem hnd v he) Iff.rfl)
    by_cases hm : e.idx ∈ (((out_edges_range st.g v).filter (fun e => !efilt e)).filter
        (out_proc st.g.directed v)).map (fun e => e.idx)
    · rw [if_pos hm]
      obtain ⟨hp, hf⟩ := hiff.1 hm
      simp [hp, hf]
    · rw [if_neg hm]
      have hn : ¬ (ph_out st.g.directed v e = true ∧ efilt e = false) := fun h => hm (hiff.2 h)
      cases hp : ph_out st.g.directed v e <;> cases hf : efilt e <;> simp_all
  have hc1' := hc1.counted_congr (by rw [hg1]; exact hd1)
  have ht1' := ht1.step_congr hd1
  -- the self-loop block is skipped
  have hrun2 : remove_self (st.b v) st1 0 = .ok st1 := by
    rw [remove_self_unfold, if_neg (by omega)]
  -- second loop
  obtain ⟨st3, hrun3, hc3, ht3, hs3⟩ := remove_in_loop_spec v (st.b v) st.b bs rfl
    ((in_edges_range st1.g v).filter (fun e => !efilt e)) st1 _ (by rw [hg1]; exact hnd)
    hc1' hb1 (fun e he => in_items st1.g v e (List.mem_of_mem_filter he))
    (nodup_filtered_idx efilt _ _ (by rw [in_proc_idx, hg1]; exact nodup_filter_idx hnd _))
    (by
      intro e he hp
      rw [List.mem_filter] at he
      obtain ⟨_, e0, h0, hde⟩ := in_items st1.g v e he.1
      rw [hg1] at h0
      have hm : e0.idx ∈ ((in_edges_range st1.g v).filter (in_proc v)).map
          (fun e => e.idx) := by
        rw [hde.1]
        exact List.mem_map.2 ⟨e, List.mem_filter.2 ⟨he.1, hp⟩, rfl⟩
      rw [in_proc_idx, hg1, mem_filter_idx hnd _ h0] at hm
      have hfe : efilt e0 = false := by
        rw [hF e0 e hde.1]; simpa using he.2
      have hcv0 := hcv e0 h0 (by rw [hinc, hm]; simp) hfe
      have hdir : st.g.directed = true := by
        cases hd : st.g.directed
        · rw [hd] at hm; simp [ph_in] at hm
        · rfl
      have hsrc : ¬ (e0.src = v) := by
        simp only [ph_in, hdir, Bool.true_and, Bool.and_eq_true, decide_eq_true_eq,
          Bool.not_eq_true', decide_eq_false_iff_not] at hm
        exact hm.2
      rw [← hde.1, hew1, zero_edges_apply hnd _ _ h0]
      have h1 : (ph_out st.g.directed v e0 && !efilt e0) = false := by
        simp [ph_out, hdir, hsrc]
      rw [h1]
      simpa using hcv0)
  have hg3 : st3.g = st.g := by rw [ht3.frame.1, hg1]
  rw [hg1] at hrun3 hc3 ht3
  have hd3 : ∀ e ∈ st.g.edges,
      zero_edges st.g.edges (fun e => incident v e && !efilt e) c e.idx =
      zero_on ((((in_edges_range st.g v).filter (fun e => !efilt e)).filter
          (in_proc v)).map (fun e => e.idx))
        (zero_edges st.g.edges (fun e => ph_out st.g.directed v e && !efilt e) c) e.idx := by
    intro e he
    rw [zero_edges_apply hnd _ _ he]
    unfold zero_on
    rw [zero_edges_apply hnd _ _ he, hinc]
    have hin : e.idx ∈ ((in_edges_range st.g v).filter (in_proc v)).map (fun e => e.idx) ↔
        ph_in st.g.directed v e = true := by
      rw [in_proc_idx]; exact mem_filter_idx hnd _ he
    have hiff := (mem_filtered_idx efilt hF (in_proc v) (in_edges_range st.g v) e).trans
      (and_congr hin Iff.rfl)
    have hsf := hselfF e he
    by_cases hm : e.idx ∈ (((in_edges_range st.g v).filter (fun e => !efilt e)).filter
        (in_proc v)).map (fun e => e.idx)
    · rw [if_pos hm]
      obtain ⟨hp, hf⟩ := hiff.1 hm
      simp [hp, hf]
    · rw [if_neg hm]
      have hn : ¬ (ph_in st.g.directed v e = true ∧ efilt e = false) := fun h => hm (hiff.2 h)
      cases hf : efilt e
      · have hps : ph_self st.g.directed v e = false := by
          cases hps : ph_self st.g.directed v e
          · rfl
          · rw [hsf hps] at hf; cases hf
        have hpi : ph_in st.g.directed v e = false := by
          cases hpi : ph_in st.g.directed v e
          · rfl
          · exact absurd ⟨hpi, hf⟩ hn
        simp [hps, hpi]
      · simp
  have hc3' := hc3.counted_congr (by rw [hg3]; exact hd3)
  have ht3' := ht3.step_congr (by rw [hg1]; exact hd3)
  have htall := ht1'.step_trans ht3'
  have hcore := remove_tail_core st3 v (st.b v)
  have hbw := remove_tail_b_wr st3 v (st.b v)
  refine ⟨remove_tail st3 v (st.b v), ?_, hc3'.counted_of_core hcore, ?_, ?_, ?_, ?_, ?_⟩
  · unfold remove_vertex_filt
    simp only [remove_out_loop_push v (st.b v) efilt, hrun1, hrun2,
      remove_in_loop_push v (st.b v) efilt, hg1, hrun3]
  · intro bp bq hd
    exact (htall.deg bp bq hd).deg_of_core hcore
  · intro X hX
    exact (hs3 X (hs1 X hX)).sparse_of_core hcore
  · exact htall.frame.params.params_trans (remove_tail_params st3 v (st.b v))
  · rw [hbw.1, htall.frame.2.2.2.1]
  · rw [hbw.2, htall.frame.2.2.2.2.1, htall.frame.2.2.1]

end BlockState
namespace BlockState

theorem remove_internal_loop_unfold (e : Edge) (es : List Edge) (st : BlockState) :
    remove_internal_loop (e :: es) st =
      match st.bedge e.idx with
      | none => .error (Err.undefined, st)
      | some me =>
        if (st.add_mrs me (-st.eweight e.idx)).mrs me < 0 then
          .error (Err.assertion, st.add_mrs me (-st.eweight e.idx))
        else
          remove_internal_loop es
            (st.dec_step (st.b e.src) (st.b e.tgt) me (st.eweight e.idx)) :=
  rfl

/-- The second loop of `remove_vertices` on a list of descriptors of counted
edges with distinct identities: it returns normally and the listed edges are no
longer counted. -/
theorem remove_internal_loop_spec (bm : Nat → Nat) (bs : Nat → Nat → Int) :
    ∀ (es : List Edge) (st : BlockState) (c : Nat → Int),
      (st.g.edges.map (fun e => e.idx)).Nodup →
      Counted st c bm bs (fun _ => False) →
      st.b = bm →
      (∀ e ∈ es, ∃ e0 ∈ st.g.edges, descr st.g.directed e e0) →
      (es.map (fun e => e.idx)).Nodup →
      (∀ e ∈ es, 0 < c e.idx ∧ c e.idx = st.eweight e.idx) →
      ∃ st', remove_internal_loop es st = .ok st' ∧
        Counted st' (zero_on (es.map (fun e => e.idx)) c) bm bs (fun _ => False) ∧
        Trans st st' c (zero_on (es.map (fun e => e.idx)) c) bm ∧
        (∀ X, SparseX st X → SparseX st' X) := by
  intro es
  induction es with
  | nil =>
    intro st c _ hc _ _ _ _
    refine ⟨st, rfl, ?_, ?_, fun _ h => h⟩
    · simpa [zero_on_nil] using hc
    · simpa [zero_on_nil] using Trans.step_refl st c bm
  | cons e es ih =>
    intro st c hnd hc hb hit hndp hce
    obtain ⟨e0, h0, hde⟩ := hit e (List.mem_cons_self _ _)
    have hit' : ∀ x ∈ es, ∃ e0 ∈ st.g.edges, descr st.g.directed x e0 :=
      fun x hx => hit x (List.mem_cons_of_mem _ hx)
    obtain ⟨hpos, hew⟩ := hce e (List.mem_cons_self _ _)
    rw [List.map_cons, List.nodup_cons] at hndp
    have hor : oriented st.g.directed bm e0 (st.b e.src) (st.b e.tgt) := by
      rw [hb]; exact hde.to_oriented bm
    have hi : e0.idx = e.idx := hde.1
    rw [← hi] at hpos hew
    obtain ⟨me, hbe, _⟩ := hc.cache e0 h0 (Or.inl hpos)
    obtain ⟨hc1, hnn, hq⟩ := hc.after_dec_step hnd h0 hpos hor hbe
    have ht1 := @Trans.of_dec_step st c bm hnd e0 h0 _ _ me hor
    have hfr := dec_step_frame st (st.b e.src) (st.b e.tgt) me (c e0.idx)
    have hg1 : (st.dec_step (st.b e.src) (st.b e.tgt) me (c e0.idx)).g = st.g := hfr.1
    have hew1 : (st.dec_step (st.b e.src) (st.b e.tgt) me (c e0.idx)).eweight = st.eweight :=
      hfr.2.1
    have hb1 : (st.dec_step (st.b e.src) (st.b e.tgt) me (c e0.idx)).b = bm := by
      rw [hfr.2.2.2.1]; exact hb
    obtain ⟨st', hrun, hc', ht', hs'⟩ := ih (st.dec_step (st.b e.src) (st.b e.tgt) me (c e0.idx))
      (Function.update c e0.idx 0) (by rw [hg1]; exact hnd) hc1 hb1
      (by rw [hg1]; exact hit') hndp.2
      (by
        rw [hew1]
        intro x hx
        have hne : x.idx ≠ e0.idx := by
          intro hxi
          apply hndp.1
          rw [← hi, ← hxi]
          exact List.mem_map.2 ⟨x, hx, rfl⟩
        have := hce x (List.mem_cons_of_mem _ hx)
        simpa [Function.update, hne] using this)
    have hz : zero_on (es.map (fun e => e.idx)) (Function.update c e0.idx 0) =
        zero_on (e.idx :: es.map (fun e => e.idx)) c := by
      rw [← hi]; exact zero_on_cons _ _ _
    rw [hz] at hc' ht'
    refine ⟨st', ?_, ?_, ?_, ?_⟩
    · rw [remove_internal_loop_unfold, ← hi, hbe]
      have hlt : ¬ ((st.add_mrs me (-st.eweight e0.idx)).mrs me < 0) := by
        simp only [add_mrs, Function.update_same]
        rw [← hew]; omega
      simp only [hi] at hlt ⊢
      rw [if_neg hlt]
      have hce0 : st.eweight e.idx = c e0.idx := by rw [hew, hi]
      rw [hce0]
      exact hrun
    · rw [List.map_cons]; exact hc'
    · rw [List.map_cons]; exact ht1.step_trans ht'
    · intro X hX
      exact hs' X (SparseX.sparse_dec_step hc.wf hX _ hq hnn)

end BlockState
theorem eset_mem_iff (eset : List Edge) (e : Edge) :
    eset_mem eset e = true ↔ e.idx ∈ eset.map (fun x => x.idx) := by
  unfold eset_mem
  simp only [List.any_eq_true, decide_eq_true_eq, List.mem_map]

theorem eset_mem_idx (eset : List Edge) (e e' : Edge) (h : e.idx = e'.idx) :
    eset_mem eset e = eset_mem eset e' := by
  unfold eset_mem
  rw [h]

/-- Inserting descriptors that satisfy `P` into a set of edge descriptors: the
members satisfy `P`, their identities stay distinct, nothing is lost, and every
inserted descriptor is found. -/
theorem eset_fold_spec (P : Edge → Prop) (Q : Edge → Bool) :
    ∀ (L eset : List Edge), (∀ d ∈ L, Q d = true → P d) → (∀ e ∈ eset, P e) →
      (eset.map (fun e => e.idx)).Nodup →
      (∀ e ∈ L.foldl (fun eset e => if Q e then eset_insert eset e else eset) eset, P e) ∧
      ((L.foldl (fun eset e => if Q e then eset_insert eset e else eset) eset).map
        (fun e => e.idx)).Nodup ∧
      (∀ x, eset_mem eset x = true →
        eset_mem (L.foldl (fun eset e => if Q e then eset_insert eset e else eset) eset) x
          = true) ∧
      (∀ d ∈ L, Q d = true →
        eset_mem (L.foldl (fun eset e => if Q e then eset_insert eset e else eset) eset) d
          = true) := by
  intro L
  induction L with
  | nil =>
    intro eset _ hP hnd
    exact ⟨hP, hnd, fun _ h => h, fun d hd => by cases hd⟩
  | cons d L ih =>
    intro eset hL hP hnd
    rw [List.foldl_cons]
    have hstep : (∀ e ∈ (if Q d then eset_insert eset d else eset), P e) ∧
        ((if Q d then eset_insert eset d else eset).map (fun e => e.idx)).Nodup ∧
        (∀ x, eset_mem eset x = true →
          eset_mem (if Q d then eset_insert eset d else eset) x = true) ∧
        (Q d = true → eset_mem (if Q d then eset_insert eset d else eset) d = true) := by
      by_cases hq : Q d = true
      · rw [if_pos hq]
        unfold eset_insert
        by_cases hm : eset_mem eset d = true
        · rw [if_pos hm]
          exact ⟨hP, hnd, fun _ h => h, fun _ => hm⟩
        · rw [if_neg hm]
          refine ⟨?_, ?_, ?_, ?_⟩
          · intro e he
            rcases List.mem_append.1 he with h | h
            · exact hP e h
            · rw [List.mem_singleton] at h
              rw [h]; exact hL d (List.mem_cons_self _ _) hq
          · rw [List.map_append, List.nodup_append]
            refine ⟨hnd, by simp, ?_⟩
            intro i hi hi'
            simp only [List.map_cons, List.map_nil, List.mem_singleton] at hi'
            rw [hi'] at hi
            exact hm ((eset_mem_iff eset d).2 hi)
          · intro x hx
            rw [eset_mem_iff] at hx ⊢
            rw [List.map_append]
            exact List.mem_append_left _ hx
          · intro _
            rw [eset_mem_iff, List.map_append]
            exact List.mem_append_right _ (by simp)
      · rw [if_neg hq]
        exact ⟨hP, hnd, fun _ h => h, fun h => absurd h hq⟩
    obtain ⟨h1, h2, h3, h4⟩ := hstep
    obtain ⟨i1, i2, i3, i4⟩ := ih _ (fun x hx => hL x (List.mem_cons_of_mem _ hx)) h1 h2
    refine ⟨i1, i2, fun x hx => i3 x (h3 x hx), ?_⟩
    intro x hx hq
    rcases List.mem_cons.1 hx with rfl | hx'
    · exact i3 _ (h4 hq)
    · exact i4 x hx' hq

/-- The descriptors listed at a vertex of the set whose far end is in the set
have both end points in the set and denote an edge of the graph. -/
theorem seen_from_items (g : Graph) (vset : List Nat) (v : Nat) (hv : v ∈ vset) :
    ∀ d ∈ all_edges_range g v, decide (seen_from v d ∈ vset) = true →
      d.src ∈ vset ∧ d.tgt ∈ vset ∧ ∃ e0 ∈ g.edges, BlockState.descr g.directed d e0 := by
  intro d hd hq
  simp only [decide_eq_true_eq] at hq
  unfold all_edges_range at hd
  unfold seen_from at hq
  rcases List.mem_append.1 hd with h | h
  · obtain ⟨hs, e0, h0, hde⟩ := BlockState.out_items g v d h
    rw [if_pos hs] at hq
    exact ⟨by rw [hs]; exact hv, hq, e0, h0, hde⟩
  · obtain ⟨ht, e0, h0, hde⟩ := BlockState.in_items g v d h
    refine ⟨?_, by rw [ht]; exact hv, e0, h0, hde⟩
    by_cases hs : d.src = v
    · rw [hs]; exact hv
    · rw [if_neg hs] at hq; exact hq

/-- The set of edges built by the first loop of `remove_vertices` and of
`add_vertices`: its members are descriptors of edges of the graph with both end
points in the vertex set, their identities are distinct, and every edge of the
graph with both end points in the vertex set is a member. -/
theorem internal_edges_spec (g : Graph) (vset : List Nat) :
    (∀ e ∈ internal_edges g vset,
      e.src ∈ vset ∧ e.tgt ∈ vset ∧ ∃ e0 ∈ g.edges, BlockState.descr g.directed e e0) ∧
    ((internal_edges g vset).map (fun e => e.idx)).Nodup ∧
    (∀ e0 ∈ g.edges, e0.src ∈ vset → e0.tgt ∈ vset →
      eset_mem (internal_edges g vset) e0 = true) := by
  have key : ∀ (ws : List Nat) (acc : List Edge),
      (∀ v ∈ ws, v ∈ vset) →
      (∀ e ∈ acc, e.src ∈ vset ∧ e.tgt ∈ vset ∧
        ∃ e0 ∈ g.edges, BlockState.descr g.directed e e0) →
      (acc.map (fun e => e.idx)).Nodup →
      (∀ e ∈ ws.foldl (fun eset v => (all_edges_range g v).foldl (fun eset e =>
          if seen_from v e ∈ vset then eset_insert eset e else eset) eset) acc,
        e.src ∈ vset ∧ e.tgt ∈ vset ∧ ∃ e0 ∈ g.edges, BlockState.descr g.directed e e0) ∧
      ((ws.foldl (fun eset v => (all_edges_range g v).foldl (fun eset e =>
          if seen_from v e ∈ vset then eset_insert eset e else eset) eset) acc).map
        (fun e => e.idx)).Nodup ∧
      (∀ x, eset_mem acc x = true →
        eset_mem (ws.foldl (fun eset v => (all_edges_range g v).foldl (fun eset e =>
          if seen_from v e ∈ vset then eset_insert eset e else eset) eset) acc) x = true) ∧
      (∀ v ∈ ws, ∀ d ∈ all_edges_range g v, seen_from v d ∈ vset →
        eset_mem (ws.foldl (fun eset v => (all_edges_range g v).foldl (fun eset e =>
          if seen_from v e ∈ vset then eset_insert eset e else eset) eset) acc) d = true) := by
    intro ws
    induction ws with
    | nil =>
      intro acc _ hP hnd
      exact ⟨hP, hnd, fun _ h => h, fun v hv => by cases hv⟩
    | cons v ws ih =>
      intro acc hws hP hnd
      rw [List.foldl_cons]
      have hin := eset_fold_spec
        (fun e => e.src ∈ vset ∧ e.tgt ∈ vset ∧
          ∃ e0 ∈ g.edges, BlockState.descr g.directed e e0)
        (fun e => decide (seen_from v e ∈ vset)) (all_edges_range g v) acc
        (seen_from_items g vset v (hws v (List.mem_cons_self _ _))) hP hnd
      simp only [decide_eq_true_eq] at hin
      obtain ⟨h1, h2, h3, h4⟩ := hin
      obtain ⟨i1, i2, i3, i4⟩ := ih _ (fun x hx => hws x (List.mem_cons_of_mem _ hx)) h1 h2
      refine ⟨i1, i2, fun x hx => i3 x (h3 x hx), ?_⟩
      intro x hx d hd hq
      rcases List.mem_cons.1 hx with rfl | hx'
      · exact i3 _ (h4 d hd hq)
      · exact i4 x hx' d hd hq
  obtain ⟨k1, k2, _, k4⟩ := key vset [] (fun _ h => h)
    (fun e he => by cases he) (by simp)
  refine ⟨k1, k2, ?_⟩
  intro e0 h0 hs ht
  apply k4 e0.src hs e0
  · unfold all_edges_range out_edges_range
    apply List.mem_append_left
    cases g.directed
    · simp only [Bool.false_eq_true, if_false, List.mem_append, List.mem_filter,
        decide_eq_true_eq]
      exact Or.inl ⟨h0, trivial⟩
    · simp only [if_true, List.mem_filter, decide_eq_true_eq]
      exact ⟨h0, trivial⟩
  · unfold seen_from
    rw [if_pos rfl]
    exact ht
namespace BlockState

theorem wr_without_nil (st : BlockState) : st.wr_without [] = st.wr := by
  funext r
  simp [wr_without]

theorem wr_without_cons (st st1 : BlockState) (v : Nat) (ws : List Nat)
    (hb : st1.b = st.b) (hvw : st1.vweight = st.vweight)
    (hwr : st1.wr = Function.update st.wr (st.b v) (st.wr (st.b v) - st.vweight v)) :
    st1.wr_without ws = st.wr_without (v :: ws) := by
  funext r
  unfold wr_without
  rw [hb, hvw, hwr, List.map_cons, List.sum_cons]
  by_cases h : st.b v = r
  · rw [← h, Function.update_same, if_pos rfl]; ring
  · rw [Function.update_noteq (fun h' => h h'.symm), if_neg h]; ring

theorem wr_without_perm (st : BlockState) {ws ws' : List Nat} (h : ws.Perm ws') :
    st.wr_without ws = st.wr_without ws' := by
  funext r
  unfold wr_without
  rw [(h.map _).sum_eq]

/-- The first loop of `remove_vertices` over distinct vertices of the vertex
set, with the filter that excludes exactly the edges with both end points in
the set: it returns normally and the edges with exactly one end point among
the visited vertices are no longer counted. -/
theorem remove_filt_loop_spec (efilt : Edge → Bool)
    (hF : ∀ e e' : Edge, e.idx = e'.idx → efilt e = efilt e') (vset : List Nat)
    (bs : Nat → Nat → Int) :
    ∀ (ws : List Nat) (st : BlockState) (c : Nat → Int),
      (st.g.edges.map (fun e => e.idx)).Nodup →
      Counted st c st.b bs (fun _ => False) →
      ws.Nodup → (∀ v ∈ ws, v ∈ vset) →
      (∀ e ∈ st.g.edges, efilt e = true ↔ (e.src ∈ vset ∧ e.tgt ∈ vset)) →
      (∀ e ∈ st.g.edges, (∃ v ∈ ws, incident v e = true) → efilt e = false →
        0 < c e.idx ∧ c e.idx = st.eweight e.idx) →
      ∃ st', remove_filt_loop efilt ws st = .ok st' ∧
        Counted st' (zero_edges st.g.edges
          (fun e => ws.any (fun v => incident v e) && !efilt e) c) st.b bs (fun _ => False) ∧
        (∀ bp bq, DegCounted st c st.b bp bq →
          DegCounted st' (zero_edges st.g.edges
            (fun e => ws.any (fun v => incident v e) && !efilt e) c) st.b bp bq) ∧
        (∀ X, SparseX st X → SparseX st' X) ∧
        same_params st st' ∧ st'.b = st.b ∧ st'.wr = st.wr_without ws := by
  intro ws
  induction ws with
  | nil =>
    intro st c hnd hc _ _ _ _
    have hz : ∀ e ∈ st.g.edges, zero_edges st.g.edges
        (fun e => ([] : List Nat).any (fun v => incident v e) && !efilt e) c e.idx = c e.idx := by
      intro e he
      rw [zero_edges_apply hnd _ _ he]
      simp
    refine ⟨st, rfl, hc.counted_congr hz, fun bp bq hd => hd.deg_congr hz, fun _ h => h,
      same_params.params_refl st, rfl, (wr_without_nil st).symm⟩
  | cons v ws ih =>
    intro st c hnd hc hws hsub hEF hcv
    rw [List.nodup_cons] at hws
    have hv : v ∈ vset := hsub v (List.mem_cons_self _ _)
    obtain ⟨st1, hrun1, hc1, hd1, hs1, hp1, hb1, hwr1⟩ :=
      remove_vertex_filt_spec v efilt hF hnd hc
        (by
          intro e he hs
          simp only [is_self, Bool.and_eq_true, decide_eq_true_eq] at hs
          exact (hEF e he).2 ⟨by rw [hs.1]; exact hv, by rw [hs.2]; exact hv⟩)
        (fun e he hi hf => hcv e he ⟨v, List.mem_cons_self _ _, hi⟩ hf)
    have hg1 : st1.g = st.g := hp1.1
    have hew1 : st1.eweight = st.eweight := hp1.2.1
    have hvw1 : st1.vweight = st.vweight := hp1.2.2.1
    rw [← hb1] at hc1
    obtain ⟨st', hrun, hc', hd', hs', hp', hb', hwr'⟩ := ih st1 _
      (by rw [hg1]; exact hnd) hc1 hws.2 (fun x hx => hsub x (List.mem_cons_of_mem _ hx))
      (by rw [hg1]; exact hEF)
      (by
        rw [hg1, hew1]
        intro e he ⟨v', hv', hi'⟩ hf
        rw [zero_edges_apply hnd _ _ he]
        have hnv : incident v e = false := by
          cases hiv : incident v e
          · rfl
          · exfalso
            have hvv : v ≠ v' := fun h => hws.1 (h ▸ hv')
            have hv'set : v' ∈ vset := hsub v' (List.mem_cons_of_mem _ hv')
            have hboth : e.src ∈ vset ∧ e.tgt ∈ vset := by
              simp only [incident, Bool.or_eq_true, decide_eq_true_eq] at hiv hi'
              rcases hiv with h1 | h1 <;> rcases hi' with h2 | h2
              · exact absurd (h1.symm.trans h2) hvv
              · exact ⟨by rw [h1]; exact hv, by rw [h2]; exact hv'set⟩
              · exact ⟨by rw [h2]; exact hv'set, by rw [h1]; exact hv⟩
              · exact absurd (h1.symm.trans h2) hvv
            rw [(hEF e he).2 hboth] at hf
            cases hf
        rw [hnv]
        simp only [Bool.false_and, Bool.false_eq_true, if_false]
        exact hcv e he ⟨v', List.mem_cons_of_mem _ hv', hi'⟩ hf)
    have hz : ∀ e ∈ st.g.edges,
        zero_edges st.g.edges (fun e => (v :: ws).any (fun v => incident v e) && !efilt e) c
          e.idx =
        zero_edges st.g.edges (fun e => ws.any (fun v => incident v e) && !efilt e)
          (zero_edges st.g.edges (fun e => incident v e && !efilt e) c) e.idx := by
      intro e he
      rw [zero_edges_apply hnd _ _ he, zero_edges_apply hnd _ _ he,
        zero_edges_apply hnd _ _ he, List.any_cons]
      cases incident v e <;> cases ws.any (fun v => incident v e) <;> cases efilt e <;> rfl
    rw [hg1, hb1] at hc' hd'
    refine ⟨st', ?_, ?_, ?_, ?_, hp1.params_trans hp', by rw [hb', hb1], ?_⟩
    · rw [remove_filt_loop, hrun1]
      exact hrun
    · exact hc'.counted_congr (by rw [hp'.1, hg1]; exact hz)
    · intro bp bq hd
      exact (hd' bp bq (hd1 bp bq hd)).deg_congr (by rw [hp'.1, hg1]; exact hz)
    · intro X hX
      exact hs' X (hs1 X hX)
    · rw [hwr', wr_without_cons st st1 v ws hb1 hvw1 hwr1]

end BlockState
namespace BlockState

theorem internal_filter_iff (g : Graph) (vset : List Nat)
    (hnd : (g.edges.map (fun e => e.idx)).Nodup) :
    ∀ e ∈ g.edges, eset_mem (internal_edges g vset) e = true ↔
      (e.src ∈ vset ∧ e.tgt ∈ vset) := by
  intro e he
  obtain ⟨h1, _, h3⟩ := internal_edges_spec g vset
  constructor
  · intro hm
    obtain ⟨x, hx, hxi⟩ := List.mem_map.1 ((eset_mem_iff _ _).1 hm)
    obtain ⟨hs, ht, e0, h0, hde⟩ := h1 x hx
    have he0 : e0 = e := eq_of_idx_eq hnd h0 he (hde.1.trans hxi)
    subst he0
    rcases hde.2 with ⟨a, b⟩ | ⟨_, a, b⟩
    · exact ⟨a ▸ hs, b ▸ ht⟩
    · exact ⟨b ▸ ht, a ▸ hs⟩
  · intro ⟨hs, ht⟩
    exact h3 e he hs ht

theorem any_incident_iff (vs : List Nat) (e : Edge) :
    vs.any (fun v => incident v e) = true ↔ (e.src ∈ vs ∨ e.tgt ∈ vs) := by
  simp only [List.any_eq_true, incident, Bool.or_eq_true, decide_eq_true_eq]
  constructor
  · rintro ⟨v, hv, h | h⟩
    · exact Or.inl (h ▸ hv)
    · exact Or.inr (h ▸ hv)
  · rintro (h | h)
    · exact ⟨e.src, h, Or.inl rfl⟩
    · exact ⟨e.tgt, h, Or.inr rfl⟩

theorem any_incident_congr {vs ws : List Nat} (h : ∀ v, v ∈ vs ↔ v ∈ ws) (e : Edge) :
    vs.any (fun v => incident v e) = ws.any (fun v => incident v e) := by
  rw [Bool.eq_iff_iff, any_incident_iff, any_incident_iff, h, h]

/-- `remove_vertices(vs)` in a consistent state returns normally; afterwards
exactly the edges with no end point in `vs` are accounted for, and the block
weights have lost the weight of every vertex of `vs` once. -/
theorem remove_vertices_spec {st : BlockState} (h : Consistent st) (vs : List Nat) :
    ∃ st', st.remove_vertices vs = .ok st' ∧
      Counted st' (zero_edges st.g.edges (fun e => vs.any (fun v => incident v e)) st.eweight)
        st.b (fun _ _ => 0) (fun _ => False) ∧
      (∀ bp bq, DegCounted st st.eweight st.b bp bq →
        DegCounted st' (zero_edges st.g.edges (fun e => vs.any (fun v => incident v e))
          st.eweight) st.b bp bq) ∧
      (∀ X, SparseX st X → SparseX st' X) ∧
      same_params st st' ∧ st'.b = st.b ∧ st'.wr = st.wr_without vs.dedup := by
  have hnd := h.edges_nodup
  have hEF := internal_filter_iff st.g vs.dedup hnd
  obtain ⟨hI1, hI2, _⟩ := internal_edges_spec st.g vs.dedup
  obtain ⟨st1, hrun1, hc1, hd1, hs1, hp1, hb1, hwr1⟩ :=
    remove_filt_loop_spec (eset_mem (internal_edges st.g vs.dedup))
      (fun e e' he => eset_mem_idx _ e e' he) vs.dedup (fun _ _ => 0) vs.dedup st st.eweight
      hnd h.counted (List.nodup_dedup vs) (fun v hv => hv) hEF
      (fun e he _ _ => ⟨h.weights_pos e he, rfl⟩)
  have hg1 : st1.g = st.g := hp1.1
  have hew1 : st1.eweight = st.eweight := hp1.2.1
  obtain ⟨st2, hrun2, hc2, ht2, hs2⟩ :=
    remove_internal_loop_spec st.b (fun _ _ => 0) (internal_edges st.g vs.dedup) st1 _
      (by rw [hg1]; exact hnd) hc1 hb1
      (by
        rw [hg1]
        intro e he
        exact (hI1 e he).2.2)
      hI2
      (by
        intro e he
        obtain ⟨hs, ht, e0, h0, hde⟩ := hI1 e he
        have hf : eset_mem (internal_edges st.g vs.dedup) e0 = true := by
          rw [eset_mem_idx _ e0 e hde.1]
          exact (eset_mem_iff _ _).2 (List.mem_map.2 ⟨e, he, rfl⟩)
        rw [← hde.1, zero_edges_apply hnd _ _ h0, hf, hew1]
        simp only [Bool.not_true, Bool.and_false, Bool.false_eq_true, if_false]
        exact ⟨h.weights_pos e0 h0, trivial⟩)
  have hz : ∀ e ∈ st.g.edges,
      zero_edges st.g.edges (fun e => vs.any (fun v => incident v e)) st.eweight e.idx =
      zero_on ((internal_edges st.g vs.dedup).map (fun e => e.idx))
        (zero_edges st.g.edges (fun e => vs.dedup.any (fun v => incident v e) &&
          !eset_mem (internal_edges st.g vs.dedup) e) st.eweight) e.idx := by
    intro e he
    rw [zero_edges_apply hnd _ _ he]
    unfold zero_on
    rw [zero_edges_apply hnd _ _ he,
      any_incident_congr (fun v => (List.mem_dedup (a := v) (l := vs)).symm) e]
    by_cases hm : e.idx ∈ (internal_edges st.g vs.dedup).map (fun e => e.idx)
    · have hf := (eset_mem_iff _ e).2 hm
      have hboth := (hEF e he).1 hf
      have hany : vs.dedup.any (fun v => incident v e) = true :=
        (any_incident_iff _ e).2 (Or.inl hboth.1)
      rw [if_pos hm, hany, if_pos rfl]
    · have hf : eset_mem (internal_edges st.g vs.dedup) e = false := by
        cases hq : eset_mem (internal_edges st.g vs.dedup) e
        · rfl
        · exact absurd ((eset_mem_iff _ e).1 hq) hm
      rw [if_neg hm, hf]
      simp only [Bool.not_false, Bool.and_true]
  have hfr := ht2.frame
  have hp2 : same_params st1 st2 := hfr.params
  have hg2 : st2.g = st.g := hp2.1.trans hg1
  refine ⟨st2, ?_, ?_, ?_, fun X hX => hs2 X (hs1 X hX), hp1.params_trans hp2, ?_, ?_⟩
  · unfold remove_vertices
    simp only [hrun1]
    exact hrun2
  · exact hc2.counted_congr (by rw [hg2]; exact hz)
  · intro bp bq hd
    exact (ht2.deg bp bq (hd1 bp bq hd)).deg_congr (by rw [hg2]; exact hz)
  · rw [hfr.2.2.2.1, hb1]
  · rw [hfr.2.2.2.2.1, hwr1]

end BlockState
namespace BlockState

/-- The calls `remove_vertex(v)` for distinct, pairwise non-adjacent vertices,
one after another: they return normally and the edges incident to the visited
vertices are no longer counted. -/
theorem remove_each_spec (bs : Nat → Nat → Int) :
    ∀ (L : List Nat) (st : BlockState) (c : Nat → Int),
      (st.g.edges.map (fun e => e.idx)).Nodup →
      Counted st c st.b bs (fun _ => False) →
      L.Nodup →
      (∀ e ∈ st.g.edges, e.src ∈ L → e.tgt ∈ L → e.src = e.tgt) →
      (∀ e ∈ st.g.edges, (∃ v ∈ L, incident v e = true) →
        0 < c e.idx ∧ c e.idx = st.eweight e.idx) →
      ∃ st', remove_each L st = .ok st' ∧
        Counted st' (zero_edges st.g.edges (fun e => L.any (fun v => incident v e)) c)
          st.b bs (fun _ => False) ∧
        (∀ bp bq, DegCounted st c st.b bp bq →
          DegCounted st' (zero_edges st.g.edges (fun e => L.any (fun v => incident v e)) c)
            st.b bp bq) ∧
        (∀ X, SparseX st X → SparseX st' X) ∧
        same_params st st' ∧ st'.b = st.b ∧ st'.wr = st.wr_without L := by
  intro L
  induction L with
  | nil =>
    intro st c hnd hc _ _ _
    have hz : ∀ e ∈ st.g.edges, zero_edges st.g.edges
        (fun e => ([] : List Nat).any (fun v => incident v e)) c e.idx = c e.idx := by
      intro e he
      rw [zero_edges_apply hnd _ _ he]
      simp
    refine ⟨st, rfl, hc.counted_congr hz, fun bp bq hd => hd.deg_congr hz, fun _ h => h,
      same_params.params_refl st, rfl, (wr_without_nil st).symm⟩
  | cons v L ih =>
    intro st c hnd hc hL hind hcv
    rw [List.nodup_cons] at hL
    obtain ⟨st1, hrun1, hc1, hd1, hs1, hp1, hb1, hwr1⟩ :=
      remove_vertex_spec v hnd hc
        (fun e he hi => hcv e he ⟨v, List.mem_cons_self _ _, hi⟩)
    have hg1 : st1.g = st.g := hp1.1
    have hew1 : st1.eweight = st.eweight := hp1.2.1
    have hvw1 : st1.vweight = st.vweight := hp1.2.2.1
    rw [← hb1] at hc1
    obtain ⟨st', hrun, hc', hd', hs', hp', hb', hwr'⟩ := ih st1 _
      (by rw [hg1]; exact hnd) hc1 hL.2
      (by
        rw [hg1]
        intro e he h1 h2
        exact hind e he (List.mem_cons_of_mem _ h1) (List.mem_cons_of_mem _ h2))
      (by
        rw [hg1, hew1]
        intro e he ⟨v', hv', hi'⟩
        rw [zero_edges_apply hnd _ _ he]
        have hnv : incident v e = false := by
          cases hiv : incident v e
          · rfl
          · exfalso
            have hvv : v ≠ v' := fun h => hL.1 (h ▸ hv')
            have hm : v ∈ v :: L := List.mem_cons_self _ _
            have hm' : v' ∈ v :: L := List.mem_cons_of_mem _ hv'
            simp only [incident, Bool.or_eq_true, decide_eq_true_eq] at hiv hi'
            rcases hiv with h1 | h1 <;> rcases hi' with h2 | h2
            · exact hvv (h1.symm.trans h2)
            · exact hvv (h1.symm.trans ((hind e he (h1 ▸ hm) (h2 ▸ hm')).trans h2))
            · exact hvv (h1.symm.trans ((hind e he (h2 ▸ hm') (h1 ▸ hm)).symm.trans h2))
            · exact hvv (h1.symm.trans h2)
        rw [hnv]
        simp only [Bool.false_eq_true, if_false]
        exact hcv e he ⟨v', List.mem_cons_of_mem _ hv', hi'⟩)
    have hz : ∀ e ∈ st.g.edges,
        zero_edges st.g.edges (fun e => (v :: L).any (fun v => incident v e)) c e.idx =
        zero_edges st.g.edges (fun e => L.any (fun v => incident v e))
          (zero_edges st.g.edges (incident v) c) e.idx := by
      intro e he
      rw [zero_edges_apply hnd _ _ he, zero_edges_apply hnd _ _ he,
        zero_edges_apply hnd _ _ he, List.any_cons]
      cases incident v e <;> cases L.any (fun v => incident v e) <;> rfl
    rw [hg1, hb1] at hc' hd'
    refine ⟨st', ?_, ?_, ?_, ?_, hp1.params_trans hp', by rw [hb', hb1], ?_⟩
    · rw [remove_each, hrun1]
      exact hrun
    · exact hc'.counted_congr (by rw [hp'.1, hg1]; exact hz)
    · intro bp bq hd
      exact (hd' bp bq (hd1 bp bq hd)).deg_congr (by rw [hp'.1, hg1]; exact hz)
    · intro X hX
      exact hs' X (hs1 X hX)
    · rw [hwr', wr_without_cons st st1 v L hb1 hvw1 hwr1]

theorem pair_weight_congr {directed : Bool} {c d : Nat → Int} {bm : Nat → Nat}
    {es : List Edge} (h : ∀ e ∈ es, c e.idx = d e.idx) (r s : Nat) :
    pair_weight directed c bm es r s = pair_weight directed d bm es r s :=
  wsum_congr (fun e he _ => h e he)

theorem out_weight_congr {directed : Bool} {c d : Nat → Int} {bm : Nat → Nat}
    {es : List Edge} (h : ∀ e ∈ es, c e.idx = d e.idx) (r : Nat) :
    out_weight directed c bm es r = out_weight directed d bm es r := by
  unfold out_weight
  rw [wsum_congr (fun e he _ => h e he),
    @wsum_congr (fun e => decide (bm e.tgt = r)) c d es (fun e he _ => h e he)]

theorem in_weight_congr {directed : Bool} {c d : Nat → Int} {bm : Nat → Nat}
    {es : List Edge} (h : ∀ e ∈ es, c e.idx = d e.idx) (r : Nat) :
    in_weight directed c bm es r = in_weight directed d bm es r := by
  unfold in_weight
  rw [wsum_congr (fun e he _ => h e he),
    @wsum_congr (fun e => decide (bm e.src = r)) c d es (fun e he _ => h e he)]

end BlockState
namespace BlockState

/-- C19 fails as stated: in the consistent state `ex_pair` the vertices 0 and 1
are joined by the edge `0 → 1`.  `remove_vertices([0, 1])` takes that edge off
the aggregates once and returns with `mrp[0] = 0`, `mrm[1] = 0` and the count
0 on the aggregate edge; the calls `remove_vertex(0); remove_vertex(1)` take
it off twice and return with `mrp[0] = -1`, `mrm[1] = -1` and the count -1; and
the calls `remove_vertex(1); remove_vertex(0)` fail an assertion. -/
theorem remove_vertices_adjacent_differs :
    Consistent ex_pair ∧ ex_pair.mrm_is_mrp = !ex_pair.g.directed ∧
      ∃ s1 s2, ex_pair.remove_vertices [0, 1] = .ok s1 ∧
        remove_each [0, 1] ex_pair = .ok s2 ∧
        s1.mrp 0 = 0 ∧ s2.mrp 0 = -1 ∧ s1.get_mrm 1 = 0 ∧ s2.get_mrm 1 = -1 ∧
        s1.mrs 0 = 0 ∧ s2.mrs 0 = -1 ∧
        ∃ x, remove_each [1, 0] ex_pair = .error (Err.assertion, x) := by
  refine ⟨ex_pair_consistent, rfl, state_of (ex_pair.remove_vertices [0, 1]) ex_pair,
    state_of (remove_each [0, 1] ex_pair) ex_pair, rfl, rfl, ?_, ?_, ?_, ?_, ?_, ?_, ?_⟩
  · decide
  · decide
  · decide
  · decide
  · decide
  · decide
  · exact ⟨_, rfl⟩

/-- C19 (amended): in a consistent state in which `mrm` is the map `mrp`
exactly on undirected graphs, and for a vertex list `vs` no two distinct
members of which are joined by an edge, `remove_vertices(vs)` returns normally,
and so do the calls `remove_vertex(v)`, one for each vertex of `vs`, in every
order; the aggregate edge count of every block pair, `mrp`, `mrm`, `wr` and the
partition are the same after the batch as after the sequence. -/
theorem remove_vertices_eq_sequential {st : BlockState} (h : Consistent st)
    (hsh : st.mrm_is_mrp = !st.g.directed) (vs : List Nat)
    (hind : ∀ e ∈ st.g.edges, e.src ∈ vs → e.tgt ∈ vs → e.src = e.tgt) :
    ∃ s1, st.remove_vertices vs = .ok s1 ∧
      ∀ L : List Nat, L.Perm vs.dedup →
        ∃ s2, remove_each L st = .ok s2 ∧
          (∀ r s, s1.get_mrs r s = s2.get_mrs r s) ∧ s1.mrp = s2.mrp ∧
          (∀ r, s1.get_mrm r = s2.get_mrm r) ∧ s1.wr = s2.wr ∧ s1.b = s2.b := by
  have hnd := h.edges_nodup
  obtain ⟨s1, hrun1, hc1, hd1, _, hp1, hb1, hwr1⟩ := remove_vertices_spec h vs
  refine ⟨s1, hrun1, ?_⟩
  intro L hL
  have hmem : ∀ v, v ∈ L ↔ v ∈ vs := fun v => (hL.mem_iff).trans List.mem_dedup
  obtain ⟨s2, hrun2, hc2, hd2, _, hp2, hb2, hwr2⟩ :=
    remove_each_spec (fun _ _ => 0) L st st.eweight hnd h.counted
      (hL.nodup_iff.2 (List.nodup_dedup vs))
      (fun e he h1 h2 => hind e he ((hmem _).1 h1) ((hmem _).1 h2))
      (fun e he _ => ⟨h.weights_pos e he, rfl⟩)
  have hz : ∀ e ∈ st.g.edges,
      zero_edges st.g.edges (fun e => vs.any (fun v => incident v e)) st.eweight e.idx =
      zero_edges st.g.edges (fun e => L.any (fun v => incident v e)) st.eweight e.idx := by
    intro e he
    rw [zero_edges_apply hnd _ _ he, zero_edges_apply hnd _ _ he,
      any_incident_congr (fun v => (hmem v).symm) e]
  have hd0 : DegCounted st st.eweight st.b
      (fun x => st.mrp x - out_weight st.g.directed st.eweight st.b st.g.edges x)
      (fun x => st.get_mrm x - in_weight st.g.directed st.eweight st.b st.g.edges x) :=
    ⟨hsh, fun x => by ring, fun x => by ring⟩
  have hg1 : s1.g = st.g := hp1.1
  have hg2 : s2.g = st.g := hp2.1
  have e1 := hd1 _ _ hd0
  have e2 := hd2 _ _ hd0
  refine ⟨s2, hrun2, ?_, ?_, ?_, ?_, ?_⟩
  · intro r s
    rw [hc1.mrs_eq r s, hc2.mrs_eq r s, hg1, hg2, pair_weight_congr hz r s]
  · funext x
    rw [e1.mrp_eq x, e2.mrp_eq x, hg1, hg2, out_weight_congr hz x]
  · intro x
    rw [e1.mrm_eq x, e2.mrm_eq x, hg1, hg2, in_weight_congr hz x]
  · rw [hwr1, hwr2, wr_without_perm st hL]
  · rw [hb1, hb2]

theorem remove_vertices_eq_sequential_witness :
    Consistent ex_ring ∧ ex_ring.mrm_is_mrp = !ex_ring.g.directed ∧
      (∀ e ∈ ex_ring.g.edges, e.src ∈ [1, 3] → e.tgt ∈ [1, 3] → e.src = e.tgt) ∧
      ∃ s1, ex_ring.remove_vertices [1, 3] = .ok s1 ∧
        ∀ L : List Nat, L.Perm ([1, 3] : List Nat).dedup →
          ∃ s2, remove_each L ex_ring = .ok s2 ∧
            (∀ r s, s1.get_mrs r s = s2.get_mrs r s) ∧ s1.mrp = s2.mrp ∧
            (∀ r, s1.get_mrm r = s2.get_mrm r) ∧ s1.wr = s2.wr ∧ s1.b = s2.b :=
  ⟨ex_ring_consistent, rfl, by decide,
    remove_vertices_eq_sequential ex_ring_consistent rfl [1, 3] (by decide)⟩

end BlockState

namespace BlockState

/-! ## Batch insertion -/

/-- A loop of `add_vertex` with an edge filter is the loop without filter over
the descriptors that the filter lets through. -/
theorem add_out_loop_push (v r : Nat) (efilt : Edge → Bool) :
    ∀ (es : List Edge) (st : BlockState) (sw : Int),
      add_out_loop v r efilt es st sw =
        add_out_loop v r (fun _ => false) (es.filter (fun e => !efilt e)) st sw := by
  intro es
  induction es with
  | nil => intro st sw; rfl
  | cons e es ih =>
    intro st sw
    rw [add_out_loop_unfold]
    by_cases hf : efilt e = true
    · rw [if_pos hf, List.filter_cons_of_neg (by simp [hf])]
      exact ih st sw
    · rw [if_neg hf, List.filter_cons_of_pos (by simpa using hf)]
      have hR := add_out_loop_unfold v r (fun _ => false) e
        (es.filter (fun e => !efilt e)) st sw
      simp only [Bool.false_eq_true, if_false] at hR
      rw [hR]
      split_ifs <;> first | rfl | exact ih _ _

theorem add_in_loop_push (v r : Nat) (efilt : Edge → Bool) :
    ∀ (es : List Edge) (st : BlockState),
      add_in_loop v r efilt es st =
        add_in_loop v r (fun _ => false) (es.filter (fun e => !efilt e)) st := by
  intro es
  induction es with
  | nil => intro st; rfl
  | cons e es ih =>
    intro st
    rw [add_in_loop_unfold]
    by_cases hf : efilt e = true
    · rw [if_pos hf, List.filter_cons_of_neg (by simp [hf])]
      exact ih st
    · rw [if_neg hf, List.filter_cons_of_pos (by simpa using hf)]
      have hR := add_in_loop_unfold v r (fun _ => false) e
        (es.filter (fun e => !efilt e)) st
      simp only [Bool.false_eq_true, if_false] at hR
      rw [hR]
      split_ifs <;> first | rfl | exact ih _

/-- `add_vertex(v, r, bedge, efilt)` with a filter that decides by the identity
of the edge and excludes the self-loops of `v`, in a state where the counting
invariant holds relative to the partition that puts `v` into `r` and the edges
incident to `v` that the filter lets through are not counted and have positive
weight: it returns normally, those edges are counted with their weight, `b[v]`
becomes `r` and only `wr[r]` changes among the block weights. -/
theorem add_vertex_filt_spec {st : BlockState} {c : Nat → Int} {bs : Nat → Nat → Int}
    (v r : Nat) (efilt : Edge → Bool)
    (hF : ∀ e e' : Edge, e.idx = e'.idx → efilt e = efilt e')
    (hnd : (st.g.edges.map (fun e => e.idx)).Nodup)
    (hc : Counted st c (Function.update st.b v r) bs (fun _ => False))
    (hself : ∀ e ∈ st.g.edges, is_self v e = true → efilt e = true)
    (hcv : ∀ e ∈ st.g.edges, incident v e = true → efilt e = false →
      c e.idx = 0 ∧ 0 < st.eweight e.idx) :
    ∃ st', st.add_vertex_filt v r efilt = .ok st' ∧
      Counted st' (set_edges st.eweight st.g.edges (fun e => incident v e && !efilt e) c)
        (Function.update st.b v r) bs (fun _ => False) ∧
      (∀ bp bq, DegCounted st c (Function.update st.b v r) bp bq →
        DegCounted st' (set_edges st.eweight st.g.edges (fun e => incident v e && !efilt e) c)
          (Function.update st.b v r) bp bq) ∧
      (∀ X, SparseX st X → SparseX st' X) ∧
      same_params st st' ∧ st'.b = Function.update st.b v r ∧
      st'.wr = Function.update st.wr r (st.wr r + st.vweight v) := by
  have hinc : ∀ e, incident v e = (ph_out st.g.directed v e || ph_self st.g.directed v e ||
      ph_in st.g.directed v e) := incident_split st.g.directed v
  have hselfF : ∀ e ∈ st.g.edges, ph_self st.g.directed v e = true → efilt e = true := by
    intro e he hp
    apply hself e he
    simp only [ph_self, Bool.and_eq_true] at hp
    exact hp.2
  have hbv : Function.update st.b v r v = r := by simp
  have hbu : ∀ u, u ≠ v → st.b u = Function.update st.b v r u := by
    intro u hu; simp [Function.update, hu]
  have hfilt0 : ∀ {e e0 : Edge}, e0.idx = e.idx → (!efilt e) = true → efilt e0 = false := by
    intro e e0 hi hf
    rw [hF e0 e hi]; simpa using hf
  -- first loop
  obtain ⟨st1, hrun1, hc1, ht1, hs1⟩ := add_out_loop_spec v r (Function.update st.b v r) bs hbv
    ((out_edges_range st.g v).filter (fun e => !efilt e)) st c 0 (fun _ => False) hnd hc hbu
    (fun e he => out_items st.g v e (List.mem_of_mem_filter he))
    (nodup_filtered_idx efilt _ _ (out_proc_nodup hnd v))
    (by
      intro e he hp
      rw [List.mem_filter] at he
      obtain ⟨hsrc, e0, h0, hde⟩ := out_items st.g v e he.1
      rw [← hde.1]
      exact (hcv e0 h0 (out_items_incident st.g v hsrc hde) (hfilt0 hde.1 he.2)).1)
    (by
      intro e he
      rw [List.mem_filter] at he
      obtain ⟨hsrc, e0, h0, hde⟩ := out_items st.g v e he.1
      rw [← hde.1]
      exact (hcv e0 h0 (out_items_incident st.g v hsrc hde) (hfilt0 hde.1 he.2)).2)
  have hg1 : st1.g = st.g := ht1.frame.1
  have hew1 : st1.eweight = st.eweight := ht1.frame.2.1
  have hb1 : st1.b = st.b := ht1.frame.2.2.2.1
  -- no self-loop descriptor passes the filter
  have hnil : ((out_edges_range st.g v).filter (fun e => !efilt e)).filter
      (fun e => !out_proc st.g.directed v e) = [] := by
    rw [List.filter_eq_nil_iff]
    intro e he hp
    rw [List.mem_filter] at he
    obtain ⟨hsrc, e0, h0, hde⟩ := out_items st.g v e he.1
    simp only [out_proc, Bool.not_not, Bool.and_eq_true, decide_eq_true_eq,
      Bool.not_eq_true'] at hp
    have hs0 : is_self v e0 = true := by
      rcases hde.2 with ⟨h1, h2⟩ | ⟨_, h1, h2⟩
      · simp [is_self, ← h1, ← h2, hsrc, hp.1]
      · simp [is_self, ← h1, ← h2, hsrc, hp.1]
    have := hself e0 h0 hs0
    rw [hF e0 e hde.1] at this
    simp [this] at he
  rw [hnil] at hrun1 hc1 hs1
  simp only [List.map_nil, List.sum_nil, add_zero, List.not_mem_nil, or_false] at hrun1 hc1
  have hd1 : ∀ e ∈ st.g.edges,
      set_edges st.eweight st.g.edges (fun e => ph_out st.g.directed v e && !efilt e) c e.idx =
      set_on st.eweight ((((out_edges_range st.g v).filter (fun e => !efilt e)).filter
        (out_proc st.g.directed v)).map (fun e => e.idx)) c e.idx := by
    intro e he
    rw [set_edges_apply _ hnd _ _ he]
    unfold set_on
    have hiff := (mem_filtered_idx efilt hF (out_proc st.g.directed v)
      (out_edges_range st.g v) e).trans (and_congr (out_proc_mem hnd v he) Iff.rfl)
    by_cases hm : e.idx ∈ (((out_edges_range st.g v).filter (fun e => !efilt e)).filter
        (out_proc st.g.directed v)).map (fun e => e.idx)
    · rw [if_pos hm]
      obtain ⟨hp, hf⟩ := hiff.1 hm
      simp [hp, hf]
    · rw [if_neg hm]
      have hn : ¬ (ph_out st.g.directed v e = true ∧ efilt e = false) := fun h => hm (hiff.2 h)
      cases hp : ph_out st.g.directed v e <;> cases hf : efilt e <;> simp_all
  have hc1' := hc1.counted_congr (by rw [hg1]; exact hd1)
  have ht1' := ht1.step_congr hd1
  -- the self-loop block is skipped
  have hrun2 : add_self r st1 0 = .ok st1 := by
    rw [add_self_unfold, if_neg (by omega)]
  -- second loop
  obtain ⟨st3, hrun3, hc3, ht3, hs3⟩ := add_in_loop_spec v r (Function.update st.b v r) bs hbv
    ((in_edges_range st1.g v).filter (fun e => !efilt e)) st1 _ _ (by rw [hg1]; exact hnd)
    hc1' (by rw [hb1]; exact hbu)
    (fun e he => in_items st1.g v e (List.mem_of_mem_filter he))
    (nodup_filtered_idx efilt _ _ (by rw [in_proc_idx, hg1]; exact nodup_filter_idx hnd _))
    (by
      intro e he hp
      rw [List.mem_filter] at he
      obtain ⟨_, e0, h0, hde⟩ := in_items st1.g v e he.1
      rw [hg1] at h0
      have hm : e0.idx ∈ ((in_edges_range st1.g v).filter (in_proc v)).map
          (fun e => e.idx) := by
        rw [hde.1]
        exact List.mem_map.2 ⟨e, List.mem_filter.2 ⟨he.1, hp⟩, rfl⟩
      rw [in_proc_idx, hg1, mem_filter_idx hnd _ h0] at hm
      have hcv0 := hcv e0 h0 (by rw [hinc, hm]; simp) (hfilt0 hde.1 he.2)
      have hdir : st.g.directed = true := by
        cases hd : st.g.directed
        · rw [hd] at hm; simp [ph_in] at hm
        · rfl
      have hsrc : ¬ (e0.src = v) := by
        simp only [ph_in, hdir, Bool.true_and, Bool.and_eq_true, decide_eq_true_eq,
          Bool.not_eq_true', decide_eq_false_iff_not] at hm
        exact hm.2
      rw [← hde.1, set_edges_apply _ hnd _ _ h0]
      have h1 : (ph_out st.g.directed v e0 && !efilt e0) = false := by
        simp [ph_out, hdir, hsrc]
      rw [h1]
      simpa using hcv0.1)
    (by
      intro e he
      rw [List.mem_filter] at he
      obtain ⟨htgt, e0, h0, hde⟩ := in_items st1.g v e he.1
      rw [hg1] at h0 hde
      rw [hew1, ← hde.1]
      exact (hcv e0 h0 (in_items_incident st.g v htgt hde) (hfilt0 hde.1 he.2)).2)
  have hg3 : st3.g = st.g := by rw [ht3.frame.1, hg1]
  rw [hg1] at hrun3 hc3 ht3
  rw [hew1] at hc3 ht3
  have hd3 : ∀ e ∈ st.g.edges,
      set_edges st.eweight st.g.edges (fun e => incident v e && !efilt e) c e.idx =
      set_on st.eweight ((((in_edges_range st.g v).filter (fun e => !efilt e)).filter
          (in_proc v)).map (fun e => e.idx))
        (set_edges st.eweight st.g.edges
          (fun e => ph_out st.g.directed v e && !efilt e) c) e.idx := by
    intro e he
    rw [set_edges_apply _ hnd _ _ he]
    unfold set_on
    rw [set_edges_apply _ hnd _ _ he, hinc]
    have hin : e.idx ∈ ((in_edges_range st.g v).filter (in_proc v)).map (fun e => e.idx) ↔
        ph_in st.g.directed v e = true := by
      rw [in_proc_idx]; exact mem_filter_idx hnd _ he
    have hiff := (mem_filtered_idx efilt hF (in_proc v) (in_edges_range st.g v) e).trans
      (and_congr hin Iff.rfl)
    have hsf := hselfF e he
    by_cases hm : e.idx ∈ (((in_edges_range st.g v).filter (fun e => !efilt e)).filter
        (in_proc v)).map (fun e => e.idx)
    · rw [if_pos hm]
      obtain ⟨hp, hf⟩ := hiff.1 hm
      simp [hp, hf]
    · rw [if_neg hm]
      have hn : ¬ (ph_in st.g.directed v e = true ∧ efilt e = false) := fun h => hm (hiff.2 h)
      cases hf : efilt e
      · have hps : ph_self st.g.directed v e = false := by
          cases hps : ph_self st.g.directed v e
          · rfl
          · rw [hsf hps] at hf; cases hf
        have hpi : ph_in st.g.directed v e = false := by
          cases hpi : ph_in st.g.directed v e
          · rfl
          · exact absurd ⟨hpi, hf⟩ hn
        simp [hps, hpi]
      · simp
  have hc3' := hc3.counted_congr (by rw [hg3]; exact hd3)
  have ht3' := ht3.step_congr (by rw [hg1]; exact hd3)
  have htall := ht1'.step_trans ht3'
  have hcore := add_tail_core st3 v r
  have hbw := add_tail_b_wr st3 v r
  refine ⟨add_tail st3 v r, ?_, hc3'.counted_of_core hcore, ?_, ?_, ?_, ?_, ?_⟩
  · unfold add_vertex_filt
    simp only [add_out_loop_push v r efilt, hrun1, hrun2,
      add_in_loop_push v r efilt, hg1, hrun3]
  · intro bp bq hd
    exact (htall.deg bp bq hd).deg_of_core hcore
  · intro X hX
    exact (hs3 X ((hs1 X hX).mono
      (fun k hk => hk.elim id (fun h => absurd h.2 (by simp))))).sparse_of_core hcore
  · exact htall.frame.params.params_trans (add_tail_params st3 v r)
  · rw [hbw.1, htall.frame.2.2.2.1]
  · rw [hbw.2, htall.frame.2.2.2.2.1, htall.frame.2.2.1]

end BlockState
namespace BlockState

theorem wr_with_nil (st : BlockState) : st.wr_with [] = st.wr := by
  funext r
  simp [wr_with]

theorem wr_with_cons (st st1 : BlockState) (v r : Nat) (ws : List (Nat × Nat))
    (hvw : st1.vweight = st.vweight)
    (hwr : st1.wr = Function.update st.wr r (st.wr r + st.vweight v)) :
    st1.wr_with ws = st.wr_with ((v, r) :: ws) := by
  funext x
  unfold wr_with
  rw [hvw, hwr, List.map_cons, List.sum_cons]
  by_cases h : r = x
  · rw [← h, Function.update_same, if_pos rfl]; ring
  · rw [Function.update_noteq (fun h' => h h'.symm), if_neg h]; ring

theorem wr_with_perm (st : BlockState) {ws ws' : List (Nat × Nat)} (h : ws.Perm ws') :
    st.wr_with ws = st.wr_with ws' := by
  funext r
  unfold wr_with
  rw [(h.map _).sum_eq]

theorem any_incident_pairs (ws : List (Nat × Nat)) (e : Edge) :
    ws.any (fun p => incident p.1 e) = (ws.map Prod.fst).any (fun v => incident v e) := by
  induction ws with
  | nil => rfl
  | cons p ws ih => rw [List.any_cons, List.map_cons, List.any_cons, ih]

/-- The first loop of `add_vertices` over entries of the vertex map with
distinct keys, with the filter that excludes exactly the edges with both end
points in the map: it returns normally, the edges with exactly one end point
among the visited vertices are counted with their weight, and the visited
vertices are in their new blocks. -/
theorem add_filt_loop_spec (efilt : Edge → Bool)
    (hF : ∀ e e' : Edge, e.idx = e'.idx → efilt e = efilt e') (vset : List Nat)
    (bs : Nat → Nat → Int) :
    ∀ (ws : List (Nat × Nat)) (st : BlockState) (c : Nat → Int),
      (st.g.edges.map (fun e => e.idx)).Nodup →
      Counted st c st.b bs (fun _ => False) →
      (ws.map Prod.fst).Nodup → (∀ p ∈ ws, p.1 ∈ vset) →
      (∀ e ∈ st.g.edges, efilt e = true ↔ (e.src ∈ vset ∧ e.tgt ∈ vset)) →
      (∀ e ∈ st.g.edges, (∃ p ∈ ws, incident p.1 e = true) → c e.idx = 0) →
      (∀ e ∈ st.g.edges, 0 < st.eweight e.idx) →
      ∃ st', add_filt_loop efilt ws st = .ok st' ∧
        Counted st' (set_edges st.eweight st.g.edges
          (fun e => ws.any (fun p => incident p.1 e) && !efilt e) c) st'.b bs
          (fun _ => False) ∧
        (∀ bp bq, DegCounted st c st.b bp bq →
          DegCounted st' (set_edges st.eweight st.g.edges
            (fun e => ws.any (fun p => incident p.1 e) && !efilt e) c) st'.b bp bq) ∧
        (∀ X, SparseX st X → SparseX st' X) ∧
        same_params st st' ∧ (∀ p ∈ ws, st'.b p.1 = p.2) ∧
        (∀ u, u ∉ ws.map Prod.fst → st'.b u = st.b u) ∧ st'.wr = st.wr_with ws := by
  intro ws
  induction ws with
  | nil =>
    intro st c hnd hc _ _ _ _ _
    have hz : ∀ e ∈ st.g.edges, set_edges st.eweight st.g.edges
        (fun e => ([] : List (Nat × Nat)).any (fun p => incident p.1 e) && !efilt e) c e.idx =
        c e.idx := by
      intro e he
      rw [set_edges_apply _ hnd _ _ he]
      simp
    refine ⟨st, rfl, hc.counted_congr hz, fun bp bq hd => hd.deg_congr hz, fun _ h => h,
      same_params.params_refl st, fun p hp => absurd hp (List.not_mem_nil _), fun _ _ => rfl,
      (wr_with_nil st).symm⟩
  | cons p ws ih =>
    obtain ⟨v, r⟩ := p
    intro st c hnd hc hws hsub hEF hci hpos
    rw [List.map_cons, List.nodup_cons] at hws
    have hv : v ∈ vset := hsub (v, r) (List.mem_cons_self _ _)
    have hzv : ∀ e ∈ st.g.edges, incident v e = true → c e.idx = 0 :=
      fun e he hi => hci e he ⟨(v, r), List.mem_cons_self _ _, hi⟩
    obtain ⟨st1, hrun1, hc1, hd1, hs1, hp1, hb1, hwr1⟩ :=
      add_vertex_filt_spec v r efilt hF hnd (hc.counted_rebase v r hzv)
        (by
          intro e he hs
          simp only [is_self, Bool.and_eq_true, decide_eq_true_eq] at hs
          exact (hEF e he).2 ⟨by rw [hs.1]; exact hv, by rw [hs.2]; exact hv⟩)
        (fun e he hi _ => ⟨hzv e he hi, hpos e he⟩)
    have hg1 : st1.g = st.g := hp1.1
    have hew1 : st1.eweight = st.eweight := hp1.2.1
    have hvw1 : st1.vweight = st.vweight := hp1.2.2.1
    rw [← hb1] at hc1
    obtain ⟨st', hrun, hc', hd', hs', hp', hbm', hbo', hwr'⟩ := ih st1 _
      (by rw [hg1]; exact hnd) hc1 hws.2 (fun x hx => hsub x (List.mem_cons_of_mem _ hx))
      (by rw [hg1]; exact hEF)
      (by
        rw [hg1]
        intro e he ⟨p', hp', hi'⟩
        rw [set_edges_apply _ hnd _ _ he]
        have h0 : c e.idx = 0 := hci e he ⟨p', List.mem_cons_of_mem _ hp', hi'⟩
        cases hiv : incident v e
        · simpa using h0
        · have hvv : v ≠ p'.1 := fun h => hws.1 (h ▸ List.mem_map.2 ⟨p', hp', rfl⟩)
          have hv'set : p'.1 ∈ vset := hsub p' (List.mem_cons_of_mem _ hp')
          have hboth : e.src ∈ vset ∧ e.tgt ∈ vset := by
            simp only [incident, Bool.or_eq_true, decide_eq_true_eq] at hiv hi'
            rcases hiv with h1 | h1 <;> rcases hi' with h2 | h2
            · exact absurd (h1.symm.trans h2) hvv
            · exact ⟨by rw [h1]; exact hv, by rw [h2]; exact hv'set⟩
            · exact ⟨by rw [h2]; exact hv'set, by rw [h1]; exact hv⟩
            · exact absurd (h1.symm.trans h2) hvv
          rw [(hEF e he).2 hboth]
          simpa using h0)
      (by rw [hg1, hew1]; exact hpos)
    have hz : ∀ e ∈ st.g.edges,
        set_edges st.eweight st.g.edges
          (fun e => ((v, r) :: ws).any (fun p => incident p.1 e) && !efilt e) c e.idx =
        set_edges st.eweight st.g.edges (fun e => ws.any (fun p => incident p.1 e) && !efilt e)
          (set_edges st.eweight st.g.edges (fun e => incident v e && !efilt e) c) e.idx := by
      intro e he
      rw [set_edges_apply _ hnd _ _ he, set_edges_apply _ hnd _ _ he,
        set_edges_apply _ hnd _ _ he, List.any_cons]
      cases incident v e <;> cases ws.any (fun p => incident p.1 e) <;> cases efilt e <;> rfl
    rw [hg1, hew1] at hc' hd'
    refine ⟨st', ?_, ?_, ?_, ?_, hp1.params_trans hp', ?_, ?_, ?_⟩
    · rw [add_filt_loop, hrun1]
      exact hrun
    · exact hc'.counted_congr (by rw [hp'.1, hg1]; exact hz)
    · intro bp bq hd
      have h1 := hd1 bp bq (hd.deg_rebase v r hzv)
      rw [← hb1] at h1
      exact (hd' bp bq h1).deg_congr (by rw [hp'.1, hg1]; exact hz)
    · intro X hX
      exact hs' X (hs1 X hX)
    · intro p hp
      rcases List.mem_cons.1 hp with rfl | hp
      · rw [hbo' v hws.1, hb1]
        simp
      · exact hbm' p hp
    · intro u hu
      rw [List.map_cons, List.mem_cons, not_or] at hu
      rw [hbo' u hu.2, hb1, Function.update_noteq hu.1]
    · rw [hwr', wr_with_cons st st1 v r ws hvw1 hwr1]

theorem add_internal_loop_cons (vset : List (Nat × Nat)) (e : Edge) (es : List Edge)
    (st : BlockState) :
    add_internal_loop vset (e :: es) st =
      if (st.touch_step (vset_get vset e.src) (vset_get vset e.tgt) e.idx).bedge e.idx = none
      then .error (Err.assertion,
        st.touch_step (vset_get vset e.src) (vset_get vset e.tgt) e.idx)
      else if (st.touch_step (vset_get vset e.src) (vset_get vset e.tgt) e.idx).get_me
          (vset_get vset e.src) (vset_get vset e.tgt) ≠
          some (st.get_or_create_me (vset_get vset e.src) (vset_get vset e.tgt)).2 then
        .error (Err.assertion,
          st.touch_step (vset_get vset e.src) (vset_get vset e.tgt) e.idx)
      else
        add_internal_loop vset es
          ((st.touch_step (vset_get vset e.src) (vset_get vset e.tgt) e.idx).bump
            (vset_get vset e.src) (vset_get vset e.tgt)
            (st.get_or_create_me (vset_get vset e.src) (vset_get vset e.tgt)).2
            ((st.touch_step (vset_get vset e.src) (vset_get vset e.tgt) e.idx).eweight
              e.idx)) :=
  rfl

/-- The second loop of `add_vertices` on a list of descriptors of edges that
are not counted, with distinct identities and both end points in the vertex
map: it returns normally and the listed edges are counted with their weight. -/
theorem add_internal_loop_spec (vset : List (Nat × Nat)) (bm : Nat → Nat)
    (bs : Nat → Nat → Int) :
    ∀ (es : List Edge) (st : BlockState) (c : Nat → Int),
      (st.g.edges.map (fun e => e.idx)).Nodup →
      Counted st c bm bs (fun _ => False) →
      (∀ e ∈ es, ∃ e0 ∈ st.g.edges, descr st.g.directed e e0) →
      (es.map (fun e => e.idx)).Nodup →
      (∀ e ∈ es, c e.idx = 0 ∧ 0 < st.eweight e.idx ∧
        vset_get vset e.src = bm e.src ∧ vset_get vset e.tgt = bm e.tgt) →
      ∃ st', add_internal_loop vset es st = .ok st' ∧
        Counted st' (set_on st.eweight (es.map (fun e => e.idx)) c) bm bs (fun _ => False) ∧
        Trans st st' c (set_on st.eweight (es.map (fun e => e.idx)) c) bm ∧
        (∀ X, SparseX st X → SparseX st' X) := by
  intro es
  induction es with
  | nil =>
    intro st c _ hc _ _ _
    refine ⟨st, rfl, ?_, ?_, fun _ h => h⟩
    · simpa [set_on_nil] using hc
    · simpa [set_on_nil] using Trans.step_refl st c bm
  | cons e es ih =>
    intro st c hnd hc hit hndp hce
    obtain ⟨e0, h0, hde⟩ := hit e (List.mem_cons_self _ _)
    have hit' : ∀ x ∈ es, ∃ e0 ∈ st.g.edges, descr st.g.directed x e0 :=
      fun x hx => hit x (List.mem_cons_of_mem _ hx)
    obtain ⟨hz0, hwe, hr, hs⟩ := hce e (List.mem_cons_self _ _)
    have hi : e0.idx = e.idx := hde.1
    rw [List.map_cons, List.nodup_cons] at hndp
    have hor : oriented st.g.directed bm e0 (bm e.src) (bm e.tgt) := hde.to_oriented bm
    have hz : c e0.idx = 0 := by rw [hi]; exact hz0
    obtain ⟨hc1, ht1, hs1⟩ := inc_step_spec hnd hc h0 hor hz hwe
    have hfr := ht1.frame
    have hg1 : (st.inc_step (bm e.src) (bm e.tgt) e0.idx (st.eweight e.idx)).g = st.g := hfr.1
    have hew1 : (st.inc_step (bm e.src) (bm e.tgt) e0.idx (st.eweight e.idx)).eweight =
        st.eweight := hfr.2.1
    obtain ⟨st', hrun, hc', ht', hs'⟩ := ih
      (st.inc_step (bm e.src) (bm e.tgt) e0.idx (st.eweight e.idx))
      (Function.update c e0.idx (st.eweight e.idx)) (by rw [hg1]; exact hnd) hc1
      (by rw [hg1]; exact hit') hndp.2
      (by
        rw [hew1]
        intro x hx
        have hne : x.idx ≠ e0.idx := by
          intro hxi
          apply hndp.1
          rw [← hi, ← hxi]
          exact List.mem_map.2 ⟨x, hx, rfl⟩
        have := hce x (List.mem_cons_of_mem _ hx)
        simpa [Function.update, hne] using this)
    rw [hew1] at hc' ht'
    have hzc : set_on st.eweight (es.map (fun e => e.idx))
        (Function.update c e0.idx (st.eweight e.idx)) =
        set_on st.eweight (e.idx :: es.map (fun e => e.idx)) c := by
      rw [hi]; exact set_on_cons _ _ _ _
    rw [hzc] at hc' ht'
    refine ⟨st', ?_, ?_, ?_, ?_⟩
    · rw [← hrun, add_internal_loop_cons, hr, hs,
        if_neg (touch_step_asserts st (bm e.src) (bm e.tgt) e.idx).1,
        if_neg (touch_step_asserts st (bm e.src) (bm e.tgt) e.idx).2,
        (touch_step_frame st (bm e.src) (bm e.tgt) e.idx).2.1, hi]
      rfl
    · rw [List.map_cons]; exact hc'
    · rw [List.map_cons]; exact ht1.step_trans ht'
    · intro X hX
      exact hs' X (hs1 X hX)

end BlockState
namespace BlockState

theorem vset_put_fresh (vset : List (Nat × Nat)) (v r : Nat)
    (h : v ∉ vset.map Prod.fst) : vset_put vset v r = vset ++ [(v, r)] := by
  unfold vset_put
  have : vset.any (fun p => decide (p.1 = v)) = false := by
    rw [Bool.eq_false_iff]
    intro ha
    rw [List.any_eq_true] at ha
    obtain ⟨p, hp, hpv⟩ := ha
    exact h (List.mem_map.2 ⟨p, hp, by simpa using hpv⟩)
  rw [this]
  rfl

/-- Filling the vertex map from a list of entries with distinct keys gives the
list itself. -/
theorem vset_fold_nodup :
    ∀ (L acc : List (Nat × Nat)), ((acc ++ L).map Prod.fst).Nodup →
      L.foldl (fun m p => vset_put m p.1 p.2) acc = acc ++ L := by
  intro L
  induction L with
  | nil => intro acc _; simp
  | cons p L ih =>
    intro acc h
    have hp : p.1 ∉ acc.map Prod.fst := by
      rw [List.map_append, List.map_cons] at h
      have := (List.nodup_append.1 h).2.2
      intro hm
      exact this hm (List.mem_cons_self _ _)
    rw [List.foldl_cons, vset_put_fresh acc p.1 p.2 hp]
    have he : acc ++ [(p.1, p.2)] ++ L = acc ++ p :: L := by simp
    rw [ih (acc ++ [(p.1, p.2)]) (by rw [he]; exact h), he]

theorem vset_get_mem :
    ∀ (vset : List (Nat × Nat)), (vset.map Prod.fst).Nodup →
      ∀ p ∈ vset, vset_get vset p.1 = p.2 := by
  intro vset
  induction vset with
  | nil => intro _ p hp; cases hp
  | cons q vset ih =>
    intro hnd p hp
    rw [List.map_cons, List.nodup_cons] at hnd
    unfold vset_get
    by_cases hq : q.1 = p.1
    · rw [List.find?_cons_of_pos _ (by simpa using hq)]
      rcases List.mem_cons.1 hp with rfl | hp'
      · rfl
      · exact absurd (hq ▸ List.mem_map.2 ⟨p, hp', rfl⟩) hnd.1
    · rw [List.find?_cons_of_neg _ (by simpa using hq)]
      rcases List.mem_cons.1 hp with rfl | hp'
      · exact absurd rfl hq
      · exact ih hnd.2 p hp'

theorem set_edges_zero_apply {es : List Edge} (hnd : (es.map (fun e => e.idx)).Nodup)
    (w : Nat → Int) (Q : Edge → Bool) {e : Edge} (he : e ∈ es) :
    set_edges w es Q (fun _ => 0) e.idx = if Q e then w e.idx else 0 :=
  set_edges_apply w hnd Q _ he

/-- `add_vertices(vs, rs)` on distinct vertices, in a state where the counting
invariant holds, no edge with an end point in `vs` is counted and the edge
weights are positive: it returns normally, afterwards the edges with an end
point in `vs` are counted with their weight, the vertices of `vs` are in their
new blocks, and the block weights have gained the weight of every vertex of
`vs` once. -/
theorem add_vertices_spec {st : BlockState} {c : Nat → Int} {bs : Nat → Nat → Int}
    (hnd : (st.g.edges.map (fun e => e.idx)).Nodup)
    (hpos : ∀ e ∈ st.g.edges, 0 < st.eweight e.idx)
    (hc : Counted st c st.b bs (fun _ => False))
    (vs rs : List Nat) (hvs : vs.Nodup) (hlen : vs.length = rs.length)
    (hci : ∀ e ∈ st.g.edges, (e.src ∈ vs ∨ e.tgt ∈ vs) → c e.idx = 0) :
    ∃ st', st.add_vertices vs rs = .ok st' ∧
      Counted st' (set_edges st.eweight st.g.edges
        (fun e => vs.any (fun v => incident v e)) c) st'.b bs (fun _ => False) ∧
      (∀ bp bq, DegCounted st c st.b bp bq →
        DegCounted st' (set_edges st.eweight st.g.edges
          (fun e => vs.any (fun v => incident v e)) c) st'.b bp bq) ∧
      (∀ X, SparseX st X → SparseX st' X) ∧
      same_params st st' ∧ (∀ p ∈ vs.zip rs, st'.b p.1 = p.2) ∧
      (∀ u, u ∉ vs → st'.b u = st.b u) ∧ st'.wr = st.wr_with (vs.zip rs) := by
  have hkeys : (vs.zip rs).map Prod.fst = vs := List.map_fst_zip _ _ (le_of_eq hlen)
  have hvset : (vs.zip rs).foldl (fun m p => vset_put m p.1 p.2) [] = vs.zip rs := by
    have := vset_fold_nodup (vs.zip rs) [] (by rw [List.nil_append, hkeys]; exact hvs)
    rw [this, List.nil_append]
  have hEF := internal_filter_iff st.g vs hnd
  obtain ⟨hI1, hI2, _⟩ := internal_edges_spec st.g vs
  have hany : ∀ e, (vs.zip rs).any (fun p => incident p.1 e) =
      vs.any (fun v => incident v e) := by
    intro e
    rw [any_incident_pairs, hkeys]
  obtain ⟨st1, hrun1, hc1, hd1, hs1, hp1, hbm1, hbo1, hwr1⟩ :=
    add_filt_loop_spec (eset_mem (internal_edges st.g vs))
      (fun e e' he => eset_mem_idx _ e e' he) vs bs (vs.zip rs) st c hnd hc
      (by rw [hkeys]; exact hvs)
      (fun p hp => by
        have hm : p.1 ∈ (vs.zip rs).map Prod.fst := List.mem_map.2 ⟨p, hp, rfl⟩
        rw [hkeys] at hm
        exact hm)
      hEF
      (by
        intro e he ⟨p, hp, hi⟩
        apply hci e he
        apply (any_incident_iff vs e).1
        rw [← hany e, List.any_eq_true]
        exact ⟨p, hp, hi⟩)
      hpos
  have hg1 : st1.g = st.g := hp1.1
  have hew1 : st1.eweight = st.eweight := hp1.2.1
  have hget : ∀ v ∈ vs, vset_get (vs.zip rs) v = st1.b v := by
    intro v hv
    rw [← hkeys] at hv
    obtain ⟨p, hp, rfl⟩ := List.mem_map.1 hv
    rw [vset_get_mem (vs.zip rs) (by rw [hkeys]; exact hvs) p hp, hbm1 p hp]
  obtain ⟨st2, hrun2, hc2, ht2, hs2⟩ :=
    add_internal_loop_spec (vs.zip rs) st1.b bs (internal_edges st.g vs) st1 _
      (by rw [hg1]; exact hnd) hc1
      (by
        rw [hg1]
        intro e he
        exact (hI1 e he).2.2)
      hI2
      (by
        intro e he
        obtain ⟨hs, ht, e0, h0, hde⟩ := hI1 e he
        have hf : eset_mem (internal_edges st.g vs) e0 = true := by
          rw [eset_mem_idx _ e0 e hde.1]
          exact (eset_mem_iff _ _).2 (List.mem_map.2 ⟨e, he, rfl⟩)
        refine ⟨?_, ?_, hget _ hs, hget _ ht⟩
        · rw [← hde.1, set_edges_apply _ hnd _ _ h0, hf]
          simp only [Bool.not_true, Bool.and_false, Bool.false_eq_true, if_false]
          exact hci e0 h0 (Or.inl ((hEF e0 h0).1 hf).1)
        · rw [hew1, ← hde.1]
          exact hpos e0 h0)
  rw [hew1] at hc2 ht2
  have hz : ∀ e ∈ st.g.edges,
      set_edges st.eweight st.g.edges (fun e => vs.any (fun v => incident v e)) c e.idx =
      set_on st.eweight ((internal_edges st.g vs).map (fun e => e.idx))
        (set_edges st.eweight st.g.edges (fun e => (vs.zip rs).any (fun p => incident p.1 e) &&
          !eset_mem (internal_edges st.g vs) e) c) e.idx := by
    intro e he
    rw [set_edges_apply _ hnd _ _ he]
    unfold set_on
    rw [set_edges_apply _ hnd _ _ he, hany e]
    by_cases hm : e.idx ∈ (internal_edges st.g vs).map (fun e => e.idx)
    · have hf := (eset_mem_iff _ e).2 hm
      have hboth := (hEF e he).1 hf
      have ha : vs.any (fun v => incident v e) = true :=
        (any_incident_iff _ e).2 (Or.inl hboth.1)
      rw [if_pos hm, ha, if_pos rfl]
    · have hf : eset_mem (internal_edges st.g vs) e = false := by
        cases hq : eset_mem (internal_edges st.g vs) e
        · rfl
        · exact absurd ((eset_mem_iff _ e).1 hq) hm
      rw [if_neg hm, hf]
      simp only [Bool.not_false, Bool.and_true]
  have hfr := ht2.frame
  have hp2 : same_params st1 st2 := hfr.params
  have hg2 : st2.g = st.g := hp2.1.trans hg1
  have hb2 : st2.b = st1.b := hfr.2.2.2.1
  refine ⟨st2, ?_, ?_, ?_, fun X hX => hs2 X (hs1 X hX), hp1.params_trans hp2, ?_, ?_, ?_⟩
  · unfold add_vertices add_vertices_impl
    rw [if_neg (by simpa using hlen)]
    simp only [hvset, hkeys, hrun1]
    exact hrun2
  · rw [hb2]
    exact hc2.counted_congr (by rw [hg2]; exact hz)
  · intro bp bq hd
    rw [hb2]
    exact (ht2.deg bp bq (hd1 bp bq hd)).deg_congr (by rw [hg2]; exact hz)
  · intro p hp
    rw [hb2]; exact hbm1 p hp
  · intro u hu
    rw [hb2]
    exact hbo1 u (by rw [hkeys]; exact hu)
  · rw [hfr.2.2.2.2.1, hwr1]

/-- The calls `add_vertex(v, r)` for entries with distinct, pairwise
non-adjacent vertices, one after another, in a state where no edge incident to
one of them is counted: they return normally, the edges incident to the visited
vertices are counted with their weight, and the visited vertices are in their
new blocks. -/
theorem add_each_spec (bs : Nat → Nat → Int) :
    ∀ (L : List (Nat × Nat)) (st : BlockState) (c : Nat → Int),
      (st.g.edges.map (fun e => e.idx)).Nodup →
      Counted st c st.b bs (fun _ => False) →
      (L.map Prod.fst).Nodup →
      (∀ e ∈ st.g.edges, e.src ∈ L.map Prod.fst → e.tgt ∈ L.map Prod.fst → e.src = e.tgt) →
      (∀ e ∈ st.g.edges, (∃ p ∈ L, incident p.1 e = true) → c e.idx = 0) →
      (∀ e ∈ st.g.edges, 0 < st.eweight e.idx) →
      ∃ st', add_each L st = .ok st' ∧
        Counted st' (set_edges st.eweight st.g.edges
          (fun e => L.any (fun p => incident p.1 e)) c) st'.b bs (fun _ => False) ∧
        (∀ bp bq, DegCounted st c st.b bp bq →
          DegCounted st' (set_edges st.eweight st.g.edges
            (fun e => L.any (fun p => incident p.1 e)) c) st'.b bp bq) ∧
        (∀ X, SparseX st X → SparseX st' X) ∧
        same_params st st' ∧ (∀ p ∈ L, st'.b p.1 = p.2) ∧
        (∀ u, u ∉ L.map Prod.fst → st'.b u = st.b u) ∧ st'.wr = st.wr_with L := by
  intro L
  induction L with
  | nil =>
    intro st c hnd hc _ _ _ _
    have hz : ∀ e ∈ st.g.edges, set_edges st.eweight st.g.edges
        (fun e => ([] : List (Nat × Nat)).any (fun p => incident p.1 e)) c e.idx = c e.idx := by
      intro e he
      rw [set_edges_apply _ hnd _ _ he]
      simp
    refine ⟨st, rfl, hc.counted_congr hz, fun bp bq hd => hd.deg_congr hz, fun _ h => h,
      same_params.params_refl st, fun p hp => absurd hp (List.not_mem_nil _), fun _ _ => rfl,
      (wr_with_nil st).symm⟩
  | cons p L ih =>
    obtain ⟨v, r⟩ := p
    intro st c hnd hc hL hind hci hpos
    rw [List.map_cons, List.nodup_cons] at hL
    have hzv : ∀ e ∈ st.g.edges, incident v e = true → c e.idx = 0 :=
      fun e he hi => hci e he ⟨(v, r), List.mem_cons_self _ _, hi⟩
    obtain ⟨st1, hrun1, hc1, hd1, hs1, hp1, hb1, hwr1⟩ :=
      add_vertex_spec v r hnd (hc.counted_rebase v r hzv)
        (fun e he hi => ⟨hzv e he hi, hpos e he⟩)
    have hg1 : st1.g = st.g := hp1.1
    have hew1 : st1.eweight = st.eweight := hp1.2.1
    have hvw1 : st1.vweight = st.vweight := hp1.2.2.1
    rw [← hb1] at hc1
    obtain ⟨st', hrun, hc', hd', hs', hp', hbm', hbo', hwr'⟩ := ih st1 _
      (by rw [hg1]; exact hnd) hc1 hL.2
      (by
        rw [hg1]
        intro e he h1 h2
        exact hind e he (List.mem_cons_of_mem _ h1) (List.mem_cons_of_mem _ h2))
      (by
        rw [hg1]
        intro e he ⟨p', hp', hi'⟩
        rw [set_edges_apply _ hnd _ _ he]
        have h0 : c e.idx = 0 := hci e he ⟨p', List.mem_cons_of_mem _ hp', hi'⟩
        have hnv : incident v e = false := by
          cases hiv : incident v e
          · rfl
          · exfalso
            have hk' : p'.1 ∈ L.map Prod.fst := List.mem_map.2 ⟨p', hp', rfl⟩
            have hvv : v ≠ p'.1 := fun h => hL.1 (h ▸ hk')
            have hm : v ∈ ((v, r) :: L).map Prod.fst := List.mem_cons_self _ _
            have hm' : p'.1 ∈ ((v, r) :: L).map Prod.fst := List.mem_cons_of_mem _ hk'
            simp only [incident, Bool.or_eq_true, decide_eq_true_eq] at hiv hi'
            rcases hiv with h1 | h1 <;> rcases hi' with h2 | h2
            · exact hvv (h1.symm.trans h2)
            · exact hvv (h1.symm.trans ((hind e he (h1 ▸ hm) (h2 ▸ hm')).trans h2))
            · exact hvv (h1.symm.trans ((hind e he (h2 ▸ hm') (h1 ▸ hm)).symm.trans h2))
            · exact hvv (h1.symm.trans h2)
        rw [hnv]
        simpa using h0)
      (by rw [hg1, hew1]; exact hpos)
    have hz : ∀ e ∈ st.g.edges,
        set_edges st.eweight st.g.edges
          (fun e => ((v, r) :: L).any (fun p => incident p.1 e)) c e.idx =
        set_edges st.eweight st.g.edges (fun e => L.any (fun p => incident p.1 e))
          (set_edges st.eweight st.g.edges (incident v) c) e.idx := by
      intro e he
      rw [set_edges_apply _ hnd _ _ he, set_edges_apply _ hnd _ _ he,
        set_edges_apply _ hnd _ _ he, List.any_cons]
      cases incident v e <;> cases L.any (fun p => incident p.1 e) <;> rfl
    rw [hg1, hew1] at hc' hd'
    refine ⟨st', ?_, ?_, ?_, ?_, hp1.params_trans hp', ?_, ?_, ?_⟩
    · rw [add_each, hrun1]
      exact hrun
    · exact hc'.counted_congr (by rw [hp'.1, hg1]; exact hz)
    · intro bp bq hd
      have h1 := hd1 bp bq (hd.deg_rebase v r hzv)
      rw [← hb1] at h1
      exact (hd' bp bq h1).deg_congr (by rw [hp'.1, hg1]; exact hz)
    · intro X hX
      exact hs' X (hs1 X hX)
    · intro p hp
      rcases List.mem_cons.1 hp with rfl | hp
      · rw [hbo' v hL.1, hb1]
        simp
      · exact hbm' p hp
    · intro u hu
      rw [List.map_cons, List.mem_cons, not_or] at hu
      rw [hbo' u hu.2, hb1, Function.update_noteq hu.1]
    · rw [hwr', wr_with_cons st st1 v r L hvw1 hwr1]

end BlockState
namespace BlockState

theorem pair_weight_zero (directed : Bool) (bm : Nat → Nat) (es : List Edge) (r s : Nat) :
    pair_weight directed (fun _ => 0) bm es r s = 0 :=
  wsum_zero _ _ _ (fun _ _ _ => rfl)

theorem out_weight_zero (directed : Bool) (bm : Nat → Nat) (es : List Edge) (r : Nat) :
    out_weight directed (fun _ => 0) bm es r = 0 := by
  unfold out_weight
  rw [wsum_zero _ _ _ (fun _ _ _ => rfl), wsum_zero _ _ _ (fun _ _ _ => rfl)]
  simp

theorem in_weight_zero (directed : Bool) (bm : Nat → Nat) (es : List Edge) (r : Nat) :
    in_weight directed (fun _ => 0) bm es r = 0 := by
  unfold in_weight
  rw [wsum_zero _ _ _ (fun _ _ _ => rfl), wsum_zero _ _ _ (fun _ _ _ => rfl)]
  simp

/-- In a state with a well-formed index and non-negative aggregate counts the
counting invariant holds with no edge counted and the current counts as the
fixed amounts. -/
theorem counted_of_wf {st : BlockState} (hwf : IndexWF st)
    (hnn : ∀ r s, 0 ≤ st.get_mrs r s) :
    Counted st (fun _ => 0) st.b st.get_mrs (fun _ => False) :=
  ⟨hwf, fun _ _ => le_refl _, hnn,
    fun r s => by rw [pair_weight_zero]; ring,
    fun _ _ h => h.elim (fun h0 => absurd h0 (lt_irrefl 0)) (fun hf => hf.elim)⟩

theorem deg_counted_of_shared {st : BlockState} (hsh : st.mrm_is_mrp = !st.g.directed) :
    DegCounted st (fun _ => 0) st.b st.mrp st.get_mrm :=
  ⟨hsh, fun x => by rw [out_weight_zero]; ring, fun x => by rw [in_weight_zero]; ring⟩

/-- The state after `remove_vertices([1, 3])` in `ex_ring` has a well-formed
index and non-negative aggregate counts. -/
theorem ex_ring_removed_wf :
    IndexWF (state_of (ex_ring.remove_vertices [1, 3]) ex_ring) ∧
      ∀ r s, 0 ≤ (state_of (ex_ring.remove_vertices [1, 3]) ex_ring).get_mrs r s := by
  obtain ⟨st', hrun, hc, _⟩ := remove_vertices_spec ex_ring_consistent [1, 3]
  rw [hrun]
  exact ⟨hc.wf, hc.get_mrs_nonneg⟩

/-- C20 fails as stated: in the state left by `remove_vertices([0, 1])` in
`ex_pair`, whose vertices 0 and 1 are joined by the edge `0 → 1`,
`add_vertices([0, 1], [0, 1])` puts that edge on the aggregates once and
returns with the count 1 for the block pair `(0, 1)`, `mrp[0] = 1` and
`mrm[1] = 1`; the calls `add_vertex(0, 0); add_vertex(1, 1)` put it on twice
and return with 2 in the three places, and so do the calls in the other
order. -/
theorem add_vertices_adjacent_differs :
    ∃ s0 s1 s2 s3, ex_pair.remove_vertices [0, 1] = .ok s0 ∧
      s0.add_vertices [0, 1] [0, 1] = .ok s1 ∧
      add_each [(0, 0), (1, 1)] s0 = .ok s2 ∧
      add_each [(1, 1), (0, 0)] s0 = .ok s3 ∧
      s1.get_mrs 0 1 = 1 ∧ s2.get_mrs 0 1 = 2 ∧ s3.get_mrs 0 1 = 2 ∧
      s1.mrp 0 = 1 ∧ s2.mrp 0 = 2 ∧ s3.mrp 0 = 2 ∧
      s1.get_mrm 1 = 1 ∧ s2.get_mrm 1 = 2 ∧ s3.get_mrm 1 = 2 := by
  refine ⟨state_of (ex_pair.remove_vertices [0, 1]) ex_pair,
    state_of ((state_of (ex_pair.remove_vertices [0, 1]) ex_pair).add_vertices [0, 1] [0, 1])
      ex_pair,
    state_of (add_each [(0, 0), (1, 1)] (state_of (ex_pair.remove_vertices [0, 1]) ex_pair))
      ex_pair,
    state_of (add_each [(1, 1), (0, 0)] (state_of (ex_pair.remove_vertices [0, 1]) ex_pair))
      ex_pair, rfl, rfl, rfl, rfl, ?_, ?_, ?_, ?_, ?_, ?_, ?_, ?_, ?_⟩ <;> decide

/-- C20 (amended): in a state with distinct edge identities, positive edge
weights, a well-formed block-pair index, non-negative aggregate edge counts and
`mrm` the map `mrp` exactly on undirected graphs, for distinct vertices `vs` no
two of which are joined by an edge and an equally long list of blocks `rs`,
`add_vertices(vs, rs)` returns normally, and so do the calls
`add_vertex(vs[i], rs[i])` in every order; the aggregate edge count of every
block pair, `mrp`, `mrm`, `wr` and the partition `b` are the same after the
batch as after the sequence. -/
theorem add_vertices_eq_sequential {st : BlockState}
    (hnd : (st.g.edges.map (fun e => e.idx)).Nodup)
    (hpos : ∀ e ∈ st.g.edges, 0 < st.eweight e.idx)
    (hwf : IndexWF st) (hnn : ∀ r s, 0 ≤ st.get_mrs r s)
    (hsh : st.mrm_is_mrp = !st.g.directed)
    (vs rs : List Nat) (hvs : vs.Nodup) (hlen : vs.length = rs.length)
    (hind : ∀ e ∈ st.g.edges, e.src ∈ vs → e.tgt ∈ vs → e.src = e.tgt) :
    ∃ s1, st.add_vertices vs rs = .ok s1 ∧
      ∀ L : List (Nat × Nat), L.Perm (vs.zip rs) →
        ∃ s2, add_each L st = .ok s2 ∧
          (∀ r s, s1.get_mrs r s = s2.get_mrs r s) ∧ s1.mrp = s2.mrp ∧
          (∀ r, s1.get_mrm r = s2.get_mrm r) ∧ s1.wr = s2.wr ∧ s1.b = s2.b := by
  have hc0 := counted_of_wf hwf hnn
  have hd0 := deg_counted_of_shared hsh
  have hkeys : (vs.zip rs).map Prod.fst = vs := List.map_fst_zip _ _ (le_of_eq hlen)
  obtain ⟨s1, hrun1, hc1, hd1, _, hp1, hbm1, hbo1, hwr1⟩ :=
    add_vertices_spec hnd hpos hc0 vs rs hvs hlen (fun _ _ _ => rfl)
  refine ⟨s1, hrun1, ?_⟩
  intro L hL
  have hLk : (L.map Prod.fst).Perm vs := by
    have := hL.map Prod.fst
    rw [hkeys] at this
    exact this
  have hmem : ∀ v, v ∈ L.map Prod.fst ↔ v ∈ vs := fun v => hLk.mem_iff
  obtain ⟨s2, hrun2, hc2, hd2, _, hp2, hbm2, hbo2, hwr2⟩ :=
    add_each_spec st.get_mrs L st (fun _ => 0) hnd hc0 (hLk.nodup_iff.2 hvs)
      (fun e he h1 h2 => hind e he ((hmem _).1 h1) ((hmem _).1 h2))
      (fun _ _ _ => rfl) hpos
  have hb : s1.b = s2.b := by
    funext u
    by_cases hu : u ∈ vs
    · have hu' : u ∈ (vs.zip rs).map Prod.fst := by rw [hkeys]; exact hu
      obtain ⟨p, hp, rfl⟩ := List.mem_map.1 hu'
      rw [hbm1 p hp, hbm2 p (hL.mem_iff.2 hp)]
    · rw [hbo1 u hu, hbo2 u (fun h => hu ((hmem u).1 h))]
  have hz : ∀ e ∈ st.g.edges,
      set_edges st.eweight st.g.edges (fun e => vs.any (fun v => incident v e))
        (fun _ => 0) e.idx =
      set_edges st.eweight st.g.edges (fun e => L.any (fun p => incident p.1 e))
        (fun _ => 0) e.idx := by
    intro e he
    rw [set_edges_apply _ hnd _ _ he, set_edges_apply _ hnd _ _ he, any_incident_pairs,
      any_incident_congr (fun v => (hmem v).symm) e]
  have hg1 : s1.g = st.g := hp1.1
  have hg2 : s2.g = st.g := hp2.1
  have e1 := hd1 _ _ hd0
  have e2 := hd2 _ _ hd0
  refine ⟨s2, hrun2, ?_, ?_, ?_, ?_, hb⟩
  · intro r s
    rw [hc1.mrs_eq r s, hc2.mrs_eq r s, hg1, hg2, hb, pair_weight_congr hz r s]
  · funext x
    rw [e1.mrp_eq x, e2.mrp_eq x, hg1, hg2, hb, out_weight_congr hz x]
  · intro x
    rw [e1.mrm_eq x, e2.mrm_eq x, hg1, hg2, hb, in_weight_congr hz x]
  · rw [hwr1, hwr2, wr_with_perm st hL]

theorem add_vertices_eq_sequential_witness :
    ((state_of (ex_ring.remove_vertices [1, 3]) ex_ring).g.edges.map
        (fun e => e.idx)).Nodup ∧
      ([1, 3] : List Nat).Nodup ∧ ([1, 3] : List Nat).length = ([2, 2] : List Nat).length ∧
      ∃ s1, (state_of (ex_ring.remove_vertices [1, 3]) ex_ring).add_vertices [1, 3] [2, 2] =
          .ok s1 ∧
        ∀ L : List (Nat × Nat), L.Perm (([1, 3] : List Nat).zip [2, 2]) →
          ∃ s2, add_each L (state_of (ex_ring.remove_vertices [1, 3]) ex_ring) = .ok s2 ∧
            (∀ r s, s1.get_mrs r s = s2.get_mrs r s) ∧ s1.mrp = s2.mrp ∧
            (∀ r, s1.get_mrm r = s2.get_mrm r) ∧ s1.wr = s2.wr ∧ s1.b = s2.b :=
  ⟨by decide, by decide, rfl,
    add_vertices_eq_sequential (by decide) (by decide) ex_ring_removed_wf.1
      ex_ring_removed_wf.2 rfl [1, 3] [2, 2] (by decide) rfl (by decide)⟩

end BlockState

namespace BlockState

/-! ## The batch entry points -/

theorem add_filt_loop_fault (efilt : Edge → Bool) :
    ∀ (ws : List (Nat × Nat)) (st : BlockState) (e : Err × BlockState),
      add_filt_loop efilt ws st = .error e → e.1 ≠ Err.invalid_operation := by
  intro ws
  induction ws with
  | nil => intro st e h; cases h
  | cons p ws ih =>
    intro st e h
    rw [add_filt_loop] at h
    have ha := add_vertex_effect st p.1 p.2 efilt
    cases hr : st.add_vertex_filt p.1 p.2 efilt with
    | error x =>
      rw [hr] at h ha
      cases h
      exact ha
    | ok st1 =>
      rw [hr] at h
      exact ih st1 e h

theorem add_internal_loop_fault (vset : List (Nat × Nat)) :
    ∀ (es : List Edge) (st : BlockState) (e : Err × BlockState),
      add_internal_loop vset es st = .error e → e.1 ≠ Err.invalid_operation := by
  intro es
  induction es with
  | nil => intro st e h; cases h
  | cons x es ih =>
    intro st e h
    rw [add_internal_loop_cons] at h
    split_ifs at h
    · cases h; simp
    · cases h; simp
    · exact ih _ e h

theorem add_vertices_impl_fault (st : BlockState) (vs rs : List Nat) (e : Err × BlockState)
    (h : st.add_vertices_impl vs rs = .error e) : e.1 ≠ Err.invalid_operation := by
  unfold add_vertices_impl at h
  simp only [] at h
  cases hr : add_filt_loop
      (eset_mem (internal_edges st.g
        (((vs.zip rs).foldl (fun m p => vset_put m p.1 p.2) []).map Prod.fst)))
      ((vs.zip rs).foldl (fun m p => vset_put m p.1 p.2) []) st with
  | error x =>
    rw [hr] at h
    cases h
    exact add_filt_loop_fault _ _ _ _ hr
  | ok st1 =>
    rw [hr] at h
    exact add_internal_loop_fault _ _ _ _ h

/-- An invalid-operation failure of the calls `move_vertex(v[i], nr[i])` is the
failure of the label check of one of them, raised in the state that the calls
before it have reached. -/
theorem move_each_fault :
    ∀ (ws : List (Nat × Nat)) (st : BlockState) (e : Err × BlockState),
      move_each ws st = .error e → e.1 = Err.invalid_operation →
      ∃ k, ∃ hk : k < ws.length, move_each (ws.take k) st = .ok e.2 ∧
        e.2.bclabel (e.2.b (ws.get ⟨k, hk⟩).1) ≠ e.2.bclabel (ws.get ⟨k, hk⟩).2 := by
  intro ws
  induction ws with
  | nil => intro st e h; cases h
  | cons p ws ih =>
    intro st e h hinv
    rw [move_each] at h
    have hm := move_vertex_effect st p.1 p.2
    cases hr : st.move_vertex p.1 p.2 with
    | error x =>
      rw [hr] at h hm
      cases h
      obtain ⟨_, hlab, hst⟩ := hm hinv
      refine ⟨0, Nat.succ_pos _, ?_, ?_⟩
      · rw [List.take_zero, move_each, hst]
      · rw [hst]
        exact hlab
    | ok st1 =>
      rw [hr] at h
      obtain ⟨k, hk, hrun, hlab⟩ := ih st1 e h hinv
      refine ⟨k + 1, Nat.succ_lt_succ hk, ?_, ?_⟩
      · rw [List.take_succ_cons, move_each, hr]
        exact hrun
      · exact hlab

/-- C21: `add_vertices(vs, rs)` and `move_vertices(vs, rs)` on lists of
different lengths fail with the invalid-operation failure of the size check,
raised in the unchanged state (no vertex is added or moved, no aggregate
changes).  On lists of equal lengths the size check passes: each entry point is
its template member, `add_vertices` raises no invalid-operation failure at all,
and an invalid-operation failure of `move_vertices` is the failure of the label
check of one call `move_vertex(vs[k], rs[k])`, raised in the state that the
calls before it have reached. -/
theorem batch_size_check (st : BlockState) (vs rs : List Nat) :
    (vs.length ≠ rs.length →
      st.add_vertices vs rs = .error (Err.invalid_operation, st) ∧
      st.move_vertices vs rs = .error (Err.invalid_operation, st)) ∧
    (vs.length = rs.length →
      st.add_vertices vs rs = st.add_vertices_impl vs rs ∧
      st.move_vertices vs rs = st.move_vertices_impl vs rs ∧
      (∀ e, st.add_vertices vs rs = .error e → e.1 ≠ Err.invalid_operation) ∧
      (∀ e, st.move_vertices vs rs = .error e → e.1 = Err.invalid_operation →
        ∃ k, ∃ hk : k < (vs.zip rs).length,
          move_each ((vs.zip rs).take k) st = .ok e.2 ∧
          e.2.bclabel (e.2.b ((vs.zip rs).get ⟨k, hk⟩).1) ≠
            e.2.bclabel ((vs.zip rs).get ⟨k, hk⟩).2)) := by
  constructor
  · intro h
    unfold add_vertices move_vertices
    rw [if_pos h, if_pos h]
    exact ⟨rfl, rfl⟩
  · intro h
    have ha : st.add_vertices vs rs = st.add_vertices_impl vs rs := by
      unfold add_vertices
      rw [if_neg (by simpa using h)]
    have hm : st.move_vertices vs rs = st.move_vertices_impl vs rs := by
      unfold move_vertices
      rw [if_neg (by simpa using h)]
    refine ⟨ha, hm, ?_, ?_⟩
    · intro e he
      rw [ha] at he
      exact add_vertices_impl_fault st vs rs e he
    · intro e he hinv
      rw [hm] at he
      exact move_each_fault (vs.zip rs) st e he hinv

end BlockState
namespace BlockState

/-! ## The concrete scenario -/

theorem ex_cycle_mrs (k : Nat × Nat) :
    (match ex_cycle.emat k with
      | some me => ex_cycle.mrs me
      | none => 0) =
    (if k = (0, 0) then 1 else if k = (0, 1) then 2 else if k = (1, 1) then 1 else 0) := by
  simp only [ex_cycle]
  split_ifs <;> rfl

theorem ex_cycle_weights (k : Nat × Nat) :
    wsum (fun e => decide (bkey false (ex_cycle.b e.src) (ex_cycle.b e.tgt) = k))
      ex_cycle.eweight ex_cycle.g.edges =
    (if k = (0, 0) then 1 else if k = (0, 1) then 2 else if k = (1, 1) then 1 else 0) := by
  have e1 : bkey false 0 0 = (0, 0) := by decide
  have e2 : bkey false 0 1 = (0, 1) := by decide
  have e3 : bkey false 1 1 = (1, 1) := by decide
  have e4 : bkey false 1 0 = (0, 1) := by decide
  obtain ⟨a, b⟩ := k
  simp only [wsum, ex_cycle, List.map_cons, List.map_nil, List.sum_cons, List.sum_nil,
    decide_eq_true_eq, Nat.lt_irrefl, Nat.zero_lt_succ, Nat.one_lt_ofNat, if_true, if_false,
    e1, e2, e3, e4, Nat.reduceLT, Nat.reduceEqDiff, OfNat.ofNat_ne_zero, OfNat.ofNat_ne_one,
    Prod.mk.injEq]
  split_ifs <;> omega

theorem ex_cycle_consistent : Consistent ex_cycle := by
  refine ⟨by decide, by decide, ⟨by decide, by decide, ?_⟩, ?_, ?_⟩
  · intro r s h hq
    have hq' : (if bkey false r s = (0, 0) then some 0 else if bkey false r s = (0, 1) then some 1
        else if bkey false r s = (1, 1) then some 2 else none) = some h := hq
    split_ifs at hq' with h1 h2 h3
    · exact ⟨⟨0, 0, 0⟩, by simp [ex_cycle], Option.some.inj hq', h1.symm⟩
    · exact ⟨⟨0, 1, 1⟩, by simp [ex_cycle], Option.some.inj hq', h2.symm⟩
    · exact ⟨⟨1, 1, 2⟩, by simp [ex_cycle], Option.some.inj hq', h3.symm⟩
  · intro e he
    simp only [ex_cycle, List.mem_cons, List.mem_singleton, List.not_mem_nil, or_false] at he
    rcases he with rfl | rfl | rfl | rfl
    · exact ⟨0, by decide, by decide⟩
    · exact ⟨1, by decide, by decide⟩
    · exact ⟨2, by decide, by decide⟩
    · exact ⟨1, by decide, by decide⟩
  · intro r s
    exact (ex_cycle_mrs (bkey false r s)).trans (ex_cycle_weights (bkey false r s)).symm

theorem ex_cycle_sparse : ex_cycle.sparse := by
  intro r s
  have h1 : ex_cycle.get_mrs r s =
      (match ex_cycle.emat (bkey false r s) with
        | some me => ex_cycle.mrs me
        | none => 0) := rfl
  have h2 : ex_cycle.get_me r s = ex_cycle.emat (bkey false r s) := rfl
  rw [h1, h2, ex_cycle_mrs]
  simp only [ex_cycle]
  split_ifs <;> simp

/-- The weight of the block pairs of the 4-cycle `0 - 1 - 2 - 3 - 0` with unit
weights under a partition. -/
theorem cycle_pair_weight (w : Nat → Int) (hw : ∀ i, w i = 1) (bm : Nat → Nat) (p q : Nat) :
    pair_weight false w bm [⟨0, 1, 0⟩, ⟨1, 2, 1⟩, ⟨2, 3, 2⟩, ⟨3, 0, 3⟩] p q =
      (if (bm 0 = p ∧ bm 1 = q) ∨ (bm 0 = q ∧ bm 1 = p) then 1 else 0) +
      ((if (bm 1 = p ∧ bm 2 = q) ∨ (bm 1 = q ∧ bm 2 = p) then 1 else 0) +
      ((if (bm 2 = p ∧ bm 3 = q) ∨ (bm 2 = q ∧ bm 3 = p) then 1 else 0) +
      (if (bm 3 = p ∧ bm 0 = q) ∨ (bm 3 = q ∧ bm 0 = p) then 1 else 0))) := by
  simp only [pair_weight, wsum, List.map_cons, List.map_nil, List.sum_cons, List.sum_nil,
    in_pair_false, hw, decide_eq_true_eq, add_zero]

/-- C22 fails as stated: in the scenario `ex_cycle` (blocks `A = 0`, `B = 1`)
`move_vertex(1, B)` returns, and the aggregate weight of the pair `(A, B)` is 2
before and 2 after: it does not decrease by 1. -/
theorem cycle_move_keeps_cross_weight :
    Consistent ex_cycle ∧ ex_cycle.get_mrs 0 1 = 2 ∧
      ∃ st', ex_cycle.move_vertex 1 1 = .ok st' ∧ st'.get_mrs 0 1 = 2 ∧
        st'.get_mrs 0 1 ≠ ex_cycle.get_mrs 0 1 - 1 := by
  refine ⟨ex_cycle_consistent, by decide,
    state_of (ex_cycle.move_vertex 1 1) ex_cycle, rfl, by decide, by decide⟩

/-- C22 (amended): on the undirected 4-cycle with edges 0-1, 1-2, 2-3, 3-0,
unit weights, blocks `A = {0, 1}` and `B = {2, 3}` with the same constraint
label, and consistent, sparse aggregates, `move_vertex(1, B)` returns and leaves
`mrs(A, B)` at 2 (the edge 1-2 leaves the pair and the edge 0-1 enters it); it
lowers `mrs(A, A)` from 1 to 0, which takes the pair `(A, A)` out of the index,
and raises `mrs(B, B)` from 1 to 2. -/
theorem cycle_move_vertex {st : BlockState} (h : Consistent st) (hsp : st.sparse)
    (A B : Nat) (hAB : A ≠ B) (hdir : st.g.directed = false)
    (hedges : st.g.edges = [⟨0, 1, 0⟩, ⟨1, 2, 1⟩, ⟨2, 3, 2⟩, ⟨3, 0, 3⟩])
    (hw : ∀ i, st.eweight i = 1)
    (hb : st.b 0 = A ∧ st.b 1 = A ∧ st.b 2 = B ∧ st.b 3 = B)
    (hlab : st.bclabel A = st.bclabel B) :
    st.get_mrs A B = 2 ∧ st.get_mrs A A = 1 ∧ st.get_mrs B B = 1 ∧
      ∃ st', st.move_vertex 1 B = .ok st' ∧
        st'.get_mrs A B = 2 ∧ st'.get_mrs A A = 0 ∧ st'.get_mrs B B = 2 ∧
        st'.get_me A A = none := by
  obtain ⟨b0, b1, b2, b3⟩ := hb
  have hBA : B ≠ A := fun e => hAB e.symm
  have hbefore : ∀ p q, st.get_mrs p q =
      pair_weight false st.eweight st.b [⟨0, 1, 0⟩, ⟨1, 2, 1⟩, ⟨2, 3, 2⟩, ⟨3, 0, 3⟩] p q := by
    intro p q
    rw [h.exact p q, hdir, hedges]
  obtain ⟨st', hrun, hc', hs', hp', hb', _, _⟩ :=
    move_vertex_consistent h 1 B (by rw [b1]; exact hAB) (by rw [b1]; exact hlab)
  have hafter : ∀ p q, st'.get_mrs p q =
      pair_weight false st.eweight (Function.update st.b 1 B)
        [⟨0, 1, 0⟩, ⟨1, 2, 1⟩, ⟨2, 3, 2⟩, ⟨3, 0, 3⟩] p q := by
    intro p q
    rw [hc'.exact p q, hp'.1, hp'.2.1, hb', hdir, hedges]
  have u0 : Function.update st.b 1 B 0 = A := by simp [Function.update, b0]
  have u1 : Function.update st.b 1 B 1 = B := by simp [Function.update]
  have u2 : Function.update st.b 1 B 2 = B := by simp [Function.update, b2]
  have u3 : Function.update st.b 1 B 3 = B := by simp [Function.update, b3]
  have hAA : st'.get_mrs A A = 0 := by
    rw [hafter, cycle_pair_weight _ hw, u0, u1, u2, u3]
    simp [hAB, hBA]
  refine ⟨?_, ?_, ?_, st', hrun, ?_, hAA, ?_, ?_⟩
  · rw [hbefore, cycle_pair_weight _ hw, b0, b1, b2, b3]
    simp [hAB, hBA]
  · rw [hbefore, cycle_pair_weight _ hw, b0, b1, b2, b3]
    simp [hAB, hBA]
  · rw [hbefore, cycle_pair_weight _ hw, b0, b1, b2, b3]
    simp [hAB, hBA]
  · rw [hafter, cycle_pair_weight _ hw, u0, u1, u2, u3]
    simp [hAB, hBA]
  · rw [hafter, cycle_pair_weight _ hw, u0, u1, u2, u3]
    simp [hAB, hBA]
  · cases hq : st'.get_me A A with
    | none => rfl
    | some me =>
      have := ((hs' hsp) A A).1 (by simp [hq])
      rw [hAA] at this
      exact absurd this (lt_irrefl 0)

theorem cycle_move_vertex_witness :
    ex_cycle.get_mrs 0 1 = 2 ∧ ex_cycle.get_mrs 0 0 = 1 ∧ ex_cycle.get_mrs 1 1 = 1 ∧
      ∃ st', ex_cycle.move_vertex 1 1 = .ok st' ∧
        st'.get_mrs 0 1 = 2 ∧ st'.get_mrs 0 0 = 0 ∧ st'.get_mrs 1 1 = 2 ∧
        st'.get_me 0 0 = none :=
  cycle_move_vertex ex_cycle_consistent ex_cycle_sparse 0 1 (by decide) rfl rfl
    (fun _ => rfl) ⟨rfl, rfl, rfl, rfl⟩ rfl

end BlockState
namespace BlockState

/-! ## Index sparsity and the per-edge cache -/

/-- C23 fails as stated: in `ex_heavy` the index is sparse, the edge weight is
positive and the labels are compatible; `move_vertex(1, 2)` returns, and
afterwards the pair `(0, 1)` is present in the index with the aggregate weight
`-1`, so the index is no longer sparse. -/
theorem move_vertex_breaks_sparsity :
    ex_heavy.sparse ∧ (∀ e ∈ ex_heavy.g.edges, 0 < ex_heavy.eweight e.idx) ∧
      ex_heavy.bclabel (ex_heavy.b 1) = ex_heavy.bclabel 2 ∧
      ∃ st', ex_heavy.move_vertex 1 2 = .ok st' ∧
        (st'.get_me 0 1).isSome = true ∧ st'.get_mrs 0 1 = -1 ∧ ¬ st'.sparse := by
  refine ⟨?_, by decide, rfl, state_of (ex_heavy.move_vertex 1 2) ex_heavy, rfl,
    by decide, by decide, ?_⟩
  · intro r s
    simp only [get_mrs, get_me, bkey, ex_heavy, ex_pair, if_true]
    by_cases h1 : (r, s) = (0, 1) <;> simp [h1]
  · intro h
    have := (h 0 1).1 (by decide)
    revert this
    decide

/-- C23 (amended): in a consistent state (distinct edge identities, positive
edge weights, index and block graph in agreement, per-edge cache consistent
with `b`, exact aggregate counts) whose index is sparse, `move_vertex(v, nr)`
with compatible labels returns and the index is sparse afterwards; when `v`
changes block, the index is also sparse between the removal step and the
insertion step. -/
theorem move_vertex_sparse {st : BlockState} (h : Consistent st) (hsp : st.sparse)
    (v nr : Nat) (hlab : st.bclabel (st.b v) = st.bclabel nr) :
    ∃ st', st.move_vertex v nr = .ok st' ∧ st'.sparse ∧
      (st.b v ≠ nr → ∃ st1, st.remove_vertex v = .ok st1 ∧ st1.sparse ∧
        st1.add_vertex v nr = .ok st') := by
  by_cases hne : st.b v = nr
  · refine ⟨st, ?_, hsp, fun h' => absurd hne h'⟩
    unfold move_vertex
    simp [hne]
  · have hnd := h.edges_nodup
    obtain ⟨st1, hrun1, hc1, _, hs1, hp1, hb1, _⟩ :=
      remove_vertex_spec v hnd h.counted (fun e he _ => ⟨h.weights_pos e he, rfl⟩)
    have hg1 : st1.g = st.g := hp1.1
    have hew1 : st1.eweight = st.eweight := hp1.2.1
    have hz1 : ∀ e ∈ st.g.edges, incident v e = true →
        zero_edges st.g.edges (incident v) st.eweight e.idx = 0 := by
      intro e he hi
      rw [zero_edges_apply hnd _ _ he, hi]
      rfl
    have hc1' : Counted st1 (zero_edges st.g.edges (incident v) st.eweight)
        (Function.update st1.b v nr) (fun _ _ => 0) (fun _ => False) := by
      rw [hb1]
      exact hc1.counted_rebase v nr (by rw [hg1]; exact hz1)
    obtain ⟨st2, hrun2, _, _, hs2, _, _, _⟩ := add_vertex_spec v nr
      (by rw [hg1]; exact hnd) hc1'
      (by
        rw [hg1, hew1]
        intro e he hi
        exact ⟨hz1 e he hi, h.weights_pos e he⟩)
    have hsp1 : st1.sparse := (sparse_iff st1).2 (hs1 _ ((sparse_iff st).1 hsp))
    have hsp2 : st2.sparse := (sparse_iff st2).2 (hs2 _ ((sparse_iff st1).1 hsp1))
    refine ⟨st2, ?_, hsp2, fun _ => ⟨st1, hrun1, hsp1, hrun2⟩⟩
    unfold move_vertex
    simp only [hne, if_false, hlab, ne_eq, not_true_eq_false, hrun1, hrun2]

theorem move_vertex_sparse_witness :
    ∃ st', ex_ring.move_vertex 1 2 = .ok st' ∧ st'.sparse ∧
      (ex_ring.b 1 ≠ 2 → ∃ st1, ex_ring.remove_vertex 1 = .ok st1 ∧ st1.sparse ∧
        st1.add_vertex 1 2 = .ok st') :=
  move_vertex_sparse ex_ring_consistent ex_ring_sparse 1 2 rfl

/-- C26 fails as stated: in `ex_fan` the edge weights are positive, the labels
are compatible and the per-edge cache agrees with the index on every edge;
`move_vertex(1, 2)` returns, and afterwards the edge `0 → 2` carries the handle
0 in its cache while the pair `(0, 1)` of its end points is absent from the
index. -/
theorem move_vertex_breaks_cache :
    (∀ e ∈ ex_fan.g.edges, 0 < ex_fan.eweight e.idx) ∧
      (∀ e ∈ ex_fan.g.edges, ex_fan.cache_ok e) ∧
      ex_fan.bclabel (ex_fan.b 1) = ex_fan.bclabel 2 ∧
      ∃ st', ex_fan.move_vertex 1 2 = .ok st' ∧
        (⟨0, 2, 1⟩ : Edge) ∈ st'.g.edges ∧ st'.bedge 1 = some 0 ∧
        st'.get_me (st'.b 0) (st'.b 2) = none ∧ ¬ st'.cache_ok ⟨0, 2, 1⟩ := by
  refine ⟨by decide, ?_, rfl, state_of (ex_fan.move_vertex 1 2) ex_fan, rfl,
    by decide, by decide, by decide, ?_⟩
  · intro e he
    simp only [ex_fan, List.mem_cons, List.mem_singleton, List.not_mem_nil, or_false] at he
    rcases he with rfl | rfl
    · exact ⟨0, by decide, by decide⟩
    · exact ⟨0, by decide, by decide⟩
  · rintro ⟨me, _, h2⟩
    have hn : (state_of (ex_fan.move_vertex 1 2) ex_fan).get_me
        ((state_of (ex_fan.move_vertex 1 2) ex_fan).b 0)
        ((state_of (ex_fan.move_vertex 1 2) ex_fan).b 2) = none := by decide
    exact Option.noConfusion (hn.symm.trans h2)

end BlockState
namespace BlockState

/-! ### The per-edge cache after `add_vertex`, in an arbitrary state -/

theorem touch_step_bedge (st : BlockState) (r s i : Nat) :
    (st.touch_step r s i).bedge =
      Function.update st.bedge i (some (st.get_or_create_me r s).2) := by
  unfold touch_step
  simp only [get_or_create_bedge]

theorem touch_step_keeps (st : BlockState) (r s i : Nat) :
    ∀ p q me, st.get_me p q = some me → (st.touch_step r s i).get_me p q = some me := by
  intro p q me hq
  rw [touch_step_get_me]
  by_cases hk : bkey st.g.directed p q = bkey st.g.directed r s
  · rw [if_pos hk]
    rw [get_me_congr_key hk] at hq
    rw [get_or_create_snd_of_some hq]
  · rw [if_neg hk]
    exact hq

/-- What the statements of one processed item of a loop of `add_vertex` do to
the partition, the per-edge cache and the index, whether or not the weight is
added to the aggregates. -/
theorem touch_then_bump (st : BlockState) (r s i : Nat) (st2 : BlockState)
    (h : st2 = st.touch_step r s i ∨
      ∃ a b me d, st2 = (st.touch_step r s i).bump a b me d) :
    st2.b = st.b ∧ st2.g = st.g ∧
      st2.bedge = Function.update st.bedge i (some (st.get_or_create_me r s).2) ∧
      (∀ p q me, st.get_me p q = some me → st2.get_me p q = some me) ∧
      st2.get_me r s = some (st.get_or_create_me r s).2 := by
  have hfr := touch_step_frame st r s i
  have hself : (st.touch_step r s i).get_me r s = some (st.get_or_create_me r s).2 := by
    rw [touch_step_get_me, if_pos rfl]
  rcases h with rfl | ⟨a, b, me, d, rfl⟩
  · exact ⟨hfr.2.2.2.1, hfr.1, touch_step_bedge st r s i, touch_step_keeps st r s i, hself⟩
  · have hfb := bump_frame (st.touch_step r s i) a b me d
    refine ⟨by rw [hfb.2.2.2.1, hfr.2.2.2.1], by rw [hfb.1, hfr.1], ?_, ?_, ?_⟩
    · rw [(bump_fields _ a b me d).2.2.1, touch_step_bedge]
    · intro p q m hq
      rw [bump_get_me]
      exact touch_step_keeps st r s i p q m hq
    · rw [bump_get_me]
      exact hself

/-- The first loop of `add_vertex`, in an arbitrary state: when it returns,
the index has only grown, every descriptor that the filter lets through carries
in the cache the index entry of its block pair, and the cache of every other
edge is untouched. -/
theorem add_out_loop_cache (v r : Nat) (efilt : Edge → Bool) :
    ∀ (es : List Edge) (st : BlockState) (sw : Int) (st' : BlockState) (sw' : Int),
      add_out_loop v r efilt es st sw = .ok (st', sw') →
      (∀ e ∈ es, ∀ e' ∈ es, e.idx = e'.idx → e.tgt = e'.tgt) →
      st'.b = st.b ∧ st'.g = st.g ∧
      (∀ p q me, st.get_me p q = some me → st'.get_me p q = some me) ∧
      (∀ e ∈ es, efilt e = false → ∃ me, st'.bedge e.idx = some me ∧
        st'.get_me r (if e.tgt ≠ v then st.b e.tgt else r) = some me) ∧
      (∀ i, (∀ e ∈ es, efilt e = false → e.idx ≠ i) → st'.bedge i = st.bedge i) := by
  intro es
  induction es with
  | nil =>
    intro st sw st' sw' h _
    simp only [add_out_loop, Except.ok.injEq, Prod.mk.injEq] at h
    obtain ⟨rfl, _⟩ := h
    exact ⟨rfl, rfl, fun _ _ _ h => h, fun e he => absurd he (List.not_mem_nil _),
      fun _ _ => rfl⟩
  | cons e es ih =>
    intro st sw st' sw' h huniq
    have huniq' : ∀ x ∈ es, ∀ y ∈ es, x.idx = y.idx → x.tgt = y.tgt :=
      fun x hx y hy => huniq x (List.mem_cons_of_mem _ hx) y (List.mem_cons_of_mem _ hy)
    rw [add_out_loop_unfold] at h
    by_cases hf : efilt e = true
    · rw [if_pos hf] at h
      obtain ⟨hb, hg, h1, h2, h3⟩ := ih st sw st' sw' h huniq'
      refine ⟨hb, hg, h1, ?_, ?_⟩
      · intro x hx hfx
        rcases List.mem_cons.1 hx with rfl | hx'
        · rw [hf] at hfx; cases hfx
        · exact h2 x hx' hfx
      · intro i hi
        exact h3 i (fun x hx hfx => hi x (List.mem_cons_of_mem _ hx) hfx)
    · rw [if_neg hf] at h
      have hfe : efilt e = false := by simpa using hf
      -- the state after the statements of this item, in either branch
      have key : ∀ (st2 : BlockState) (sw2 : Int),
          add_out_loop v r efilt es st2 sw2 = .ok (st', sw') →
          (st2 = st.touch_step r (if e.tgt ≠ v then st.b e.tgt else r) e.idx ∨
            ∃ a b me d, st2 =
              (st.touch_step r (if e.tgt ≠ v then st.b e.tgt else r) e.idx).bump a b me d) →
          st'.b = st.b ∧ st'.g = st.g ∧
          (∀ p q me, st.get_me p q = some me → st'.get_me p q = some me) ∧
          (∀ x ∈ e :: es, efilt x = false → ∃ me, st'.bedge x.idx = some me ∧
            st'.get_me r (if x.tgt ≠ v then st.b x.tgt else r) = some me) ∧
          (∀ i, (∀ x ∈ e :: es, efilt x = false → x.idx ≠ i) →
            st'.bedge i = st.bedge i) := by
        intro st2 sw2 hrun hst2
        obtain ⟨tb, tg, tbe, tkeep, tself⟩ := touch_then_bump st r _ e.idx st2 hst2
        obtain ⟨hb, hg, h1, h2, h3⟩ := ih st2 sw2 st' sw' hrun huniq'
        rw [tb] at h2
        refine ⟨hb.trans tb, hg.trans tg, fun p q me hq => h1 p q me (tkeep p q me hq), ?_, ?_⟩
        · intro x hx hfx
          rcases List.mem_cons.1 hx with rfl | hx'
          · by_cases hex : ∃ y ∈ es, efilt y = false ∧ y.idx = x.idx
            · obtain ⟨y, hy, hfy, hyi⟩ := hex
              obtain ⟨me, hm1, hm2⟩ := h2 y hy hfy
              have ht : y.tgt = x.tgt :=
                huniq y (List.mem_cons_of_mem _ hy) x (List.mem_cons_self _ _) hyi
              rw [hyi] at hm1
              rw [ht] at hm2
              exact ⟨me, hm1, hm2⟩
            · have hno : ∀ y ∈ es, efilt y = false → y.idx ≠ x.idx :=
                fun y hy hfy hyi => hex ⟨y, hy, hfy, hyi⟩
              refine ⟨_, ?_, h1 _ _ _ tself⟩
              rw [h3 x.idx hno, tbe, Function.update_same]
          · exact h2 x hx' hfx
        · intro i hi
          rw [h3 i (fun x hx hfx => hi x (List.mem_cons_of_mem _ hx) hfx), tbe,
            Function.update_noteq (fun hh => hi e (List.mem_cons_self _ _) hfe hh.symm)]
      rw [if_neg (touch_step_asserts st r _ e.idx).1,
        if_neg (touch_step_asserts st r _ e.idx).2] at h
      by_cases h3 : e.tgt = v ∧
          (st.touch_step r (if e.tgt ≠ v then st.b e.tgt else r) e.idx).g.directed = false
      · rw [if_pos h3] at h
        exact key _ _ h (Or.inl rfl)
      · rw [if_neg h3] at h
        exact key _ _ h (Or.inr ⟨_, _, _, _, rfl⟩)

/-- The second loop of `add_vertex`, in an arbitrary state. -/
theorem add_in_loop_cache (v r : Nat) (efilt : Edge → Bool) :
    ∀ (es : List Edge) (st st' : BlockState),
      add_in_loop v r efilt es st = .ok st' →
      (∀ e ∈ es, ∀ e' ∈ es, e.idx = e'.idx → e.src = e'.src) →
      st'.b = st.b ∧ st'.g = st.g ∧
      (∀ p q me, st.get_me p q = some me → st'.get_me p q = some me) ∧
      (∀ e ∈ es, efilt e = false → e.src ≠ v → ∃ me, st'.bedge e.idx = some me ∧
        st'.get_me (st.b e.src) r = some me) ∧
      (∀ i, (∀ e ∈ es, efilt e = false → e.src ≠ v → e.idx ≠ i) →
        st'.bedge i = st.bedge i) := by
  intro es
  induction es with
  | nil =>
    intro st st' h _
    simp only [add_in_loop, Except.ok.injEq] at h
    subst h
    exact ⟨rfl, rfl, fun _ _ _ h => h, fun e he => absurd he (List.not_mem_nil _),
      fun _ _ => rfl⟩
  | cons e es ih =>
    intro st st' h huniq
    have huniq' : ∀ x ∈ es, ∀ y ∈ es, x.idx = y.idx → x.src = y.src :=
      fun x hx y hy => huniq x (List.mem_cons_of_mem _ hx) y (List.mem_cons_of_mem _ hy)
    have skip : add_in_loop v r efilt es st = .ok st' → (efilt e = true ∨ e.src = v) →
        st'.b = st.b ∧ st'.g = st.g ∧
        (∀ p q me, st.get_me p q = some me → st'.get_me p q = some me) ∧
        (∀ x ∈ e :: es, efilt x = false → x.src ≠ v → ∃ me, st'.bedge x.idx = some me ∧
          st'.get_me (st.b x.src) r = some me) ∧
        (∀ i, (∀ x ∈ e :: es, efilt x = false → x.src ≠ v → x.idx ≠ i) →
          st'.bedge i = st.bedge i) := by
      intro hrun hskip
      obtain ⟨hb, hg, h1, h2, h3⟩ := ih st st' hrun huniq'
      refine ⟨hb, hg, h1, ?_, ?_⟩
      · intro x hx hfx hsx
        rcases List.mem_cons.1 hx with rfl | hx'
        · rcases hskip with hs | hs
          · rw [hs] at hfx; cases hfx
          · exact absurd hs hsx
        · exact h2 x hx' hfx hsx
      · intro i hi
        exact h3 i (fun x hx hfx hsx => hi x (List.mem_cons_of_mem _ hx) hfx hsx)
    rw [add_in_loop_unfold] at h
    by_cases hf : efilt e = true
    · rw [if_pos hf] at h
      exact skip h (Or.inl hf)
    · rw [if_neg hf] at h
      have hfe : efilt e = false := by simpa using hf
      by_cases hs : e.src = v
      · rw [if_pos hs] at h
        exact skip h (Or.inr hs)
      · rw [if_neg hs] at h
        rw [if_neg (touch_step_asserts st (st.b e.src) r e.idx).1,
          if_neg (touch_step_asserts st (st.b e.src) r e.idx).2] at h
        obtain ⟨tb, tg, tbe, tkeep, tself⟩ := touch_then_bump st (st.b e.src) r e.idx _
          (Or.inr ⟨_, _, _, _, rfl⟩)
        obtain ⟨hb, hg, k1, k2, k3⟩ := ih _ st' h huniq'
        rw [tb] at k2
        refine ⟨hb.trans tb, hg.trans tg, fun p q me hq => k1 p q me (tkeep p q me hq), ?_, ?_⟩
        · intro x hx hfx hsx
          rcases List.mem_cons.1 hx with rfl | hx'
          · by_cases hex : ∃ y ∈ es, efilt y = false ∧ y.src ≠ v ∧ y.idx = x.idx
            · obtain ⟨y, hy, hfy, hsy, hyi⟩ := hex
              obtain ⟨me, hm1, hm2⟩ := k2 y hy hfy hsy
              have ht : y.src = x.src :=
                huniq y (List.mem_cons_of_mem _ hy) x (List.mem_cons_self _ _) hyi
              rw [hyi] at hm1
              rw [ht] at hm2
              exact ⟨me, hm1, hm2⟩
            · have hno : ∀ y ∈ es, efilt y = false → y.src ≠ v → y.idx ≠ x.idx :=
                fun y hy hfy hsy hyi => hex ⟨y, hy, hfy, hsy, hyi⟩
              refine ⟨_, ?_, k1 _ _ _ tself⟩
              rw [k3 x.idx hno, tbe, Function.update_same]
          · exact k2 x hx' hfx hsx
        · intro i hi
          rw [k3 i (fun x hx hfx hsx => hi x (List.mem_cons_of_mem _ hx) hfx hsx), tbe,
            Function.update_noteq (fun hh => hi e (List.mem_cons_self _ _) hfe hs hh.symm)]

/-- The block `if (self_weight > 0)` of `add_vertex` writes neither the index
nor the per-edge cache. -/
theorem add_self_cache (r : Nat) (st : BlockState) (sw : Int) (st' : BlockState)
    (h : add_self r st sw = .ok st') :
    st'.b = st.b ∧ st'.g = st.g ∧ st'.bedge = st.bedge ∧
      (∀ p q, st'.get_me p q = st.get_me p q) := by
  rw [add_self_unfold] at h
  by_cases h1 : sw > 0
  · rw [if_pos h1] at h
    by_cases h2 : sw % 2 ≠ 0
    · rw [if_pos h2] at h; cases h
    · rw [if_neg h2] at h
      cases hq : st.get_me r r with
      | none => rw [hq] at h; cases h
      | some me =>
        rw [hq] at h
        simp only at h
        by_cases h3 : (st.bump r r me (sw / 2)).mrs me < 0
        · rw [if_pos h3] at h; cases h
        · rw [if_neg h3] at h
          simp only [Except.ok.injEq] at h
          subst h
          have hfb := bump_frame st r r me (sw / 2)
          exact ⟨hfb.2.2.2.1, hfb.1, (bump_fields st r r me (sw / 2)).2.2.1,
            fun p q => bump_get_me st r r me (sw / 2) p q⟩
  · rw [if_neg h1] at h
    simp only [Except.ok.injEq] at h
    subst h
    exact ⟨rfl, rfl, rfl, fun _ _ => rfl⟩

end BlockState
namespace BlockState

theorem out_descr_tgt {g : Graph} (hnd : (g.edges.map (fun e => e.idx)).Nodup) (v : Nat) :
    ∀ e ∈ out_edges_range g v, ∀ e' ∈ out_edges_range g v, e.idx = e'.idx → e.tgt = e'.tgt := by
  intro e he e' he' hi
  obtain ⟨hs, e0, h0, hd⟩ := out_items g v e he
  obtain ⟨hs', e0', h0', hd'⟩ := out_items g v e' he'
  have h00 : e0 = e0' := eq_of_idx_eq hnd h0 h0' (hd.1.trans (hi.trans hd'.1.symm))
  subst h00
  rcases hd.2 with ⟨a1, a2⟩ | ⟨_, a1, a2⟩ <;> rcases hd'.2 with ⟨b1, b2⟩ | ⟨_, b1, b2⟩
  · rw [a2, b2]
  · rw [a2, b2, ← a1, ← b1, hs, hs']
  · rw [a2, b2, ← a1, ← b1, hs, hs']
  · rw [a2, b2]

theorem in_descr_src {g : Graph} (hnd : (g.edges.map (fun e => e.idx)).Nodup) (v : Nat) :
    ∀ e ∈ in_edges_range g v, ∀ e' ∈ in_edges_range g v, e.idx = e'.idx → e.src = e'.src := by
  intro e he e' he' hi
  unfold in_edges_range at he he'
  cases hd : g.directed
  · rw [hd] at he; simp at he
  · rw [hd] at he he'
    simp only [if_true, List.mem_filter] at he he'
    rw [eq_of_idx_eq hnd he.1 he'.1 hi]

/-- `add_vertex(v, r, bedge, efilt)` in an arbitrary state whose edge
identities are distinct: when it returns, every descriptor of an edge incident
to `v` that the filter lets through carries in the per-edge cache the index
entry of the block pair of its end points, under the new partition. -/
theorem add_vertex_filt_cache (st : BlockState) (v r : Nat) (efilt : Edge → Bool)
    (st' : BlockState) (hnd : (st.g.edges.map (fun e => e.idx)).Nodup)
    (h : st.add_vertex_filt v r efilt = .ok st') :
    ∀ e ∈ all_edges_range st.g v, efilt e = false → st'.cache_ok e := by
  unfold add_vertex_filt at h
  cases hr1 : add_out_loop v r efilt (out_edges_range st.g v) st 0 with
  | error x => rw [hr1] at h; cases h
  | ok p1 =>
    obtain ⟨st1, sw⟩ := p1
    rw [hr1] at h
    simp only at h
    cases hr2 : add_self r st1 sw with
    | error x => rw [hr2] at h; cases h
    | ok st2 =>
      rw [hr2] at h
      simp only at h
      cases hr3 : add_in_loop v r efilt (in_edges_range st2.g v) st2 with
      | error x => rw [hr3] at h; cases h
      | ok st3 =>
        rw [hr3] at h
        simp only [Except.ok.injEq] at h
        obtain ⟨b1, g1, k1, c1, _⟩ := add_out_loop_cache v r efilt _ st 0 st1 sw hr1
          (out_descr_tgt hnd v)
        obtain ⟨b2, g2, be2, m2⟩ := add_self_cache r st1 sw st2 hr2
        have hg2 : st2.g = st.g := g2.trans g1
        have hb2 : st2.b = st.b := b2.trans b1
        obtain ⟨b3, g3, k3, c3, u3⟩ := add_in_loop_cache v r efilt _ st2 st3 hr3
          (by rw [hg2]; exact in_descr_src hnd v)
        have hcore := add_tail_core st3 v r
        have hbw := (add_tail_b_wr st3 v r).1
        have hb' : st'.b = Function.update st.b v r := by
          rw [← h, hbw, b3, hb2]
        have hbe' : st'.bedge = st3.bedge := by rw [← h]; exact hcore.2.2.2.2.1
        have hme' : ∀ p q, st'.get_me p q = st3.get_me p q := by
          intro p q
          rw [← h]
          exact get_me_of_fields hcore.1 hcore.2.1 p q
        -- descriptors handled by the first loop
        have hout : ∀ e ∈ out_edges_range st.g v, efilt e = false → st'.cache_ok e := by
          intro e he hfe
          obtain ⟨hs, e0, h0, hd⟩ := out_items st.g v e he
          obtain ⟨me, hm1, hm2⟩ := c1 e he hfe
          refine ⟨me, ?_, ?_⟩
          · rw [hbe', u3 e.idx ?_, be2]
            · exact hm1
            · intro d hdm hfd hsd hdi
              rw [hg2] at hdm
              obtain ⟨_, d0, hd0, hdd⟩ := in_items st.g v d hdm
              have hdir : st.g.directed = true := by
                cases hdir : st.g.directed
                · unfold in_edges_range at hdm
                  rw [hdir] at hdm
                  simp at hdm
                · rfl
              have h00 : d0 = e0 := eq_of_idx_eq hnd hd0 h0 (hdd.1.trans (hdi.trans hd.1.symm))
              subst h00
              rcases hdd.2 with ⟨a1, _⟩ | ⟨hf, _, _⟩
              · rcases hd.2 with ⟨c1', _⟩ | ⟨hf, _, _⟩
                · exact hsd (a1.trans (c1'.symm.trans hs))
                · rw [hdir] at hf; cases hf
              · rw [hdir] at hf; cases hf
          · rw [hme', hb', hs, Function.update_same]
            apply k3
            rw [m2]
            by_cases ht : e.tgt = v
            · rw [ht, Function.update_same]
              simpa [ht] using hm2
            · rw [Function.update_noteq ht]
              simpa [ht] using hm2
        intro e he hfe
        unfold all_edges_range at he
        rcases List.mem_append.1 he with he | he
        · exact hout e he hfe
        · by_cases hs : e.src = v
          · -- a self-loop listed among the in-edges is an out-edge as well
            apply hout e _ hfe
            unfold in_edges_range at he
            unfold out_edges_range
            cases hdir : st.g.directed
            · rw [hdir] at he; simp at he
            · rw [hdir] at he
              simp only [if_true, List.mem_filter, decide_eq_true_eq] at he ⊢
              exact ⟨he.1, hs⟩
          · obtain ⟨ht, _⟩ := in_items st.g v e he
            obtain ⟨me, hm1, hm2⟩ := c3 e (by rw [hg2]; exact he) hfe hs
            refine ⟨me, by rw [hbe']; exact hm1, ?_⟩
            rw [hme', hb', ht, Function.update_same, Function.update_noteq hs, ← hb2]
            exact hm2

/-- The cache of a graph edge is valid when the cache of a descriptor of the
edge is. -/
theorem cache_ok_of_descr {st : BlockState} {e e0 : Edge} (hd : descr st.g.directed e e0)
    (h : st.cache_ok e) : st.cache_ok e0 := by
  obtain ⟨me, h1, h2⟩ := h
  refine ⟨me, by rw [hd.1]; exact h1, ?_⟩
  rcases hd.2 with ⟨a1, a2⟩ | ⟨hf, a1, a2⟩
  · rw [← a1, ← a2]; exact h2
  · rw [← a1, ← a2, @get_me_congr_key st (st.b e.tgt) (st.b e.src) (st.b e.src) (st.b e.tgt)
      (by rw [hf]; exact bkey_comm _ _)]
    exact h2

end BlockState
namespace BlockState

/-- C26 (amended): (1) in every state with distinct edge identities, when
`add_vertex(v, r, bedge, efilt)` returns, every edge incident to `v` that the
filter does not exclude has a cached handle, and it is the index entry of the
block pair of its end points under the new partition (for the descriptors
listed by the edge ranges of `v`, and for the graph edges they denote);
(2) in a consistent state, where in addition the aggregate counts are exact,
`move_vertex(v, nr)` with compatible labels returns and the cache agrees with
the index on every graph edge afterwards. -/
theorem cache_after_add_and_move :
    (∀ (st st' : BlockState) (v r : Nat) (efilt : Edge → Bool),
      (st.g.edges.map (fun e => e.idx)).Nodup →
      st.add_vertex_filt v r efilt = .ok st' →
      (∀ e ∈ all_edges_range st.g v, efilt e = false → st'.cache_ok e) ∧
      (∀ e0 ∈ st.g.edges, incident v e0 = true →
        (∀ d : Edge, d.idx = e0.idx → efilt d = false) → st'.cache_ok e0)) ∧
    (∀ (st : BlockState) (v nr : Nat), Consistent st →
      st.bclabel (st.b v) = st.bclabel nr →
      ∃ st', st.move_vertex v nr = .ok st' ∧ ∀ e ∈ st'.g.edges, st'.cache_ok e) := by
  constructor
  · intro st st' v r efilt hnd hrun
    have hdesc := add_vertex_filt_cache st v r efilt st' hnd hrun
    refine ⟨hdesc, ?_⟩
    intro e0 h0 hinc hfilt
    have hg' : st'.g = st.g := by
      have := add_vertex_effect st v r efilt
      rw [hrun] at this
      exact this.1.1
    obtain ⟨d, hd, hdi⟩ := List.mem_map.1 (mem_all_edges_idx st.g v e0 h0 hinc)
    have hdd : descr st.g.directed d e0 := by
      unfold all_edges_range at hd
      rcases List.mem_append.1 hd with hd | hd
      · obtain ⟨_, e1, h1, hde⟩ := out_items st.g v d hd
        have : e1 = e0 := eq_of_idx_eq hnd h1 h0 (hde.1.trans hdi)
        rw [← this]; exact hde
      · obtain ⟨_, e1, h1, hde⟩ := in_items st.g v d hd
        have : e1 = e0 := eq_of_idx_eq hnd h1 h0 (hde.1.trans hdi)
        rw [← this]; exact hde
    rw [← hg'] at hdd
    exact cache_ok_of_descr hdd (hdesc d hd (hfilt d hdi))
  · intro st v nr h hlab
    by_cases hne : st.b v = nr
    · refine ⟨st, ?_, h.cache⟩
      unfold move_vertex
      simp [hne]
    · obtain ⟨st', hrun, hc', _⟩ := move_vertex_consistent h v nr hne hlab
      exact ⟨st', hrun, hc'.cache⟩

theorem cache_after_add_and_move_witness :
    (∀ e ∈ all_edges_range (state_of (ex_ring.remove_vertex 1) ex_ring).g 1,
        (state_of ((state_of (ex_ring.remove_vertex 1) ex_ring).add_vertex 1 2)
          ex_ring).cache_ok e) ∧
      ∃ st', ex_ring.move_vertex 1 2 = .ok st' ∧ ∀ e ∈ st'.g.edges, st'.cache_ok e :=
  ⟨fun e he =>
      (cache_after_add_and_move.1 (state_of (ex_ring.remove_vertex 1) ex_ring)
        (state_of ((state_of (ex_ring.remove_vertex 1) ex_ring).add_vertex 1 2) ex_ring)
        1 2 (fun _ => false) (by decide) rfl).1 e he rfl,
    cache_after_add_and_move.2 ex_ring 1 2 ex_ring_consistent rfl⟩

end BlockState

namespace BlockState

/-! ## What batch removal computes -/

theorem wsum_sub_congr {P : Edge → Bool} {c d x : Nat → Int} {es : List Edge}
    (h : ∀ e ∈ es, c e.idx - d e.idx = x e.idx) :
    wsum P c es - wsum P d es = wsum P x es := by
  induction es with
  | nil => rfl
  | cons e es ih =>
    have h1 := h e (List.mem_cons_self _ _)
    have h2 := ih (fun y hy => h y (List.mem_cons_of_mem _ hy))
    rw [wsum_cons, wsum_cons, wsum_cons, ← h2]
    by_cases hp : P e = true
    · simp only [hp, if_true, ← h1]; ring
    · simp only [hp, Bool.false_eq_true, if_false]; ring

theorem removed_weight_apply {st : BlockState} (hnd : (st.g.edges.map (fun e => e.idx)).Nodup)
    (vs : List Nat) {e : Edge} (he : e ∈ st.g.edges) :
    st.removed_weight vs e.idx =
      if e.src ∈ vs ∨ e.tgt ∈ vs then st.eweight e.idx else 0 := by
  unfold removed_weight
  rw [set_edges_apply _ hnd _ _ he]
  by_cases hm : e.src ∈ vs ∨ e.tgt ∈ vs
  · rw [if_pos hm, (any_incident_iff vs e).2 hm, if_pos rfl]
  · rw [if_neg hm]
    have : vs.any (fun v => incident v e) = false := by
      rw [Bool.eq_false_iff]
      exact fun h => hm ((any_incident_iff vs e).1 h)
    rw [this]
    rfl

theorem removed_weight_split {st : BlockState} (hnd : (st.g.edges.map (fun e => e.idx)).Nodup)
    (vs : List Nat) :
    ∀ e ∈ st.g.edges, st.eweight e.idx -
      zero_edges st.g.edges (fun e => vs.any (fun v => incident v e)) st.eweight e.idx =
        st.removed_weight vs e.idx := by
  intro e he
  unfold removed_weight
  rw [zero_edges_apply hnd _ _ he, set_edges_apply _ hnd _ _ he]
  cases vs.any (fun v => incident v e) <;> simp

/-- C29: in a consistent state in which `mrm` is the map `mrp` exactly on
undirected graphs, and for every vertex list `vs` (duplicates allowed),
`remove_vertices(vs)` returns normally; it lowers the aggregate weight of every
block pair by the total weight of the graph edges of that pair with an end
point in `vs`, every such edge taken once with its weight (edges with both end
points in `vs` and self-loops included), lowers `mrp` and `mrm` by the weight of
the ends of those edges in the block, which is the matching row and column sum
of the amounts taken off `mrs` when the blocks of the end points are vertices
of the block graph, lowers `wr[r]` by the total weight of the distinct vertices
of `vs` that lie in `r`, and leaves `b` unchanged. -/
theorem remove_vertices_effect {st : BlockState} (h : Consistent st)
    (hsh : st.mrm_is_mrp = !st.g.directed) (vs : List Nat) :
    ∃ st', st.remove_vertices vs = .ok st' ∧
      (∀ e ∈ st.g.edges, st.removed_weight vs e.idx =
        if e.src ∈ vs ∨ e.tgt ∈ vs then st.eweight e.idx else 0) ∧
      (∀ r s, st'.get_mrs r s = st.get_mrs r s -
        pair_weight st.g.directed (st.removed_weight vs) st.b st.g.edges r s) ∧
      (∀ r, st'.mrp r = st.mrp r -
        out_weight st.g.directed (st.removed_weight vs) st.b st.g.edges r) ∧
      (∀ r, st'.get_mrm r = st.get_mrm r -
        in_weight st.g.directed (st.removed_weight vs) st.b st.g.edges r) ∧
      (∀ r, st'.wr r = st.wr r -
        (vs.dedup.map (fun v => if st.b v = r then st.vweight v else 0)).sum) ∧
      st'.b = st.b ∧
      ((∀ e ∈ st.g.edges, st.b e.src < st.bg.nv ∧ st.b e.tgt < st.bg.nv) →
        ∀ r, r < st.bg.nv →
          if st.g.directed then
            st.mrp r - st'.mrp r =
              rsum st.bg.nv (fun s => st.get_mrs r s - st'.get_mrs r s) ∧
            st.get_mrm r - st'.get_mrm r =
              rsum st.bg.nv (fun s => st.get_mrs s r - st'.get_mrs s r)
          else
            st.mrp r - st'.mrp r =
              rsum st.bg.nv (fun s => if s = r then 2 * (st.get_mrs r r - st'.get_mrs r r)
                else st.get_mrs r s - st'.get_mrs r s)) := by
  have hnd := h.edges_nodup
  obtain ⟨st', hrun, hc, hd, _, hp, hb, hwr⟩ := remove_vertices_spec h vs
  have hg : st'.g = st.g := hp.1
  have hd0 : DegCounted st st.eweight st.b
      (fun x => st.mrp x - out_weight st.g.directed st.eweight st.b st.g.edges x)
      (fun x => st.get_mrm x - in_weight st.g.directed st.eweight st.b st.g.edges x) :=
    ⟨hsh, fun x => by ring, fun x => by ring⟩
  have hd' := hd _ _ hd0
  have hsplit := removed_weight_split hnd vs
  have hmrs : ∀ r s, st'.get_mrs r s = st.get_mrs r s -
      pair_weight st.g.directed (st.removed_weight vs) st.b st.g.edges r s := by
    intro r s
    rw [hc.mrs_eq r s, h.exact r s, hg]
    unfold pair_weight
    rw [← wsum_sub_congr hsplit]
    ring
  have hmrp : ∀ r, st'.mrp r = st.mrp r -
      out_weight st.g.directed (st.removed_weight vs) st.b st.g.edges r := by
    intro r
    rw [hd'.mrp_eq r, hg]
    unfold out_weight
    rw [← wsum_sub_congr hsplit, ← wsum_sub_congr hsplit]
    cases st.g.directed <;> simp <;> ring
  have hmrm : ∀ r, st'.get_mrm r = st.get_mrm r -
      in_weight st.g.directed (st.removed_weight vs) st.b st.g.edges r := by
    intro r
    rw [hd'.mrm_eq r, hg]
    unfold in_weight
    rw [← wsum_sub_congr hsplit, ← wsum_sub_congr hsplit]
    cases st.g.directed <;> simp <;> ring
  refine ⟨st', hrun, fun e he => removed_weight_apply hnd vs he, hmrs, hmrp, hmrm, ?_, hb, ?_⟩
  · intro r
    rw [hwr]
    rfl
  · intro hB r hr
    have hB1 : ∀ e ∈ st.g.edges, st.removed_weight vs e.idx ≠ 0 → st.b e.tgt < st.bg.nv :=
      fun e he _ => (hB e he).2
    have hB2 : ∀ e ∈ st.g.edges, st.removed_weight vs e.idx ≠ 0 → st.b e.src < st.bg.nv :=
      fun e he _ => (hB e he).1
    cases hdir : st.g.directed
    · simp only [Bool.false_eq_true, if_false]
      rw [hmrp r, hdir, ← und_sum_pair_weight st.bg.nv _ st.b st.g.edges r hr
        (fun e he _ => hB e he)]
      have : ∀ s, (if s = r then 2 * (st.get_mrs r r - st'.get_mrs r r)
          else st.get_mrs r s - st'.get_mrs r s) =
          (if s = r then 2 * pair_weight false (st.removed_weight vs) st.b st.g.edges r r
            else pair_weight false (st.removed_weight vs) st.b st.g.edges r s) := by
        intro s
        rw [hmrs r r, hmrs r s, hdir]
        split_ifs <;> ring
      simp only [this]
      ring
    · simp only [if_true]
      rw [hmrp r, hmrm r, hdir, ← row_sum_pair_weight st.bg.nv _ st.b st.g.edges r hB1,
        ← col_sum_pair_weight st.bg.nv _ st.b st.g.edges r hB2]
      have h1 : ∀ s, st.get_mrs r s - st'.get_mrs r s =
          pair_weight true (st.removed_weight vs) st.b st.g.edges r s := by
        intro s; rw [hmrs r s, hdir]; ring
      have h2 : ∀ s, st.get_mrs s r - st'.get_mrs s r =
          pair_weight true (st.removed_weight vs) st.b st.g.edges s r := by
        intro s; rw [hmrs s r, hdir]; ring
      simp only [h1, h2]
      constructor <;> ring

theorem remove_vertices_effect_witness :
    ∃ st', ex_ring.remove_vertices [1, 3, 1] = .ok st' ∧
      (∀ e ∈ ex_ring.g.edges, ex_ring.removed_weight [1, 3, 1] e.idx =
        if e.src ∈ [1, 3, 1] ∨ e.tgt ∈ [1, 3, 1] then ex_ring.eweight e.idx else 0) ∧
      (∀ r s, st'.get_mrs r s = ex_ring.get_mrs r s -
        pair_weight ex_ring.g.directed (ex_ring.removed_weight [1, 3, 1]) ex_ring.b
          ex_ring.g.edges r s) ∧
      (∀ r, st'.mrp r = ex_ring.mrp r -
        out_weight ex_ring.g.directed (ex_ring.removed_weight [1, 3, 1]) ex_ring.b
          ex_ring.g.edges r) ∧
      (∀ r, st'.get_mrm r = ex_ring.get_mrm r -
        in_weight ex_ring.g.directed (ex_ring.removed_weight [1, 3, 1]) ex_ring.b
          ex_ring.g.edges r) ∧
      (∀ r, st'.wr r = ex_ring.wr r -
        (([1, 3, 1] : List Nat).dedup.map
          (fun v => if ex_ring.b v = r then ex_ring.vweight v else 0)).sum) ∧
      st'.b = ex_ring.b ∧
      ((∀ e ∈ ex_ring.g.edges, ex_ring.b e.src < ex_ring.bg.nv ∧
          ex_ring.b e.tgt < ex_ring.bg.nv) →
        ∀ r, r < ex_ring.bg.nv →
          if ex_ring.g.directed then
            ex_ring.mrp r - st'.mrp r =
              rsum ex_ring.bg.nv (fun s => ex_ring.get_mrs r s - st'.get_mrs r s) ∧
            ex_ring.get_mrm r - st'.get_mrm r =
              rsum ex_ring.bg.nv (fun s => ex_ring.get_mrs s r - st'.get_mrs s r)
          else
            ex_ring.mrp r - st'.mrp r =
              rsum ex_ring.bg.nv (fun s =>
                if s = r then 2 * (ex_ring.get_mrs r r - st'.get_mrs r r)
                else ex_ring.get_mrs r s - st'.get_mrs r s)) :=
  remove_vertices_effect ex_ring_consistent rfl [1, 3, 1]

end BlockState
namespace BlockState

/-! ## merge_degs -/

theorem merge_degs_some (u v : Nat) (d : Nat → List (Nat × Nat × Nat)) :
    merge_degs u v (some d) =
      some (Function.update (Function.update d u []) v ((d u ++ d v).foldl hist_add [])) :=
  rfl

theorem hist_map_no_match (kn : Nat × Nat × Nat) :
    ∀ (t : List (Nat × Nat × Nat)), (∀ x ∈ t, ¬ (x.1 = kn.1 ∧ x.2.1 = kn.2.1)) →
      t.map (fun x => if x.1 = kn.1 ∧ x.2.1 = kn.2.1 then (x.1, x.2.1, x.2.2 + kn.2.2) else x)
        = t := by
  intro t h
  induction t with
  | nil => rfl
  | cons x t ih =>
    rw [List.map_cons, if_neg (h x (List.mem_cons_self _ _)),
      ih (fun y hy => h y (List.mem_cons_of_mem _ hy))]

theorem hist_map_keys (kn : Nat × Nat × Nat) (h : List (Nat × Nat × Nat)) :
    (h.map (fun x => if x.1 = kn.1 ∧ x.2.1 = kn.2.1 then (x.1, x.2.1, x.2.2 + kn.2.2)
      else x)).map (fun x => (x.1, x.2.1)) = h.map (fun x => (x.1, x.2.1)) := by
  rw [List.map_map]
  apply List.map_congr_left
  intro x _
  simp only [Function.comp]
  split_ifs <;> rfl

/-- Adding to the entry of a degree pair that is present, in a histogram with
distinct degree pairs. -/
theorem hist_map_mult (kn : Nat × Nat × Nat) :
    ∀ (h : List (Nat × Nat × Nat)), (h.map (fun x => (x.1, x.2.1))).Nodup →
      (∃ x ∈ h, x.1 = kn.1 ∧ x.2.1 = kn.2.1) →
      (∀ kin kout, deg_mult (h.map (fun x => if x.1 = kn.1 ∧ x.2.1 = kn.2.1
          then (x.1, x.2.1, x.2.2 + kn.2.2) else x)) kin kout =
        deg_mult h kin kout + (if kn.1 = kin ∧ kn.2.1 = kout then kn.2.2 else 0)) ∧
      deg_total (h.map (fun x => if x.1 = kn.1 ∧ x.2.1 = kn.2.1
          then (x.1, x.2.1, x.2.2 + kn.2.2) else x)) = deg_total h + kn.2.2 := by
  intro h
  induction h with
  | nil => intro _ ⟨x, hx, _⟩; cases hx
  | cons y t ih =>
    intro hnd hex
    rw [List.map_cons, List.nodup_cons] at hnd
    by_cases hy : y.1 = kn.1 ∧ y.2.1 = kn.2.1
    · have hno : ∀ x ∈ t, ¬ (x.1 = kn.1 ∧ x.2.1 = kn.2.1) := by
        intro x hx hxk
        apply hnd.1
        refine List.mem_map.2 ⟨x, hx, ?_⟩
        rw [hxk.1, hxk.2, hy.1, hy.2]
      rw [List.map_cons, if_pos hy, hist_map_no_match kn t hno]
      constructor
      · intro kin kout
        unfold deg_mult
        simp only [List.map_cons, List.sum_cons, hy.1, hy.2]
        split_ifs <;> omega
      · unfold deg_total
        simp only [List.map_cons, List.sum_cons]
        omega
    · have hex' : ∃ x ∈ t, x.1 = kn.1 ∧ x.2.1 = kn.2.1 := by
        obtain ⟨x, hx, hxk⟩ := hex
        rcases List.mem_cons.1 hx with rfl | hx'
        · exact absurd hxk hy
        · exact ⟨x, hx', hxk⟩
      obtain ⟨i1, i2⟩ := ih hnd.2 hex'
      rw [List.map_cons, if_neg hy]
      constructor
      · intro kin kout
        have := i1 kin kout
        unfold deg_mult at this ⊢
        simp only [List.map_cons, List.sum_cons]
        rw [this]
        ring
      · unfold deg_total at i2 ⊢
        simp only [List.map_cons, List.sum_cons]
        rw [i2]
        ring

/-- One statement `hist[...] += ...`: the degree pairs stay distinct and the
multiplicity of the pair of `kn` grows by the count of `kn`. -/
theorem hist_add_spec (h : List (Nat × Nat × Nat)) (kn : Nat × Nat × Nat)
    (hnd : (h.map (fun x => (x.1, x.2.1))).Nodup) :
    ((hist_add h kn).map (fun x => (x.1, x.2.1))).Nodup ∧
      (∀ kin kout, deg_mult (hist_add h kn) kin kout =
        deg_mult h kin kout + (if kn.1 = kin ∧ kn.2.1 = kout then kn.2.2 else 0)) ∧
      deg_total (hist_add h kn) = deg_total h + kn.2.2 := by
  unfold hist_add
  by_cases ha : h.any (fun x => decide (x.1 = kn.1 ∧ x.2.1 = kn.2.1)) = true
  · rw [if_pos ha]
    have hex : ∃ x ∈ h, x.1 = kn.1 ∧ x.2.1 = kn.2.1 := by
      rw [List.any_eq_true] at ha
      obtain ⟨x, hx, hxk⟩ := ha
      exact ⟨x, hx, by simpa using hxk⟩
    obtain ⟨i1, i2⟩ := hist_map_mult kn h hnd hex
    exact ⟨by rw [hist_map_keys]; exact hnd, i1, i2⟩
  · rw [if_neg ha]
    have hno : ∀ x ∈ h, ¬ (x.1 = kn.1 ∧ x.2.1 = kn.2.1) := by
      intro x hx hxk
      apply ha
      rw [List.any_eq_true]
      exact ⟨x, hx, by simpa using hxk⟩
    refine ⟨?_, ?_, ?_⟩
    · rw [List.map_append, List.map_singleton]
      apply List.Nodup.append hnd (List.nodup_singleton _)
      intro k hk1 hk2
      rw [List.mem_singleton] at hk2
      obtain ⟨x, hx, hxk⟩ := List.mem_map.1 hk1
      rw [hk2] at hxk
      simp only [Prod.mk.injEq] at hxk
      exact hno x hx hxk
    · intro kin kout
      unfold deg_mult
      simp only [List.map_append, List.map_cons, List.map_nil, List.sum_append, List.sum_cons,
        List.sum_nil, add_zero]
    · unfold deg_total
      simp only [List.map_append, List.map_cons, List.map_nil, List.sum_append, List.sum_cons,
        List.sum_nil, add_zero]

theorem deg_mult_append (L M : List (Nat × Nat × Nat)) (kin kout : Nat) :
    deg_mult (L ++ M) kin kout = deg_mult L kin kout + deg_mult M kin kout := by
  unfold deg_mult
  rw [List.map_append, List.sum_append]

theorem deg_total_append (L M : List (Nat × Nat × Nat)) :
    deg_total (L ++ M) = deg_total L + deg_total M := by
  unfold deg_total
  rw [List.map_append, List.sum_append]

/-- The loops that fill `hist`: distinct degree pairs, and the multiplicity of
every pair is the sum of its multiplicities in what was there and in the list
read. -/
theorem hist_fold_spec :
    ∀ (L h : List (Nat × Nat × Nat)), (h.map (fun x => (x.1, x.2.1))).Nodup →
      ((L.foldl hist_add h).map (fun x => (x.1, x.2.1))).Nodup ∧
      (∀ kin kout, deg_mult (L.foldl hist_add h) kin kout =
        deg_mult h kin kout + deg_mult L kin kout) ∧
      deg_total (L.foldl hist_add h) = deg_total h + deg_total L := by
  intro L
  induction L with
  | nil =>
    intro h hnd
    exact ⟨hnd, fun _ _ => by simp [deg_mult], by simp [deg_total]⟩
  | cons kn L ih =>
    intro h hnd
    obtain ⟨s1, s2, s3⟩ := hist_add_spec h kn hnd
    obtain ⟨i1, i2, i3⟩ := ih (hist_add h kn) s1
    rw [List.foldl_cons]
    refine ⟨i1, ?_, ?_⟩
    · intro kin kout
      rw [i2, s2]
      unfold deg_mult
      simp only [List.map_cons, List.sum_cons]
      ring
    · rw [i3, s3]
      unfold deg_total
      simp only [List.map_cons, List.sum_cons]
      ring

/-- C25: `merge_degs(u, v, degs)` with `u != v` on an explicit degree-sequence
cache: afterwards `degs[u]` is empty, the degree pairs of the triples of
`degs[v]` are distinct, the multiplicity of every degree pair in `degs[v]` is
the sum of its multiplicities in `degs[u]` and `degs[v]` before, the total
multiplicity is conserved, and the cache of every other vertex is unchanged;
on the plain-degree view `merge_degs` changes nothing. -/
theorem merge_degs_union (u v : Nat) (huv : u ≠ v) (d : Nat → List (Nat × Nat × Nat)) :
    merge_degs u v none = none ∧
    ∃ d', merge_degs u v (some d) = some d' ∧ d' u = [] ∧
      ((d' v).map (fun x => (x.1, x.2.1))).Nodup ∧
      (∀ kin kout, deg_mult (d' v) kin kout =
        deg_mult (d u) kin kout + deg_mult (d v) kin kout) ∧
      deg_total (d' u) + deg_total (d' v) = deg_total (d u) + deg_total (d v) ∧
      (∀ x, x ≠ u → x ≠ v → d' x = d x) := by
  refine ⟨rfl, _, merge_degs_some u v d, ?_, ?_, ?_, ?_, ?_⟩
  · rw [Function.update_noteq huv, Function.update_same]
  · rw [Function.update_same]
    exact (hist_fold_spec (d u ++ d v) [] List.nodup_nil).1
  · intro kin kout
    rw [Function.update_same, (hist_fold_spec (d u ++ d v) [] List.nodup_nil).2.1,
      deg_mult_append]
    simp [deg_mult]
  · rw [Function.update_same, Function.update_noteq huv, Function.update_same,
      (hist_fold_spec (d u ++ d v) [] List.nodup_nil).2.2, deg_total_append]
    simp [deg_total]
  · intro x hxu hxv
    rw [Function.update_noteq hxv, Function.update_noteq hxu]

theorem merge_degs_union_witness :
    merge_degs 0 1 none = none ∧
    ∃ d', merge_degs 0 1 (some ex_degs) = some d' ∧ d' 0 = [] ∧
      ((d' 1).map (fun x => (x.1, x.2.1))).Nodup ∧
      (∀ kin kout, deg_mult (d' 1) kin kout =
        deg_mult (ex_degs 0) kin kout + deg_mult (ex_degs 1) kin kout) ∧
      deg_total (d' 0) + deg_total (d' 1) = deg_total (ex_degs 0) + deg_total (ex_degs 1) ∧
      (∀ x, x ≠ 0 → x ≠ 1 → d' x = ex_degs x) :=
  merge_degs_union 0 1 (by decide) ex_degs

end BlockState
namespace BlockState

/-! ## sample_block -/

theorem egroups_ready_frame (st : BlockState) :
    { st.egroups_ready.1 with egroups := st.egroups } = st ∧
      st.egroups_ready.1.egroups = some st.egroups_ready.2 ∧
      (st.egroups_ready.2 = match st.egroups with
        | some eg => eg
        | none => st.egroups_init) := by
  unfold egroups_ready
  cases h : st.egroups with
  | none =>
    refine ⟨?_, rfl, rfl⟩
    simp only
    rw [← h]
  | some eg => exact ⟨by simp only; rw [← h], by simp only; exact h, rfl⟩

end BlockState
namespace BlockState

/-! ## The partition statistics -/

theorem foldl_max_ge (L : List Nat) : ∀ a, a ≤ L.foldl max a ∧ ∀ x ∈ L, x ≤ L.foldl max a := by
  induction L with
  | nil => intro a; exact ⟨le_refl a, fun x hx => absurd hx (List.not_mem_nil _)⟩
  | cons y L ih =>
    intro a
    obtain ⟨h1, h2⟩ := ih (max a y)
    rw [List.foldl_cons]
    refine ⟨le_trans (le_max_left a y) h1, ?_⟩
    intro x hx
    rcases List.mem_cons.1 hx with rfl | hx'
    · exact le_trans (le_max_right a x) h1
    · exact h2 x hx'

theorem foldl_max_mem (L : List Nat) : ∀ a, L.foldl max a = a ∨ L.foldl max a ∈ L := by
  induction L with
  | nil => intro a; exact Or.inl rfl
  | cons y L ih =>
    intro a
    rw [List.foldl_cons]
    rcases ih (max a y) with h | h
    · rw [h]
      rcases max_choice a y with hm | hm
      · exact Or.inl hm
      · exact Or.inr (by rw [hm]; exact List.mem_cons_self _ _)
    · exact Or.inr (List.mem_cons_of_mem _ h)

/-- The largest constraint label of a graph with at least one vertex is the
label of a vertex. -/
theorem max_pclabel_spec (f : Nat → Nat) (n : Nat) (hn : 0 < n) :
    ∃ v, v < n ∧ ((List.range n).map f).foldl max 0 = f v ∧ ∀ u, u < n → f u ≤ f v := by
  have hge := (foldl_max_ge ((List.range n).map f) 0).2
  have hall : ∀ u, u < n → f u ≤ ((List.range n).map f).foldl max 0 :=
    fun u hu => hge (f u) (List.mem_map.2 ⟨u, List.mem_range.2 hu, rfl⟩)
  rcases foldl_max_mem ((List.range n).map f) 0 with h | h
  · refine ⟨0, hn, ?_, ?_⟩
    · have := hall 0 hn
      omega
    · intro u hu
      have := hall u hu
      have := hall 0 hn
      omega
  · obtain ⟨v, hv, hfv⟩ := List.mem_map.1 h
    refine ⟨v, List.mem_range.1 hv, hfv.symm, ?_⟩
    intro u hu
    rw [hfv]
    exact hall u hu

theorem enable_of_enabled (st : BlockState) (h : st.is_partition_stats_enabled = true) :
    st.enable_partition_stats = .ok st := by
  unfold enable_partition_stats
  unfold is_partition_stats_enabled at h
  rw [if_neg (by simpa using h)]

/-- `enable_partition_stats()` on a graph with at least one vertex returns with
the statistics enabled and every member but the statistics unchanged. -/
theorem enable_enables (st : BlockState) (hnv : 0 < st.g.nv) :
    ∃ st', st.enable_partition_stats = .ok st' ∧ st'.is_partition_stats_enabled = true ∧
      { st' with partition_stats := st.partition_stats } = st := by
  by_cases h : st.is_partition_stats_enabled = true
  · exact ⟨st, enable_of_enabled st h, h, rfl⟩
  · unfold enable_partition_stats
    unfold is_partition_stats_enabled at h
    rw [if_pos (by simpa using h)]
    simp only
    rw [if_neg (by omega)]
    refine ⟨_, rfl, ?_, rfl⟩
    simp [is_partition_stats_enabled]

/-- C27: on a graph with at least one vertex: when no segment exists,
`enable_partition_stats()` builds one segment per constraint label
`0 .. max pclabel`, that is `1 + max over v of pclabel[v]` segments, each over
the vertices of its label and with `E` the sum of all edge weights and `B` the
number of blocks `r` of the block graph with `wr[r] > 0`, and the statistics
are enabled afterwards, every other member being unchanged; when the
statistics are enabled, `enable_partition_stats()` changes nothing;
`disable_partition_stats()` leaves them disabled; and after `init_mcmc(c, dl)`
they are enabled exactly when `dl != 0`. -/
theorem partition_stats_lifecycle {R : Type} [Zero R] [DecidableEq R] (st : BlockState)
    (hnv : 0 < st.g.nv) :
    (st.is_partition_stats_enabled = false →
      ∃ st', st.enable_partition_stats = .ok st' ∧
        (∃ v, v < st.g.nv ∧ st'.partition_stats.length = 1 + st.pclabel v ∧
          ∀ u, u < st.g.nv → st.pclabel u ≤ st.pclabel v) ∧
        (∀ ps ∈ st'.partition_stats,
          ps.E = (st.g.edges.map (fun e => st.eweight e.idx)).sum ∧
          ps.B = ((List.range st.bg.nv).filter (fun r => decide (st.wr r > 0))).length) ∧
        (∀ c, c < st'.partition_stats.length →
          (st'.partition_stats.get? c).map (fun ps => ps.vlist) =
            some ((List.range st.g.nv).filter (fun v => st.pclabel v = c))) ∧
        st'.is_partition_stats_enabled = true ∧
        { st' with partition_stats := st.partition_stats } = st) ∧
    (st.is_partition_stats_enabled = true → st.enable_partition_stats = .ok st) ∧
    st.disable_partition_stats.is_partition_stats_enabled = false ∧
    (∀ (c : Option R) (dl : R), ∃ st', st.init_mcmc c dl = .ok st' ∧
      (st'.is_partition_stats_enabled = true ↔ dl ≠ 0)) := by
  refine ⟨?_, enable_of_enabled st, rfl, ?_⟩
  · intro h
    obtain ⟨v, hv, hmax, hle⟩ := max_pclabel_spec st.pclabel st.g.nv hnv
    unfold enable_partition_stats
    unfold is_partition_stats_enabled at h
    rw [if_pos (by simpa using h)]
    simp only
    rw [if_neg (by omega)]
    refine ⟨_, rfl, ⟨v, hv, ?_, hle⟩, ?_, ?_, ?_, rfl⟩
    · simp only [List.length_map, List.length_range, hmax]
      omega
    · intro ps hps
      simp only [List.mem_map] at hps
      obtain ⟨c, _, rfl⟩ := hps
      exact ⟨rfl, rfl⟩
    · intro c hc
      simp only [List.length_map, List.length_range] at hc
      simp only [List.get?_eq_getElem?, List.getElem?_map, List.getElem?_range hc,
        Option.map_some']
    · simp [is_partition_stats_enabled]
  · intro c dl
    have hnv1 : ∀ st1 : BlockState, st1.g = st.g → ∃ st', st1.enable_partition_stats = .ok st' ∧
        st'.is_partition_stats_enabled = true := by
      intro st1 hg
      obtain ⟨st', h1, h2, _⟩ := enable_enables st1 (by rw [hg]; exact hnv)
      exact ⟨st', h1, h2⟩
    have hg1 : (match c with
        | some _ => st.egroups_ready.1
        | none => { st with egroups := none }).g = st.g := by
      cases c with
      | none => rfl
      | some x =>
        have hh := congrArg BlockState.g (egroups_ready_frame st).1
        exact hh
    unfold init_mcmc
    simp only
    by_cases hdl : dl = 0
    · rw [if_neg (by simpa using hdl)]
      refine ⟨_, rfl, ?_⟩
      simp [disable_partition_stats, is_partition_stats_enabled, hdl]
    · rw [if_pos hdl]
      obtain ⟨st', h1, h2⟩ := hnv1 _ hg1
      exact ⟨st', h1, by simp [h2, hdl]⟩

theorem partition_stats_lifecycle_witness :
    0 < ex_ring.g.nv ∧ ex_ring.is_partition_stats_enabled = false ∧
      (∃ st', ex_ring.enable_partition_stats = .ok st' ∧
        st'.is_partition_stats_enabled = true) ∧
      (∀ (c : Option Rat) (dl : Rat), ∃ st', ex_ring.init_mcmc c dl = .ok st' ∧
        (st'.is_partition_stats_enabled = true ↔ dl ≠ 0)) :=
  ⟨by decide, rfl,
    (((@partition_stats_lifecycle Rat _ _ ex_ring (by decide)).1 rfl).imp
      (fun _ h => ⟨h.1, h.2.2.2.2.1⟩)),
    (@partition_stats_lifecycle Rat _ _ ex_ring (by decide)).2.2.2⟩

end BlockState

namespace BlockState

/-! ## The proposal probabilities are normalised -/

theorem list_sum_swap {α β R : Type} [AddCommMonoid R] (L : List α) (M : List β)
    (f : α → β → R) :
    (L.map (fun a => (M.map (fun b => f a b)).sum)).sum =
      (M.map (fun b => (L.map (fun a => f a b)).sum)).sum := by
  induction L with
  | nil => simp
  | cons a L ih =>
    simp only [List.map_cons, List.sum_cons, ih]
    rw [← List.sum_map_add]

theorem list_sum_div {α R : Type} [Field R] (L : List α) (f : α → R) (D : R) :
    (L.map (fun a => f a / D)).sum = (L.map f).sum / D := by
  induction L with
  | nil => simp
  | cons a L ih =>
    simp only [List.map_cons, List.sum_cons, ih]
    rw [add_div]

theorem list_sum_mul_left {α R : Type} [Field R] (L : List α) (f : α → R) (x : R) :
    (L.map (fun a => x * f a)).sum = x * (L.map f).sum := by
  induction L with
  | nil => simp
  | cons a L ih =>
    simp only [List.map_cons, List.sum_cons, ih]
    rw [mul_add]

theorem list_sum_cast_add_const {R : Type} [Field R] (L : List Nat) (f : Nat → Int) (c : R) :
    (L.map (fun s => ((f s : Int) : R) + c)).sum =
      (((L.map f).sum : Int) : R) + c * (L.length : R) := by
  induction L with
  | nil => simp
  | cons a L ih =>
    simp only [List.map_cons, List.sum_cons, ih, List.length_cons, Int.cast_add,
      Nat.cast_succ]
    ring

/-- The contributions of one neighbour to the proposal probabilities of all
blocks add up to 1, under the degree-sum invariant. -/
theorem move_prob_term_sum {R : Type} [Field R] (st : BlockState) (hds : st.deg_sum)
    (v r : Nat) (c : R) (m : EntrySet) (e : Edge)
    (ht : st.far_block v r e < st.bg.nv)
    (hden : st.move_prob_denom c (st.far_block v r e) ≠ 0) :
    ((List.range st.bg.nv).map (fun s => st.move_prob_term v r s c false m e)).sum = 1 := by
  have hd := hds (st.far_block v r e) ht
  unfold move_prob_denom at hden
  unfold move_prob_term
  simp only [prob_mts, prob_mst, prob_mtp, prob_mtm, Bool.false_eq_true, false_and, if_false]
  cases hdir : st.g.directed
  · rw [hdir] at hd hden
    simp only [Bool.false_eq_true, if_false] at hd hden ⊢
    rw [list_sum_div, list_sum_cast_add_const, List.length_range]
    have : ((List.range st.bg.nv).map (fun s =>
        if st.far_block v r e = s then st.get_mrs (st.far_block v r e) s * 2
        else st.get_mrs (st.far_block v r e) s)).sum = st.mrp (st.far_block v r e) := by
      rw [hd.1]
      unfold mrs_und_sum
      apply congrArg
      apply List.map_congr_left
      intro s _
      by_cases h : s = st.far_block v r e
      · rw [if_pos h.symm, if_pos h, h]; ring
      · rw [if_neg (fun h' => h h'.symm), if_neg h]
    rw [this]
    exact div_self hden
  · rw [hdir] at hd hden
    simp only [if_true] at hd hden ⊢
    rw [list_sum_div, list_sum_cast_add_const, List.length_range]
    have : ((List.range st.bg.nv).map (fun s =>
        st.get_mrs (st.far_block v r e) s + st.get_mrs s (st.far_block v r e))).sum =
        st.mrp (st.far_block v r e) + st.get_mrm (st.far_block v r e) := by
      rw [hd.1, hd.2]
      unfold mrs_row_sum mrs_col_sum
      rw [List.sum_map_add]
    rw [this]
    exact div_self hden

/-- The values `get_move_prob(v, r, s, c, reverse = false)` with `r = b[v]`
over the `B` blocks `s` of the block graph add up to 1 in a state satisfying
the degree-sum invariant, for a vertex `v` with positive incident edge weight
whose neighbours lie in blocks of the block graph, provided no denominator
vanishes (a field of characteristic 0). -/
theorem move_prob_sum_one {R : Type} [Field R] [CharZero R] (st : BlockState)
    (v : Nat) (c : R) (hds : st.deg_sum)
    (hw : 0 < ((all_edges_range st.g v).map (fun e => st.eweight e.idx)).sum)
    (hB : ∀ e ∈ all_edges_range st.g v, st.far_block v (st.b v) e < st.bg.nv)
    (hden : ∀ e ∈ all_edges_range st.g v,
      st.move_prob_denom c (st.far_block v (st.b v) e) ≠ 0) :
    ((List.range st.bg.nv).map
      (fun s => (st.get_move_prob v (st.b v) s c false).1)).sum = 1 := by
  have hval : ∀ s, (st.get_move_prob v (st.b v) s c false).1 =
      ((all_edges_range st.g v).map (fun e => (st.eweight e.idx : R) *
        st.move_prob_term v (st.b v) s c false
          (move_entries st v s EntrySet.clear) e)).sum /
      ((((all_edges_range st.g v).map (fun e => st.eweight e.idx)).sum : Int) : R) := by
    intro s
    have h := get_move_prob_entries_eq
      { st with m_entries := move_entries st v s EntrySet.clear }
      v (st.b v) s c false (move_entries st v s EntrySet.clear)
    have hv : (st.get_move_prob v (st.b v) s c false).1 =
        get_move_prob_entries
          { st with m_entries := move_entries st v s EntrySet.clear }
          v (st.b v) s c false (move_entries st v s EntrySet.clear) := rfl
    rw [hv, h]
    simp only [move_prob_term_entries]
    rw [if_pos hw]
  have hterm : ∀ s m e, st.move_prob_term v (st.b v) s c false m e =
      st.move_prob_term v (st.b v) s c false EntrySet.clear e := by
    intro s m e
    unfold move_prob_term
    simp only [prob_mts, prob_mst, prob_mtp, prob_mtm, Bool.false_eq_true, false_and, if_false]
  simp only [hval, hterm]
  rw [list_sum_div, list_sum_swap]
  have hone : ∀ e ∈ all_edges_range st.g v,
      ((List.range st.bg.nv).map (fun s => (st.eweight e.idx : R) *
        st.move_prob_term v (st.b v) s c false EntrySet.clear e)).sum =
      (st.eweight e.idx : R) := by
    intro e he
    rw [list_sum_mul_left, move_prob_term_sum st hds v (st.b v) c _ e (hB e he) (hden e he),
      mul_one]
  rw [List.map_congr_left hone]
  have hcast : ((all_edges_range st.g v).map (fun e => (st.eweight e.idx : R))).sum =
      ((((all_edges_range st.g v).map (fun e => st.eweight e.idx)).sum : Int) : R) := by
    induction all_edges_range st.g v with
    | nil => simp
    | cons e es ih => simp only [List.map_cons, List.sum_cons, ih, Int.cast_add]
  rw [hcast]
  exact div_self (by exact_mod_cast (ne_of_gt hw))

end BlockState

theorem merged_ne (u v x : Nat) (huv : u ≠ v) : merged u v x ≠ u := by
  unfold merged
  split_ifs with h
  · exact fun h' => huv h'.symm
  · exact h

theorem replaces_not_incident {d : Bool} {u v : Nat} {e0 e : Edge} (huv : u ≠ v)
    (h : replaces d u v e0 e) : incident u e = false := by
  unfold incident
  rcases h with ⟨h1, h2⟩ | ⟨_, h1, h2⟩
  · simp [h1, h2, merged_ne u v _ huv]
  · simp [h1, h2, merged_ne u v _ huv]

theorem descr_replaces {d : Bool} {eh e0 : Edge} (u v i : Nat) (h : descr d eh e0) :
    replaces d u v e0 ⟨merged u v eh.src, merged u v eh.tgt, i⟩ := by
  rcases h.2 with ⟨h1, h2⟩ | ⟨hd, h1, h2⟩
  · exact Or.inl ⟨by rw [h1], by rw [h2]⟩
  · exact Or.inr ⟨hd, by rw [h1], by rw [h2]⟩

namespace BlockState

/-- The group of a key of the hash map is not empty, and its members are
listed descriptors with that key. -/
theorem group_head (key : Edge → Nat) (L : List Edge) (t : Nat)
    (ht : t ∈ group_keys key L) :
    ∃ eh rest, group_edges key L t = eh :: rest ∧ eh ∈ L ∧ key eh = t := by
  unfold group_keys at ht
  rw [List.mem_dedup] at ht
  obtain ⟨e, he, hk⟩ := List.mem_map.1 ht
  unfold group_edges
  rcases hf : L.filter (fun e => decide (key e = t)) with _ | ⟨eh, rest⟩
  · have hm : e ∈ L.filter (fun e => decide (key e = t)) :=
      List.mem_filter.2 ⟨he, by simpa using hk⟩
    rw [hf] at hm
    cases hm
  · have hm : eh ∈ L.filter (fun e => decide (key e = t)) := by
      rw [hf]; exact List.mem_cons_self _ _
    rw [List.mem_filter] at hm
    exact ⟨eh, rest, rfl, hm.1, by simpa using hm.2⟩

theorem CacheInv.cache_init (st : BlockState) (u v : Nat) : CacheInv st u v st :=
  ⟨rfl, fun _ _ => rfl, [], by simp, by simp⟩

/-- The statements shared by the two loops of `merge_vertices` keep the cache
invariant: an added edge receives the cache entry of the first edge of the
group. -/
theorem fold_or_add_cache {st0 st : BlockState} {u v : Nat} (hI : CacheInv st0 u v st)
    (ns_v : Nat → List Edge) (k a b : Nat) (w : Int) (es : List Edge)
    (hes : ∃ eh rest, es = eh :: rest ∧ ∃ e0 ∈ st0.g.edges, incident u e0 = true ∧
      e0.idx = eh.idx ∧ replaces st0.g.directed u v e0 ⟨a, b, st.g.fresh⟩) :
    CacheInv st0 u v (fold_or_add st ns_v k a b w es).1 := by
  obtain ⟨hd, hold, extra, hex, hnew⟩ := hI
  unfold fold_or_add
  rcases hk : ns_v k with _ | ⟨e, rest⟩
  · simp only []
    obtain ⟨eh, rest, hes, e0, h0, hinc, hi, hrep⟩ := hes
    have hlt : ∀ e ∈ st.g.edges, e.idx ≠ st.g.fresh := by
      intro e he
      have := graph_fresh_gt st.g e he
      omega
    refine ⟨hd, ?_, extra ++ [⟨a, b, st.g.fresh⟩], ?_, ?_⟩
    · intro e he
      have hmem : e ∈ st.g.edges := by rw [hex]; exact List.mem_append_left _ he
      show Function.update st.bedge st.g.fresh _ e.idx = _
      rw [Function.update_noteq (hlt e hmem)]
      exact hold e he
    · show st.g.edges ++ [⟨a, b, st.g.fresh⟩] = st0.g.edges ++ (extra ++ [⟨a, b, st.g.fresh⟩])
      rw [hex, List.append_assoc]
    · intro e he
      rcases List.mem_append.1 he with h1 | h1
      · obtain ⟨e1, h1m, h1i, h1r, h1b⟩ := hnew e h1
        have hmem : e ∈ st.g.edges := by rw [hex]; exact List.mem_append_right _ h1
        refine ⟨e1, h1m, h1i, h1r, ?_⟩
        show Function.update st.bedge st.g.fresh _ e.idx = _
        rw [Function.update_noteq (hlt e hmem)]
        exact h1b
      · simp only [List.mem_singleton] at h1
        rw [h1]
        refine ⟨e0, h0, hinc, hrep, ?_⟩
        show Function.update st.bedge st.g.fresh _ st.g.fresh = _
        rw [Function.update_same, hes]
        show st.bedge eh.idx = _
        rw [← hi]
        exact hold e0 h0
  · exact ⟨hd, hold, extra, hex, hnew⟩

/-- The first loop of `merge_vertices(u, v)` keeps the cache invariant. -/
theorem merge_out_loop_cache (st0 : BlockState) (u v : Nat) (ns_u : Nat → List Edge) :
    ∀ (ts : List Nat) (acc acc' : BlockState × (Nat → List Edge)),
      (∀ t ∈ ts, ∃ eh rest, ns_u t = eh :: rest ∧ eh.src = u ∧ eh.tgt = t ∧
        ∃ e0 ∈ st0.g.edges, descr st0.g.directed eh e0) →
      CacheInv st0 u v acc.1 → merge_out_loop u v ns_u ts acc = .ok acc' →
      CacheInv st0 u v acc'.1 := by
  intro ts
  induction ts with
  | nil =>
    intro acc acc' _ hI hrun
    rw [merge_out_loop] at hrun
    injection hrun with h
    rw [← h]
    exact hI
  | cons t ts ih =>
    intro acc acc' hns hI hrun
    obtain ⟨eh, rest, hes, hsrc, htgt, e0, h0, hde⟩ := hns t (List.mem_cons_self _ _)
    have hinc : incident u e0 = true := out_items_incident st0.g u hsrc hde
    have hgroup : ∀ (a b : Nat), a = merged u v eh.src → b = merged u v eh.tgt →
        ∃ eh rest, ns_u t = eh :: rest ∧ ∃ e0 ∈ st0.g.edges, incident u e0 = true ∧
          e0.idx = eh.idx ∧ replaces st0.g.directed u v e0 ⟨a, b, acc.1.g.fresh⟩ := by
      intro a b ha hb
      refine ⟨eh, rest, hes, e0, h0, hinc, hde.1, ?_⟩
      rw [ha, hb]
      exact descr_replaces u v _ hde
    have hmu : merged u v eh.src = v := by unfold merged; rw [if_pos hsrc]
    rw [merge_out_loop] at hrun
    have hstep : ∀ acc1, merge_out_step u v ns_u acc t = .ok acc1 → CacheInv st0 u v acc1.1 := by
      intro acc1 h1
      unfold merge_out_step at h1
      simp only [] at h1
      by_cases htu : t = u
      · have hmt : merged u v eh.tgt = v := by unfold merged; rw [if_pos (htgt.trans htu)]
        rw [if_pos htu] at h1
        by_cases hdd : acc.1.g.directed = false
        · rw [if_pos hdd] at h1
          split_ifs at h1
          injection h1 with h1
          rw [← h1]
          exact fold_or_add_cache hI _ _ _ _ _ _ (hgroup v v hmu.symm hmt.symm)
        · rw [if_neg hdd] at h1
          injection h1 with h1
          rw [← h1]
          exact fold_or_add_cache hI _ _ _ _ _ _ (hgroup v v hmu.symm hmt.symm)
      · have hmt : merged u v eh.tgt = t := by
          unfold merged; rw [if_neg (by rw [htgt]; exact htu)]; exact htgt
        rw [if_neg htu] at h1
        injection h1 with h1
        rw [← h1]
        exact fold_or_add_cache hI _ _ _ _ _ _ (hgroup v t hmu.symm hmt.symm)
    rcases h1 : merge_out_step u v ns_u acc t with x | acc1
    · rw [h1] at hrun
      cases hrun
    · rw [h1] at hrun
      exact ih acc1 acc' (fun t' ht' => hns t' (List.mem_cons_of_mem _ ht'))
        (hstep acc1 h1) hrun

/-- The second loop of `merge_vertices(u, v)` keeps the cache invariant. -/
theorem merge_in_loop_cache (st0 : BlockState) (u v : Nat) (ns_u : Nat → List Edge) :
    ∀ (ss : List Nat) (acc : BlockState × (Nat → List Edge)),
      (∀ s ∈ ss, ∃ eh rest, ns_u s = eh :: rest ∧ eh.src = s ∧ eh.tgt = u ∧
        ∃ e0 ∈ st0.g.edges, descr st0.g.directed eh e0) →
      CacheInv st0 u v acc.1 →
      CacheInv st0 u v (ss.foldl (merge_in_step u v ns_u) acc).1 := by
  intro ss
  induction ss with
  | nil => intro acc _ hI; exact hI
  | cons s ss ih =>
    intro acc hns hI
    rw [List.foldl_cons]
    apply ih _ (fun s' hs' => hns s' (List.mem_cons_of_mem _ hs'))
    obtain ⟨eh, rest, hes, hsrc, htgt, e0, h0, hde⟩ := hns s (List.mem_cons_self _ _)
    unfold merge_in_step
    by_cases hsu : s = u
    · rw [if_pos hsu]; exact hI
    · rw [if_neg hsu]
      simp only []
      have hinc : incident u e0 = true := in_items_incident st0.g u htgt hde
      have hms : merged u v eh.src = s := by
        unfold merged; rw [if_neg (by rw [hsrc]; exact hsu)]; exact hsrc
      have hmt : merged u v eh.tgt = v := by unfold merged; rw [if_pos htgt]
      apply fold_or_add_cache hI
      refine ⟨eh, rest, hes, e0, h0, hinc, hde.1, ?_⟩
      have := descr_replaces u v acc.1.g.fresh hde
      rw [hms, hmt] at this
      exact this

theorem out_group_heads (g : Graph) (u : Nat) :
    ∀ t ∈ group_keys (fun e => e.tgt) (out_edges_range g u),
      ∃ eh rest, group_edges (fun e => e.tgt) (out_edges_range g u) t = eh :: rest ∧
        eh.src = u ∧ eh.tgt = t ∧ ∃ e0 ∈ g.edges, descr g.directed eh e0 := by
  intro t ht
  obtain ⟨eh, rest, hes, hm, hk⟩ := group_head _ _ t ht
  obtain ⟨hs, e0, h0, hde⟩ := out_items g u eh hm
  exact ⟨eh, rest, hes, hs, hk, e0, h0, hde⟩

theorem in_group_heads (g : Graph) (u : Nat) :
    ∀ s ∈ group_keys (fun e => e.src) (in_edges_range g u),
      ∃ eh rest, group_edges (fun e => e.src) (in_edges_range g u) s = eh :: rest ∧
        eh.src = s ∧ eh.tgt = u ∧ ∃ e0 ∈ g.edges, descr g.directed eh e0 := by
  intro s hs
  obtain ⟨eh, rest, hes, hm, hk⟩ := group_head _ _ s hs
  obtain ⟨ht, e0, h0, hde⟩ := in_items g u eh hm
  exact ⟨eh, rest, hes, hk, ht, e0, h0, hde⟩

/-- The per-edge cache after `merge_vertices(u, v)` on a weighted model: the
entries of the edges present at the call are untouched, the edges that are not
incident to `u` remain, and every other edge of the result takes the place of
an edge that was incident to `u` and carries its cache entry. -/
theorem merge_weighted_cache (st : BlockState) (u v : Nat) (huv : u ≠ v) (st' : BlockState)
    (hrun : merge_vertices_weighted st u v = .ok st') :
    (∀ e ∈ st.g.edges, st'.bedge e.idx = st.bedge e.idx) ∧
    ∃ extra, st'.g.edges = st.g.edges.filter (fun e => !incident u e) ++ extra ∧
      ∀ e ∈ extra, ∃ e0 ∈ st.g.edges, incident u e0 = true ∧
        replaces st.g.directed u v e0 e ∧ st'.bedge e.idx = st.bedge e0.idx := by
  obtain ⟨acc1, hrun1, _⟩ := merge_out_loop_total u v
    (group_edges (fun e => e.tgt) (out_edges_range st.g u)) st.g.directed
    (fun hd c => self_group_even st.g u c hd)
    (group_keys (fun e => e.tgt) (out_edges_range st.g u))
    (st, group_edges (fun e => e.tgt) (out_edges_range st.g v)) rfl
  have hI1 : CacheInv st u v acc1.1 :=
    merge_out_loop_cache st u v _ _ _ acc1 (out_group_heads st.g u)
      (CacheInv.cache_init st u v) hrun1
  have hfin : ∀ st2 : BlockState, CacheInv st u v st2 →
      (∀ e ∈ st.g.edges, (merge_tail st2 u v).bedge e.idx = st.bedge e.idx) ∧
      ∃ extra, (merge_tail st2 u v).g.edges =
          st.g.edges.filter (fun e => !incident u e) ++ extra ∧
        ∀ e ∈ extra, ∃ e0 ∈ st.g.edges, incident u e0 = true ∧
          replaces st.g.directed u v e0 e ∧
          (merge_tail st2 u v).bedge e.idx = st.bedge e0.idx := by
    intro st2 ⟨_, hold, extra, hex, hnew⟩
    refine ⟨hold, extra, ?_, hnew⟩
    show st2.g.edges.filter (fun e => decide (e.src ≠ u ∧ e.tgt ≠ u)) = _
    have hcongr : ∀ l : List Edge, l.filter (fun e => decide (e.src ≠ u ∧ e.tgt ≠ u)) =
        l.filter (fun e => !incident u e) := by
      intro l
      apply List.filter_congr
      intro e _
      simp only [incident]
      by_cases h1 : e.src = u <;> by_cases h2 : e.tgt = u <;> simp [h1, h2]
    rw [hcongr, hex, List.filter_append]
    congr 1
    rw [List.filter_eq_self]
    intro e he
    obtain ⟨e0, _, _, hrep, _⟩ := hnew e he
    rw [replaces_not_incident huv hrep]
    rfl
  unfold merge_vertices_weighted at hrun
  simp only [] at hrun
  rw [hrun1] at hrun
  simp only [] at hrun
  by_cases hd : acc1.1.g.directed = true
  · rw [if_pos hd] at hrun
    injection hrun with hrun
    rw [← hrun]
    apply hfin
    obtain ⟨hdir, _, extra, hex, hnew⟩ := hI1
    have hin : in_edges_range acc1.1.g u = in_edges_range st.g u :=
      in_edges_grown st.g acc1.1.g u hdir extra hex
        (fun e he => by
          obtain ⟨e0, _, _, hrep, _⟩ := hnew e he
          exact replaces_not_incident huv hrep)
    rw [hin]
    exact merge_in_loop_cache st u v _ _ _ (in_group_heads st.g u) ⟨hdir, ‹_›, extra, hex, hnew⟩
  · rw [if_neg hd] at hrun
    injection hrun with hrun
    rw [← hrun]
    exact hfin _ hI1

end BlockState
namespace BlockState

/-- The loops and the tail of `merge_vertices` leave the block-level state
unchanged. -/
theorem merge_weighted_blocks (st : BlockState) (u v : Nat) (st' : BlockState)
    (hrun : merge_vertices_weighted st u v = .ok st') : same_blocks st st' := by
  obtain ⟨st2, ⟨hfr, _⟩, hrun2⟩ := merge_weighted_total st u v
  rw [hrun] at hrun2
  injection hrun2 with h
  rw [h]
  unfold merge_frame at hfr
  unfold same_blocks
  rw [← hfr]
  exact ⟨rfl, rfl, rfl, rfl, rfl, rfl, rfl⟩

theorem merged_block {bm : Nat → Nat} {u v : Nat} (hb : bm u = bm v) (x : Nat) :
    bm (merged u v x) = bm x := by
  unfold merged
  split_ifs with h
  · rw [h, hb]
  · rfl

/-- The block weights stay exact when the weight of `u` goes to a vertex `v`
of the same block. -/
theorem wr_sum_merged (n : Nat) (bm : Nat → Nat) (w : Nat → Int) (u v r : Nat) (huv : u ≠ v)
    (hu : u < n) (hv : v < n) (hb : bm u = bm v) :
    ((List.range n).map (fun x => if bm x = r
        then Function.update (Function.update w v (w v + w u)) u 0 x else 0)).sum =
      ((List.range n).map (fun x => if bm x = r then w x else 0)).sum := by
  have hvu : v ≠ u := fun h => huv h.symm
  have hfun : (fun x => if bm x = r
        then Function.update (Function.update w v (w v + w u)) u 0 x else 0) =
      Function.update (Function.update (fun x => if bm x = r then w x else (0 : Int)) v
        ((if bm v = r then w v else 0) + (if bm u = r then w u else 0))) u 0 := by
    funext x
    by_cases hxu : x = u
    · rw [hxu, Function.update_same, Function.update_same]
      simp
    · rw [Function.update_noteq hxu, Function.update_noteq hxu]
      by_cases hxv : x = v
      · rw [hxv, Function.update_same, Function.update_same, hb]
        split_ifs <;> simp
      · rw [Function.update_noteq hxv, Function.update_noteq hxv]
  rw [hfun, sum_range_update _ _ _ hu, sum_range_update _ _ _ hv, Function.update_noteq huv]
  ring

theorem ex_ring_wr_exact : ex_ring.wr_exact := by
  intro r
  simp only [ex_ring, List.range_succ, List.range_zero, List.nil_append, List.map_cons,
    List.map_nil, List.sum_cons, List.sum_nil, List.cons_append]
  by_cases h0 : r = 0
  · subst h0; simp
  · by_cases h1 : r = 1
    · subst h1; simp
    · have h2 : ¬ (r < 2) := by omega
      have h3 : ¬ (0 = r) := fun e => h0 e.symm
      have h4 : ¬ (1 = r) := fun e => h1 e.symm
      simp [h2, h3, h4]

/-- C30: `merge_vertices(u, v)` never touches the block-level state.  For every
`u`, `v` and in every state, a normal return leaves `b`, `mrs`, `mrp`, `mrm`,
`wr`, the block-pair index and the block graph unchanged, a failure is raised
in the unchanged state, and the call returns normally when `u = v` or the model
is weighted.  Consequently, when `u` and `v` are vertices of the same block of
a graph with distinct edge identities and the block weights are exact, the
aggregate counts are exact and the cache agrees with the index on every edge
before the call, the three invariants hold after it; and for `u != v` the
edges of the result are the edges that were not incident to `u` followed by
created edges, each of which takes the place of an edge that was incident to
`u` (same end points with `u` replaced by `v`) and carries its cached
handle. -/
theorem merge_vertices_keeps_blocks (st : BlockState) (u v : Nat) :
    (∀ st', st.merge_vertices u v = .ok st' → same_blocks st st') ∧
    (∀ err st', st.merge_vertices u v = .error (err, st') → st' = st) ∧
    ((u = v ∨ (st.vweight_is_constant = false ∧ st.eweight_is_constant = false)) →
      ∃ st', st.merge_vertices u v = .ok st') ∧
    ((st.g.edges.map (fun e => e.idx)).Nodup → u < st.g.nv → v < st.g.nv →
      st.b u = st.b v → st.wr_exact → st.mrs_exact → (∀ e ∈ st.g.edges, st.cache_ok e) →
      ∀ st', st.merge_vertices u v = .ok st' →
        st'.wr_exact ∧ st'.mrs_exact ∧ (∀ e ∈ st'.g.edges, st'.cache_ok e) ∧
        (u ≠ v →
          ∃ extra, st'.g.edges = st.g.edges.filter (fun e => !incident u e) ++ extra ∧
            ∀ e ∈ extra, ∃ e0 ∈ st.g.edges, incident u e0 = true ∧
              replaces st.g.directed u v e0 e ∧ st'.bedge e.idx = st.bedge e0.idx)) := by
  have hcases : (u = v ∧ st.merge_vertices u v = .ok st) ∨
      (u ≠ v ∧ st.merge_vertices u v = .error (Err.invalid_operation, st)) ∨
      (u ≠ v ∧ st.vweight_is_constant = false ∧ st.eweight_is_constant = false ∧
        st.merge_vertices u v = merge_vertices_weighted st u v) := by
    by_cases huv : u = v
    · left
      refine ⟨huv, ?_⟩
      unfold merge_vertices
      rw [if_pos huv]
    · right
      by_cases hc : st.vweight_is_constant = true ∨ st.eweight_is_constant = true
      · left
        refine ⟨huv, ?_⟩
        unfold merge_vertices
        rw [if_neg huv, if_pos hc]
      · right
        have h1 : st.vweight_is_constant = false := by
          cases h : st.vweight_is_constant
          · rfl
          · exact absurd (Or.inl h) hc
        have h2 : st.eweight_is_constant = false := by
          cases h : st.eweight_is_constant
          · rfl
          · exact absurd (Or.inr h) hc
        exact ⟨huv, h1, h2, merge_vertices_of_weighted st u v huv h1 h2⟩
  refine ⟨?_, ?_, ?_, ?_⟩
  · intro st' hrun
    rcases hcases with ⟨_, h⟩ | ⟨_, h⟩ | ⟨_, _, _, h⟩
    · rw [h] at hrun
      injection hrun with hrun
      rw [← hrun]
      exact ⟨rfl, rfl, rfl, rfl, rfl, rfl, rfl⟩
    · rw [h] at hrun
      cases hrun
    · rw [h] at hrun
      exact merge_weighted_blocks st u v st' hrun
  · intro err st' hrun
    rcases hcases with ⟨_, h⟩ | ⟨_, h⟩ | ⟨_, _, _, h⟩
    · rw [h] at hrun
      cases hrun
    · rw [h] at hrun
      injection hrun with hrun
      exact (congrArg Prod.snd hrun).symm
    · obtain ⟨st2, _, h2⟩ := merge_weighted_total st u v
      rw [h, h2] at hrun
      cases hrun
  · intro hw
    rcases hcases with ⟨_, h⟩ | ⟨hne, h⟩ | ⟨_, _, _, h⟩
    · exact ⟨st, h⟩
    · rcases hw with hw | ⟨h1, _⟩
      · exact absurd hw hne
      · exfalso
        unfold merge_vertices at h
        rw [if_neg hne] at h
        split_ifs at h with hc
        · rcases hc with hc | hc
          · rw [h1] at hc; cases hc
          · rw [‹st.eweight_is_constant = false›] at hc; cases hc
        · obtain ⟨st2, _, h2⟩ := merge_weighted_total st u v
          rw [h2] at h
          cases h
    · obtain ⟨st2, _, h2⟩ := merge_weighted_total st u v
      exact ⟨_, h.trans h2⟩
  · intro hnd hu hv hb hwr hmrs hcache st' hrun
    rcases hcases with ⟨he, h⟩ | ⟨_, h⟩ | ⟨hne, _, _, h⟩
    · rw [h] at hrun
      injection hrun with hrun
      rw [← hrun]
      exact ⟨hwr, hmrs, hcache, fun hn => absurd he hn⟩
    · rw [h] at hrun
      cases hrun
    · rw [h] at hrun
      obtain ⟨hb', hmrs', _, _, hwr', hem', _⟩ := merge_weighted_blocks st u v st' hrun
      obtain ⟨st1, hrun1, hfs⟩ := merge_weighted_fsum st u v hne hnd
      obtain ⟨st2, hrun2, hvw, _, hnv, hd, _⟩ := merge_weighted_effect st u v
      have e1 : st1 = st' := by
        rw [hrun] at hrun1
        injection hrun1 with h
        exact h.symm
      have e2 : st2 = st' := by
        rw [hrun] at hrun2
        injection hrun2 with h
        exact h.symm
      rw [e1] at hfs
      rw [e2] at hvw hnv hd
      obtain ⟨hold, extra, hex, hnew⟩ := merge_weighted_cache st u v hne st' hrun
      have hgm : ∀ r s, st'.get_me r s = st.get_me r s := by
        intro r s
        unfold get_me
        rw [hd, hem']
      refine ⟨?_, ?_, ?_, fun _ => ⟨extra, hex, hnew⟩⟩
      · intro r
        rw [hwr', hb', hnv, hvw, hwr r]
        exact (wr_sum_merged st.g.nv st.b st.vweight u v r hne hu hv hb).symm
      · intro r s
        have hl : st'.get_mrs r s = st.get_mrs r s := by
          unfold get_mrs
          rw [hgm, hmrs']
        rw [hl, hmrs r s, hd, hb']
        have h1 : ∀ (c : Nat → Int) (es : List Edge),
            pair_weight st.g.directed c st.b es r s =
              fsum (fun x y => if decide (bkey st.g.directed (st.b x) (st.b y) =
                bkey st.g.directed r s) = true then 1 else 0) c es :=
          fun c es => wsum_eq_fsum (fun x y => decide (bkey st.g.directed (st.b x) (st.b y) =
            bkey st.g.directed r s)) c es
        rw [h1, h1, hfs]
        · apply fsum_congr_fun
          intro x y
          rw [merged_block hb, merged_block hb]
        · intro hdir x y
          rw [hdir, bkey_comm (st.b x) (st.b y)]
      · intro e he
        rw [hex] at he
        rcases List.mem_append.1 he with h1 | h1
        · have hm : e ∈ st.g.edges := (List.mem_filter.1 h1).1
          obtain ⟨me, hbe, hme⟩ := hcache e hm
          refine ⟨me, ?_, ?_⟩
          · rw [hold e hm]; exact hbe
          · rw [hgm, hb']; exact hme
        · obtain ⟨e0, h0, _, hrep, hbe⟩ := hnew e h1
          obtain ⟨me, hbe0, hme⟩ := hcache e0 h0
          refine ⟨me, ?_, ?_⟩
          · rw [hbe]; exact hbe0
          · rw [hgm, hb']
            rcases hrep with ⟨hs, ht⟩ | ⟨hdir, hs, ht⟩
            · rw [hs, ht, merged_block hb, merged_block hb]
              exact hme
            · rw [hs, ht, merged_block hb, merged_block hb]
              unfold get_me at hme ⊢
              rw [hdir] at hme ⊢
              rw [bkey_comm]
              exact hme

theorem merge_vertices_keeps_blocks_witness :
    ex_ring.b 0 = ex_ring.b 1 ∧
      ∃ st', ex_ring.merge_vertices 0 1 = .ok st' ∧ same_blocks ex_ring st' ∧
        st'.wr_exact ∧ st'.mrs_exact ∧ (∀ e ∈ st'.g.edges, st'.cache_ok e) := by
  obtain ⟨st', hrun⟩ :=
    (merge_vertices_keeps_blocks ex_ring 0 1).2.2.1 (Or.inr ⟨rfl, rfl⟩)
  have h := (merge_vertices_keeps_blocks ex_ring 0 1).2.2.2 ex_ring_consistent.edges_nodup
    (by decide) (by decide) rfl ex_ring_wr_exact ex_ring_consistent.exact
    ex_ring_consistent.cache st' hrun
  exact ⟨rfl, st', hrun, (merge_vertices_keeps_blocks ex_ring 0 1).1 st' hrun,
    h.1, h.2.1, h.2.2.1⟩

end BlockState

namespace BlockState

theorem touches.touches_refl (P : Nat → Prop) (K : Nat × Nat → Prop) (H : Nat → Prop)
    (st : BlockState) : touches P K H st st :=
  ⟨fun _ _ => ⟨rfl, rfl⟩, fun _ _ => rfl, fun _ => Or.inl rfl, fun _ _ => rfl⟩

theorem touches.touches_trans {P : Nat → Prop} {K : Nat × Nat → Prop} {H : Nat → Prop}
    {a b c : BlockState} (h1 : touches P K H a b) (h2 : touches P K H b c) :
    touches P K H a c := by
  obtain ⟨a1, a2, a3, a4⟩ := h1
  obtain ⟨b1, b2, b3, b4⟩ := h2
  refine ⟨?_, ?_, ?_, ?_⟩
  · intro x hx
    exact ⟨(b1 x hx).1.trans (a1 x hx).1, (b1 x hx).2.trans (a1 x hx).2⟩
  · intro k hk
    exact (b2 k hk).trans (a2 k hk)
  · intro k
    rcases b3 k with h | h
    · rcases a3 k with h' | h'
      · exact Or.inl (h.trans h')
      · exact Or.inr (h.trans h')
    · exact Or.inr h
  · intro h hh
    exact (b4 h hh).trans (a4 h hh)

/-- The statements shared by the loops of `remove_vertex` write `mrp` and
`mrm` at `r` and `s` only, `mrs` at `me` only, and the index at the key of
`(r, s)` only, where they can only clear the entry. -/
theorem dec_step_touches {P : Nat → Prop} {K : Nat × Nat → Prop} {H : Nat → Prop}
    (st : BlockState) (r s me : Nat) (ew : Int) (hr : P r) (hs : P s)
    (hk : K (bkey st.g.directed r s)) (hh : H me) :
    touches P K H st (st.dec_step r s me ew) := by
  refine ⟨?_, ?_, ?_, ?_⟩
  · intro x hx
    have h1 : x ≠ r := fun h => hx (h ▸ hr)
    have h2 : x ≠ s := fun h => hx (h ▸ hs)
    simp only [dec_step, add_mrs, add_mrp, add_mrm, remove_me]
    cases hsh : st.mrm_is_mrp <;> split_ifs <;> simp_all [Function.update]
  · intro k hkk
    have h1 : k ≠ bkey st.g.directed r s := fun h => hkk (h ▸ hk)
    simp only [dec_step, add_mrs, add_mrp, add_mrm, remove_me]
    cases hsh : st.mrm_is_mrp <;> split_ifs <;> simp_all [Function.update]
  · intro k
    simp only [dec_step, add_mrs, add_mrp, add_mrm, remove_me]
    by_cases h1 : k = bkey st.g.directed r s
    · cases hsh : st.mrm_is_mrp <;> split_ifs <;> simp_all [Function.update]
    · cases hsh : st.mrm_is_mrp <;> split_ifs <;> simp_all [Function.update]
  · intro h hne
    have h1 : h ≠ me := fun e => hne (e ▸ hh)
    rw [dec_step_mrs, Function.update_noteq h1]

/-- The first loop of `remove_vertex` writes only what the non-excluded
descriptors of its list allow; the local `self_weight` changes only if a
non-excluded self-loop is listed. -/
theorem remove_out_loop_touches (v r : Nat) (efilt : Edge → Bool) (P : Nat → Prop)
    (K : Nat × Nat → Prop) (H : Nat → Prop) (bm : Nat → Nat) (be : Nat → Option Nat)
    (d : Bool) :
    ∀ (es : List Edge) (st : BlockState) (sw : Int) (st' : BlockState) (sw' : Int),
      st.b = bm → st.bedge = be → st.g.directed = d →
      (∀ e ∈ es, efilt e = false → P r ∧ P (bm e.tgt) ∧ K (bkey d r (bm e.tgt)) ∧
        ∀ me, be e.idx = some me → H me) →
      remove_out_loop v r efilt es st sw = .ok (st', sw') →
      touches P K H st st' ∧ same_frame st st' ∧ st'.bedge = st.bedge ∧
        (sw' ≠ sw → ∃ e ∈ es, efilt e = false ∧ e.tgt = v) := by
  intro es
  induction es with
  | nil =>
    intro st sw st' sw' _ _ _ _ hrun
    rw [remove_out_loop] at hrun
    injection hrun with h
    injection h with h1 h2
    rw [← h1, ← h2]
    exact ⟨touches.touches_refl P K H st, same_frame.frame_refl st, rfl, fun h => absurd rfl h⟩
  | cons e es ih =>
    intro st sw st' sw' hb hbe hd hcov hrun
    have hcov' : ∀ e' ∈ es, efilt e' = false → P r ∧ P (bm e'.tgt) ∧
        K (bkey d r (bm e'.tgt)) ∧ ∀ me, be e'.idx = some me → H me :=
      fun e' he' => hcov e' (List.mem_cons_of_mem _ he')
    rw [remove_out_loop_unfold] at hrun
    by_cases hf : efilt e = true
    · rw [if_pos hf] at hrun
      obtain ⟨h1, h2, h3, h4⟩ := ih st sw st' sw' hb hbe hd hcov' hrun
      refine ⟨h1, h2, h3, fun hne => ?_⟩
      obtain ⟨e', he', hx⟩ := h4 hne
      exact ⟨e', List.mem_cons_of_mem _ he', hx⟩
    · rw [if_neg hf] at hrun
      have hf' : efilt e = false := by simpa using hf
      by_cases hs : e.tgt = v ∧ st.g.directed = false
      · rw [if_pos hs] at hrun
        obtain ⟨h1, h2, h3, _⟩ := ih st _ st' sw' hb hbe hd hcov' hrun
        exact ⟨h1, h2, h3, fun _ => ⟨e, List.mem_cons_self _ _, hf', hs.1⟩⟩
      · rw [if_neg hs] at hrun
        cases hbd : st.bedge e.idx with
        | none => rw [hbd] at hrun; cases hrun
        | some me =>
          rw [hbd] at hrun
          simp only at hrun
          by_cases hneg : (st.add_mrs me (-st.eweight e.idx)).mrs me < 0
          · rw [if_pos hneg] at hrun; cases hrun
          · rw [if_neg hneg] at hrun
            obtain ⟨c1, c2, c3, c4⟩ := hcov e (List.mem_cons_self _ _) hf'
            have hfr := dec_step_frame st r (st.b e.tgt) me (st.eweight e.idx)
            have hbg := dec_step_bedge st r (st.b e.tgt) me (st.eweight e.idx)
            have ht : touches P K H st (st.dec_step r (st.b e.tgt) me (st.eweight e.idx)) :=
              dec_step_touches st r (st.b e.tgt) me (st.eweight e.idx) c1
                (by rw [hb]; exact c2) (by rw [hb, hd]; exact c3)
                (c4 me (by rw [← hbe]; exact hbd))
            obtain ⟨h1, h2, h3, h4⟩ := ih _ sw st' sw'
              (hfr.2.2.2.1.trans hb) (hbg.trans hbe)
              ((congrArg Graph.directed hfr.1).trans hd) hcov' hrun
            refine ⟨ht.touches_trans h1, hfr.frame_trans h2, h3.trans hbg, fun hne => ?_⟩
            obtain ⟨e', he', hx⟩ := h4 hne
            exact ⟨e', List.mem_cons_of_mem _ he', hx⟩

/-- The second loop of `remove_vertex` writes only what the non-excluded
descriptors of its list allow. -/
theorem remove_in_loop_touches (v r : Nat) (efilt : Edge → Bool) (P : Nat → Prop)
    (K : Nat × Nat → Prop) (H : Nat → Prop) (bm : Nat → Nat) (be : Nat → Option Nat)
    (d : Bool) :
    ∀ (es : List Edge) (st st' : BlockState),
      st.b = bm → st.bedge = be → st.g.directed = d →
      (∀ e ∈ es, efilt e = false → P r ∧ P (bm e.src) ∧ K (bkey d (bm e.src) r) ∧
        ∀ me, be e.idx = some me → H me) →
      remove_in_loop v r efilt es st = .ok st' →
      touches P K H st st' ∧ same_frame st st' ∧ st'.bedge = st.bedge := by
  intro es
  induction es with
  | nil =>
    intro st st' _ _ _ _ hrun
    rw [remove_in_loop] at hrun
    injection hrun with h
    rw [← h]
    exact ⟨touches.touches_refl P K H st, same_frame.frame_refl st, rfl⟩
  | cons e es ih =>
    intro st st' hb hbe hd hcov hrun
    have hcov' : ∀ e' ∈ es, efilt e' = false → P r ∧ P (bm e'.src) ∧
        K (bkey d (bm e'.src) r) ∧ ∀ me, be e'.idx = some me → H me :=
      fun e' he' => hcov e' (List.mem_cons_of_mem _ he')
    rw [remove_in_loop_unfold] at hrun
    by_cases hf : efilt e = true
    · rw [if_pos hf] at hrun
      exact ih st st' hb hbe hd hcov' hrun
    · rw [if_neg hf] at hrun
      have hf' : efilt e = false := by simpa using hf
      by_cases hs : e.src = v
      · rw [if_pos hs] at hrun
        exact ih st st' hb hbe hd hcov' hrun
      · rw [if_neg hs] at hrun
        cases hbd : st.bedge e.idx with
        | none => rw [hbd] at hrun; cases hrun
        | some me =>
          rw [hbd] at hrun
          simp only at hrun
          obtain ⟨c1, c2, c3, c4⟩ := hcov e (List.mem_cons_self _ _) hf'
          have hfr := dec_step_frame st (st.b e.src) r me (st.eweight e.idx)
          have hbg := dec_step_bedge st (st.b e.src) r me (st.eweight e.idx)
          have ht : touches P K H st (st.dec_step (st.b e.src) r me (st.eweight e.idx)) :=
            dec_step_touches st (st.b e.src) r me (st.eweight e.idx)
              (by rw [hb]; exact c2) c1 (by rw [hb, hd]; exact c3)
              (c4 me (by rw [← hbe]; exact hbd))
          obtain ⟨h1, h2, h3⟩ := ih _ st'
            (hfr.2.2.2.1.trans hb) (hbg.trans hbe)
            ((congrArg Graph.directed hfr.1).trans hd) hcov' hrun
          exact ⟨ht.touches_trans h1, hfr.frame_trans h2, h3.trans hbg⟩

/-- The block `if (self_weight > 0)` of `remove_vertex` writes only at the
block `r`, at the key of `(r, r)` and at the handle indexed there. -/
theorem remove_self_touches (r : Nat) (P : Nat → Prop) (K : Nat × Nat → Prop)
    (H : Nat → Prop) (st st' : BlockState) (sw : Int)
    (hcov : sw > 0 → P r ∧ K (bkey st.g.directed r r) ∧
      ∀ me, st.get_me r r = some me → H me)
    (hrun : remove_self r st sw = .ok st') :
    touches P K H st st' ∧ same_frame st st' ∧ st'.bedge = st.bedge := by
  rw [remove_self_unfold] at hrun
  by_cases h1 : sw > 0
  · rw [if_pos h1] at hrun
    obtain ⟨c1, c2, c3⟩ := hcov h1
    by_cases h2 : sw % 2 ≠ 0
    · rw [if_pos h2] at hrun; cases hrun
    · rw [if_neg h2] at hrun
      cases hq : st.get_me r r with
      | none => rw [hq] at hrun; cases hrun
      | some me =>
        rw [hq] at hrun
        simp only at hrun
        by_cases h3 : (st.bump r r me (-(sw / 2))).mrs me < 0
        · rw [if_pos h3] at hrun; cases hrun
        · rw [if_neg h3] at hrun
          injection hrun with hrun
          rw [← hrun]
          exact ⟨dec_step_touches st r r me (sw / 2) c1 c1 c2 (c3 me hq),
            dec_step_frame st r r me (sw / 2), dec_step_bedge st r r me (sw / 2)⟩
  · rw [if_neg h1] at hrun
    injection hrun with hrun
    rw [← hrun]
    exact ⟨touches.touches_refl P K H st, same_frame.frame_refl st, rfl⟩

end BlockState
namespace BlockState

theorem mem_kept_out {st : BlockState} {v : Nat} {efilt : Edge → Bool} {e : Edge}
    (he : e ∈ out_edges_range st.g v) (hf : efilt e = false) : e ∈ st.kept_edges v efilt := by
  unfold kept_edges all_edges_range
  rw [List.mem_filter]
  exact ⟨List.mem_append_left _ he, by rw [hf]; rfl⟩

theorem mem_kept_in {st : BlockState} {v : Nat} {efilt : Edge → Bool} {e : Edge}
    (he : e ∈ in_edges_range st.g v) (hf : efilt e = false) : e ∈ st.kept_edges v efilt := by
  unfold kept_edges all_edges_range
  rw [List.mem_filter]
  exact ⟨List.mem_append_right _ he, by rw [hf]; rfl⟩

/-- The cache of a descriptor of a graph edge is valid when the cache of the
edge is. -/
theorem cache_ok_descr {st : BlockState} {e e0 : Edge} (hd : descr st.g.directed e e0)
    (h : st.cache_ok e0) : st.cache_ok e := by
  obtain ⟨me, h1, h2⟩ := h
  refine ⟨me, by rw [← hd.1]; exact h1, ?_⟩
  rcases hd.2 with ⟨a1, a2⟩ | ⟨hf, a1, a2⟩
  · rw [a1, a2]; exact h2
  · rw [a1, a2]
    unfold get_me at h2 ⊢
    rw [hf] at h2 ⊢
    rw [bkey_comm]
    exact h2

/-- What `remove_vertex(v, efilt)` writes among the aggregate counts and the
index, in every state: only at the blocks, block pairs and handles reached
through the non-excluded edges incident to `v`. -/
theorem remove_vertex_touches (st : BlockState) (v : Nat) (efilt : Edge → Bool)
    (st' : BlockState) (hrun : st.remove_vertex_filt v efilt = .ok st') :
    touches (st.reached_block v efilt)
      (fun k => ∃ e ∈ st.kept_edges v efilt,
        bkey st.g.directed (st.b e.src) (st.b e.tgt) = k)
      (st.reached_handle v efilt) st st' ∧
    st'.g = st.g ∧ st'.mrm_is_mrp = st.mrm_is_mrp ∧ st'.bedge = st.bedge := by
  unfold remove_vertex_filt at hrun
  dsimp only at hrun
  cases hr1 : remove_out_loop v (st.b v) efilt (out_edges_range st.g v) st 0 with
  | error x => rw [hr1] at hrun; cases hrun
  | ok p1 =>
    rw [hr1] at hrun
    obtain ⟨st1, sw⟩ := p1
    simp only at hrun
    obtain ⟨t1, f1, b1, s1⟩ := remove_out_loop_touches v (st.b v) efilt
      (st.reached_block v efilt)
      (fun k => ∃ e ∈ st.kept_edges v efilt,
        bkey st.g.directed (st.b e.src) (st.b e.tgt) = k)
      (st.reached_handle v efilt) st.b st.bedge st.g.directed
      (out_edges_range st.g v) st 0 st1 sw rfl rfl rfl
      (by
        intro e he hf
        have hk := mem_kept_out he hf
        have hsrc : e.src = v := (out_items st.g v e he).1
        refine ⟨⟨e, hk, Or.inl (by rw [hsrc])⟩, ⟨e, hk, Or.inr rfl⟩,
          ⟨e, hk, by rw [hsrc]⟩, fun me hme => ⟨e, hk, Or.inl hme⟩⟩)
      hr1
    cases hr2 : remove_self (st.b v) st1 sw with
    | error x => rw [hr2] at hrun; cases hrun
    | ok st2 =>
      rw [hr2] at hrun
      simp only at hrun
      have hg1 : st1.g = st.g := f1.1
      obtain ⟨t2, f2, b2⟩ := remove_self_touches (st.b v)
        (st.reached_block v efilt)
        (fun k => ∃ e ∈ st.kept_edges v efilt,
          bkey st.g.directed (st.b e.src) (st.b e.tgt) = k)
        (st.reached_handle v efilt) st1 st2 sw
        (by
          intro hpos
          obtain ⟨e, he, hf, htgt⟩ := s1 (by omega)
          have hk := mem_kept_out he hf
          have hsrc : e.src = v := (out_items st.g v e he).1
          refine ⟨⟨e, hk, Or.inl (by rw [hsrc])⟩, ⟨e, hk, by rw [hsrc, htgt, hg1]⟩, ?_⟩
          intro me hme
          refine ⟨e, hk, Or.inr ?_⟩
          rw [hsrc, htgt]
          unfold get_me at hme ⊢
          rw [hg1] at hme
          rcases t1.2.2.1 (bkey st.g.directed (st.b v) (st.b v)) with h | h
          · rw [← h]; exact hme
          · rw [h] at hme; cases hme)
        hr2
      have f12 : same_frame st st2 := f1.frame_trans f2
      cases hr3 : remove_in_loop v (st.b v) efilt (in_edges_range st2.g v) st2 with
      | error x => rw [hr3] at hrun; cases hrun
      | ok st3 =>
        rw [hr3] at hrun
        simp only at hrun
        injection hrun with hrun
        have hg2 : st2.g = st.g := f12.1
        obtain ⟨t3, f3, b3⟩ := remove_in_loop_touches v (st.b v) efilt
          (st.reached_block v efilt)
          (fun k => ∃ e ∈ st.kept_edges v efilt,
            bkey st.g.directed (st.b e.src) (st.b e.tgt) = k)
          (st.reached_handle v efilt) st.b st.bedge st.g.directed
          (in_edges_range st2.g v) st2 st3 f12.2.2.2.1 (b2.trans b1)
          (congrArg Graph.directed hg2)
          (by
            intro e he hf
            rw [hg2] at he
            have hk := mem_kept_in he hf
            have htgt : e.tgt = v := (in_items st.g v e he).1
            refine ⟨⟨e, hk, Or.inr (by rw [htgt])⟩, ⟨e, hk, Or.inl rfl⟩,
              ⟨e, hk, by rw [htgt]⟩, fun me hme => ⟨e, hk, Or.inl hme⟩⟩)
          hr3
        have hall : touches _ _ _ st st3 := (t1.touches_trans t2).touches_trans t3
        have f123 : same_frame st st3 := f12.frame_trans f3
        have hcore := remove_tail_core st3 v (st.b v)
        rw [← hrun]
        obtain ⟨c1, c2, _, c4, c5, c6, c7, c8⟩ := hcore
        refine ⟨⟨?_, ?_, ?_, ?_⟩, c1.trans f123.1, c8.trans f123.2.2.2.2.2.2.2.1,
          c5.trans (b3.trans (b2.trans b1))⟩
        · intro x hx
          rw [c6, c7]
          exact hall.1 x hx
        · intro k hk
          rw [c2]
          exact hall.2.1 k hk
        · intro k
          rw [c2]
          exact hall.2.2.1 k
        · intro h hh
          rw [c4]
          exact hall.2.2.2 h hh

/-- C31: `remove_vertex` does not unassign the vertex.  In every state, for
every `v` and edge filter, when `remove_vertex(v, efilt)` returns the partition
map `b` is unchanged at every vertex (so `b[v]` is still the old block `r`),
`wr` is changed only at `r`, by `-vweight[v]`, `mrp` and `mrm` are unchanged at
every block that is not the block of an end point of a non-excluded edge
incident to `v`, `mrs` is unchanged at every handle that is not the cached
handle or the index entry of such an edge, and the index entry of every block
pair that is not the pair of such an edge is unchanged; when in addition the
index is well formed and the cache agrees with the index on the edges incident
to `v`, `mrs(p, q)` is unchanged for every such block pair.  The write of
`b[v]` is made by `add_vertex`: when `add_vertex(v, r, efilt)` returns, `b` is
the old map with `b[v] = r`. -/
theorem remove_vertex_keeps_assignment (st : BlockState) (v : Nat) (efilt : Edge → Bool) :
    (∀ st', st.remove_vertex_filt v efilt = .ok st' →
      st'.b = st.b ∧
      st'.wr = Function.update st.wr (st.b v) (st.wr (st.b v) - st.vweight v) ∧
      (∀ x, ¬ st.reached_block v efilt x →
        st'.mrp x = st.mrp x ∧ st'.mrm x = st.mrm x ∧ st'.get_mrm x = st.get_mrm x) ∧
      (∀ me, ¬ st.reached_handle v efilt me → st'.mrs me = st.mrs me) ∧
      (∀ p q, ¬ st.reached_pair v efilt p q → st'.get_me p q = st.get_me p q) ∧
      (IndexWF st → (∀ e0 ∈ st.g.edges, incident v e0 = true → st.cache_ok e0) →
        ∀ p q, ¬ st.reached_pair v efilt p q → st'.get_mrs p q = st.get_mrs p q)) ∧
    (∀ r st', st.add_vertex_filt v r efilt = .ok st' → st'.b = Function.update st.b v r) := by
  constructor
  · intro st' hrun
    have heff := remove_vertex_effect st v efilt
    rw [hrun] at heff
    obtain ⟨⟨t1, t2, _, t4⟩, hg, hsh, _⟩ := remove_vertex_touches st v efilt st' hrun
    have hme : ∀ p q, ¬ st.reached_pair v efilt p q → st'.get_me p q = st.get_me p q := by
      intro p q hpq
      unfold get_me
      rw [hg]
      exact t2 _ hpq
    refine ⟨heff.2.1, heff.2.2, ?_, t4, hme, ?_⟩
    · intro x hx
      refine ⟨(t1 x hx).1, (t1 x hx).2, ?_⟩
      unfold get_mrm
      rw [hsh, (t1 x hx).1, (t1 x hx).2]
    · intro wf hcache p q hpq
      unfold get_mrs
      rw [hme p q hpq]
      cases hq : st.get_me p q with
      | none => rfl
      | some me =>
        simp only
        apply t4
        rintro ⟨e, he, hh⟩
        apply hpq
        refine ⟨e, he, ?_⟩
        have hmem : e ∈ all_edges_range st.g v := (List.mem_filter.1 he).1
        have hok : st.cache_ok e := by
          unfold all_edges_range at hmem
          rcases List.mem_append.1 hmem with hm | hm
          · obtain ⟨hs, e0, h0, hde⟩ := out_items st.g v e hm
            exact cache_ok_descr hde (hcache e0 h0 (out_items_incident st.g v hs hde))
          · obtain ⟨ht, e0, h0, hde⟩ := in_items st.g v e hm
            exact cache_ok_descr hde (hcache e0 h0 (in_items_incident st.g v ht hde))
        obtain ⟨me', hb', hg'⟩ := hok
        have hpair : st.get_me (st.b e.src) (st.b e.tgt) = some me := by
          rcases hh with hh | hh
          · rw [hb'] at hh
            rw [hg', hh]
          · exact hh
        exact wf.inj hpair hq
  · intro r st' hrun
    have heff := add_vertex_effect st v r efilt
    rw [hrun] at heff
    exact heff.2.1

theorem remove_vertex_keeps_assignment_witness :
    ∃ st', ex_ring.remove_vertex_filt 1 (fun e => decide (e.idx = 4)) = .ok st' ∧
      st'.b = ex_ring.b ∧ st'.wr 0 = 1 ∧ st'.wr 1 = ex_ring.wr 1 ∧
      st'.mrp 2 = ex_ring.mrp 2 ∧ st'.get_mrs 1 1 = ex_ring.get_mrs 1 1 := by
  have h := (remove_vertex_keeps_assignment ex_ring 1 (fun e => decide (e.idx = 4))).1
    (state_of (ex_ring.remove_vertex_filt 1 (fun e => decide (e.idx = 4))) ex_ring) rfl
  exact ⟨_, rfl, h.1, (congrFun h.2.1 0).trans (by decide),
    (congrFun h.2.1 1).trans (by decide),
    (h.2.2.1 2 (by unfold reached_block; decide)).1,
    h.2.2.2.2.2 ex_ring_consistent.index_wf (fun e0 h0 _ => ex_ring_consistent.cache e0 h0) 1 1
      (by unfold reached_pair; decide)⟩

end BlockState

namespace BlockState

/-- The value of `get_move_prob(v, r, s, c, reverse = false)` with `r = b[v]`
for a vertex with positive incident edge weight: the weighted mean of the
contributions of the incident edges. -/
theorem get_move_prob_mean {R : Type} [Field R] (st : BlockState) (v s : Nat) (c : R)
    (hw : 0 < ((all_edges_range st.g v).map (fun e => st.eweight e.idx)).sum) :
    (st.get_move_prob v (st.b v) s c false).1 =
      ((all_edges_range st.g v).map (fun e => (st.eweight e.idx : R) *
        st.move_prob_term v (st.b v) s c false EntrySet.clear e)).sum /
      ((((all_edges_range st.g v).map (fun e => st.eweight e.idx)).sum : Int) : R) := by
  have h := get_move_prob_entries_eq
    { st with m_entries := move_entries st v s EntrySet.clear }
    v (st.b v) s c false (move_entries st v s EntrySet.clear)
  have hv : (st.get_move_prob v (st.b v) s c false).1 =
      get_move_prob_entries
        { st with m_entries := move_entries st v s EntrySet.clear }
        v (st.b v) s c false (move_entries st v s EntrySet.clear) := rfl
  have hterm : ∀ m e, st.move_prob_term v (st.b v) s c false m e =
      st.move_prob_term v (st.b v) s c false EntrySet.clear e := by
    intro m e
    unfold move_prob_term
    simp only [prob_mts, prob_mst, prob_mtp, prob_mtm, Bool.false_eq_true, false_and, if_false]
  rw [hv, h]
  simp only [move_prob_term_entries, hterm]
  rw [if_pos hw]

/-- The contribution of an edge is a quotient by `move_prob_denom`: where that
denominator vanishes the quotient of the field is 0. -/
theorem move_prob_term_zero_denom {R : Type} [Field R] (st : BlockState) (v r s : Nat) (c : R)
    (m : EntrySet) (e : Edge) (h : st.move_prob_denom c (st.far_block v r e) = 0) :
    st.move_prob_term v r s c false m e = 0 := by
  unfold move_prob_denom at h
  unfold move_prob_term
  simp only [prob_mts, prob_mst, prob_mtp, prob_mtm, Bool.false_eq_true, false_and, if_false]
  cases hdir : st.g.directed
  · rw [hdir] at h
    simp only [Bool.false_eq_true, if_false] at h ⊢
    rw [h, div_zero]
  · rw [hdir] at h
    simp only [if_true] at h ⊢
    rw [h, div_zero]

/-- C28 fails as stated: positive edge weights do not keep the denominators
away from zero.  In the state that `remove_vertex(0)` leaves from `ex_pair` the
degree-sum invariant holds (every aggregate count is zero), the edge weights are
positive and vertex 0 has positive incident edge weight, and with `c = 0` the
denominator `mrp[t] + mrm[t] + c * B` of its only neighbour block vanishes; the
values of `get_move_prob(0, b[0], s, 0, false)` over the blocks `s` are
quotients by that zero and do not add up to 1. -/
theorem move_prob_not_normalised :
    ex_pair.remove_vertex 0 = .ok ex_removed ∧ ex_removed.deg_sum ∧
      (∀ e ∈ ex_removed.g.edges, 0 < ex_removed.eweight e.idx) ∧
      0 < ((all_edges_range ex_removed.g 0).map (fun e => ex_removed.eweight e.idx)).sum ∧
      (∀ e ∈ all_edges_range ex_removed.g 0,
        ex_removed.far_block 0 (ex_removed.b 0) e < ex_removed.bg.nv ∧
        ex_removed.move_prob_denom (0 : ℚ) (ex_removed.far_block 0 (ex_removed.b 0) e) = 0) ∧
      ((List.range ex_removed.bg.nv).map
        (fun s => (ex_removed.get_move_prob 0 (ex_removed.b 0) s (0 : ℚ) false).1)).sum ≠ 1 := by
  have hl : all_edges_range ex_removed.g 0 = [⟨0, 1, 0⟩] := by decide
  have hden : ex_removed.move_prob_denom (0 : ℚ)
      (ex_removed.far_block 0 (ex_removed.b 0) ⟨0, 1, 0⟩) = 0 := by
    unfold move_prob_denom
    have h1 : ex_removed.g.directed = true := rfl
    have h2 : ex_removed.mrp (ex_removed.far_block 0 (ex_removed.b 0) ⟨0, 1, 0⟩) +
        ex_removed.get_mrm (ex_removed.far_block 0 (ex_removed.b 0) ⟨0, 1, 0⟩) = 0 := by
      decide
    rw [if_pos h1, h2]
    simp
  refine ⟨rfl, by unfold deg_sum; decide, by decide, by decide, ?_, ?_⟩
  · intro e he
    rw [hl, List.mem_singleton] at he
    rw [he]
    exact ⟨by decide, hden⟩
  · have hz : ∀ s, (ex_removed.get_move_prob 0 (ex_removed.b 0) s (0 : ℚ) false).1 = 0 := by
      intro s
      rw [get_move_prob_mean ex_removed 0 s 0 (by decide), hl]
      simp only [List.map_cons, List.map_nil, List.sum_cons, List.sum_nil]
      rw [move_prob_term_zero_denom ex_removed 0 _ s 0 _ _ hden]
      simp
    simp only [hz]
    simp

/-- Where the aggregate counts are exact and the blocks of the end points of
the edges are vertices of the block graph, the row and column sums of `mrs` are
the weights of the edge ends in the block. -/
theorem deg_sums_of_exact {st : BlockState} (hex : st.mrs_exact)
    (hB : ∀ e ∈ st.g.edges, st.b e.src < st.bg.nv ∧ st.b e.tgt < st.bg.nv)
    (r : Nat) (hr : r < st.bg.nv) :
    if st.g.directed then
      st.mrs_row_sum r = out_weight st.g.directed st.eweight st.b st.g.edges r ∧
      st.mrs_col_sum r = in_weight st.g.directed st.eweight st.b st.g.edges r
    else
      st.mrs_und_sum r = out_weight st.g.directed st.eweight st.b st.g.edges r := by
  unfold mrs_exact at hex
  cases hd : st.g.directed
  · rw [hd] at hex
    simp only [Bool.false_eq_true, if_false]
    rw [← und_sum_pair_weight st.bg.nv st.eweight st.b st.g.edges r hr (fun e he _ => hB e he)]
    unfold mrs_und_sum rsum
    simp only [hex]
  · rw [hd] at hex
    simp only [if_true]
    constructor
    · rw [← row_sum_pair_weight st.bg.nv st.eweight st.b st.g.edges r
        (fun e he _ => (hB e he).2)]
      unfold mrs_row_sum rsum
      simp only [hex]
    · rw [← col_sum_pair_weight st.bg.nv st.eweight st.b st.g.edges r
        (fun e he _ => (hB e he).1)]
      unfold mrs_col_sum rsum
      simp only [hex]

/-- With exact aggregate counts, the degree-sum invariant and non-negative
edge weights, the degree sums of a block weigh at least as much as any edge
with an end point in the block. -/
theorem edge_le_degree_sums {st : BlockState} (hex : st.mrs_exact) (hds : st.deg_sum)
    (hB : ∀ e ∈ st.g.edges, st.b e.src < st.bg.nv ∧ st.b e.tgt < st.bg.nv)
    (hw0 : ∀ e ∈ st.g.edges, 0 ≤ st.eweight e.idx)
    (e0 : Edge) (h0 : e0 ∈ st.g.edges) (t : Nat) (ht : t = st.b e0.src ∨ t = st.b e0.tgt) :
    st.eweight e0.idx ≤
      (if st.g.directed then st.mrp t + st.get_mrm t else st.mrp t) := by
  have htB : t < st.bg.nv := by
    rcases ht with h | h
    · rw [h]; exact (hB e0 h0).1
    · rw [h]; exact (hB e0 h0).2
  have hd := hds t htB
  have hx := deg_sums_of_exact hex hB t htB
  have hsrc : ∀ P : Edge → Bool, 0 ≤ wsum P st.eweight st.g.edges :=
    fun P => wsum_nonneg hw0
  cases hdir : st.g.directed
  · rw [hdir] at hd hx
    simp only [Bool.false_eq_true, if_false] at hd hx ⊢
    rw [hd.1, hx]
    unfold out_weight
    simp only [Bool.false_eq_true, if_false]
    rcases ht with h | h
    · have := @le_wsum (fun e => decide (st.b e.src = t)) st.eweight st.g.edges hw0 e0 h0
        (by simp [h])
      have := hsrc (fun e => decide (st.b e.tgt = t))
      omega
    · have := @le_wsum (fun e => decide (st.b e.tgt = t)) st.eweight st.g.edges hw0 e0 h0
        (by simp [h])
      have := hsrc (fun e => decide (st.b e.src = t))
      omega
  · rw [hdir] at hd hx
    simp only [if_true] at hd hx ⊢
    rw [hd.1, hd.2, hx.1, hx.2]
    unfold out_weight in_weight
    simp only [if_true, add_zero]
    rcases ht with h | h
    · have := @le_wsum (fun e => decide (st.b e.src = t)) st.eweight st.g.edges hw0 e0 h0
        (by simp [h])
      have := hsrc (fun e => decide (st.b e.tgt = t))
      omega
    · have := @le_wsum (fun e => decide (st.b e.tgt = t)) st.eweight st.g.edges hw0 e0 h0
        (by simp [h])
      have := hsrc (fun e => decide (st.b e.src = t))
      omega

/-- The neighbour block of a listed descriptor is the block of an end point of
the graph edge that the descriptor denotes. -/
theorem far_block_end (st : BlockState) (v : Nat) (e : Edge)
    (he : e ∈ all_edges_range st.g v) :
    ∃ e0 ∈ st.g.edges, e0.idx = e.idx ∧
      (st.far_block v (st.b v) e = st.b e0.src ∨ st.far_block v (st.b v) e = st.b e0.tgt) := by
  have hfb : st.far_block v (st.b v) e = st.b (st.far_end v e) := by
    unfold far_block
    split_ifs with h
    · rw [h]
    · rfl
  have hfe : st.far_end v e = e.src ∨ st.far_end v e = e.tgt := by
    unfold far_end
    split_ifs
    · exact Or.inl rfl
    · exact Or.inr rfl
  have hde : ∃ e0 ∈ st.g.edges, descr st.g.directed e e0 := by
    unfold all_edges_range at he
    rcases List.mem_append.1 he with hm | hm
    · exact (out_items st.g v e hm).2
    · exact (in_items st.g v e hm).2
  obtain ⟨e0, h0, hi, hor⟩ := hde
  refine ⟨e0, h0, hi, ?_⟩
  rw [hfb]
  rcases hor with ⟨a1, a2⟩ | ⟨_, a1, a2⟩
  · rcases hfe with h | h
    · exact Or.inl (by rw [h, a1])
    · exact Or.inr (by rw [h, a2])
  · rcases hfe with h | h
    · exact Or.inr (by rw [h, a1])
    · exact Or.inl (by rw [h, a2])

/-- C28 (amended): in a state whose aggregate counts `mrs` are exact and
satisfy the degree-sum invariant, whose edge weights are not negative and where
the blocks of the end points of every edge are vertices of the block graph, for
every vertex `v` with positive incident edge weight, `r = b[v]` and every
`c >= 0` such that `c > 0` or every edge weight is positive: no denominator of
`get_move_prob` vanishes (each is positive), and the values
`get_move_prob(v, r, s, c, reverse = false)` over the `B` blocks `s` add up to
1 in exact arithmetic (an ordered field), on directed and on undirected
graphs. -/
theorem get_move_prob_normalised {R : Type} [LinearOrderedField R] (st : BlockState)
    (v : Nat) (c : R) (hex : st.mrs_exact) (hds : st.deg_sum)
    (hB : ∀ e ∈ st.g.edges, st.b e.src < st.bg.nv ∧ st.b e.tgt < st.bg.nv)
    (hw0 : ∀ e ∈ st.g.edges, 0 ≤ st.eweight e.idx)
    (hw : 0 < ((all_edges_range st.g v).map (fun e => st.eweight e.idx)).sum)
    (hc : 0 ≤ c) (hpos : 0 < c ∨ ∀ e ∈ st.g.edges, 0 < st.eweight e.idx) :
    (∀ e ∈ all_edges_range st.g v,
      0 < st.move_prob_denom c (st.far_block v (st.b v) e)) ∧
    ((List.range st.bg.nv).map
      (fun s => (st.get_move_prob v (st.b v) s c false).1)).sum = 1 := by
  have hfar : ∀ e ∈ all_edges_range st.g v, st.far_block v (st.b v) e < st.bg.nv := by
    intro e he
    obtain ⟨e0, h0, _, ht⟩ := far_block_end st v e he
    rcases ht with h | h
    · rw [h]; exact (hB e0 h0).1
    · rw [h]; exact (hB e0 h0).2
  have hden : ∀ e ∈ all_edges_range st.g v,
      0 < st.move_prob_denom c (st.far_block v (st.b v) e) := by
    intro e he
    obtain ⟨e0, h0, _, ht⟩ := far_block_end st v e he
    have hle := edge_le_degree_sums hex hds hB hw0 e0 h0 _ ht
    have hnv : 0 < st.bg.nv := Nat.lt_of_le_of_lt (Nat.zero_le _) (hfar e he)
    have hnvR : (0 : R) < (st.bg.nv : R) := by exact_mod_cast hnv
    have hcB : 0 ≤ c * (st.bg.nv : R) := mul_nonneg hc (le_of_lt hnvR)
    have hwe := hw0 e0 h0
    unfold move_prob_denom
    cases hdir : st.g.directed
    · rw [hdir] at hle
      simp only [Bool.false_eq_true, if_false] at hle ⊢
      have h1 : ((st.eweight e0.idx : Int) : R) ≤ (st.mrp (st.far_block v (st.b v) e) : R) := by
        exact_mod_cast hle
      have h2 : (0 : R) ≤ ((st.eweight e0.idx : Int) : R) := by exact_mod_cast hwe
      rcases hpos with hp | hp
      · have := mul_pos hp hnvR
        linarith
      · have h3 : (0 : R) < ((st.eweight e0.idx : Int) : R) := by exact_mod_cast hp e0 h0
        linarith
    · rw [hdir] at hle
      simp only [if_true] at hle ⊢
      have h1 : ((st.eweight e0.idx : Int) : R) ≤
          ((st.mrp (st.far_block v (st.b v) e) + st.get_mrm (st.far_block v (st.b v) e) : Int) :
            R) := by
        exact_mod_cast hle
      have h2 : (0 : R) ≤ ((st.eweight e0.idx : Int) : R) := by exact_mod_cast hwe
      rcases hpos with hp | hp
      · have := mul_pos hp hnvR
        linarith
      · have h3 : (0 : R) < ((st.eweight e0.idx : Int) : R) := by exact_mod_cast hp e0 h0
        linarith
  exact ⟨hden, move_prob_sum_one st v c hds hw hfar (fun e he => ne_of_gt (hden e he))⟩

theorem ex_pair_deg_sum : ex_pair.deg_sum := by
  unfold deg_sum
  decide

theorem get_move_prob_normalised_witness :
    (((List.range ex_ring.bg.nv).map
        (fun s => (ex_ring.get_move_prob 1 (ex_ring.b 1) s (0 : ℚ) false).1)).sum = 1) ∧
      (((List.range ex_pair.bg.nv).map
        (fun s => (ex_pair.get_move_prob 0 (ex_pair.b 0) s (0 : ℚ) false).1)).sum = 1) ∧
      (((List.range ex_pair.bg.nv).map
        (fun s => (ex_pair.get_move_prob 1 (ex_pair.b 1) s (1 / 2 : ℚ) false).1)).sum = 1) :=
  ⟨(get_move_prob_normalised ex_ring 1 (0 : ℚ) ex_ring_consistent.exact ex_ring_deg_sum
      ex_ring_in_range (by decide) (by decide) (le_refl 0) (Or.inr (by decide))).2,
    (get_move_prob_normalised ex_pair 0 (0 : ℚ) ex_pair_consistent.exact ex_pair_deg_sum
      (by decide) (by decide) (by decide) (le_refl 0) (Or.inr (by decide))).2,
    (get_move_prob_normalised ex_pair 1 (1 / 2 : ℚ) ex_pair_consistent.exact ex_pair_deg_sum
      (by decide) (by decide) (by decide) (by norm_num) (Or.inl (by norm_num))).2⟩

end BlockState

end GraphTool
